import Mathlib

/-! # llvm-toy: liveness analysis, native builder and code generator

A shallow embedding of `src/llvm/liveness-analysis-visitor.cc`, of the block
merging, the phi fixup, the call lowering and the store lowering of
`src/llvm/llvm-tf-builder.cc`, and of the patch-point rewrites of
`src/llvm/tf/v8-codegen.cc`.

Conventions of the embedding:

* a `BasicBlock*` is represented by the id of the block it points to; the
  block itself lives in the `BasicBlockManager`, an association list searched
  from the front (`findBB`);
* `std::vector<int>` and `std::deque<int>` are `List Int`;
* `std::set<int>` is `StdSet`, a strictly increasing `List Int`;
* a null pointer dereference or a failed assertion is the result `none`;
* the native values and blocks of the builder are numbered handles, and
  `Output` is the record of what was emitted: the instructions in emission
  order and the `addIncoming` calls in call order;
* the `unordered_map` of a block's bindings is an association list read from
  the front, so that a later `set_value` of an id shadows an earlier one;
* the assembler buffer of the code generator is the list of the emitting
  calls made on it; how many instructions a call stands for is a parameter;
* an `int` product is taken on 32 bits in two's complement;
* constants and functions of V8 and of the stack-map reader whose
  definitions are not among the sources are parameters (`V8Constants`,
  `StackMapsParser`);
* `DataView` keeps with its pointer the bytes of the buffer it points to, and
  a read that is not inside them has the result `outside`; a parser on a
  `DataView` is a `Reader`.
-/

namespace LLVMToy

/-! ## Data model -/

/-- Class `std::set<int>`: its elements in iteration order, which is strictly
increasing. -/
structure StdSet where
  elems : List Int
  sorted : elems.Pairwise (· < ·)

instance : DecidableEq StdSet := fun a b =>
  decidable_of_iff (a.elems = b.elems) (by cases a; cases b; simp)

instance : Repr StdSet := ⟨fun s n => reprPrec s.elems n⟩

/-- The empty `std::set<int>`. -/
def StdSet.empty : StdSet := ⟨[], List.Pairwise.nil⟩

/-- Member `std::set<int>::insert`: nothing happens when the value is present,
otherwise it is placed at its position in the order. -/
def StdSet.insert (s : StdSet) (v : Int) : StdSet :=
  if h : v ∈ s.elems then s
  else
    ⟨s.elems.orderedInsert (· ≤ ·) v,
      List.Sorted.lt_of_le
        (List.Sorted.orderedInsert v s.elems (List.Pairwise.imp le_of_lt s.sorted))
        ((List.perm_orderedInsert (· ≤ ·) v s.elems).nodup_iff.mpr
          (List.nodup_cons.mpr ⟨h, List.Pairwise.imp ne_of_lt s.sorted⟩))⟩

/-- Struct `PhiDesc` of the liveness pass; `from_` is the field `from`. -/
structure PhiDesc where
  from_ : Int
  value : Int
deriving DecidableEq, Repr

/-- Struct `LivenessBasicBlockImpl`: the per-block scratch state of the pass. -/
structure LivenessBasicBlockImpl where
  phis : List PhiDesc
  defines : StdSet
deriving DecidableEq, Repr

/-- Class `BasicBlock`, generic in the type stored in its extension slot
(`GetImpl<T>` / `SetImpl`); `impl = none` is the null slot of a block that no
pass has visited yet. -/
structure BasicBlock (I : Type) where
  id : Int
  predecessors : List Int
  successors : List Int
  liveins : List Int
  deferred : Bool
  impl : Option I
deriving DecidableEq, Repr

/-- Class `BasicBlockManager`: the blocks by id, the reverse postorder and
the flag behind `needs_frame()`. -/
structure BasicBlockManager (I : Type) where
  bbs : List (BasicBlock I)
  rpo : List Int
  needs_frame : Bool := false
deriving DecidableEq, Repr

/-- Search an association list of blocks for the first block with this id. -/
def findIn {I : Type} (id : Int) : List (BasicBlock I) → Option (BasicBlock I)
  | [] => none
  | b :: bs => if b.id = id then some b else findIn id bs

/-- Modelled from the spec: `BasicBlockManager::findBB` (basic-block-manager.cc
is not among the sources): "fails with NotFound if never created". -/
def findBB {I : Type} (bbm : BasicBlockManager I) (id : Int) : Option (BasicBlock I) :=
  findIn id bbm.bbs

/-- Replace the first block with this id by its image under `f`. -/
def updateIn {I : Type} (id : Int) (f : BasicBlock I → BasicBlock I) :
    List (BasicBlock I) → List (BasicBlock I)
  | [] => []
  | b :: bs => if b.id = id then f b :: bs else b :: updateIn id f bs

/-- Mutation of one block through a `BasicBlock*`. -/
def updateBB {I : Type} (bbm : BasicBlockManager I) (id : Int)
    (f : BasicBlock I → BasicBlock I) : BasicBlockManager I :=
  { bbm with bbs := updateIn id f bbm.bbs }

/-! ## The worklist loop of `CalculateLivesIns` -/

/-- Function `CompareLiveins`: `true` when the two vectors differ. -/
def CompareLiveins : List Int → List Int → Bool
  | [], [] => false
  | [], _ :: _ => true
  | _ :: _, [] => true
  | a :: l, b :: r => if a ≠ b then true else CompareLiveins l r

/-- Inner loop of `std::set_union` once the first range is at `a :: l`;
`k` continues with the rest of the first range. -/
def set_unionAux (a : Int) (l : List Int) (k : List Int → List Int) : List Int → List Int
  | [] => a :: l
  | b :: r =>
    if a < b then a :: k (b :: r)
    else if b < a then b :: set_unionAux a l k r
    else a :: k r

/-- Algorithm `std::set_union` on two ranges, written to a fresh vector. -/
def set_union : List Int → List Int → List Int
  | [], r => r
  | a :: l, r => set_unionAux a l (fun r' => set_union l r') r

/-- The `std::lower_bound` insertion of a phi source into `result`
(lines 76-82): the insertion point is the first element not less than `v`;
at the end the value is pushed back, before a different element it is
inserted, and at an equal element nothing happens. -/
def insertPhiValue (v : Int) : List Int → List Int
  | [] => [v]
  | x :: xs =>
    if x < v then x :: insertPhiValue v xs
    else if x ≠ v then v :: x :: xs
    else x :: xs

/-- The loop over `GetImpl(successor)->phis` (lines 74-84). -/
def addPhis (nowId : Int) : List PhiDesc → List Int → List Int
  | [], result => result
  | phi :: phis, result =>
    if phi.from_ = nowId then addPhis nowId phis (insertPhiValue phi.value result)
    else addPhis nowId phis result

/-- One iteration of the loop over `now->successors()` (lines 68-86): the
value of `liveins` after the swap. The successor pointer must be valid and
its liveness slot non-null. -/
def unionSuccessor (bbm : BasicBlockManager LivenessBasicBlockImpl) (nowId : Int)
    (liveins : List Int) (sid : Int) : Option (List Int) :=
  match findBB bbm sid with
  | none => none
  | some successor =>
    match successor.impl with
    | none => none
    | some impl => some (addPhis nowId impl.phis (set_union liveins successor.liveins))

/-- The loop over `now->successors()`. -/
def unionSuccessors (bbm : BasicBlockManager LivenessBasicBlockImpl) (nowId : Int) :
    List Int → List Int → Option (List Int)
  | [], liveins => some liveins
  | sid :: rest, liveins =>
    match unionSuccessor bbm nowId liveins sid with
    | none => none
    | some liveins' => unionSuccessors bbm nowId rest liveins'

/-- The `std::copy_if` of lines 88-95; the predicate dereferences
`GetImpl(now)` once for every element it is asked about. -/
def clearDefines (impl : Option LivenessBasicBlockImpl) (liveins : List Int) :
    Option (List Int) :=
  match impl with
  | some i => some (liveins.filter (fun value => decide (value ∉ i.defines.elems)))
  | none => if liveins = [] then some [] else none

/-- The recomputed live-in vector of block `now` (lines 67-95). -/
def recompute (bbm : BasicBlockManager LivenessBasicBlockImpl)
    (now : BasicBlock LivenessBasicBlockImpl) : Option (List Int) :=
  match unionSuccessors bbm now.id now.successors now.liveins with
  | none => none
  | some liveins => clearDefines now.impl liveins

/-- One iteration of the `while (!worklist.empty())` loop (lines 64-103) for
the worklist `id :: worklist`. -/
def step (bbm : BasicBlockManager LivenessBasicBlockImpl) (id : Int) (worklist : List Int) :
    Option (BasicBlockManager LivenessBasicBlockImpl × List Int) :=
  match findBB bbm id with
  | none => none
  | some now =>
    match recompute bbm now with
    | none => none
    | some result =>
      some (updateBB bbm id (fun b => { b with liveins := result }),
            if CompareLiveins now.liveins result then worklist ++ now.predecessors
            else worklist)

/-- The `while (!worklist.empty())` loop, at most `fuel` iterations. -/
def worklistLoop : Nat → BasicBlockManager LivenessBasicBlockImpl → List Int →
    Option (BasicBlockManager LivenessBasicBlockImpl)
  | _, bbm, [] => some bbm
  | 0, _, _ :: _ => none
  | fuel + 1, bbm, id :: worklist =>
    match step bbm id worklist with
    | none => none
    | some (bbm', worklist') => worklistLoop fuel bbm' worklist'

/-- The initial worklist: `rpo` copied from `rbegin()` to `rend()`. -/
def initialWorklist (bbm : BasicBlockManager LivenessBasicBlockImpl) : List Int :=
  bbm.rpo.reverse

/-- The id names a block of the store. -/
def isBlock {I : Type} (bbm : BasicBlockManager I) (id : Int) : Bool :=
  (findBB bbm id).isSome

/-! ## The liveness visitation pass -/

/-- Modelled from the spec: `BasicBlockManager::ensureBB` (basic-block-manager.cc
is not among the sources): "returns existing or creates a new block
(idempotent, no duplicate ids)"; a new block has no edges, no live-ins and a
null extension slot. -/
def ensureBB {I : Type} (bbm : BasicBlockManager I) (id : Int) : BasicBlockManager I :=
  if isBlock bbm id then bbm
  else { bbm with bbs := bbm.bbs ++ [{ id := id, predecessors := [], successors := [],
                                       liveins := [], deferred := false, impl := none }] }

/-- Modelled from the spec: `BasicBlock::AddPredecessor` (basic-block.cc is not
among the sources): the block's "ordered list of predecessor ... block
references" gains the reference at its end. -/
def AddPredecessor {I : Type} (bb : BasicBlock I) (pred : Int) : BasicBlock I :=
  { bb with predecessors := bb.predecessors ++ [pred] }

/-- Enum `MachineRepresentation` of tf-visitor.h. -/
inductive MachineRepresentation
  | kNone | kBit | kWord8 | kWord16 | kWord32 | kWord64
  | kTaggedSigned | kTaggedPointer | kTagged
  | kFloat32 | kFloat64 | kSimd128
deriving DecidableEq, Repr

/-- Enum `MachineSemantic` of tf-visitor.h. -/
inductive MachineSemantic
  | kNone | kBool | kInt32 | kUint32 | kInt64 | kUint64 | kNumber | kAny
deriving DecidableEq, Repr

/-- Enum `WriteBarrierKind` of tf-visitor.h. -/
inductive WriteBarrierKind
  | kNoWriteBarrier | kMapWriteBarrier | kPointerWriteBarrier | kFullWriteBarrier
deriving DecidableEq, Repr

/-- The binary operations, which the liveness pass all visits alike
(lines 175-246). -/
inductive BinaryOp
  | Int32Add | Int32Sub | Int32Mul | Word32Shl | Word32Shr | Word32Sar | Word32Mul
  | Word32And | Word32Equal | Int32LessThanOrEqual | Int32LessThan | Uint32LessThanOrEqual
deriving DecidableEq, Repr

/-- One call of a `Visit...` method of `LivenessAnalysisVisitor`, with its
arguments. -/
inductive Callback
  | Block (id : Int) (is_deferred : Bool) (predecessors : List Int)
  | Goto (bid : Int)
  | Parameter (id pid : Int)
  | LoadParentFramePointer (id : Int)
  | Int32Constant (id value : Int)
  | Load (id : Int) (rep : MachineRepresentation) (semantic : MachineSemantic) (base offset : Int)
  | Store (id : Int) (rep : MachineRepresentation) (barrier : WriteBarrierKind)
      (base offset value : Int)
  | BitcastWordToTagged (id e : Int)
  | Binary (op : BinaryOp) (id e1 e2 : Int)
  | Branch (id cmp btrue bfalse : Int)
  | HeapConstant (id magic : Int)
  | ExternalConstant (id magic : Int)
  | Phi (id : Int) (rep : MachineRepresentation) (operands : List Int)
  | Call (id : Int) (code : Bool) (registers_for_operands operands : List Int)
  | TailCall (id : Int) (code : Bool) (registers_for_operands operands : List Int)
  | Root (id index : Int)
deriving DecidableEq, Repr

/-- Class `LivenessAnalysisVisitor`: the members that hold state. -/
structure LivenessAnalysisVisitor where
  basic_block_manager_ : BasicBlockManager LivenessBasicBlockImpl
  current_basic_block_ : Option Int
  current_references_ : StdSet
  current_defines_ : StdSet
deriving DecidableEq, Repr

namespace LivenessAnalysisVisitor

/-- The visitor as constructed, on an empty block store. -/
def init : LivenessAnalysisVisitor :=
  { basic_block_manager_ := { bbs := [], rpo := [] }, current_basic_block_ := none,
    current_references_ := StdSet.empty, current_defines_ := StdSet.empty }

/-- Method `AddIfNotInDefines`. -/
def AddIfNotInDefines (v : LivenessAnalysisVisitor) (id : Int) : LivenessAnalysisVisitor :=
  if id ∈ v.current_defines_.elems then v
  else { v with current_references_ := v.current_references_.insert id }

/-- Method `Define`. -/
def Define (v : LivenessAnalysisVisitor) (id : Int) : LivenessAnalysisVisitor :=
  { v with current_defines_ := v.current_defines_.insert id }

/-- The loop `for (int e : operands) AddIfNotInDefines(e)`. -/
def AddAllIfNotInDefines (v : LivenessAnalysisVisitor) : List Int → LivenessAnalysisVisitor
  | [] => v
  | e :: operands => AddAllIfNotInDefines (v.AddIfNotInDefines e) operands

/-- Method `EndBlock`: the references are copied behind the block's live-in
vector, the defines are swapped into the block's slot. -/
def EndBlock (v : LivenessAnalysisVisitor) : Option LivenessAnalysisVisitor :=
  match v.current_basic_block_ with
  | none => none
  | some cur =>
    match findBB v.basic_block_manager_ cur with
    | none => none
    | some bb =>
      match bb.impl with
      | none => none
      | some impl =>
        let bbm := updateBB v.basic_block_manager_ cur (fun b =>
          { b with liveins := b.liveins ++ v.current_references_.elems,
                   impl := some { impl with defines := v.current_defines_ } })
        some { basic_block_manager_ := bbm,
               current_basic_block_ := none,
               current_references_ := StdSet.empty,
               current_defines_ := impl.defines }

/-- The loop of `VisitBlock` over the announced predecessors. -/
def addPredecessors (id : Int) :
    List Int → BasicBlockManager LivenessBasicBlockImpl → BasicBlockManager LivenessBasicBlockImpl
  | [], bbm => bbm
  | predecessor :: rest, bbm =>
    addPredecessors id rest
      (updateBB (ensureBB bbm predecessor) id (fun bb => AddPredecessor bb predecessor))

/-- Method `VisitBlock`. -/
def VisitBlock (v : LivenessAnalysisVisitor) (id : Int) (is_deferred : Bool)
    (predecessors : List Int) : Option LivenessAnalysisVisitor :=
  match v.current_basic_block_ with
  | some _ => none
  | none =>
    let bbm1 := addPredecessors id predecessors (ensureBB v.basic_block_manager_ id)
    let bbm2 := updateBB bbm1 id (fun bb =>
      { bb with deferred := is_deferred, impl := some { phis := [], defines := StdSet.empty } })
    some { v with basic_block_manager_ := { bbm2 with rpo := bbm2.rpo ++ [id] },
                  current_basic_block_ := some id }

/-- The statement `current_basic_block_->successors().push_back(successor)`
after `successor = ensureBB(bid)`. -/
def pushSuccessor (v : LivenessAnalysisVisitor) (bid : Int) : Option LivenessAnalysisVisitor :=
  match v.current_basic_block_ with
  | none => none
  | some cur =>
    if isBlock v.basic_block_manager_ cur then
      let bbm := updateBB (ensureBB v.basic_block_manager_ bid) cur (fun bb =>
        { bb with successors := bb.successors ++ [bid] })
      some { v with basic_block_manager_ := bbm }
    else none

/-- Method `VisitGoto`. -/
def VisitGoto (v : LivenessAnalysisVisitor) (bid : Int) : Option LivenessAnalysisVisitor :=
  (v.pushSuccessor bid).bind EndBlock

/-- Method `VisitBranch`. -/
def VisitBranch (v : LivenessAnalysisVisitor) (btrue bfalse : Int) :
    Option LivenessAnalysisVisitor :=
  match v.current_basic_block_ with
  | none => none
  | some cur =>
    if isBlock v.basic_block_manager_ cur then
      let bbm := updateBB (ensureBB (ensureBB v.basic_block_manager_ btrue) bfalse) cur
        (fun bb => { bb with successors := bb.successors ++ [btrue, bfalse] })
      EndBlock { v with basic_block_manager_ := bbm }
    else none

/-- The phi descriptors `VisitPhi` records: one per predecessor, with the
operand at the same position; `none` when the operands run out. -/
def phiDescs : List Int → List Int → Option (List PhiDesc)
  | [], _ => some []
  | _ :: _, [] => none
  | pred :: preds, value :: operands =>
    (phiDescs preds operands).map (fun rest => { from_ := pred, value := value } :: rest)

/-- Method `VisitPhi`. -/
def VisitPhi (v : LivenessAnalysisVisitor) (id : Int) (operands : List Int) :
    Option LivenessAnalysisVisitor :=
  let v1 := v.Define id
  match v1.current_basic_block_ with
  | none => none
  | some cur =>
    match findBB v1.basic_block_manager_ cur with
    | none => none
    | some bb =>
      match bb.impl, phiDescs bb.predecessors operands with
      | some impl, some descs =>
        let bbm := updateBB v1.basic_block_manager_ cur (fun b =>
          { b with impl := some { impl with phis := impl.phis ++ descs } })
        some { v1 with basic_block_manager_ := bbm }
      | _, _ => none

/-- Dispatch of one callback to its `Visit...` method. -/
def Visit (v : LivenessAnalysisVisitor) : Callback → Option LivenessAnalysisVisitor
  | .Block id is_deferred predecessors => v.VisitBlock id is_deferred predecessors
  | .Goto bid => v.VisitGoto bid
  | .Parameter id _ => some (v.Define id)
  | .LoadParentFramePointer id => some (v.Define id)
  | .Int32Constant id _ => some (v.Define id)
  | .Load id _ _ base _ => some ((v.Define id).AddIfNotInDefines base)
  | .Store id _ _ base _ value =>
    some (((v.Define id).AddIfNotInDefines base).AddIfNotInDefines value)
  | .BitcastWordToTagged id e => some ((v.Define id).AddIfNotInDefines e)
  | .Binary _ id e1 e2 => some (((v.Define id).AddIfNotInDefines e1).AddIfNotInDefines e2)
  | .Branch _ _ btrue bfalse => v.VisitBranch btrue bfalse
  | .HeapConstant id _ => some (v.Define id)
  | .ExternalConstant id _ => some (v.Define id)
  | .Phi id _ operands => v.VisitPhi id operands
  | .Call id _ _ operands => some ((v.Define id).AddAllIfNotInDefines operands)
  | .TailCall _ _ _ operands => (v.AddAllIfNotInDefines operands).EndBlock
  | .Root id _ => some (v.Define id)

/-- The visitation pass: the callbacks in order. -/
def VisitAll (v : LivenessAnalysisVisitor) : List Callback → Option LivenessAnalysisVisitor
  | [] => some v
  | c :: cs => (v.Visit c).bind (fun v' => VisitAll v' cs)

end LivenessAnalysisVisitor

/-- The block ids announced by `VisitBlock` in a callback sequence. -/
def announcedBlocks : List Callback → List Int
  | [] => []
  | .Block id _ _ :: cs => id :: announcedBlocks cs
  | _ :: cs => announcedBlocks cs


/-! ## The native builder: values, blocks and the output -/

/-- The native types the builder distinguishes (`LType`): the members of the
type repository that `llvm-tf-builder.cc` names, other pointer types and
other first-class types. -/
inductive LType
  | taggedType | intPtr | int1 | int8 | int16 | int32 | int64
  | floatType | doubleType | ref8
  | pointer (n : Nat)
  | other (n : Nat)
  | pointerTo (element : LType)
  | callee (ret : LType) (parameters : Nat)
deriving DecidableEq, Repr

/-- A native basic block handle (`LBasicBlock`). -/
abbrev LBasicBlock := Nat

/-- A native value handle (`LValue`): the result of an emitted instruction, a
constant, an undefined value (`LLVMGetUndef`) or a parameter of the function
being built. -/
inductive LValue
  | inst (id : Nat) (type : LType)
  | const (type : LType) (value : Int)
  | undef (type : LType)
  | param (index : Nat) (type : LType)
deriving DecidableEq, Repr

/-- Function `typeOf`. -/
def typeOf : LValue → LType
  | .inst _ t => t
  | .const t _ => t
  | .undef t => t
  | .param _ t => t

/-- Function `LLVMIsUndef` of the native API. -/
def LValue.isUndef : LValue → Bool
  | .undef _ => true
  | _ => false

/-- The intrinsics of the repository that the modelled code calls. -/
inductive Intrinsic
  | gcRelocate | gcResult | gcResult2
  | statepoint | patchpointVoid | expect
deriving DecidableEq, Repr

/-- The cast opcodes the modelled code uses. -/
inductive CastOp
  | IntToPtr | PtrToInt | ZExt | Trunc
deriving DecidableEq, Repr

/-- An instruction handed to the native IR builder. -/
inductive Instr
  | phi
  | br (target : LBasicBlock)
  | unreachable
  | cast (op : CastOp) (value : LValue)
  | call (callee : Intrinsic) (args : List LValue)
  | and (lhs rhs : LValue)
  | gep (base offset : LValue)
  | load (pointer : LValue)
  | store (value pointer : LValue)
  | icmpEq (left right : LValue)
  | condBr (condition : LValue) (taken notTaken : LBasicBlock)
deriving DecidableEq, Repr

/-- The instruction ends a native block. -/
def Instr.isTerminator : Instr → Bool
  | .br _ => true
  | .unreachable => true
  | .condBr _ _ _ => true
  | _ => false

/-- Where the native builder inserts (`positionToBBEnd`, `positionBefore`). -/
inductive Position
  | unset
  | atEnd (bb : LBasicBlock)
  | before (instr : LValue)
deriving DecidableEq, Repr

/-- One emitted instruction: where it was inserted, the native block it
landed in, its result handle and the instruction. -/
structure Emitted where
  position : Position
  block : Option LBasicBlock
  result : LValue
  instr : Instr
deriving DecidableEq, Repr

/-- One `addIncoming` call: the phi, the incoming value and its block. -/
structure Incoming where
  phi : LValue
  value : LValue
  block : LBasicBlock
deriving DecidableEq, Repr

/-- Class `Output`, the wrapper of the native IR builder, as a record of what
has been emitted: fresh handles, the insert position, one record per call
of an emitting method in call order, the `addIncoming` calls in call order,
the root and frame pointer values and whether `ensureLR` was called. -/
structure Output where
  nextValue : Nat
  nextBlock : Nat
  position : Position
  instructions : List Emitted
  incoming : List Incoming
  prologue : LBasicBlock
  root_ : LValue := LValue.param 10 LType.ref8
  fp_ : LValue := LValue.param 11 LType.ref8
  lr_ensured_ : Bool := false
deriving DecidableEq, Repr

namespace Output

/-- Method `appendBasicBlock`: a block with a fresh handle. -/
def appendBasicBlock (o : Output) : Output × LBasicBlock :=
  ({ o with nextBlock := o.nextBlock + 1 }, o.nextBlock)

/-- Method `positionToBBEnd`. -/
def positionToBBEnd (o : Output) (bb : LBasicBlock) : Output :=
  { o with position := Position.atEnd bb }

/-- Method `positionBefore`. -/
def positionBefore (o : Output) (instr : LValue) : Output :=
  { o with position := Position.before instr }

/-- The native block an instruction was emitted into. -/
def blockOf (o : Output) (instr : LValue) : Option LBasicBlock :=
  match o.instructions.find? (fun e => e.result = instr) with
  | some e => e.block
  | none => none

/-- The native block of the insert position. -/
def currentBlock (o : Output) : Option LBasicBlock :=
  match o.position with
  | .unset => none
  | .atEnd bb => some bb
  | .before instr => o.blockOf instr

/-- Emission of one instruction at the insert position; the result is a
fresh handle of the given type. -/
def emit (o : Output) (type : LType) (instr : Instr) : Output × LValue :=
  let result := LValue.inst o.nextValue type
  ({ o with nextValue := o.nextValue + 1,
            instructions := o.instructions ++
              [{ position := o.position, block := o.currentBlock, result := result,
                 instr := instr }] },
   result)

/-- Method `buildPhi`. -/
def buildPhi (o : Output) (type : LType) : Output × LValue :=
  o.emit type Instr.phi

/-- Function `addIncoming` of the native API, for one value and block. -/
def addIncoming (o : Output) (phi value : LValue) (block : LBasicBlock) : Output :=
  { o with incoming := o.incoming ++ [{ phi := phi, value := value, block := block }] }

/-- The incoming entries of a phi, in the order they were added. -/
def incomingOf (o : Output) (phi : LValue) : List (LValue × LBasicBlock) :=
  (o.incoming.filter (fun e => e.phi = phi)).map (fun e => (e.value, e.block))

/-- Method `buildBr`. -/
def buildBr (o : Output) (bb : LBasicBlock) : Output :=
  (o.emit (LType.other 0) (Instr.br bb)).1

/-- Method `buildUnreachable`. -/
def buildUnreachable (o : Output) : Output :=
  (o.emit (LType.other 0) Instr.unreachable).1

/-- Method `buildCast`. -/
def buildCast (o : Output) (op : CastOp) (value : LValue) (type : LType) : Output × LValue :=
  o.emit type (Instr.cast op value)

/-- Function `LLVMGetBasicBlockTerminator` of the native API: the last
instruction appended to the block when that is a terminator. -/
def getBasicBlockTerminator (o : Output) (bb : LBasicBlock) : Option LValue :=
  match (o.instructions.filter (fun e => e.position = Position.atEnd bb)).getLast? with
  | some e => if e.instr.isTerminator then some e.result else none
  | none => none

end Output

/-- Struct `NotMergedPhiDesc`. -/
structure NotMergedPhiDesc where
  pred : Int
  value : Int
  phi : LValue
deriving DecidableEq, Repr

/-- Struct `LLVMTFBuilderBasicBlockImpl`; `values_` is the `unordered_map`
as an association list read from the front. -/
structure LLVMTFBuilderBasicBlockImpl where
  not_merged_phis : List NotMergedPhiDesc
  values_ : List (Int × LValue)
  native_bb : Option LBasicBlock
  continuation : Option LBasicBlock
  started : Bool
  ended : Bool
deriving DecidableEq, Repr

namespace LLVMTFBuilderBasicBlockImpl

/-- The slot as `new LLVMTFBuilderBasicBlockImpl` leaves it. -/
def fresh : LLVMTFBuilderBasicBlockImpl :=
  { not_merged_phis := [], values_ := [], native_bb := none, continuation := none,
    started := false, ended := false }

/-- Lookup in the association list. -/
def lookupValue (nid : Int) : List (Int × LValue) → Option LValue
  | [] => none
  | (k, v) :: rest => if k = nid then some v else lookupValue nid rest

/-- Method `value`: the binding, `none` when `EMASSERT(found != values_.end())`
fails. -/
def value (impl : LLVMTFBuilderBasicBlockImpl) (nid : Int) : Option LValue :=
  lookupValue nid impl.values_

/-- Method `set_value`. -/
def set_value (impl : LLVMTFBuilderBasicBlockImpl) (nid : Int) (v : LValue) :
    LLVMTFBuilderBasicBlockImpl :=
  { impl with values_ := (nid, v) :: impl.values_ }

/-- Method `StartBuild`. -/
def StartBuild (impl : LLVMTFBuilderBasicBlockImpl) : Option LLVMTFBuilderBasicBlockImpl :=
  if impl.started then none
  else if impl.ended then none
  else some { impl with started := true }

/-- Method `EndBuild`. -/
def EndBuild (impl : LLVMTFBuilderBasicBlockImpl) : Option LLVMTFBuilderBasicBlockImpl :=
  if !impl.started then none
  else if impl.ended then none
  else some { impl with ended := true }

end LLVMTFBuilderBasicBlockImpl

/-- The block store of the builder pass. -/
abbrev BuilderBlocks := BasicBlockManager LLVMTFBuilderBasicBlockImpl

/-- Function `GetImpl`: the slot of the block, `none` for a null slot. -/
def GetImpl (bbm : BuilderBlocks) (id : Int) : Option LLVMTFBuilderBasicBlockImpl :=
  match findBB bbm id with
  | some bb => bb.impl
  | none => none

/-- Mutation of the slot of a block through `GetImpl(bb)->`. -/
def updateImpl (bbm : BuilderBlocks) (id : Int)
    (f : LLVMTFBuilderBasicBlockImpl → LLVMTFBuilderBasicBlockImpl) : BuilderBlocks :=
  updateBB bbm id (fun bb => { bb with impl := bb.impl.map f })

/-- Function `EnsureImpl`. -/
def EnsureImpl (bbm : BuilderBlocks) (id : Int) : BuilderBlocks :=
  updateBB bbm id (fun bb =>
    match bb.impl with
    | some _ => bb
    | none => { bb with impl := some LLVMTFBuilderBasicBlockImpl.fresh })

/-- Function `GetNativeBB`. -/
def GetNativeBB (bbm : BuilderBlocks) (id : Int) : Option LBasicBlock :=
  match GetImpl bbm id with
  | some impl => impl.native_bb
  | none => none

/-- Function `GetNativeBBContinuation`. -/
def GetNativeBBContinuation (bbm : BuilderBlocks) (id : Int) : Option LBasicBlock :=
  match GetImpl bbm id with
  | some impl => impl.continuation
  | none => none

/-- Function `IsBBStartedToBuild`. -/
def IsBBStartedToBuild (bbm : BuilderBlocks) (id : Int) : Bool :=
  match GetImpl bbm id with
  | some impl => impl.started
  | none => false

/-- Function `IsBBEndedToBuild`. -/
def IsBBEndedToBuild (bbm : BuilderBlocks) (id : Int) : Bool :=
  match GetImpl bbm id with
  | some impl => impl.ended
  | none => false

/-- The binding of value `nid` in block `id`: `GetImpl(bb)->value(nid)`. -/
def valueIn (bbm : BuilderBlocks) (id nid : Int) : Option LValue :=
  match GetImpl bbm id with
  | some impl => impl.value nid
  | none => none

/-- Modelled from the spec: the header stack-map-info.h is not among the
sources. The classes derived from `StackMapInfo`: those that the builder
registers for call, store-barrier and return patch points, with the members
that stack-map-info.cc initialises and v8-codegen.cc reads, and the four
classes of constant loads that stack-map-info.cc constructs, of which the
code generator reads the type only. -/
inductive StackMapInfo
  | CallInfo (locations : List Int) (code_magic : Int) (tailcall : Bool)
      (tailcall_return_count : Int)
  | StoreBarrierInfo
  | ReturnInfo (pop_count_is_constant : Bool) (constant : Int)
  | HeapConstantInfo
  | HeapConstantLocationInfo
  | ExternalReferenceInfo
  | ExternalReferenceLocationInfo
deriving DecidableEq, Repr

/-- Enum `StackMapInfoType`, with the enumerators that stack-map-info.cc and
v8-codegen.cc name. -/
inductive StackMapInfoType
  | kHeapConstant | kHeapConstantLocation | kExternalReference
  | kExternalReferenceLocation | kCallInfo | kStoreBarrier | kReturn
deriving DecidableEq, Repr

/-- Method `GetType`: the type each constructor of stack-map-info.cc hands to
the base class. -/
def StackMapInfo.GetType : StackMapInfo → StackMapInfoType
  | .CallInfo _ _ _ _ => StackMapInfoType.kCallInfo
  | .StoreBarrierInfo => StackMapInfoType.kStoreBarrier
  | .ReturnInfo _ _ => StackMapInfoType.kReturn
  | .HeapConstantInfo => StackMapInfoType.kHeapConstant
  | .HeapConstantLocationInfo => StackMapInfoType.kHeapConstantLocation
  | .ExternalReferenceInfo => StackMapInfoType.kExternalReference
  | .ExternalReferenceLocationInfo => StackMapInfoType.kExternalReferenceLocation

/-- The switch of `ProcessRecordMap` (lines 361-368): the types it lets
pass; every other type reaches `UNREACHABLE()`. -/
def StackMapInfoType.isPatchPoint : StackMapInfoType → Bool
  | .kCallInfo => true
  | .kStoreBarrier => true
  | .kReturn => true
  | _ => false

/-- Type `StackMapInfoMap`: patch point id to record, in insertion order. -/
abbrev StackMapInfoMap := List (Nat × StackMapInfo)

/-- Members `emplace` / `insert` of the map: a key that is present keeps its
record. -/
def StackMapInfoMap.emplace (m : StackMapInfoMap) (patchid : Nat) (info : StackMapInfo) :
    StackMapInfoMap :=
  if m.any (fun e => e.1 = patchid) then m else m ++ [(patchid, info)]

/-- Class `LLVMTFBuilder`: the members the block merging, the call lowering
and the store lowering use. -/
structure LLVMTFBuilder where
  output_ : Output
  basic_block_manager_ : BuilderBlocks
  current_bb_ : Option Int
  phi_rebuild_worklist_ : List Int
  stack_map_info_map_ : StackMapInfoMap := []
  state_point_id_next_ : Nat := 0
  code_uses_map_ : List (Int × Int) := []
deriving DecidableEq, Repr

namespace LLVMTFBuilder

/-- The statement `GetImpl(bb)->set_value(nid, value)`. -/
def set_value (b : LLVMTFBuilder) (id nid : Int) (v : LValue) : Option LLVMTFBuilder :=
  match GetImpl b.basic_block_manager_ id with
  | none => none
  | some _ =>
    some { b with basic_block_manager_ :=
                    updateImpl b.basic_block_manager_ id (fun impl => impl.set_value nid v) }

/-- Function `EnsureNativeBB`. -/
def EnsureNativeBB (b : LLVMTFBuilder) (id : Int) : Option LLVMTFBuilder :=
  match findBB b.basic_block_manager_ id with
  | none => none
  | some _ =>
    let bbm := EnsureImpl b.basic_block_manager_ id
    match GetNativeBB bbm id with
    | some _ => some { b with basic_block_manager_ := bbm }
    | none =>
      let (out, native_bb) := b.output_.appendBasicBlock
      some { b with
        output_ := out,
        basic_block_manager_ := updateImpl bbm id (fun impl =>
          { impl with native_bb := some native_bb, continuation := some native_bb }) }

/-- Function `StartBuild`. -/
def StartBuild (b : LLVMTFBuilder) (id : Int) : Option LLVMTFBuilder :=
  match b.EnsureNativeBB id with
  | none => none
  | some b1 =>
    match GetImpl b1.basic_block_manager_ id with
    | none => none
    | some impl =>
      match impl.StartBuild, impl.native_bb with
      | some impl', some native_bb =>
        some { b1 with
          output_ := b1.output_.positionToBBEnd native_bb,
          basic_block_manager_ := updateImpl b1.basic_block_manager_ id (fun _ => impl') }
      | _, _ => none

/-- Method `AllPredecessorStarted`: the returned flag and the value left in
`*ref_pred`, the first started predecessor. -/
def AllPredecessorStarted (bbm : BuilderBlocks) :
    List Int → Option Int → Bool × Option Int
  | [], ref_pred => (true, ref_pred)
  | pred :: preds, ref_pred =>
    if IsBBStartedToBuild bbm pred then
      AllPredecessorStarted bbm preds (match ref_pred with | some r => some r | none => some pred)
    else
      (false, (AllPredecessorStarted bbm preds ref_pred).2)

/-- The copy loop of `MergePredecessors` for a single predecessor
(lines 366-369). -/
def copyFromPredecessor (pred id : Int) : List Int → LLVMTFBuilder → Option LLVMTFBuilder
  | [], b => some b
  | live :: liveins, b =>
    match valueIn b.basic_block_manager_ pred live with
    | none => none
    | some value =>
      match b.set_value id live value with
      | none => none
      | some b' => copyFromPredecessor pred id liveins b'

/-- The inner loop of `MergePredecessors` over the predecessors
(lines 388-392): every predecessor's binding and continuation block are
added to the phi. -/
def addIncomingFromAll (phi : LValue) (live : Int) : List Int → LLVMTFBuilder → Option LLVMTFBuilder
  | [], b => some b
  | pred :: preds, b =>
    match valueIn b.basic_block_manager_ pred live,
          GetNativeBBContinuation b.basic_block_manager_ pred with
    | some value, some native =>
      addIncomingFromAll phi live preds
        { b with output_ := b.output_.addIncoming phi value native }
    | _, _ => none

/-- A loop `for (int live : bb->liveins())` with the given body. -/
def forEachLive (body : Int → LLVMTFBuilder → Option LLVMTFBuilder) :
    List Int → LLVMTFBuilder → Option LLVMTFBuilder
  | [], b => some b
  | live :: liveins, b =>
    match body live b with
    | none => none
    | some b' => forEachLive body liveins b'

/-- The body of the loop over the live-ins in `MergePredecessors`
(lines 380-393): a value that is not tagged in the reference predecessor is
reused, otherwise a phi over all predecessors is built and bound. -/
def mergeLive (ref_pred id : Int) (preds : List Int) (live : Int) (b : LLVMTFBuilder) :
    Option LLVMTFBuilder :=
  match valueIn b.basic_block_manager_ ref_pred live with
  | none => none
  | some ref_value =>
    if typeOf ref_value ≠ LType.taggedType then b.set_value id live ref_value
    else
      let (out, phi) := b.output_.buildPhi (typeOf ref_value)
      match addIncomingFromAll phi live preds { b with output_ := out } with
      | none => none
      | some b1 => b1.set_value id live phi

/-- The loop `for (int live : bb->liveins())` of `MergePredecessors`
(lines 379-394). -/
def mergeWithPhis (ref_pred id : Int) (preds : List Int) :
    List Int → LLVMTFBuilder → Option LLVMTFBuilder :=
  forEachLive (mergeLive ref_pred id preds)

/-- The inner loop of `BuildPhiAndPushToWorkList` over the predecessors
(lines 422-434): a predecessor that is not started gets a deferred record,
a started one is added to the phi. -/
def addIncomingFromStarted (phi : LValue) (live id : Int) :
    List Int → LLVMTFBuilder → Option LLVMTFBuilder
  | [], b => some b
  | pred :: preds, b =>
    if !IsBBStartedToBuild b.basic_block_manager_ pred then
      addIncomingFromStarted phi live id preds
        { b with basic_block_manager_ := updateImpl b.basic_block_manager_ id (fun impl =>
            { impl with not_merged_phis :=
                impl.not_merged_phis ++ [{ pred := pred, value := live, phi := phi }] }) }
    else
      match valueIn b.basic_block_manager_ pred live,
            GetNativeBBContinuation b.basic_block_manager_ pred with
      | some value, some native =>
        addIncomingFromStarted phi live id preds
          { b with output_ := b.output_.addIncoming phi value native }
      | _, _ => none

/-- The body of the loop over the live-ins in `BuildPhiAndPushToWorkList`
(lines 414-434). -/
def buildPhiLive (ref_pred id : Int) (preds : List Int) (live : Int) (b : LLVMTFBuilder) :
    Option LLVMTFBuilder :=
  match valueIn b.basic_block_manager_ ref_pred live with
  | none => none
  | some ref_value =>
    if typeOf ref_value ≠ LType.taggedType then b.set_value id live ref_value
    else
      let (out, phi) := b.output_.buildPhi (typeOf ref_value)
      match LLVMTFBuilder.set_value { b with output_ := out } id live phi with
      | none => none
      | some b1 => addIncomingFromStarted phi live id preds b1

/-- The loop `for (int live : bb->liveins())` of `BuildPhiAndPushToWorkList`
(lines 413-435). -/
def buildPhis (ref_pred id : Int) (preds : List Int) :
    List Int → LLVMTFBuilder → Option LLVMTFBuilder :=
  forEachLive (buildPhiLive ref_pred id preds)

/-- Method `BuildPhiAndPushToWorkList`. -/
def BuildPhiAndPushToWorkList (b : LLVMTFBuilder) (id ref_pred : Int) : Option LLVMTFBuilder :=
  match findBB b.basic_block_manager_ id with
  | none => none
  | some bb =>
    let b0 := { b with basic_block_manager_ := EnsureImpl b.basic_block_manager_ id }
    match buildPhis ref_pred id bb.predecessors bb.liveins b0 with
    | none => none
    | some b' => some { b' with phi_rebuild_worklist_ := b'.phi_rebuild_worklist_ ++ [id] }

/-- Method `MergePredecessors`. -/
def MergePredecessors (b : LLVMTFBuilder) (id : Int) : Option LLVMTFBuilder :=
  match findBB b.basic_block_manager_ id with
  | none => none
  | some bb =>
    match bb.predecessors with
    | [] => some b
    | [pred] =>
      if IsBBStartedToBuild b.basic_block_manager_ pred then
        copyFromPredecessor pred id bb.liveins b
      else none
    | preds =>
      match AllPredecessorStarted b.basic_block_manager_ preds none with
      | (false, none) => none
      | (false, some ref_pred) => b.BuildPhiAndPushToWorkList id ref_pred
      | (true, none) => if bb.liveins = [] then some b else none
      | (true, some ref_pred) => mergeWithPhis ref_pred id preds bb.liveins b

/-- Method `VisitBlock`. -/
def VisitBlock (b : LLVMTFBuilder) (id : Int) : Option LLVMTFBuilder :=
  match findBB b.basic_block_manager_ id with
  | none => none
  | some _ =>
    match StartBuild { b with current_bb_ := some id } id with
    | none => none
    | some b1 => b1.MergePredecessors id

end LLVMTFBuilder

/-- The type is of pointer kind (`LLVMGetTypeKind(type) == LLVMPointerTypeKind`);
the tagged type is a pointer type. -/
def LType.isPointerKind : LType → Bool
  | .taggedType => true
  | .ref8 => true
  | .pointer _ => true
  | .pointerTo _ => true
  | .callee _ _ => true
  | _ => false

namespace Output

/-- Method `constInt32`. -/
def constInt32 (value : Int) : LValue := LValue.const LType.int32 value

/-- Method `buildCall` on an intrinsic; `type` is the intrinsic's return
type. -/
def buildCall (o : Output) (callee : Intrinsic) (args : List LValue) (type : LType) :
    Output × LValue :=
  o.emit type (Instr.call callee args)

end Output

namespace LLVMTFBuilder

/-- Method `EndCurrentBlock`. -/
def EndCurrentBlock (b : LLVMTFBuilder) : Option LLVMTFBuilder :=
  match b.current_bb_ with
  | none => none
  | some cur =>
    match findBB b.basic_block_manager_ cur with
    | none => none
    | some bb =>
      let out := if bb.successors = [] then b.output_.buildUnreachable else b.output_
      match bb.impl with
      | none => none
      | some impl =>
        match impl.EndBuild with
        | none => none
        | some impl' =>
          some { b with output_ := out,
                        basic_block_manager_ :=
                          updateImpl b.basic_block_manager_ cur (fun _ => impl'),
                        current_bb_ := none }

/-- Method `EnsurePhiInput`: the value to add to the phi, after the cast it
may have emitted before the terminator of the predecessor's continuation
block; `none` is the trap. -/
def EnsurePhiInput (b : LLVMTFBuilder) (pred index : Int) (type : LType) :
    Option (LLVMTFBuilder × LValue) :=
  match valueIn b.basic_block_manager_ pred index with
  | none => none
  | some val =>
    let value_type := typeOf val
    if value_type = type then some (b, val)
    else
      match GetNativeBBContinuation b.basic_block_manager_ pred with
      | none => none
      | some continuation =>
        let castBefore (op : CastOp) (dst : LType) : Option (LLVMTFBuilder × LValue) :=
          match b.output_.getBasicBlockTerminator continuation with
          | none => none
          | some terminator =>
            let (out, ret_val) := (b.output_.positionBefore terminator).buildCast op val dst
            some ({ b with output_ := out }, ret_val)
        if value_type = LType.intPtr ∧ type = LType.taggedType then
          castBefore CastOp.IntToPtr LType.taggedType
        else if value_type.isPointerKind = true ∧ type = LType.intPtr then
          castBefore CastOp.PtrToInt LType.intPtr
        else if value_type = LType.int1 ∧ type = LType.intPtr then
          castBefore CastOp.ZExt LType.intPtr
        else none

/-- The loop of `ProcessPhiWorkList` over the deferred records of one block
(lines 442-448). -/
def mergeDeferred : List NotMergedPhiDesc → LLVMTFBuilder → Option LLVMTFBuilder
  | [], b => some b
  | e :: es, b =>
    if !IsBBStartedToBuild b.basic_block_manager_ e.pred then none
    else
      match b.EnsurePhiInput e.pred e.value (typeOf e.phi) with
      | none => none
      | some (b1, value) =>
        match GetNativeBBContinuation b1.basic_block_manager_ e.pred with
        | none => none
        | some native =>
          mergeDeferred es { b1 with output_ := b1.output_.addIncoming e.phi value native }

/-- The loop of `ProcessPhiWorkList` over the worklist (lines 440-450). -/
def processWorkList : List Int → LLVMTFBuilder → Option LLVMTFBuilder
  | [], b => some b
  | id :: ids, b =>
    match GetImpl b.basic_block_manager_ id with
    | none => none
    | some impl =>
      match mergeDeferred impl.not_merged_phis b with
      | none => none
      | some b1 =>
        processWorkList ids
          { b1 with basic_block_manager_ :=
                      updateImpl b1.basic_block_manager_ id (fun i =>
                        { i with not_merged_phis := [] }) }

/-- Method `ProcessPhiWorkList`. -/
def ProcessPhiWorkList (b : LLVMTFBuilder) : Option LLVMTFBuilder :=
  match processWorkList b.phi_rebuild_worklist_ b with
  | none => none
  | some b' => some { b' with phi_rebuild_worklist_ := [] }

/-- Method `End` up to, not including, its last statement `ResetImpls`, which
destroys every block's bindings. -/
def EndBody (b : LLVMTFBuilder) : Option LLVMTFBuilder :=
  match b.EndCurrentBlock with
  | none => none
  | some b1 =>
    match b1.ProcessPhiWorkList with
    | none => none
    | some b2 =>
      match b2.basic_block_manager_.rpo with
      | [] => none
      | first :: _ =>
        match GetNativeBB b2.basic_block_manager_ first with
        | none => none
        | some native =>
          some { b2 with output_ :=
                           (b2.output_.positionToBBEnd b2.output_.prologue).buildBr native }

/-- Function `ResetImpls`: every extension slot becomes null. -/
def ResetImpls (bbm : BuilderBlocks) : BuilderBlocks :=
  { bbm with bbs := bbm.bbs.map (fun bb => { bb with impl := none }) }

/-- Method `End`. -/
def End (b : LLVMTFBuilder) : Option LLVMTFBuilder :=
  match b.EndBody with
  | none => none
  | some b' => some { b' with basic_block_manager_ := ResetImpls b'.basic_block_manager_ }

/-- The loop "2. rebuild value" of `DoCall` for a non-tail call
(lines 543-554): every tagged binding of a live-in of the first successor,
other than the call's own id, is replaced by the result of a relocate call
on the statepoint. -/
def relocateLiveins (cur id : Int) (statepoint_ret : LValue) :
    List Int → Nat → LLVMTFBuilder → Option LLVMTFBuilder
  | [], _, b => some b
  | livein :: rest, gc_paramter_start, b =>
    if livein = id then relocateLiveins cur id statepoint_ret rest gc_paramter_start b
    else
      match valueIn b.basic_block_manager_ cur livein with
      | none => none
      | some to_gc =>
        if typeOf to_gc ≠ LType.taggedType then
          relocateLiveins cur id statepoint_ret rest gc_paramter_start b
        else
          let (out, relocated) := b.output_.buildCall Intrinsic.gcRelocate
            [statepoint_ret, Output.constInt32 gc_paramter_start,
             Output.constInt32 gc_paramter_start] LType.taggedType
          match LLVMTFBuilder.set_value { b with output_ := out } cur livein relocated with
          | none => none
          | some b' => relocateLiveins cur id statepoint_ret rest (gc_paramter_start + 1) b'

/-- The part of `DoCall` after the statepoint call, for a non-tail call
(lines 539-562): the live values are rebound to their relocated copies and
the call's id to the call's result. -/
def rebindAfterCall (b : LLVMTFBuilder) (id : Int) (return_count : Nat)
    (statepoint_ret : LValue) (gc_paramter_start : Nat) : Option LLVMTFBuilder :=
  match b.current_bb_ with
  | none => none
  | some cur =>
    match findBB b.basic_block_manager_ cur with
    | none => none
    | some bb =>
      match bb.successors with
      | [] => none
      | front :: _ =>
        match findBB b.basic_block_manager_ front with
        | none => none
        | some successor =>
          match relocateLiveins cur id statepoint_ret successor.liveins gc_paramter_start b with
          | none => none
          | some b1 =>
            let intrinsic := if return_count = 2 then Intrinsic.gcResult2 else Intrinsic.gcResult
            let (out, ret) := b1.output_.buildCall intrinsic [statepoint_ret]
              (if return_count = 2 then LType.other 2 else LType.taggedType)
            LLVMTFBuilder.set_value { b1 with output_ := out } cur id ret

end LLVMTFBuilder

/-! ## The builder: phi callbacks -/

namespace LLVMTFBuilder

/-- Function `getMachineRepresentationType`; `none` is the trap of the
default case. -/
def getMachineRepresentationType : MachineRepresentation → Option LType
  | .kTaggedSigned => some LType.intPtr
  | .kTagged => some LType.taggedType
  | .kTaggedPointer => some LType.taggedType
  | .kWord8 => some LType.int8
  | .kWord16 => some LType.int16
  | .kWord32 => some LType.int32
  | .kWord64 => some LType.int64
  | .kFloat32 => some LType.floatType
  | .kFloat64 => some LType.doubleType
  | _ => none

/-- Method `EnsurePhiInputAndPosition`. -/
def EnsurePhiInputAndPosition (b : LLVMTFBuilder) (pred index : Int) (type : LType) :
    Option (LLVMTFBuilder × LValue) :=
  match b.EnsurePhiInput pred index type with
  | none => none
  | some (b1, value) =>
    match b1.current_bb_ with
    | none => none
    | some cur =>
      match GetNativeBB b1.basic_block_manager_ cur with
      | none => none
      | some native => some ({ b1 with output_ := b1.output_.positionToBBEnd native }, value)

/-- The loop of `VisitPhi` over the predecessors of the current block
(lines 1067-1082), with the operands still to read and the flag
`should_add_to_tf_phi_worklist`; reading past the end of the operands is
`none`. -/
def visitPhiOperands (phi : LValue) (phi_type : LType) (cur : Int) :
    List Int → List Int → Bool → LLVMTFBuilder → Option (LLVMTFBuilder × Bool)
  | [], _, flag, b => some (b, flag)
  | _ :: _, [], _, _ => none
  | pred :: preds, operand :: operands, flag, b =>
    if IsBBStartedToBuild b.basic_block_manager_ pred then
      match b.EnsurePhiInputAndPosition pred operand phi_type with
      | none => none
      | some (b1, value) =>
        match GetNativeBBContinuation b1.basic_block_manager_ pred with
        | none => none
        | some llvbb_ =>
          visitPhiOperands phi phi_type cur preds operands flag
            { b1 with output_ := b1.output_.addIncoming phi value llvbb_ }
    else
      match GetImpl b.basic_block_manager_ cur with
      | none => none
      | some _ =>
        visitPhiOperands phi phi_type cur preds operands true
          { b with basic_block_manager_ := updateImpl b.basic_block_manager_ cur (fun impl =>
              { impl with not_merged_phis :=
                  impl.not_merged_phis ++ [{ pred := pred, value := operand, phi := phi }] }) }

/-- Method `VisitPhi` of the builder. -/
def VisitPhi (b : LLVMTFBuilder) (id : Int) (rep : MachineRepresentation)
    (operands : List Int) : Option LLVMTFBuilder :=
  match getMachineRepresentationType rep with
  | none => none
  | some phi_type =>
    match b.current_bb_ with
    | none => none
    | some cur =>
      match findBB b.basic_block_manager_ cur with
      | none => none
      | some bb =>
        let (out, phi) := b.output_.buildPhi phi_type
        match visitPhiOperands phi phi_type cur bb.predecessors operands false
            { b with output_ := out } with
        | none => none
        | some (b1, should_add_to_tf_phi_worklist) =>
          let b2 := if should_add_to_tf_phi_worklist then
            { b1 with phi_rebuild_worklist_ := b1.phi_rebuild_worklist_ ++ [cur] } else b1
          b2.set_value cur id phi

/-- Method `VisitGoto` of the builder. -/
def VisitGoto (b : LLVMTFBuilder) (bid : Int) : Option LLVMTFBuilder :=
  match EnsureNativeBB { b with basic_block_manager_ := ensureBB b.basic_block_manager_ bid }
      bid with
  | none => none
  | some b1 =>
    match GetNativeBB b1.basic_block_manager_ bid with
    | none => none
    | some native => EndCurrentBlock { b1 with output_ := b1.output_.buildBr native }

end LLVMTFBuilder

/-! ## The builder: call lowering -/

/-- The registers v8-codegen.cc names. -/
inductive Register
  | sp | ip | lr | r1
  | from_code (code : Int)
deriving DecidableEq, Repr

/-- The emitting methods of `MacroAssembler` that v8-codegen.cc calls, with
their operands: `add` with an immediate and with a shifted register, `stm`
with `db_w`, `blx`, `bx` and `dd`. -/
inductive MasmInstr
  | add_imm (dst src : Register) (imm : Int)
  | add_lsl (dst src rm : Register) (shift : Nat)
  | stm_db_w (base : Register) (reg_list : Nat)
  | blx (target : Register)
  | bx (target : Register)
  | dd (data : Nat)
deriving DecidableEq, Repr

/-- Constants of the V8 headers, which are not among the sources; they are
parameters of the model. `codeEntryOffset` is `Code::kHeaderSize -
kHeapObjectTag`. With them go the two things that the sources leave to the
assembler of V8 and to the compiler: `extraInstructions` is the number of
instructions beyond the first that the assembler puts in the buffer for an
emitting call (an `add` whose immediate has no encoding needs more than one),
and `undefinedShift` is the value of `1 << reg` for a `reg` outside 0..31,
which the language does not define. -/
structure V8Constants where
  kPointersFromHereAreInterestingMask : Int
  kPointersToHereAreInterestingMask : Int
  kPageSizeBits : Nat
  kFlagsOffset : Int
  codeEntryOffset : Int
  kPointerSize : Int
  extraInstructions : MasmInstr → Nat
  undefinedShift : Int → Nat

/-- Function `pointerType`; the pointer to an 8-bit integer is `ref8`. -/
def pointerType : LType → LType
  | .int8 => LType.ref8
  | t => LType.pointerTo t

/-- Function `getElementType`, for the pointer types `pointerType` makes; on
another type the model gives `other 0`. -/
def getElementType : LType → LType
  | .ref8 => LType.int8
  | .pointerTo t => t
  | _ => LType.other 0

/-- The type is of integer kind (`LLVMIntegerTypeKind`). -/
def LType.isIntegerKind : LType → Bool
  | .intPtr => true
  | .int1 => true
  | .int8 => true
  | .int16 => true
  | .int32 => true
  | .int64 => true
  | _ => false

namespace Output

/-- Method `constIntPtr`. -/
def constIntPtr (value : Int) : LValue := LValue.const LType.intPtr value

/-- Method `constInt64`. -/
def constInt64 (value : Int) : LValue := LValue.const LType.int64 value

/-- Function `constNull`. -/
def constNull (type : LType) : LValue := LValue.const type 0

/-- Member `repo().int32Zero`. -/
def int32Zero : LValue := constInt32 0

/-- Member `repo().intPtrOne`. -/
def intPtrOne : LValue := constIntPtr 1

/-- Method `buildAnd`. -/
def buildAnd (o : Output) (lhs rhs : LValue) : Output × LValue :=
  o.emit (typeOf lhs) (Instr.and lhs rhs)

/-- Method `buildGEPWithByteOffset`. -/
def buildGEPWithByteOffset (o : Output) (base offset : LValue) (dstType : LType) :
    Output × LValue :=
  o.emit dstType (Instr.gep base offset)

/-- Method `buildLoad`. -/
def buildLoad (o : Output) (toLoad : LValue) : Output × LValue :=
  o.emit (getElementType (typeOf toLoad)) (Instr.load toLoad)

/-- Method `buildStore`. -/
def buildStore (o : Output) (val pointer : LValue) : Output × LValue :=
  o.emit (LType.other 0) (Instr.store val pointer)

/-- Method `buildICmp` with the predicate `LLVMIntEQ`. -/
def buildICmp (o : Output) (left right : LValue) : Output × LValue :=
  o.emit LType.int1 (Instr.icmpEq left right)

/-- Method `buildCondBr`. -/
def buildCondBr (o : Output) (condition : LValue) (taken notTaken : LBasicBlock) : Output :=
  (o.emit (LType.other 0) (Instr.condBr condition taken notTaken)).1

/-- Method `ensureLR`, whose body is not among the sources: the call is
recorded. -/
def ensureLR (o : Output) : Output :=
  { o with lr_ensured_ := true }

end Output


/-- Constant `kV8CCRegisterParameterCount`. -/
def kV8CCRegisterParameterCount : Nat := 12

/-- Constant `kRootReg`. -/
def kRootReg : Nat := 10

/-- Constant `kFPReg`. -/
def kFPReg : Nat := 11

/-- Class `CallOperandResolver`: the members that hold state.
`allocatable_register_set_` is the `std::bitset<12>`, one flag per register,
`true` for a register that is taken. -/
structure CallOperandResolver where
  allocatable_register_set_ : List Bool
  operand_values_ : List LValue
  operand_value_types_ : List LType
  locations_ : List Int
  current_bb_ : Int
  target_ : LValue
  next_reg_ : Int
deriving DecidableEq, Repr

namespace CallOperandResolver

/-- The constructor: twelve undefined operand slots of pointer-sized integer
type, no register taken. -/
def new (current_bb : Int) (target : LValue) : CallOperandResolver :=
  { allocatable_register_set_ := List.replicate kV8CCRegisterParameterCount false,
    operand_values_ := List.replicate kV8CCRegisterParameterCount (LValue.undef LType.intPtr),
    operand_value_types_ := List.replicate kV8CCRegisterParameterCount LType.intPtr,
    locations_ := [],
    current_bb_ := current_bb,
    target_ := target,
    next_reg_ := 0 }

/-- The loop of `FindNextReg`: the first register not taken among the `count`
registers from `i` on. -/
def firstFree (set : List Bool) : Nat → Nat → Option Nat
  | 0, _ => none
  | count + 1, i => if set.getD i false then firstFree set count (i + 1) else some i

/-- Method `FindNextReg`, with the resolver after the call. -/
def FindNextReg (r : CallOperandResolver) : CallOperandResolver × Int :=
  if r.next_reg_ < 0 then (r, -1)
  else
    match firstFree r.allocatable_register_set_
        (kV8CCRegisterParameterCount - r.next_reg_.toNat) r.next_reg_.toNat with
    | some i => ({ r with next_reg_ := (i : Int) + 1 }, (i : Int))
    | none => ({ r with next_reg_ := -1 }, -1)

/-- Method `SetOperandValue`. -/
def SetOperandValue (r : CallOperandResolver) (reg : Int) (llvm_val : LValue) :
    CallOperandResolver :=
  let llvm_val_type := typeOf llvm_val
  if 0 ≤ reg then
    { r with operand_values_ := r.operand_values_.set reg.toNat llvm_val,
             operand_value_types_ := r.operand_value_types_.set reg.toNat llvm_val_type,
             allocatable_register_set_ := r.allocatable_register_set_.set reg.toNat true }
  else
    { r with operand_values_ := r.operand_values_ ++ [llvm_val],
             operand_value_types_ := r.operand_value_types_ ++ [llvm_val_type] }

/-- The first loop of `Resolve` (lines 178-187) over the register mapping,
with the operands still to read and the stack operands collected so far;
`none` when `EMASSERT(reg < kV8CCRegisterParameterCount)` fails, the operands
run out or an operand has no binding. -/
def setupRegisterOperands (bbm : BuilderBlocks) :
    List Int → List Int → List Int → CallOperandResolver →
      Option (CallOperandResolver × List Int)
  | [], _, stack_operands, r => some (r, stack_operands)
  | _ :: _, [], _, _ => none
  | reg :: regs, operand :: operands, stack_operands, r =>
    if (kV8CCRegisterParameterCount : Int) ≤ reg then none
    else if reg < 0 then
      setupRegisterOperands bbm regs operands (stack_operands ++ [operand]) r
    else
      match valueIn bbm r.current_bb_ operand with
      | none => none
      | some llvm_val =>
        setupRegisterOperands bbm regs operands stack_operands (r.SetOperandValue reg llvm_val)

/-- The last loop of `Resolve` (lines 199-204) over the stack operands. -/
def placeStackOperands (bbm : BuilderBlocks) :
    List Int → CallOperandResolver → Option CallOperandResolver
  | [], r => some r
  | operand :: stack_operands, r =>
    match valueIn bbm r.current_bb_ operand with
    | none => none
    | some llvm_val =>
      let (r1, reg) := r.FindNextReg
      let r2 := r1.SetOperandValue reg llvm_val
      placeStackOperands bbm stack_operands { r2 with locations_ := r2.locations_ ++ [reg] }

/-- The artifact operands and the target (lines 188-197). -/
def setupArtifacts (output : Output) (r : CallOperandResolver) : CallOperandResolver :=
  let r1 := (r.SetOperandValue kRootReg output.root_).SetOperandValue kFPReg output.fp_
  if r1.target_.isUndef then { r1 with locations_ := r1.locations_ ++ [-1] }
  else
    let (r2, target_reg) := r1.FindNextReg
    let r3 := r2.SetOperandValue target_reg r2.target_
    { r3 with locations_ := r3.locations_ ++ [target_reg] }

/-- Method `Resolve`, on the operands from the iterator on. -/
def Resolve (r : CallOperandResolver) (bbm : BuilderBlocks) (output : Output)
    (operands registers_for_operands : List Int) : Option CallOperandResolver :=
  match setupRegisterOperands bbm registers_for_operands operands [] r with
  | none => none
  | some (r1, stack_operands) => placeStackOperands bbm stack_operands (setupArtifacts output r1)

end CallOperandResolver

/-- Struct `CallDescriptor` (declared in llvm-tf-builder.h, which is not
among the sources): the members `DoCall` reads. -/
structure CallDescriptor where
  registers_for_operands : List Int
  return_count : Nat
deriving DecidableEq, Repr

namespace LLVMTFBuilder

/-- The loop "push current defines" of `DoCall` (lines 523-532): the tagged
bindings of the live-ins of the first successor, the call's own id apart. -/
def gcOperands (bbm : BuilderBlocks) (cur id : Int) : List Int → Option (List LValue)
  | [] => some []
  | livein :: rest =>
    if livein = id then gcOperands bbm cur id rest
    else
      match valueIn bbm cur livein with
      | none => none
      | some to_gc =>
        if typeOf to_gc ≠ LType.taggedType then gcOperands bbm cur id rest
        else (gcOperands bbm cur id rest).map (fun l => to_gc :: l)

/-- The target of the call and what comes with it (lines 468-487): the
output, the target, the code magic and the count of additional branch
instructions. -/
def callTarget (b : LLVMTFBuilder) (k : V8Constants) (cur : Int) (code : Bool)
    (first : Int) : Option (Output × LValue × Int × Nat) :=
  if code then
    match b.code_uses_map_.lookup first with
    | some magic => some (b.output_, LValue.undef LType.intPtr, magic, 1)
    | none =>
      match valueIn b.basic_block_manager_ cur first with
      | none => none
      | some code_value =>
        let (out, target) := b.output_.buildGEPWithByteOffset code_value
          (Output.constInt32 k.codeEntryOffset) LType.ref8
        some (out, target, 0, 0)
  else
    match valueIn b.basic_block_manager_ cur first with
    | none => none
    | some target => some (b.output_, target, 0, 0)

/-- The statepoint operands before the tracked references (lines 506-516). -/
def statepointHeader (patchid : Nat) (resolver : CallOperandResolver)
    (addition_branch_instructions : Nat) (callee_type : LType) : List LValue :=
  [Output.constInt64 patchid,
   Output.constInt32 (4 * ((resolver.locations_.length : Int) + addition_branch_instructions)),
   Output.constNull callee_type,
   Output.constInt32 resolver.operand_values_.length,
   Output.constInt32 0] ++ resolver.operand_values_ ++
  [Output.constInt32 0, Output.constInt32 0]

/-- Method `DoCall`. The calling convention and the tail-call mark set on the
statepoint call are not recorded. -/
def DoCall (b : LLVMTFBuilder) (k : V8Constants) (id : Int) (code : Bool)
    (call_desc : CallDescriptor) (operands : List Int) (tailcall : Bool) :
    Option LLVMTFBuilder :=
  match b.current_bb_, operands with
  | none, _ => none
  | some _, [] => none
  | some cur, first :: rest =>
    match b.callTarget k cur code first with
    | none => none
    | some (out1, target, code_magic, addition0) =>
      let addition_branch_instructions :=
        if tailcall ∧ b.basic_block_manager_.needs_frame = true then addition0 + 2 else addition0
      let out2 :=
        if tailcall ∧ b.basic_block_manager_.needs_frame = false then out1.ensureLR else out1
      match (CallOperandResolver.new cur target).Resolve b.basic_block_manager_ out2 rest
          call_desc.registers_for_operands with
      | none => none
      | some resolver =>
        let ret_type := if call_desc.return_count = 2 then LType.other 2 else LType.taggedType
        let callee_type := LType.callee ret_type resolver.operand_value_types_.length
        let patchid := b.state_point_id_next_
        let header := statepointHeader patchid resolver addition_branch_instructions callee_type
        let gc_paramter_start := header.length
        let tracked : Option (List LValue) :=
          if tailcall then some []
          else
            match findBB b.basic_block_manager_ cur with
            | none => none
            | some bb =>
              match bb.successors with
              | [] => none
              | front :: _ =>
                match findBB b.basic_block_manager_ front with
                | none => none
                | some successor => gcOperands b.basic_block_manager_ cur id successor.liveins
        match tracked with
        | none => none
        | some gc_operands =>
          let (out3, statepoint_ret) :=
            out2.buildCall Intrinsic.statepoint (header ++ gc_operands) (LType.other 1)
          let b1 := { b with output_ := out3, state_point_id_next_ := patchid + 1 }
          let rebound :=
            if tailcall then some b1
            else b1.rebindAfterCall id call_desc.return_count statepoint_ret gc_paramter_start
          match rebound with
          | none => none
          | some b2 =>
            some { b2 with stack_map_info_map_ :=
                             b2.stack_map_info_map_.emplace patchid
                               (StackMapInfo.CallInfo resolver.locations_ code_magic tailcall 0) }

/-- Method `DoTailCall`. -/
def DoTailCall (b : LLVMTFBuilder) (k : V8Constants) (id : Int) (code : Bool)
    (call_desc : CallDescriptor) (operands : List Int) : Option LLVMTFBuilder :=
  match b.DoCall k id code call_desc operands true with
  | none => none
  | some b1 => some { b1 with output_ := b1.output_.buildUnreachable }

end LLVMTFBuilder

/-! ## The builder: store lowering -/

/-- The underlying value of a `WriteBarrierKind` enumerator. -/
def WriteBarrierKind.toNat : WriteBarrierKind → Nat
  | .kNoWriteBarrier => 0
  | .kMapWriteBarrier => 1
  | .kPointerWriteBarrier => 2
  | .kFullWriteBarrier => 3

/-- Enum `RememberedSetAction` of llvm-tf-builder.cc. -/
inductive RememberedSetAction
  | EMIT_REMEMBERED_SET | OMIT_REMEMBERED_SET
deriving DecidableEq, Repr

/-- The underlying value of a `RememberedSetAction` enumerator. -/
def RememberedSetAction.toInt : RememberedSetAction → Int
  | .EMIT_REMEMBERED_SET => 0
  | .OMIT_REMEMBERED_SET => 1

/-- Enum `SaveFPRegsMode` of llvm-tf-builder.cc. -/
inductive SaveFPRegsMode
  | kDontSaveFPRegs | kSaveFPRegs
deriving DecidableEq, Repr

/-- The underlying value of a `SaveFPRegsMode` enumerator. -/
def SaveFPRegsMode.toInt : SaveFPRegsMode → Int
  | .kDontSaveFPRegs => 0
  | .kSaveFPRegs => 1

/-- Class `StoreBarrierResolver`: the members that are values. The output and
the stack map it points to are those of the builder the methods take. -/
structure StoreBarrierResolver where
  current_bb_ : Int
  id_ : Int
  patch_point_id_ : Nat
  needs_frame_ : Bool
deriving DecidableEq, Repr

namespace StoreBarrierResolver

/-- Method `CreateContination`. -/
def CreateContination (_r : StoreBarrierResolver) (b : LLVMTFBuilder) :
    LLVMTFBuilder × LBasicBlock :=
  let (out, native_bb) := b.output_.appendBasicBlock
  ({ b with output_ := out }, native_bb)

/-- Method `CheckPageFlag`. -/
def CheckPageFlag (r : StoreBarrierResolver) (k : V8Constants) (b : LLVMTFBuilder)
    (base : LValue) (mask : Int) : Option LLVMTFBuilder :=
  let (o1, base_int) := b.output_.buildCast CastOp.PtrToInt base LType.intPtr
  let page_mask : Int := ~~~(((2 ^ k.kPageSizeBits : Nat) : Int) - 1)
  let (o2, memchunk_int) := o1.buildAnd base_int (Output.constIntPtr page_mask)
  let (o3, memchunk_ref8) := o2.buildCast CastOp.IntToPtr memchunk_int LType.ref8
  let (o4, flag_slot) := o3.buildGEPWithByteOffset memchunk_ref8
    (Output.constInt32 k.kFlagsOffset) (LType.pointerTo LType.int32)
  let (o5, flag) := o4.buildLoad flag_slot
  let (o6, and_result) := o5.buildAnd flag (Output.constInt32 mask)
  let (o7, cmp) := o6.buildICmp and_result Output.int32Zero
  let (o8, continuation) := o7.appendBasicBlock
  match GetNativeBBContinuation b.basic_block_manager_ r.current_bb_ with
  | none => none
  | some target =>
    some { b with output_ := (o8.buildCondBr cmp target continuation).positionToBBEnd
                               continuation }

/-- Method `CheckSmi`. -/
def CheckSmi (r : StoreBarrierResolver) (b : LLVMTFBuilder) (value : LValue) :
    Option LLVMTFBuilder :=
  let (o1, value_int) := b.output_.buildCast CastOp.PtrToInt value LType.intPtr
  let (o2, and_result) := o1.buildAnd value_int Output.intPtrOne
  let (o3, cmp) := o2.buildICmp and_result Output.int32Zero
  let (o4, continuation) := o3.appendBasicBlock
  match GetNativeBBContinuation b.basic_block_manager_ r.current_bb_ with
  | none => none
  | some target =>
    some { b with output_ := (o4.buildCondBr cmp target continuation).positionToBBEnd
                               continuation }

/-- Method `CallPatchpoint`. -/
def CallPatchpoint (r : StoreBarrierResolver) (b : LLVMTFBuilder)
    (base offset remembered_set_action save_fp_mode : LValue) : LLVMTFBuilder :=
  let instructions_count : Int := if r.needs_frame_ then 3 else 3 + 2
  let patchid := r.patch_point_id_
  let o1 := if r.needs_frame_ then b.output_ else b.output_.ensureLR
  let (o2, _) := o1.buildCall Intrinsic.patchpointVoid
    [Output.constInt64 patchid, Output.constInt32 (4 * instructions_count),
     Output.constNull LType.ref8, Output.constInt32 6, base, offset,
     LValue.undef LType.int32, remembered_set_action, save_fp_mode, o1.root_] (LType.other 0)
  { b with output_ := o2,
           stack_map_info_map_ := b.stack_map_info_map_.emplace patchid
             StackMapInfo.StoreBarrierInfo }

/-- Method `Resolve`. -/
def Resolve (r : StoreBarrierResolver) (k : V8Constants) (b : LLVMTFBuilder)
    (base offset value : LValue) (barrier_kind : WriteBarrierKind) : Option LLVMTFBuilder :=
  match GetImpl b.basic_block_manager_ r.current_bb_ with
  | none => none
  | some _ =>
    let (b1, continuation) := r.CreateContination b
    let b2 := { b1 with basic_block_manager_ :=
                          updateImpl b1.basic_block_manager_ r.current_bb_
                            (fun impl => { impl with continuation := some continuation }) }
    match r.CheckPageFlag k b2 base k.kPointersFromHereAreInterestingMask with
    | none => none
    | some b3 =>
      let checked :=
        if barrier_kind.toNat > WriteBarrierKind.kPointerWriteBarrier.toNat then
          r.CheckSmi b3 value
        else some b3
      match checked with
      | none => none
      | some b4 =>
        match r.CheckPageFlag k b4 value k.kPointersToHereAreInterestingMask with
        | none => none
        | some b5 =>
          let remembered_set_action :=
            if barrier_kind.toNat > WriteBarrierKind.kMapWriteBarrier.toNat then
              RememberedSetAction.EMIT_REMEMBERED_SET
            else RememberedSetAction.OMIT_REMEMBERED_SET
          let save_fp_mode := SaveFPRegsMode.kDontSaveFPRegs
          let b6 := r.CallPatchpoint b5 base offset
            (Output.constIntPtr (remembered_set_action.toInt * 2))
            (Output.constIntPtr (save_fp_mode.toInt * 2))
          match GetNativeBBContinuation b6.basic_block_manager_ r.current_bb_ with
          | none => none
          | some target =>
            some { b6 with output_ := (b6.output_.buildBr target).positionToBBEnd target }

end StoreBarrierResolver

/-- Function `buildAccessPointer`. -/
def buildAccessPointer (output : Output) (value offset : LValue)
    (rep : MachineRepresentation) : Option (Output × LValue) :=
  let (o1, value1) :=
    if (typeOf value).isIntegerKind then output.buildCast CastOp.IntToPtr value LType.ref8
    else (output, value)
  match LLVMTFBuilder.getMachineRepresentationType rep with
  | none => none
  | some type => some (o1.buildGEPWithByteOffset value1 offset (pointerType type))

namespace LLVMTFBuilder

/-- Method `VisitStore`. The `EMASSERT` before the cast of the value holds an
assignment, not a comparison, and never fails. -/
def VisitStore (b : LLVMTFBuilder) (k : V8Constants) (id : Int) (rep : MachineRepresentation)
    (barrier : WriteBarrierKind) (base offset value : Int) : Option LLVMTFBuilder :=
  match b.current_bb_ with
  | none => none
  | some cur =>
    match valueIn b.basic_block_manager_ cur base, valueIn b.basic_block_manager_ cur offset with
    | some base_value, some offset_value =>
      match buildAccessPointer b.output_ base_value offset_value rep with
      | none => none
      | some (o1, pointer) =>
        match valueIn b.basic_block_manager_ cur value with
        | none => none
        | some bound =>
          let pointer_element_type := getElementType (typeOf pointer)
          let (o2, llvm_val) :=
            if pointer_element_type ≠ typeOf bound then
              o1.buildCast CastOp.IntToPtr bound pointer_element_type
            else (o1, bound)
          let (o3, val) := o2.buildStore llvm_val pointer
          match LLVMTFBuilder.set_value { b with output_ := o3 } cur id val with
          | none => none
          | some b1 =>
            if barrier ≠ WriteBarrierKind.kNoWriteBarrier then
              let resolver : StoreBarrierResolver :=
                { current_bb_ := cur, id_ := id, patch_point_id_ := b1.state_point_id_next_,
                  needs_frame_ := b1.basic_block_manager_.needs_frame }
              let b2 := { b1 with state_point_id_next_ := b1.state_point_id_next_ + 1 }
              match valueIn b2.basic_block_manager_ cur base with
              | none => none
              | some destination => resolver.Resolve k b2 destination pointer llvm_val barrier
            else some b1
    | _, _ => none

end LLVMTFBuilder

/-! ## The code generator -/

/-- Enum `StackMaps::Location::Kind`. -/
inductive StackMaps.Kind
  | Unprocessed | Register | Direct | Indirect | Constant | ConstantIndex
deriving DecidableEq, Repr

/-- Struct `StackMaps::Location`: the members the code generator reads. -/
structure StackMaps.Location where
  dwarfReg : Int
  kind : StackMaps.Kind
  offset : Int
deriving DecidableEq, Repr

/-- Struct `StackMaps::Record`: the members the code generator reads. -/
structure StackMaps.Record where
  patchpointID : Nat
  instructionOffset : Nat
  locations : List StackMaps.Location
deriving DecidableEq, Repr

/-- Struct `StackMaps` as the code generator reads it: the answers of
`computeRecordMap()` and of `stackSize()`, whose bodies are not among the
sources. -/
structure StackMaps where
  computeRecordMap : List (Nat × List StackMaps.Record)
  stackSize : Nat
deriving DecidableEq, Repr

/-- The functions of `StackMaps` that fill the struct, whose bodies are not
among the sources; they are parameters of the model. `parse` gives the flag
it returns and the struct as it leaves it, `unparsed` is the struct that was
never parsed. -/
structure StackMapsParser where
  parse : List Nat → Bool × StackMaps
  unparsed : StackMaps

/-- Class `MacroAssembler` of V8, which is not among the sources: the buffer
as the list of the emitting calls made on it. -/
structure MacroAssembler where
  buffer : List MasmInstr
deriving DecidableEq, Repr

/-- The number of instructions of four bytes that an emitting call puts in
the buffer: `dd` puts the one 32-bit word it is given, every other call one
instruction and as many more as the assembler needs. -/
def MasmInstr.instructionCount (k : V8Constants) : MasmInstr → Nat
  | .dd _ => 1
  | i => 1 + k.extraInstructions i

/-- The number of instructions that a list of emitting calls puts in the
buffer. -/
def instructionsOf (k : V8Constants) (calls : List MasmInstr) : Nat :=
  (calls.map (MasmInstr.instructionCount k)).sum

/-- Method `pc_offset`: the bytes emitted so far. -/
def MacroAssembler.pc_offset (m : MacroAssembler) (k : V8Constants) : Int :=
  4 * (instructionsOf k m.buffer : Int)

/-- One emitting call. -/
def MacroAssembler.emit (m : MacroAssembler) (i : MasmInstr) : MacroAssembler :=
  { buffer := m.buffer ++ [i] }

/-- The value of an expression of type `int`: the 32 bits of the result, read
in two's complement. -/
def toInt32 (x : Int) : Int := (x + 2 ^ 31) % 2 ^ 32 - 2 ^ 31

/-- One entry of the safepoint table: the offset `DefineSafepoint` records
and the indices handed to `DefinePointerSlot`, in call order. -/
structure Safepoint where
  pc : Int
  slots : List Int
deriving DecidableEq, Repr

/-- Class `CodeGeneratorLLVM`. -/
structure CodeGeneratorLLVM where
  masm_ : MacroAssembler
  safepoint_table_builder_ : List Safepoint
  record_reference_map_ : List (Nat × StackMaps.Record × StackMapInfo)
  reference_instruction_ : Nat
  slot_count_ : Int := 0
  needs_frame_ : Bool := false
deriving DecidableEq, Repr

/-- The code object `Generate` returns: the instructions, the stack slot
count, the safepoint table and the kind. The relocation records of
`ProcessForConstantLoad` and the handler table are not part of the model. -/
structure Code where
  instructions : List MasmInstr
  stack_slots : Int
  safepoint_table : List Safepoint
  is_turbofanned : Bool
  kind : Nat
deriving DecidableEq, Repr

/-- Struct `CompilerState`: the members `Generate` reads. The code section is
a list of 32-bit words. -/
structure CompilerState where
  stackMapsSection_ : Option (List Nat)
  codeSectionList_ : List (List Nat)
  stack_map_info_map_ : StackMapInfoMap
  needs_frame_ : Bool
  code_kind_ : Nat
deriving DecidableEq, Repr

namespace CodeGeneratorLLVM

/-- The value of `1 << reg` as a `RegList` of 32 bits: the bit `reg` for a
`reg` in 0..31, and what the compiled code gives for another `reg`, such as
the -1 of an operand that has no register. -/
def shiftLeftOne (k : V8Constants) (reg : Int) : Nat :=
  if 0 ≤ reg ∧ reg < 32 then 1 <<< reg.toNat else k.undefinedShift reg % 2 ^ 32

/-- The loop of `HandleCall` over the locations after the first (lines
117-121): `reg_list |= 1 << reg`, with no test on `reg`. -/
def regList (k : V8Constants) : List Int → Nat → Nat
  | [], reg_list => reg_list
  | reg :: rest, reg_list => regList k rest (reg_list ||| shiftLeftOne k reg)

/-- The loop of `HandleCall` over the locations of the record (lines
138-150): the indices handed to `DefinePointerSlot`; `none` when
`CHECK(location.dwarfReg == 11)` fails. The divisions are those of C++ on
`int`, which truncate. -/
def definePointerSlots (k : V8Constants) (slot_count : Int) :
    List StackMaps.Location → List Int → Option (List Int)
  | [], slots => some slots
  | location :: rest, slots =>
    if location.kind ≠ StackMaps.Kind.Indirect then
      definePointerSlots k slot_count rest slots
    else if location.dwarfReg = 13 then
      definePointerSlots k slot_count rest
        (slots ++ [slot_count - 1 - Int.tdiv location.offset k.kPointerSize])
    else if location.dwarfReg = 11 then
      definePointerSlots k slot_count rest
        (slots ++ [Int.tdiv (-location.offset) k.kPointerSize + 1])
    else none

/-- Method `HandleCall`, on the members of the `CallInfo`; `none` for a
location list without the entry of the call target, and when a `CHECK`
fails. -/
def HandleCall (g : CodeGeneratorLLVM) (k : V8Constants) (locations : List Int)
    (is_tailcall : Bool) (tailcall_return_count : Int) (record : StackMaps.Record) :
    Option (CodeGeneratorLLVM × Int) :=
  match locations with
  | [] => none
  | call_target_reg :: rest =>
    let pc_offset := g.masm_.pc_offset k
    let reg_list := regList k rest 0
    let m1 :=
      if is_tailcall = true ∧ tailcall_return_count ≠ 0 then
        g.masm_.emit
          (MasmInstr.add_imm Register.sp Register.sp (toInt32 (tailcall_return_count * 4)))
      else g.masm_
    let m2 := if reg_list ≠ 0 then m1.emit (MasmInstr.stm_db_w Register.sp reg_list) else m1
    let m3 :=
      if !is_tailcall then m2.emit (MasmInstr.blx (Register.from_code call_target_reg))
      else m2.emit (MasmInstr.bx (Register.from_code call_target_reg))
    let table : Option (List Safepoint) :=
      if !is_tailcall then
        match definePointerSlots k g.slot_count_ record.locations [] with
        | none => none
        | some slots =>
          some (g.safepoint_table_builder_ ++ [{ pc := m3.pc_offset k, slots := slots }])
      else some g.safepoint_table_builder_
    match table with
    | none => none
    | some t =>
      if (m3.pc_offset k - pc_offset) % 4 = 0 then
        some ({ g with masm_ := m3, safepoint_table_builder_ := t },
              (m3.pc_offset k - pc_offset) / 4)
      else none

/-- Method `HandleStoreBarrier`. -/
def HandleStoreBarrier (g : CodeGeneratorLLVM) (k : V8Constants) (_r : StackMaps.Record) :
    Option (CodeGeneratorLLVM × Int) :=
  let pc_offset := g.masm_.pc_offset k
  let m1 := g.masm_.emit (MasmInstr.blx Register.ip)
  if (m1.pc_offset k - pc_offset) % 4 = 0 then
    some ({ g with masm_ := m1 }, (m1.pc_offset k - pc_offset) / 4)
  else none

/-- Method `HandleReturn`, on the members of the `ReturnInfo`. The count it
returns is the literal of the source, not a difference of offsets. -/
def HandleReturn (g : CodeGeneratorLLVM) (pop_count_is_constant : Bool) (constant : Int)
    (_r : StackMaps.Record) : CodeGeneratorLLVM × Int :=
  let instruction_count : Int := 2
  let (m1, instruction_count) :=
    if pop_count_is_constant then
      if constant ≠ 0 then
        (g.masm_.emit (MasmInstr.add_imm Register.sp Register.sp (toInt32 (constant * 4))),
         instruction_count)
      else (g.masm_, 1)
    else (g.masm_.emit (MasmInstr.add_lsl Register.sp Register.sp Register.r1 2),
          instruction_count)
  ({ g with masm_ := m1.emit (MasmInstr.bx Register.lr) }, instruction_count)

/-- Method `HandleStackMapInfo`; `none` for a type that is none of the three
cases of the switch, which reaches `UNREACHABLE()`. -/
def HandleStackMapInfo (g : CodeGeneratorLLVM) (k : V8Constants)
    (stack_map_info : StackMapInfo) (record : StackMaps.Record) :
    Option (CodeGeneratorLLVM × Int) :=
  match stack_map_info with
  | .CallInfo locations _ tailcall tailcall_return_count =>
    g.HandleCall k locations tailcall tailcall_return_count record
  | .StoreBarrierInfo => g.HandleStoreBarrier k record
  | .ReturnInfo pop_count_is_constant constant =>
    some (g.HandleReturn pop_count_is_constant constant record)
  | _ => none

end CodeGeneratorLLVM

namespace CodeGeneratorLLVM

/-- Method `ProcessRecordMap`; `none` when a `CHECK` fails or `UNREACHABLE()`
is reached. An offset that is present keeps its entry. -/
def ProcessRecordMap (g : CodeGeneratorLLVM) :
    List (Nat × List StackMaps.Record) → StackMapInfoMap → Option CodeGeneratorLLVM
  | [], _ => some g
  | (instruction_offset, records) :: rest, info_map =>
    match records with
    | [record] =>
      match info_map.lookup record.patchpointID with
      | none => none
      | some stack_map_info =>
        if stack_map_info.GetType.isPatchPoint then
          let map :=
            if g.record_reference_map_.any (fun e => e.1 = instruction_offset) then
              g.record_reference_map_
            else g.record_reference_map_ ++ [(instruction_offset, record, stack_map_info)]
          ProcessRecordMap { g with record_reference_map_ := map } rest info_map
        else none
    | _ => none

/-- The loop of `Generate` over the code section (lines 215-229).
`num_bytes` is an `unsigned` of 32 bits, `instruction_pointer` is counted in
words from the start of the section, and both arms of the body read the word
it points to; `none` is a failed `CHECK`, a read past the section, or the
end of the fuel. -/
def generateLoop (k : V8Constants) (code : List Nat) (base_offset : Int) :
    Nat → Nat → Nat → CodeGeneratorLLVM → Option CodeGeneratorLLVM
  | 0, _, _, _ => none
  | fuel + 1, num_bytes, instruction_pointer, g =>
    if num_bytes = 0 then some g
    else
      let pc_offset := g.masm_.pc_offset k - base_offset
      if (pc_offset + (num_bytes : Int)) % 2 ^ 32 ≠ ((4 * code.length : Nat) : Int) then none
      else
        match code[instruction_pointer]? with
        | none => none
        | some instruction =>
          match g.record_reference_map_.lookup pc_offset.toNat with
          | some (record, info) =>
            match HandleStackMapInfo { g with reference_instruction_ := instruction } k info
                record with
            | none => none
            | some (g1, incremental) =>
              generateLoop k code base_offset fuel
                (((num_bytes : Int) - incremental * 4) % 2 ^ 32).toNat
                (instruction_pointer + incremental.toNat) g1
          | none =>
            generateLoop k code base_offset fuel
              (((num_bytes : Int) - 1 * 4) % 2 ^ 32).toNat (instruction_pointer + 1)
              { g with masm_ := g.masm_.emit (MasmInstr.dd instruction) }

/-- Method `Generate`, up to the construction of the code object. The flag
that `sm.parse(&dv)` returns is not read (line 196). The loop gets one unit
of fuel per word of the section and one more: every turn reads a word and
moves forward. -/
def Generate (g : CodeGeneratorLLVM) (parser : StackMapsParser) (k : V8Constants)
    (state : CompilerState) : Option Code :=
  let sm :=
    match state.stackMapsSection_ with
    | some data => (parser.parse data).2
    | none => parser.unparsed
  let rm := sm.computeRecordMap
  match state.codeSectionList_ with
  | [] => none
  | code :: _ =>
    let g1 := { g with needs_frame_ := state.needs_frame_ }
    let num_bytes := 4 * code.length
    match g1.ProcessRecordMap rm state.stack_map_info_map_ with
    | none => none
    | some g2 =>
      let slot_count : Int := ((sm.stackSize / k.kPointerSize.toNat : Nat) : Int)
      if ¬ slot_count < 0x1000 then none
      else
        let g3 := { g2 with slot_count_ := slot_count }
        let base_offset := g3.masm_.pc_offset k
        match generateLoop k code base_offset (code.length + 1) num_bytes 0 g3 with
        | none => none
        | some g4 =>
          some { instructions := g4.masm_.buffer, stack_slots := g4.slot_count_,
                 safepoint_table := g4.safepoint_table_builder_, is_turbofanned := true,
                 kind := state.code_kind_ }

end CodeGeneratorLLVM

/-! ## The builder: constants and branches -/

/-- Method `constInt1` of the output. -/
def Output.constInt1 (value : Int) : LValue := LValue.const LType.int1 value

/-- The store as the builder receives it from the liveness pass, whose
`CalculateLivesIns` ends with `ResetImpls`: every extension slot is null. -/
def builderBlocksOf (bbm : BasicBlockManager LivenessBasicBlockImpl) : BuilderBlocks :=
  { bbs := bbm.bbs.map (fun b =>
      { id := b.id, predecessors := b.predecessors, successors := b.successors,
        liveins := b.liveins, deferred := b.deferred, impl := none }),
    rpo := bbm.rpo, needs_frame := bbm.needs_frame }

namespace LLVMTFBuilder

/-- Method `VisitInt32Constant` of the builder. -/
def VisitInt32Constant (b : LLVMTFBuilder) (id value : Int) : Option LLVMTFBuilder :=
  match b.current_bb_ with
  | none => none
  | some cur => b.set_value cur id (Output.constInt32 value)

/-- Method `VisitBranch` of the builder. -/
def VisitBranch (b : LLVMTFBuilder) (_id cmp btrue bfalse : Int) : Option LLVMTFBuilder :=
  let bbm := ensureBB (ensureBB b.basic_block_manager_ btrue) bfalse
  match EnsureNativeBB { b with basic_block_manager_ := bbm } btrue with
  | none => none
  | some b1 =>
    match EnsureNativeBB b1 bfalse with
    | none => none
    | some b2 =>
      match findBB b2.basic_block_manager_ btrue, findBB b2.basic_block_manager_ bfalse with
      | some bbTrue, some bbFalse =>
        let expected_value : Int :=
          if bbTrue.deferred then (if !bbFalse.deferred then 0 else -1)
          else if bbFalse.deferred then 1 else -1
        match b2.current_bb_ with
        | none => none
        | some cur =>
          match valueIn b2.basic_block_manager_ cur cmp with
          | none => none
          | some cmp_val =>
            let (o1, cmp_val1) :=
              if typeOf cmp_val = LType.intPtr then
                b2.output_.buildCast CastOp.Trunc cmp_val LType.int1
              else (b2.output_, cmp_val)
            let (o2, cmp_val2) :=
              if expected_value ≠ -1 then
                o1.buildCall Intrinsic.expect [cmp_val1, Output.constInt1 expected_value]
                  LType.int1
              else (o1, cmp_val1)
            match GetNativeBB b2.basic_block_manager_ btrue,
                GetNativeBB b2.basic_block_manager_ bfalse with
            | some native_true, some native_false =>
              EndCurrentBlock { b2 with output_ := o2.buildCondBr cmp_val2 native_true
                                                      native_false }
            | _, _ => none
      | _, _ => none

end LLVMTFBuilder

/-! ## The code generator: one turn of the loop -/

namespace CodeGeneratorLLVM

/-- One turn of the loop of `Generate` (lines 217-229) with the update of
its header: the `CHECK`, the lookup, the rewrite or the copy of one word,
then `num_bytes -= incremental * sizeof(uint32_t)` on 32 bits and
`instruction_pointer += incremental`. It gives the counter, the cursor in
words and the generator after the turn; `none` is a failed `CHECK` or a read
past the section. -/
def generateStep (k : V8Constants) (code : List Nat) (base_offset : Int)
    (num_bytes instruction_pointer : Nat) (g : CodeGeneratorLLVM) :
    Option (Nat × Nat × CodeGeneratorLLVM) :=
  let pc_offset := g.masm_.pc_offset k - base_offset
  if (pc_offset + (num_bytes : Int)) % 2 ^ 32 ≠ ((4 * code.length : Nat) : Int) then none
  else
    match code[instruction_pointer]? with
    | none => none
    | some instruction =>
      match g.record_reference_map_.lookup pc_offset.toNat with
      | some (record, info) =>
        match HandleStackMapInfo { g with reference_instruction_ := instruction } k info
            record with
        | none => none
        | some (g1, incremental) =>
          some ((((num_bytes : Int) - incremental * 4) % 2 ^ 32).toNat,
            instruction_pointer + incremental.toNat, g1)
      | none =>
        some ((((num_bytes : Int) - 1 * 4) % 2 ^ 32).toNat, instruction_pointer + 1,
          { g with masm_ := g.masm_.emit (MasmInstr.dd instruction) })

end CodeGeneratorLLVM

/-! ## The view on the stack-map section -/

/-- One call of a callback of `LLVMTFBuilder` with its arguments, for the
callbacks embedded here. -/
inductive BuilderCall
  | Block (id : Int) (is_deferred : Bool) (predecessors : List Int)
  | Goto (bid : Int)
  | Int32Constant (id value : Int)
  | Store (id : Int) (rep : MachineRepresentation) (barrier : WriteBarrierKind)
      (base offset value : Int)
  | Branch (id cmp btrue bfalse : Int)
  | Phi (id : Int) (rep : MachineRepresentation) (operands : List Int)
  | Call (id : Int) (code : Bool) (call_desc : CallDescriptor) (operands : List Int)
  | TailCall (id : Int) (code : Bool) (call_desc : CallDescriptor) (operands : List Int)
deriving DecidableEq, Repr

namespace LLVMTFBuilder

/-- The constructor (lines 340-347); the worklist is default-constructed. -/
def new (output : Output) (basic_block_manager : BuilderBlocks)
    (stack_map_info_map : StackMapInfoMap) : LLVMTFBuilder :=
  { output_ := output, basic_block_manager_ := basic_block_manager, current_bb_ := none,
    phi_rebuild_worklist_ := [], stack_map_info_map_ := stack_map_info_map,
    state_point_id_next_ := 0 }

/-- Method `VisitCall`. -/
def VisitCall (b : LLVMTFBuilder) (k : V8Constants) (id : Int) (code : Bool)
    (call_desc : CallDescriptor) (operands : List Int) : Option LLVMTFBuilder :=
  b.DoCall k id code call_desc operands false

/-- Method `VisitTailCall`. -/
def VisitTailCall (b : LLVMTFBuilder) (k : V8Constants) (id : Int) (code : Bool)
    (call_desc : CallDescriptor) (operands : List Int) : Option LLVMTFBuilder :=
  b.DoTailCall k id code call_desc operands

/-- Dispatch of one callback to its `Visit...` method; `VisitBlock` of the
builder names neither the flag nor the predecessors it is handed. -/
def Dispatch (b : LLVMTFBuilder) (k : V8Constants) : BuilderCall → Option LLVMTFBuilder
  | .Block id _ _ => b.VisitBlock id
  | .Goto bid => b.VisitGoto bid
  | .Int32Constant id value => b.VisitInt32Constant id value
  | .Store id rep barrier base offset value => b.VisitStore k id rep barrier base offset value
  | .Branch id cmp btrue bfalse => b.VisitBranch id cmp btrue bfalse
  | .Phi id rep operands => b.VisitPhi id rep operands
  | .Call id code call_desc operands => b.VisitCall k id code call_desc operands
  | .TailCall id code call_desc operands => b.VisitTailCall k id code call_desc operands

/-- The callbacks in order. -/
def DispatchAll (k : V8Constants) : List BuilderCall → LLVMTFBuilder → Option LLVMTFBuilder
  | [], b => some b
  | c :: cs, b =>
    match b.Dispatch k c with
    | none => none
    | some b1 => DispatchAll k cs b1

end LLVMTFBuilder

/-! ## Predicates on the control-flow graph -/

/-- A vector of value ids that is sorted and has no duplicates. -/
abbrev StrictlySorted (l : List Int) : Prop := l.Pairwise (· < ·)

/-- The defines set of a block; a block with a null slot has none. -/
def definesOf (b : BasicBlock LivenessBasicBlockImpl) : List Int :=
  match b.impl with
  | some i => i.defines.elems
  | none => []

/-- The phi descriptors of a block; a block with a null slot has none. -/
def phisOf (b : BasicBlock LivenessBasicBlockImpl) : List PhiDesc :=
  match b.impl with
  | some i => i.phis
  | none => []

/-- The id names a block of the store whose extension slot is set. -/
def hasImpl {I : Type} (bbm : BasicBlockManager I) (id : Int) : Bool :=
  match findBB bbm id with
  | some b => b.impl.isSome
  | none => false

/-- The pointers the worklist loop follows are valid: every successor is a
block with a liveness slot, every predecessor is a block, and a block that
was never visited (null slot) has neither live-ins nor successors. -/
def PointersValid (bbm : BasicBlockManager LivenessBasicBlockImpl) : Prop :=
  ∀ b ∈ bbm.bbs,
    (∀ s ∈ b.successors, hasImpl bbm s = true) ∧
    (∀ p ∈ b.predecessors, isBlock bbm p = true) ∧
    (b.impl = none → b.liveins = [] ∧ b.successors = [])

instance (bbm : BasicBlockManager LivenessBasicBlockImpl) : Decidable (PointersValid bbm) := by
  unfold PointersValid; infer_instance

/-- Every live-in vector of the store is sorted without duplicates, the
precondition of `std::set_union` and `std::lower_bound`. -/
def LiveinsSorted {I : Type} (bbm : BasicBlockManager I) : Prop :=
  ∀ b ∈ bbm.bbs, StrictlySorted b.liveins

instance {I : Type} (bbm : BasicBlockManager I) : Decidable (LiveinsSorted bbm) := by
  unfold LiveinsSorted; infer_instance

/-- Every id of the list names a block of the store. -/
def AllBlocks {I : Type} (bbm : BasicBlockManager I) (ids : List Int) : Prop :=
  ∀ id ∈ ids, isBlock bbm id = true

instance {I : Type} (bbm : BasicBlockManager I) (ids : List Int) :
    Decidable (AllBlocks bbm ids) := by
  unfold AllBlocks; infer_instance

/-- Value `v` reaches block `nowId` from its successor `sid`: it is in the
successor's live-in vector, or it is the source of a phi descriptor of the
successor whose predecessor is `nowId`. -/
def Contribution (bbm : BasicBlockManager LivenessBasicBlockImpl) (nowId sid v : Int) : Prop :=
  ∃ S, findBB bbm sid = some S ∧
    (v ∈ S.liveins ∨ ∃ phi ∈ phisOf S, phi.from_ = nowId ∧ phi.value = v)

/-- No block's live-in candidates meet its own defines set: no value is used
in a block before that same block defines it. -/
def NoUseBeforeDefine (bbm : BasicBlockManager LivenessBasicBlockImpl) : Prop :=
  ∀ b ∈ bbm.bbs, ∀ v ∈ b.liveins, v ∉ definesOf b

instance (bbm : BasicBlockManager LivenessBasicBlockImpl) :
    Decidable (NoUseBeforeDefine bbm) := by
  unfold NoUseBeforeDefine; infer_instance

/-- Block `s` exists and lists `p` among its predecessors. -/
def hasPredecessor {I : Type} (bbm : BasicBlockManager I) (s p : Int) : Bool :=
  match findBB bbm s with
  | some S => decide (p ∈ S.predecessors)
  | none => false

/-- Every successor edge has its predecessor edge: if `S` is a successor of
`B` then `B` is a predecessor of `S`. -/
def SuccessorsHavePredecessors {I : Type} (bbm : BasicBlockManager I) : Prop :=
  ∀ b ∈ bbm.bbs, ∀ s ∈ b.successors, hasPredecessor bbm s b.id = true

instance {I : Type} (bbm : BasicBlockManager I) :
    Decidable (SuccessorsHavePredecessors bbm) := by
  unfold SuccessorsHavePredecessors; infer_instance

/-! ## Invariants of the worklist loop -/

/-- Every live-in is an initial live-in of its block or is contributed by a
successor in the current store. -/
def Justified (bbm0 bbm : BasicBlockManager LivenessBasicBlockImpl) : Prop :=
  ∀ id b, findBB bbm id = some b → ∀ v ∈ b.liveins,
    (∃ b0, findBB bbm0 id = some b0 ∧ v ∈ b0.liveins) ∨
      ∃ sid ∈ b.successors, Contribution bbm id sid v

/-- Recomputing the block changes nothing. -/
def Stable (bbm : BasicBlockManager LivenessBasicBlockImpl) (id : Int) : Prop :=
  ∀ now, findBB bbm id = some now → recompute bbm now = some now.liveins

/-- Every block of the reverse postorder is waiting on the worklist or stable. -/
def PendingOrStable (bbm : BasicBlockManager LivenessBasicBlockImpl) (wl : List Int) : Prop :=
  ∀ id ∈ bbm.rpo, id ∈ wl ∨ Stable bbm id

/-! ## Termination measure of the worklist loop -/

/-- All value ids the loop can ever place in a live-in vector: the initial
live-ins and the phi sources of every block. -/
def valueUniverse (bbm : BasicBlockManager LivenessBasicBlockImpl) : List Int :=
  bbm.bbs.flatMap (fun b => b.liveins ++ (phisOf b).map (fun phi => phi.value))

/-- Every live-in and every phi source of the store is taken from `U`. -/
def InUniverse (U : List Int) (bbm : BasicBlockManager LivenessBasicBlockImpl) : Prop :=
  ∀ b ∈ bbm.bbs, (∀ v ∈ b.liveins, v ∈ U) ∧ (∀ phi ∈ phisOf b, phi.value ∈ U)

/-- Rank of one block: a block whose live-ins still meet its defines has to
be cleaned once, after that its vector can only grow, up to `N` elements. -/
def blockMeasure (N : Nat) (b : BasicBlock LivenessBasicBlockImpl) : Nat :=
  (if ∀ v ∈ b.liveins, v ∉ definesOf b then 0 else N + 1) + (N - b.liveins.length)

/-- Sum of the block ranks. -/
def storeMeasure (N : Nat) (bbs : List (BasicBlock LivenessBasicBlockImpl)) : Nat :=
  (bbs.map (blockMeasure N)).sum

/-- Total number of predecessor edges. -/
def predecessorCount (bbm : BasicBlockManager LivenessBasicBlockImpl) : Nat :=
  (bbm.bbs.map (fun b => b.predecessors.length)).sum

/-- A number of iterations that always suffices for the worklist loop started
on `worklist`. -/
def fuelBound (bbm : BasicBlockManager LivenessBasicBlockImpl) (worklist : List Int) : Nat :=
  storeMeasure (valueUniverse bbm).length bbm.bbs * (predecessorCount bbm + 1) + worklist.length

/-! ## Invariants of the visitation pass -/

/-- Every block of `bbm'` has an empty live-in vector or has the id and the
live-in vector of a block of `bbm`. -/
def LiveinsKept {I : Type} (bbm bbm' : BasicBlockManager I) : Prop :=
  ∀ b' ∈ bbm'.bbs, b'.liveins = [] ∨ ∃ b ∈ bbm.bbs, b.id = b'.id ∧ b.liveins = b'.liveins

/-- The live-in vectors are sorted, they are empty for every block that has
not been ended (never announced, or the current block), and the current
block has been announced. -/
def VisitInvariant (v : LivenessAnalysisVisitor) : Prop :=
  (∀ b ∈ v.basic_block_manager_.bbs,
    StrictlySorted b.liveins ∧
      ((b.id ∉ v.basic_block_manager_.rpo ∨ v.current_basic_block_ = some b.id) →
        b.liveins = [])) ∧
    ∀ cur, v.current_basic_block_ = some cur → cur ∈ v.basic_block_manager_.rpo

/-! ## Edges of the control-flow graph -/

/-- Block `b2` is in the successor list of block `b1`. -/
def SuccessorEdge {I : Type} (bbm : BasicBlockManager I) (b1 b2 : Int) : Prop :=
  ∃ b, findBB bbm b1 = some b ∧ b2 ∈ b.successors

/-- Block `b1` is in the predecessor list of block `b2`. -/
def PredecessorEdge {I : Type} (bbm : BasicBlockManager I) (b1 b2 : Int) : Prop :=
  ∃ b, findBB bbm b2 = some b ∧ b1 ∈ b.predecessors

/-- The edge lists are mutually consistent: `b2` is a successor of `b1` if
and only if `b1` is a predecessor of `b2`. -/
def EdgesConsistent {I : Type} (bbm : BasicBlockManager I) : Prop :=
  ∀ b1 b2, SuccessorEdge bbm b1 b2 ↔ PredecessorEdge bbm b1 b2

/-- The current block after a callback, when the callback is accepted. -/
def currentAfter : Option Int → Callback → Option Int
  | _, .Block id _ _ => some id
  | _, .Goto _ => none
  | _, .Branch _ _ _ _ => none
  | _, .TailCall _ _ _ _ => none
  | cur, _ => cur

/-- The jumps a callback issues from the current block. -/
def jumpsOf : Option Int → Callback → List (Int × Int)
  | some cur, .Goto bid => [(cur, bid)]
  | some cur, .Branch _ _ btrue bfalse => [(cur, btrue), (cur, bfalse)]
  | _, _ => []

/-- The jumps `(block, target)` issued by the `VisitGoto` and `VisitBranch`
callbacks of a sequence that starts with the given current block. -/
def jumpEdges : Option Int → List Callback → List (Int × Int)
  | _, [] => []
  | cur, c :: cs => jumpsOf cur c ++ jumpEdges (currentAfter cur c) cs

/-- The edges `(predecessor, block)` announced by the `VisitBlock` callbacks
of a sequence. -/
def announcedEdges : List Callback → List (Int × Int)
  | [] => []
  | .Block id _ predecessors :: cs =>
    predecessors.map (fun p => (p, id)) ++ announcedEdges cs
  | _ :: cs => announcedEdges cs

/-! ## Phi nodes built by the merge -/

/-- The entry `MergePredecessors` adds to a phi for predecessor `pred`: the
predecessor's binding of the live value and its continuation block; `none`
when the binding is missing. -/
def phiEntry (bbm : BuilderBlocks) (live pred : Int) : Option (LValue × LBasicBlock) :=
  match valueIn bbm pred live, GetNativeBBContinuation bbm pred with
  | some value, some native => some (value, native)
  | _, _ => none

/-- The predecessors that are started, in the order of the list. -/
def startedPredecessors (bbm : BuilderBlocks) (preds : List Int) : List Int :=
  preds.filter (fun p => IsBBStartedToBuild bbm p)

/-- One deferred record `(predecessor, value id, phi)` for every predecessor
that is not started, in the order of the list. -/
def deferredRecords (bbm : BuilderBlocks) (preds : List Int) (live : Int) (phi : LValue) :
    List NotMergedPhiDesc :=
  (preds.filter (fun p => !IsBBStartedToBuild bbm p)).map
    (fun p => { pred := p, value := live, phi := phi })

/-- Two stores agree in everything the merge reads: bindings, native blocks
and build state of every block. -/
def SameReads (bbm bbm' : BuilderBlocks) : Prop :=
  ∀ j, (GetImpl bbm' j).map (fun i => (i.values_, i.native_bb, i.continuation, i.started, i.ended))
    = (GetImpl bbm j).map (fun i => (i.values_, i.native_bb, i.continuation, i.started, i.ended))

/-- The handle is the result of an emitted phi instruction. -/
def IsPhi (o : Output) (v : LValue) : Prop :=
  ∃ e ∈ o.instructions, e.result = v ∧ e.instr = Instr.phi

/-- The handle is not one that the output has yet to hand out: an instruction
result has a number below `nextValue`. -/
def isKnown (o : Output) : LValue → Bool
  | .inst n _ => decide (n < o.nextValue)
  | _ => true

/-- The deferred records of a block, `[]` for a null slot. -/
def deferredOf (bbm : BuilderBlocks) (id : Int) : List NotMergedPhiDesc :=
  match GetImpl bbm id with
  | some impl => impl.not_merged_phis
  | none => []

/-- No `addIncoming` call and no deferred record of block `id` names a phi
handle that the output has yet to hand out. -/
def HandlesFresh (b : LLVMTFBuilder) (id : Int) : Prop :=
  (∀ e ∈ b.output_.incoming, isKnown b.output_ e.phi = true) ∧
    ∀ r ∈ deferredOf b.basic_block_manager_ id, isKnown b.output_ r.phi = true

instance (b : LLVMTFBuilder) (id : Int) : Decidable (HandlesFresh b id) := by
  unfold HandlesFresh; infer_instance

/-- What the merge of one live-in of block `id` may change between the
states `s` and `s1`: the slot of block `id` only, there no binding other
than that of `live`; handles, `addIncoming` calls, deferred records and
instructions are only added, the new calls and records naming new handles. -/
structure LiveStep (id : Int) (lives : List Int) (s s1 : LLVMTFBuilder) : Prop where
  others : ∀ j, j ≠ id → GetImpl s1.basic_block_manager_ j = GetImpl s.basic_block_manager_ j
  values : ∀ k, k ∉ lives →
    valueIn s1.basic_block_manager_ id k = valueIn s.basic_block_manager_ id k
  next : s.output_.nextValue ≤ s1.output_.nextValue
  incoming : ∃ X, s1.output_.incoming = s.output_.incoming ++ X ∧
    ∀ e ∈ X, ∃ n t, e.phi = LValue.inst n t ∧ s.output_.nextValue ≤ n ∧
      n < s1.output_.nextValue
  deferred : ∃ R, deferredOf s1.basic_block_manager_ id =
      deferredOf s.basic_block_manager_ id ++ R ∧
    ∀ r ∈ R, ∃ n t, r.phi = LValue.inst n t ∧ s.output_.nextValue ≤ n ∧
      n < s1.output_.nextValue
  instructions : ∀ e ∈ s.output_.instructions, e ∈ s1.output_.instructions
  worklist : s1.phi_rebuild_worklist_ = s.phi_rebuild_worklist_

/-- The result of the merge for the live-in `live` of block `id`, started
in state `s` and seen in state `s'`: a value that is not tagged in the
reference predecessor is bound as it is there; for a tagged one the block
binds a phi created by the merge, the phi has one incoming entry for each
started predecessor, in the order of the predecessor list, carrying that
predecessor's binding and continuation block, and the block holds one
deferred record for each predecessor that is not started. -/
def LiveMerged (preds : List Int) (ref_pred id live : Int) (s s' : LLVMTFBuilder) : Prop :=
  ∃ ref_value, valueIn s.basic_block_manager_ ref_pred live = some ref_value ∧
    (typeOf ref_value ≠ LType.taggedType →
      valueIn s'.basic_block_manager_ id live = some ref_value) ∧
    (typeOf ref_value = LType.taggedType →
      ∃ n, s.output_.nextValue ≤ n ∧ n < s'.output_.nextValue ∧
        valueIn s'.basic_block_manager_ id live = some (LValue.inst n LType.taggedType) ∧
        IsPhi s'.output_ (LValue.inst n LType.taggedType) ∧
        (s'.output_.incomingOf (LValue.inst n LType.taggedType)).map some =
          (startedPredecessors s.basic_block_manager_ preds).map
            (phiEntry s.basic_block_manager_ live) ∧
        (deferredOf s'.basic_block_manager_ id).filter
            (fun r => r.phi = LValue.inst n LType.taggedType) =
          deferredRecords s.basic_block_manager_ preds live (LValue.inst n LType.taggedType))

/-! ## The phi fixup -/

/-- The value `EnsurePhiInput` hands to a phi of type `type` for a binding
`val`, seen in the output `o`: `val` itself when it has that type, else the
result, of that type, of a cast of `val` that the output holds. -/
def IsPhiInput (o : Output) (val : LValue) (type : LType) (v : LValue) : Prop :=
  (typeOf val = type ∧ v = val) ∨
    (typeOf val ≠ type ∧ typeOf v = type ∧
      ∃ e ∈ o.instructions, e.result = v ∧ ∃ op, e.instr = Instr.cast op val)

/-- The `addIncoming` call `e` completes the deferred record `r`: it names
the record's phi and the continuation block of the record's predecessor, and
carries the phi input for the predecessor's binding of the recorded value
id. The bindings and blocks are read in the store `bbm`, the casts in the
output `o`. -/
def Completes (bbm : BuilderBlocks) (o : Output) (r : NotMergedPhiDesc) (e : Incoming) : Prop :=
  e.phi = r.phi ∧ GetNativeBBContinuation bbm r.pred = some e.block ∧
    ∃ val, valueIn bbm r.pred r.value = some val ∧ IsPhiInput o val (typeOf r.phi) e.value

/-- The deferred records in the order `ProcessPhiWorkList` meets them: those
of the first block of the worklist, then those of the following blocks, a
block met again having none left. -/
def pendingRecords (bbm : BuilderBlocks) : List Int → List NotMergedPhiDesc
  | [] => []
  | id :: ids =>
    deferredOf bbm id ++
      pendingRecords (updateImpl bbm id (fun i => { i with not_merged_phis := [] })) ids

/-- Every block that holds a deferred record is on the worklist. -/
def DeferredQueued (b : LLVMTFBuilder) : Prop :=
  ∀ bb ∈ b.basic_block_manager_.bbs,
    deferredOf b.basic_block_manager_ bb.id ≠ [] → bb.id ∈ b.phi_rebuild_worklist_

instance (b : LLVMTFBuilder) : Decidable (DeferredQueued b) := by
  unfold DeferredQueued; infer_instance

/-! ## Register assignment of the call lowering -/

/-- The registers that are not taken among the `count` registers from `i` on,
in increasing order. -/
def freeFrom (set : List Bool) : Nat → Nat → List Nat
  | 0, _ => []
  | count + 1, i =>
    if set.getD i false then freeFrom set count (i + 1) else i :: freeFrom set count (i + 1)

/-- The registers `FindNextReg` can still return, in the order it returns
them. -/
def CallOperandResolver.free (r : CallOperandResolver) : List Nat :=
  if r.next_reg_ < 0 then []
  else freeFrom r.allocatable_register_set_
    (kV8CCRegisterParameterCount - r.next_reg_.toNat) r.next_reg_.toNat

/-- The free registers of a call: the registers below 12, in increasing
order, that the mapping gives to no operand and that are neither the root
nor the frame pointer register. -/
def freeRegisters (registers_for_operands : List Int) : List Nat :=
  (List.range kV8CCRegisterParameterCount).filter (fun r =>
    decide ((r : Int) ∉ registers_for_operands) && decide (r ≠ kRootReg) && decide (r ≠ kFPReg))

/-- The operands without a fixed register (mapping entry negative), in their
original order. -/
def stackOperands : List Int → List Int → List Int
  | reg :: regs, operand :: operands =>
    if reg < 0 then operand :: stackOperands regs operands else stackOperands regs operands
  | _, _ => []

/-- The operand list after a queue of values was served from the free
registers: a value that gets a register goes to the slot of the register, a
value that gets none is appended. -/
def assignQueue : List Nat → List LValue → List LValue → List LValue
  | _, [], values => values
  | [], q :: queue, values => assignQueue [] queue (values ++ [q])
  | f :: free, q :: queue, values => assignQueue free queue (values.set f q)

/-- The locations of a queue of `count` values served from the free
registers: the registers in order while they last, then -1. -/
def queueLocations (free : List Nat) (count : Nat) : List Int :=
  (free.map (fun r => (r : Int)) ++ List.replicate (count - free.length) (-1)).take count

/-! ## Values across a call -/

/-- The value is the result of a relocate call on the statepoint that the
output holds. -/
def IsRelocated (o : Output) (statepoint_ret v : LValue) : Prop :=
  ∃ e ∈ o.instructions, e.result = v ∧ ∃ index : Int,
    e.instr = Instr.call Intrinsic.gcRelocate
      [statepoint_ret, Output.constInt32 index, Output.constInt32 index]

/-- The bindings, in block `cur`, of the given value ids that are bound to a
tagged value, in the order of the ids. -/
def taggedBindings (bbm : BuilderBlocks) (cur : Int) (ids : List Int) : List LValue :=
  ids.filterMap (fun nid =>
    match valueIn bbm cur nid with
    | some v => if typeOf v = LType.taggedType then some v else none
    | none => none)

/-! ## The write barrier -/

/-- The instruction belongs to the memory access itself: a cast, an address
computation or the store. -/
def Instr.isAccess : Instr → Bool
  | .cast _ _ => true
  | .gep _ _ => true
  | .store _ _ => true
  | _ => false

/-- The emitted instructions are a page-flag check: the flags word of the
page of `base` is loaded and tested against `mask`, and the branch is taken
to `taken` when no flag of the mask is set. -/
def IsPageFlagCheck (k : V8Constants) (base : LValue) (mask : Int) (taken : LBasicBlock) :
    List Emitted → Prop
  | [e1, e2, e3, e4, e5, e6, e7, e8] =>
    e1.instr = Instr.cast CastOp.PtrToInt base ∧
    e2.instr = Instr.and e1.result (Output.constIntPtr (-(2 ^ k.kPageSizeBits))) ∧
    e3.instr = Instr.cast CastOp.IntToPtr e2.result ∧
    e4.instr = Instr.gep e3.result (Output.constInt32 k.kFlagsOffset) ∧
    e5.instr = Instr.load e4.result ∧
    e6.instr = Instr.and e5.result (Output.constInt32 mask) ∧
    e7.instr = Instr.icmpEq e6.result Output.int32Zero ∧
    ∃ fall, e8.instr = Instr.condBr e7.result taken fall
  | _ => False

/-- The emitted instructions are a small-integer check: the low bit of
`value` is tested, and the branch is taken to `taken` when it is clear. -/
def IsSmiCheck (value : LValue) (taken : LBasicBlock) : List Emitted → Prop
  | [e1, e2, e3, e4] =>
    e1.instr = Instr.cast CastOp.PtrToInt value ∧
    e2.instr = Instr.and e1.result Output.intPtrOne ∧
    e3.instr = Instr.icmpEq e2.result Output.int32Zero ∧
    ∃ fall, e4.instr = Instr.condBr e3.result taken fall
  | _ => False

/-- The instruction is the test of the low bit that a small-integer check
makes. -/
def Instr.isSmiTest : Instr → Bool
  | .and _ rhs => rhs = Output.intPtrOne
  | _ => false

/-! ## The build state of a block -/

/-- The build state of a block's slot, read from its two flags; a slot that
is ended and not started is in none of the three states. -/
inductive BuildState
  | NotStarted | Started | Ended
deriving DecidableEq, Repr

/-- The build state a slot is in. -/
def buildState (impl : LLVMTFBuilderBasicBlockImpl) : Option BuildState :=
  match impl.started, impl.ended with
  | false, false => some BuildState.NotStarted
  | true, false => some BuildState.Started
  | true, true => some BuildState.Ended
  | false, true => none

/-- The slots a block can come to hold: the slot as constructed, and from a
slot it can hold the results of `StartBuild` and of `EndBuild` and every slot
with the same two flags (the other members are written freely). -/
inductive BuildReachable : LLVMTFBuilderBasicBlockImpl → Prop
  | fresh : BuildReachable LLVMTFBuilderBasicBlockImpl.fresh
  | start {i i2 : LLVMTFBuilderBasicBlockImpl} :
      BuildReachable i → i.StartBuild = some i2 → BuildReachable i2
  | stop {i i2 : LLVMTFBuilderBasicBlockImpl} :
      BuildReachable i → i.EndBuild = some i2 → BuildReachable i2
  | other {i i2 : LLVMTFBuilderBasicBlockImpl} :
      BuildReachable i → i2.started = i.started → i2.ended = i.ended → BuildReachable i2

/-! ## References and defines of one block -/

/-- The callback is one of the value-producing operations `Load`, `Store`,
`BitcastWordToTagged`, a binary operation or comparison, or `Call`. -/
def Callback.isValueOperation : Callback → Bool
  | .Load _ _ _ _ _ => true
  | .Store _ _ _ _ _ _ => true
  | .BitcastWordToTagged _ _ => true
  | .Binary _ _ _ _ => true
  | .Call _ _ _ _ => true
  | _ => false

/-- The result id of a value-producing operation; a tail call has none. -/
def Callback.resultOf : Callback → Option Int
  | .Load id _ _ _ _ => some id
  | .Store id _ _ _ _ _ => some id
  | .BitcastWordToTagged id _ => some id
  | .Binary _ id _ _ => some id
  | .Call id _ _ _ => some id
  | _ => none

/-- The operand ids of an operation that the liveness pass records: the base
of a load, the base and the value of a store (the offsets are not recorded),
the operand of a bitcast, both operands of a binary operation, the operands
of a call or tail call. -/
def Callback.recordedOperands : Callback → List Int
  | .Load _ _ _ base _ => [base]
  | .Store _ _ _ base _ value => [base, value]
  | .BitcastWordToTagged _ e => [e]
  | .Binary _ _ e1 e2 => [e1, e2]
  | .Call _ _ _ operands => operands
  | .TailCall _ _ _ operands => operands
  | _ => []

/-- Value `x` is a recorded operand of an operation of the sequence that
does not itself define `x` and is not preceded in the sequence by an
operation that defines `x`. -/
def UsedBeforeDefined (ops : List Callback) (x : Int) : Prop :=
  ∃ pre c post, ops = pre ++ c :: post ∧ x ∈ c.recordedOperands ∧ c.resultOf ≠ some x ∧
    ∀ d ∈ pre, d.resultOf ≠ some x

/-- The live-ins that a call tracks: the value ids of the list, in order,
that are not the call's own id and are bound to a tagged value in block
`cur`. -/
def trackedIds (bbm : BuilderBlocks) (cur id : Int) (liveins : List Int) : List Int :=
  liveins.filter (fun l =>
    decide (l ≠ id) &&
      match valueIn bbm cur l with
      | some v => decide (typeOf v = LType.taggedType)
      | none => false)

/-- The states the loop of `Generate` goes through from the state `s0`: the
counter `num_bytes`, the cursor in words and the generator at the start of a
turn or at the exit. A turn is taken when the counter is not 0. -/
inductive LoopReaches (k : V8Constants) (code : List Nat) (base_offset : Int)
    (s0 : Nat × Nat × CodeGeneratorLLVM) : Nat × Nat × CodeGeneratorLLVM → Prop
  | start : LoopReaches k code base_offset s0 s0
  | turn (s s1 : Nat × Nat × CodeGeneratorLLVM) :
      LoopReaches k code base_offset s0 s → s.1 ≠ 0 →
      CodeGeneratorLLVM.generateStep k code base_offset s.1 s.2.1 s.2.2 = some s1 →
      LoopReaches k code base_offset s0 s1

/-- Every rewrite fits: a record reference registered at the offset of the
word `ip` of the section is rewritten to no more instructions than the
section has from that word on. -/
def RewritesFit (k : V8Constants) (code : List Nat)
    (map : List (Nat × StackMaps.Record × StackMapInfo)) : Prop :=
  ∀ (ip : Nat) (record : StackMaps.Record) (info : StackMapInfo),
    ip < code.length → map.lookup (4 * ip) = some (record, info) →
    ∀ (g g1 : CodeGeneratorLLVM) (incremental : Int),
      g.HandleStackMapInfo k info record = some (g1, incremental) →
      ip + incremental.toNat ≤ code.length

/-- Every rewrite is exact: the count a rewrite of a registered record
reference returns is the count of the instructions it emitted. -/
def RewritesExact (k : V8Constants)
    (map : List (Nat × StackMaps.Record × StackMapInfo)) : Prop :=
  ∀ (p : Nat) (record : StackMaps.Record) (info : StackMapInfo),
    map.lookup p = some (record, info) →
    ∀ (g g1 : CodeGeneratorLLVM) (incremental : Int),
      g.HandleStackMapInfo k info record = some (g1, incremental) →
      g1.masm_.pc_offset k - g.masm_.pc_offset k = 4 * incremental

/-- The emitted instructions end with a conditional branch to `taken`, with
the fall-through `fall`. -/
def EndsWithCondBr (c : List Emitted) (taken fall : LBasicBlock) : Prop :=
  ∃ e cond, c.getLast? = some e ∧ e.instr = Instr.condBr cond taken fall

/-! ## Sequences of callbacks of the builder -/

/-- A slot that is started has its native block. -/
def StartedNative (bbm : BuilderBlocks) : Prop :=
  ∀ j impl, GetImpl bbm j = some impl → impl.started = true → impl.native_bb.isSome = true

/-- What holds of the builder between callbacks: no `addIncoming` call and no
deferred record names a handle that the output has yet to hand out, every
block that holds a deferred record is on the worklist, and every started slot
has its native block. -/
structure BuildInv (s : LLVMTFBuilder) : Prop where
  incoming : ∀ e ∈ s.output_.incoming, isKnown s.output_ e.phi = true
  deferred : ∀ j, ∀ r ∈ deferredOf s.basic_block_manager_ j, isKnown s.output_ r.phi = true
  queued : ∀ j, deferredOf s.basic_block_manager_ j ≠ [] → j ∈ s.phi_rebuild_worklist_
  native : StartedNative s.basic_block_manager_

/-- What callbacks change between the states `s` and `s1`: handles,
instructions, `addIncoming` calls, deferred records and worklist entries are
only added; the new calls and records name new handles, and a block that
gets a record is on the worklist; the slot of a block that was started and
not current is untouched, and the block is not current afterwards. -/
structure BuildStep (s s1 : LLVMTFBuilder) : Prop where
  next : s.output_.nextValue ≤ s1.output_.nextValue
  incoming : ∃ X, s1.output_.incoming = s.output_.incoming ++ X ∧
    ∀ e ∈ X, ∃ n t, e.phi = LValue.inst n t ∧ s.output_.nextValue ≤ n ∧
      n < s1.output_.nextValue
  deferred : ∀ j, ∃ R, deferredOf s1.basic_block_manager_ j =
      deferredOf s.basic_block_manager_ j ++ R ∧
    (∀ r ∈ R, ∃ n t, r.phi = LValue.inst n t ∧ s.output_.nextValue ≤ n ∧
      n < s1.output_.nextValue) ∧
    (R ≠ [] → j ∈ s1.phi_rebuild_worklist_)
  worklist : ∃ W, s1.phi_rebuild_worklist_ = s.phi_rebuild_worklist_ ++ W
  frame : ∀ P, IsBBStartedToBuild s.basic_block_manager_ P = true → s.current_bb_ ≠ some P →
    GetImpl s1.basic_block_manager_ P = GetImpl s.basic_block_manager_ P ∧
      s1.current_bb_ ≠ some P
  instructions : ∀ e ∈ s.output_.instructions, e ∈ s1.output_.instructions

/-- What an emitting method changes in the output: handles and instructions
are only added, no `addIncoming` call is made. -/
structure OutStep (o o1 : Output) : Prop where
  next : o.nextValue ≤ o1.nextValue
  incoming : o1.incoming = o.incoming
  instructions : ∀ e ∈ o.instructions, e ∈ o1.instructions

/-- What a callback that builds no phi changes between the states `s` and
`s1`: the output as by emitting methods, no deferred record, not the
worklist; the slot of a block that was started and not current is untouched;
the current block stays or there is none. -/
structure QuietStep (s s1 : LLVMTFBuilder) : Prop where
  out : OutStep s.output_ s1.output_
  worklist : s1.phi_rebuild_worklist_ = s.phi_rebuild_worklist_
  deferred : ∀ j, deferredOf s1.basic_block_manager_ j = deferredOf s.basic_block_manager_ j
  frame : ∀ P, IsBBStartedToBuild s.basic_block_manager_ P = true → s.current_bb_ ≠ some P →
    GetImpl s1.basic_block_manager_ P = GetImpl s.basic_block_manager_ P
  current : s1.current_bb_ = s.current_bb_ ∨ s1.current_bb_ = none
  native : StartedNative s1.basic_block_manager_

/-- What the loops of the merge and of `VisitPhi` change between the states
`s` and `s1`: the slot of block `id` only, there neither the build state nor
the native block; handles, instructions, `addIncoming` calls and deferred
records of the block are only added, the new calls and records naming new
handles. -/
structure SlotStep (id : Int) (s s1 : LLVMTFBuilder) : Prop where
  others : ∀ j, j ≠ id → GetImpl s1.basic_block_manager_ j = GetImpl s.basic_block_manager_ j
  flags : (GetImpl s1.basic_block_manager_ id).map (fun i => (i.started, i.native_bb)) =
    (GetImpl s.basic_block_manager_ id).map (fun i => (i.started, i.native_bb))
  current : s1.current_bb_ = s.current_bb_
  next : s.output_.nextValue ≤ s1.output_.nextValue
  incoming : ∃ X, s1.output_.incoming = s.output_.incoming ++ X ∧
    ∀ e ∈ X, ∃ n t, e.phi = LValue.inst n t ∧ s.output_.nextValue ≤ n ∧
      n < s1.output_.nextValue
  deferred : ∃ R, deferredOf s1.basic_block_manager_ id =
      deferredOf s.basic_block_manager_ id ++ R ∧
    ∀ r ∈ R, ∃ n t, r.phi = LValue.inst n t ∧ s.output_.nextValue ≤ n ∧
      n < s1.output_.nextValue
  instructions : ∀ e ∈ s.output_.instructions, e ∈ s1.output_.instructions
  worklist : s1.phi_rebuild_worklist_ = s.phi_rebuild_worklist_

/-! ## Concrete inputs -/

/-- A visited block of the liveness pass, `predecessors`, `successors`,
`liveins`, then the defines and the phi descriptors of its slot. -/
def livenessBlock (id : Int) (predecessors successors liveins : List Int) (defines : StdSet)
    (phis : List PhiDesc) : BasicBlock LivenessBasicBlockImpl :=
  { id := id, predecessors := predecessors, successors := successors, liveins := liveins,
    deferred := false, impl := some { phis := phis, defines := defines } }

/-- Callbacks for two blocks that jump to each other; block 0 uses value 7
(as operand of the addition 5) before it defines 7. -/
def useBeforeDefineCallbacks : List Callback :=
  [.Block 0 false [1], .Binary .Int32Add 5 7 7, .Int32Constant 7 0, .Goto 1,
   .Block 1 false [0], .Goto 0]

/-- The store the visitation pass builds from `useBeforeDefineCallbacks`. -/
def useBeforeDefineCFG : BasicBlockManager LivenessBasicBlockImpl :=
  { bbs := [livenessBlock 0 [1] [1] [7] ((StdSet.empty.insert 5).insert 7) [],
            livenessBlock 1 [0] [0] [] StdSet.empty []],
    rpo := [0, 1] }

/-- A loop `0 -> 1 -> 2 -> 1` with an exit `2 -> 3`: block 1 has a phi
`10 = phi(4 from 0, 11 from 2)`, block 2 defines 11 from 10 and 6, block 3
uses 10 and 8; value 4 is defined in block 0, values 6 and 8 nowhere in these
blocks. -/
def loopCFG : BasicBlockManager LivenessBasicBlockImpl :=
  { bbs := [livenessBlock 0 [] [1] [] (StdSet.empty.insert 4) [],
            livenessBlock 1 [0, 2] [2] [] (StdSet.empty.insert 10)
              [{ from_ := 0, value := 4 }, { from_ := 2, value := 11 }],
            livenessBlock 2 [1] [1, 3] [6, 10] (StdSet.empty.insert 11) [],
            livenessBlock 3 [2] [] [8, 10] StdSet.empty []],
    rpo := [0, 1, 2, 3] }

/-- A single block without successors whose live-in candidates are `[7]`. -/
def singleBlockCFG : BasicBlockManager LivenessBasicBlockImpl :=
  { bbs := [livenessBlock 0 [] [] [7] StdSet.empty []], rpo := [0] }

/-- Callbacks in which block 0 jumps to block 1 although block 1 is announced
without predecessors; block 2 uses value 7. -/
def unannouncedEdgeCallbacks : List Callback :=
  [.Block 1 false [], .Goto 2,
   .Block 2 false [1], .Binary .Int32Add 9 7 7, .TailCall 12 false [] [],
   .Block 0 false [], .Goto 1]

/-- Callbacks that announce block 0 twice: the first visit references 7, the
second references 3. -/
def revisitCallbacks : List Callback :=
  [.Block 0 false [], .Binary .Int32Add 5 7 7, .TailCall 6 false [] [],
   .Block 0 false [], .TailCall 8 false [] [3]]

/-- Callbacks in which block 0 jumps to a block 1 that is never announced. -/
def danglingGotoCallbacks : List Callback :=
  [.Block 0 false [], .Goto 1]

/-- Callbacks for a diamond `0 -> {1, 2} -> 3` in which every block is
announced with exactly the blocks that jump to it. -/
def diamondCallbacks : List Callback :=
  [.Block 0 false [], .Int32Constant 4 1, .Parameter 5 0, .Branch 6 4 1 2,
   .Block 1 false [0], .Binary .Int32Add 7 5 5, .Goto 3,
   .Block 2 true [0], .Binary .Int32Sub 8 5 4, .Goto 3,
   .Block 3 false [1, 2], .Phi 9 .kWord32 [7, 8], .TailCall 10 false [] [9, 5]]

/-- The slot of a block that has been built: started and ended, with the
given bindings and native block `n`. -/
def builtImpl (values : List (Int × LValue)) (n : LBasicBlock) : LLVMTFBuilderBasicBlockImpl :=
  { not_merged_phis := [], values_ := values, native_bb := some n, continuation := some n,
    started := true, ended := true }

/-- A block of the builder pass. -/
def builderBlock (id : Int) (predecessors successors liveins : List Int)
    (impl : Option LLVMTFBuilderBasicBlockImpl) : BasicBlock LLVMTFBuilderBasicBlockImpl :=
  { id := id, predecessors := predecessors, successors := successors, liveins := liveins,
    deferred := false, impl := impl }

/-- An output in which two values and two native blocks exist. -/
def outputAfterTwoBlocks : Output :=
  { nextValue := 2, nextBlock := 2, position := Position.unset, instructions := [],
    incoming := [], prologue := 100 }

/-- Blocks 0 and 1 are built and bind value 7 to the tagged values 0 and 1;
block 2 has both as predecessors, live-in 7 and successor 3, where 7 is live
as well. -/
def joinState : LLVMTFBuilder :=
  { output_ := outputAfterTwoBlocks,
    basic_block_manager_ :=
      { bbs := [builderBlock 0 [] [2] [] (some (builtImpl [(7, .inst 0 .taggedType)] 0)),
                builderBlock 1 [] [2] [] (some (builtImpl [(7, .inst 1 .taggedType)] 1)),
                builderBlock 2 [0, 1] [3] [7] none,
                builderBlock 3 [2] [] [7] none],
        rpo := [0, 1, 2, 3] },
    current_bb_ := none, phi_rebuild_worklist_ := [] }

/-- The slot of a block right after `StartBuild`: started, not ended, no
bindings, native block `n`. -/
def startedImpl (n : LBasicBlock) : LLVMTFBuilderBasicBlockImpl :=
  { not_merged_phis := [], values_ := [], native_bb := some n, continuation := some n,
    started := true, ended := false }

/-- An output in which two values and three native blocks exist, positioned
at the end of native block 2. -/
def outputInThirdBlock : Output :=
  { nextValue := 2, nextBlock := 3, position := Position.atEnd 2, instructions := [],
    incoming := [], prologue := 100 }

/-- Block 0 is built and binds value 7 to the tagged value 0 and value 8 to
an integer; block 1, just started, has it as only predecessor, with live-ins
7 and 8. -/
def chainState : LLVMTFBuilder :=
  { output_ := outputInThirdBlock,
    basic_block_manager_ :=
      { bbs := [builderBlock 0 [] [1] []
                  (some (builtImpl [(8, .inst 1 .int32), (7, .inst 0 .taggedType)] 0)),
                builderBlock 1 [0] [] [7, 8] (some (startedImpl 2))],
        rpo := [0, 1] },
    current_bb_ := some 1, phi_rebuild_worklist_ := [] }

/-- The state `joinState` after `StartBuild` of block 2. -/
def joinStartedState : LLVMTFBuilder :=
  { output_ := outputInThirdBlock,
    basic_block_manager_ :=
      { bbs := [builderBlock 0 [] [2] [] (some (builtImpl [(7, .inst 0 .taggedType)] 0)),
                builderBlock 1 [] [2] [] (some (builtImpl [(7, .inst 1 .taggedType)] 1)),
                builderBlock 2 [0, 1] [3] [7] (some (startedImpl 2)),
                builderBlock 3 [2] [] [7] none],
        rpo := [0, 1, 2, 3] },
    current_bb_ := some 2, phi_rebuild_worklist_ := [] }

/-- Block 0 is built and binds value 7 to a tagged value and value 8 to an
integer; block 1, just started, is a loop header with predecessors 0 and
block 2, which is not started; both values are live-in. -/
def loopHeaderState : LLVMTFBuilder :=
  { output_ := outputInThirdBlock,
    basic_block_manager_ :=
      { bbs := [builderBlock 0 [] [1] []
                  (some (builtImpl [(8, .inst 1 .int32), (7, .inst 0 .taggedType)] 0)),
                builderBlock 1 [0, 2] [2] [7, 8] (some (startedImpl 2)),
                builderBlock 2 [1] [1] [7, 8] none],
        rpo := [0, 1, 2] },
    current_bb_ := some 1, phi_rebuild_worklist_ := [] }

/-- Block 0 is built and binds value 7 to the tagged value 0; block 1 is a
loop header with predecessors 0, itself and block 2, which is not started. -/
def selfLoopDeferredState : LLVMTFBuilder :=
  { output_ := outputAfterTwoBlocks,
    basic_block_manager_ :=
      { bbs := [builderBlock 0 [] [1] [] (some (builtImpl [(7, .inst 0 .taggedType)] 0)),
                builderBlock 1 [0, 1, 2] [1, 2] [7] none,
                builderBlock 2 [1] [1] [7] none],
        rpo := [0, 1, 2] },
    current_bb_ := none, phi_rebuild_worklist_ := [] }

/-- Block 0 is built and binds value 7 to the tagged value 0; block 1 is a
single-block loop with predecessors 0 and itself. -/
def selfLoopState : LLVMTFBuilder :=
  { output_ := outputAfterTwoBlocks,
    basic_block_manager_ :=
      { bbs := [builderBlock 0 [] [1] [] (some (builtImpl [(7, .inst 0 .taggedType)] 0)),
                builderBlock 1 [0, 1] [1] [7] none],
        rpo := [0, 1] },
    current_bb_ := none, phi_rebuild_worklist_ := [] }

/-- A loop under construction: block 0 is current and binds value 7 to the
tagged value 0 and value 8 to the pointer-sized integer 1; block 1 is the
loop header with predecessors 0 and 2, block 2 the loop body that jumps
back; value 8 is live into both. -/
def phiLoopState : LLVMTFBuilder :=
  { output_ := { nextValue := 2, nextBlock := 1, position := Position.atEnd 0,
                 instructions := [], incoming := [], prologue := 100 },
    basic_block_manager_ :=
      { bbs := [builderBlock 0 [] [1] []
                  (some { not_merged_phis := [],
                          values_ := [(8, .inst 1 .intPtr), (7, .inst 0 .taggedType)],
                          native_bb := some 0, continuation := some 0,
                          started := true, ended := false }),
                builderBlock 1 [0, 2] [2] [8] none,
                builderBlock 2 [1] [1] [8] none],
        rpo := [0, 1, 2] },
    current_bb_ := some 0, phi_rebuild_worklist_ := [] }

/-- The build of the loop of `phiLoopState` up to the end of block 2: the
header gets the phi 9 over the values 7 (from block 0) and 8 (from block 2,
which is visited after the header). -/
def phiLoopBuilt : Option LLVMTFBuilder :=
  (((((phiLoopState.VisitGoto 1).bind (fun b => b.VisitBlock 1)).bind
    (fun b => b.VisitPhi 9 MachineRepresentation.kTagged [7, 8])).bind
    (fun b => b.VisitGoto 2)).bind (fun b => b.VisitBlock 2)).bind (fun b => b.VisitGoto 1)

/-- A block 0 under construction that binds the values 0 to 13, all tagged
but value 3, a 32-bit integer; its successor, block 1, has the live-ins 2, 3
and 9. -/
def callBlocks : BuilderBlocks :=
  { bbs := [builderBlock 0 [] [1] []
              (some { not_merged_phis := [],
                      values_ := [(0, .inst 0 .taggedType), (1, .inst 1 .taggedType),
                                  (2, .inst 2 .taggedType), (3, .inst 3 .int32),
                                  (4, .inst 4 .taggedType), (5, .inst 5 .taggedType),
                                  (6, .inst 6 .taggedType), (7, .inst 7 .taggedType),
                                  (8, .inst 8 .taggedType), (9, .inst 9 .taggedType),
                                  (10, .inst 10 .taggedType), (11, .inst 11 .taggedType),
                                  (12, .inst 12 .taggedType), (13, .inst 13 .taggedType)],
                      native_bb := some 0, continuation := some 0,
                      started := true, ended := false }),
            builderBlock 1 [0] [] [2, 3, 9] none],
    rpo := [0, 1] }

/-- An output positioned in native block 0, in which values 0 to 13 exist. -/
def callOutput : Output :=
  { nextValue := 14, nextBlock := 1, position := Position.atEnd 0, instructions := [],
    incoming := [], prologue := 100 }

/-- A register mapping that fixes registers 0 and 3 for the first and the
last of fourteen operands and leaves the twelve between without register. -/
def overflowMapping : List Int := [0, -1, -1, -1, -1, -1, -1, -1, -1, -1, -1, -1, -1, 3]

/-- A register mapping that names the root register for its first operand,
register 2 for the second and the fourth, and the frame pointer register for
the third. -/
def reservedMapping : List Int := [10, 2, 11, 2]

/-- The builder in block 0 of `callBlocks`. -/
def callState : LLVMTFBuilder :=
  { output_ := callOutput, basic_block_manager_ := callBlocks, current_bb_ := some 0,
    phi_rebuild_worklist_ := [] }

/-- The immediate has an encoding in an ARM data-processing instruction: its
32 bits are a value below 256 rotated right by an even count. -/
def isArmImmediate (imm : Int) : Bool :=
  (List.range 16).any (fun r =>
    let v := (imm % 2 ^ 32).toNat
    ((v <<< (2 * r)) ||| (v >>> (32 - 2 * r))) % 2 ^ 32 < 256)

/-- Values for the constants of V8, as on 32-bit ARM: an `add` whose
immediate has no encoding takes one more instruction, which loads the
immediate; every other emitting call is one instruction; a shift by a count
outside 0..31 gives 0. -/
def armConstants : V8Constants :=
  { kPointersFromHereAreInterestingMask := 4, kPointersToHereAreInterestingMask := 2,
    kPageSizeBits := 19, kFlagsOffset := 8, codeEntryOffset := 63, kPointerSize := 4,
    extraInstructions := fun i =>
      match i with
      | .add_imm _ _ imm => if isArmImmediate imm then 0 else 1
      | _ => 0,
    undefinedShift := fun _ => 0 }

/-- A code generator that has emitted nothing. -/
def emptyGenerator : CodeGeneratorLLVM :=
  { masm_ := { buffer := [] }, safepoint_table_builder_ := [], record_reference_map_ := [],
    reference_instruction_ := 0 }

/-- The record of patch point 0 at offset 4, with one tagged value spilled
at offset 4 from the stack pointer. -/
def spillRecord : StackMaps.Record :=
  { patchpointID := 0, instructionOffset := 4,
    locations := [{ dwarfReg := 13, kind := StackMaps.Kind.Indirect, offset := 4 }] }

/-- A parser that reports failure and leaves the record of patch point 0 and
a stack size of 8 bytes in the struct. -/
def failingParser : StackMapsParser :=
  { parse := fun _ => (false, { computeRecordMap := [(4, [spillRecord])], stackSize := 8 }),
    unparsed := { computeRecordMap := [], stackSize := 0 } }

/-- A compilation unit with a stack-map section, a code section of three
words and the call of patch point 0, whose target is in register 2. -/
def failingState : CompilerState :=
  { stackMapsSection_ := some [3, 0, 0, 0],
    codeSectionList_ := [[0xe1a00000, 0xe12fff3c, 0xe1a00000]],
    stack_map_info_map_ := [(0, StackMapInfo.CallInfo [2] 0 false 0)],
    needs_frame_ := true, code_kind_ := 0 }

/-- Callbacks in which block 0 defines the constant 5 and jumps to block 1,
which branches on value 5 to the blocks 2 and 3. -/
def branchCallbacks : List Callback :=
  [.Block 0 false [], .Int32Constant 5 1, .Goto 1,
   .Block 1 false [0], .Branch 6 5 2 3,
   .Block 2 false [1], .TailCall 7 false [] [],
   .Block 3 false [1], .TailCall 8 false [] []]

/-- The builder before its first callback, on the given store. -/
def builderOn (bbm : BuilderBlocks) : LLVMTFBuilder :=
  { output_ := { nextValue := 0, nextBlock := 0, position := Position.unset,
                 instructions := [], incoming := [], prologue := 0 },
    basic_block_manager_ := bbm, current_bb_ := none, phi_rebuild_worklist_ := [] }

/-- A record of patch point 7 at instruction offset 4. -/
def barrierRecord : StackMaps.Record :=
  { patchpointID := 7, instructionOffset := 4, locations := [] }

/-- The record of patch point 0 at offset 0, without locations. -/
def callRecord : StackMaps.Record :=
  { patchpointID := 0, instructionOffset := 0, locations := [] }

/-- A generator before the loop: the call of patch point 0, with its target
in register 2 and one operand in register 0, is registered at offset 0. -/
def overflowingGenerator : CodeGeneratorLLVM :=
  { masm_ := { buffer := [] }, safepoint_table_builder_ := [],
    record_reference_map_ := [(0, callRecord, StackMapInfo.CallInfo [2, 0] 0 false 0)],
    reference_instruction_ := 0 }

/-- A compilation unit with a code section of one word and the call of patch
point 0, with its target in register 2 and one operand in register 0. -/
def overflowingState : CompilerState :=
  { stackMapsSection_ := some [3, 0, 0, 0],
    codeSectionList_ := [[0xe12fff3c]],
    stack_map_info_map_ := [(0, StackMapInfo.CallInfo [2, 0] 0 false 0)],
    needs_frame_ := false, code_kind_ := 0 }

/-- A parser that reports success and gives the record of patch point 0 at
offset 0. -/
def callParser : StackMapsParser :=
  { parse := fun _ => (true, { computeRecordMap := [(0, [callRecord])], stackSize := 0 }),
    unparsed := { computeRecordMap := [], stackSize := 0 } }

/-- A generator before the loop: the return with the constant pop count 257
is registered at offset 0. -/
def returnGenerator : CodeGeneratorLLVM :=
  { masm_ := { buffer := [] }, safepoint_table_builder_ := [],
    record_reference_map_ := [(0, callRecord, StackMapInfo.ReturnInfo true 257)],
    reference_instruction_ := 0 }

/-- An output on which nothing has been emitted. -/
def freshOutput : Output :=
  { nextValue := 0, nextBlock := 0, position := Position.unset, instructions := [],
    incoming := [], prologue := 100 }

/-- The blocks of a loop as the builder receives them: block 0 leads to the
header, block 1, whose other predecessor is the loop body, block 2; block 3
is the exit. The tagged value 7 is live into the header and the body. -/
def loopBlocks : BuilderBlocks :=
  { bbs := [builderBlock 0 [] [1] [] none,
            builderBlock 1 [0, 2] [2, 3] [7] none,
            builderBlock 2 [1] [1] [7] none,
            builderBlock 3 [1] [] [] none],
    rpo := [0, 1, 2, 3] }

/-- A call descriptor with no operand in a register and one result. -/
def plainCall : CallDescriptor :=
  { registers_for_operands := [], return_count := 1 }

/-- The callbacks of block 0 of the loop: value 7 is the result of a call. -/
def loopEntryCalls : List BuilderCall :=
  [BuilderCall.Block 0 false [], BuilderCall.Int32Constant 1 0,
   BuilderCall.Call 7 false plainCall [1], BuilderCall.Goto 1]

/-- The callbacks of the loop after the phi of the header: the header
branches to the body and the exit, the body makes a call, whose result is
value 8, and jumps back, and the exit is visited last. -/
def loopBodyCalls : List BuilderCall :=
  [BuilderCall.Int32Constant 6 1, BuilderCall.Branch 10 6 2 3,
   BuilderCall.Block 2 false [1], BuilderCall.Call 8 false plainCall [7], BuilderCall.Goto 1,
   BuilderCall.Block 3 false [1]]

/-- The blocks of a loop whose header, block 1, is its own predecessor: it
branches to itself and to block 2, which branches back to it and to the exit,
block 3. The tagged value 7 is live into blocks 1 and 2. -/
def selfLoopBlocks : BuilderBlocks :=
  { bbs := [builderBlock 0 [] [1] [] none,
            builderBlock 1 [0, 1, 2] [1, 2] [7] none,
            builderBlock 2 [1] [1, 3] [7] none,
            builderBlock 3 [2] [] [] none],
    rpo := [0, 1, 2, 3] }

/-- The callbacks of the loop of `selfLoopBlocks` after the visit of the
header: the header stores value 7 with a full write barrier and branches to
itself and to block 2, which branches to the header and to the exit. -/
def selfLoopCalls : List BuilderCall :=
  [BuilderCall.Int32Constant 6 1,
   BuilderCall.Store 11 MachineRepresentation.kTagged WriteBarrierKind.kFullWriteBarrier 7 6 7,
   BuilderCall.Branch 10 6 1 2, BuilderCall.Block 2 false [1],
   BuilderCall.Int32Constant 13 1, BuilderCall.Branch 12 13 1 3,
   BuilderCall.Block 3 false [2]]

/-- A generator before the loop, with two slots: the call of patch point 0,
with its target in register 2, one operand in register 0 and one operand
without a register, is registered at offset 4. -/
def spillGenerator : CodeGeneratorLLVM :=
  { masm_ := { buffer := [] }, safepoint_table_builder_ := [],
    record_reference_map_ := [(4, spillRecord, StackMapInfo.CallInfo [2, 0, -1] 0 false 0)],
    reference_instruction_ := 0, slot_count_ := 2 }

/-! # Theorems -/

/-! ## Lemmas on `set_union`, the phi insertion and `CompareLiveins` -/

theorem set_union_nil_right (l : List Int) : set_union l [] = l := by
  cases l <;> simp [set_union, set_unionAux]

theorem set_union_cons_cons (a b : Int) (l r : List Int) :
    set_union (a :: l) (b :: r) =
      if a < b then a :: set_union l (b :: r)
      else if b < a then b :: set_union (a :: l) r
      else a :: set_union l r := by
  simp [set_union, set_unionAux]

theorem mem_set_union (x : Int) (l r : List Int) :
    x ∈ set_union l r ↔ x ∈ l ∨ x ∈ r := by
  induction l generalizing r with
  | nil => simp [set_union]
  | cons a l ihl =>
    induction r with
    | nil => simp [set_union_nil_right]
    | cons b r ihr =>
      rw [set_union_cons_cons]
      split_ifs with h1 h2
      · simp only [List.mem_cons, ihl]; tauto
      · simp only [List.mem_cons] at ihr ⊢; rw [ihr]; tauto
      · have hab : a = b := le_antisymm (not_lt.mp h2) (not_lt.mp h1)
        subst hab
        simp only [List.mem_cons, ihl]; tauto

theorem sorted_set_union (l r : List Int) (hl : StrictlySorted l) (hr : StrictlySorted r) :
    StrictlySorted (set_union l r) := by
  induction l generalizing r with
  | nil => simpa [set_union] using hr
  | cons a l ihl =>
    induction r with
    | nil => simpa [set_union_nil_right] using hl
    | cons b r ihr =>
      rw [set_union_cons_cons]
      have hl' := List.pairwise_cons.mp hl
      have hr' := List.pairwise_cons.mp hr
      split_ifs with h1 h2
      · refine List.pairwise_cons.mpr ⟨?_, ihl _ hl'.2 hr⟩
        intro x hx
        rcases (mem_set_union x l (b :: r)).mp hx with h | h
        · exact hl'.1 x h
        · rcases List.mem_cons.mp h with h | h
          · exact h ▸ h1
          · exact lt_trans h1 (hr'.1 x h)
      · refine List.pairwise_cons.mpr ⟨?_, ihr hr'.2⟩
        intro x hx
        rcases (mem_set_union x (a :: l) r).mp hx with h | h
        · rcases List.mem_cons.mp h with h | h
          · exact h ▸ h2
          · exact lt_trans h2 (hl'.1 x h)
        · exact hr'.1 x h
      · have hab : a = b := le_antisymm (not_lt.mp h2) (not_lt.mp h1)
        subst hab
        refine List.pairwise_cons.mpr ⟨?_, ihl _ hl'.2 hr'.2⟩
        intro x hx
        rcases (mem_set_union x l r).mp hx with h | h
        · exact hl'.1 x h
        · exact hr'.1 x h

theorem mem_insertPhiValue (x v : Int) (l : List Int) :
    x ∈ insertPhiValue v l ↔ x = v ∨ x ∈ l := by
  induction l with
  | nil => simp [insertPhiValue]
  | cons a l ih =>
    simp only [insertPhiValue]
    split_ifs with h1 h2
    · simp only [List.mem_cons, ih]; tauto
    · simp only [List.mem_cons]
    · have : a = v := not_not.mp h2
      subst this
      simp only [List.mem_cons]; tauto

theorem sorted_insertPhiValue (v : Int) (l : List Int) (hl : StrictlySorted l) :
    StrictlySorted (insertPhiValue v l) := by
  induction l with
  | nil => simp [insertPhiValue, StrictlySorted]
  | cons a l ih =>
    have hl' := List.pairwise_cons.mp hl
    simp only [insertPhiValue]
    split_ifs with h1 h2
    · refine List.pairwise_cons.mpr ⟨?_, ih hl'.2⟩
      intro x hx
      rcases (mem_insertPhiValue x v l).mp hx with h | h
      · exact h ▸ h1
      · exact hl'.1 x h
    · have hva : v < a := lt_of_le_of_ne (not_lt.mp h1) (fun h => h2 h.symm)
      refine List.pairwise_cons.mpr ⟨?_, hl⟩
      intro x hx
      rcases List.mem_cons.mp hx with h | h
      · exact h ▸ hva
      · exact lt_trans hva (hl'.1 x h)
    · exact hl

theorem mem_addPhis (x nowId : Int) (phis : List PhiDesc) (l : List Int) :
    x ∈ addPhis nowId phis l ↔
      x ∈ l ∨ ∃ phi ∈ phis, phi.from_ = nowId ∧ phi.value = x := by
  induction phis generalizing l with
  | nil => simp [addPhis]
  | cons p ps ih =>
    simp only [addPhis]
    split_ifs with h
    · rw [ih, mem_insertPhiValue]
      constructor
      · rintro ((h1 | h1) | ⟨q, hq, hq'⟩)
        · exact Or.inr ⟨p, List.mem_cons_self _ _, h, h1.symm⟩
        · exact Or.inl h1
        · exact Or.inr ⟨q, List.mem_cons_of_mem _ hq, hq'⟩
      · rintro (h1 | ⟨q, hq, hq1, hq2⟩)
        · exact Or.inl (Or.inr h1)
        · rcases List.mem_cons.mp hq with rfl | hq
          · exact Or.inl (Or.inl hq2.symm)
          · exact Or.inr ⟨q, hq, hq1, hq2⟩
    · rw [ih]
      constructor
      · rintro (h1 | ⟨q, hq, hq'⟩)
        · exact Or.inl h1
        · exact Or.inr ⟨q, List.mem_cons_of_mem _ hq, hq'⟩
      · rintro (h1 | ⟨q, hq, hq1, hq2⟩)
        · exact Or.inl h1
        · rcases List.mem_cons.mp hq with rfl | hq
          · exact absurd hq1 h
          · exact Or.inr ⟨q, hq, hq1, hq2⟩

theorem sorted_addPhis (nowId : Int) (phis : List PhiDesc) (l : List Int)
    (hl : StrictlySorted l) : StrictlySorted (addPhis nowId phis l) := by
  induction phis generalizing l with
  | nil => simpa [addPhis] using hl
  | cons p ps ih =>
    simp only [addPhis]
    split_ifs with h
    · exact ih _ (sorted_insertPhiValue _ _ hl)
    · exact ih _ hl

theorem CompareLiveins_iff (l r : List Int) : CompareLiveins l r = true ↔ l ≠ r := by
  induction l generalizing r with
  | nil => cases r <;> simp [CompareLiveins]
  | cons a l ih =>
    cases r with
    | nil => simp [CompareLiveins]
    | cons b r =>
      simp only [CompareLiveins]
      split_ifs with h
      · simp [h]
      · have hab : a = b := not_not.mp h
        subst hab
        simp [ih]


/-! ### The block store -/

theorem findIn_some {I : Type} {id : Int} {bbs : List (BasicBlock I)} {b : BasicBlock I}
    (h : findIn id bbs = some b) : b ∈ bbs ∧ b.id = id := by
  induction bbs with
  | nil => simp [findIn] at h
  | cons c cs ih =>
    simp only [findIn] at h
    split_ifs at h with hc
    · cases h
      exact ⟨List.mem_cons_self _ _, hc⟩
    · exact ⟨List.mem_cons_of_mem _ (ih h).1, (ih h).2⟩

theorem findIn_isSome_of_mem {I : Type} {bbs : List (BasicBlock I)} {b : BasicBlock I}
    (h : b ∈ bbs) : ∃ c, findIn b.id bbs = some c := by
  induction bbs with
  | nil => cases h
  | cons c cs ih =>
    simp only [findIn]
    split_ifs with hc
    · exact ⟨c, rfl⟩
    · rcases List.mem_cons.mp h with rfl | h
      · exact absurd rfl hc
      · exact ih h

theorem findIn_updateIn {I : Type} (id j : Int) (f : BasicBlock I → BasicBlock I)
    (hf : ∀ b, (f b).id = b.id) (bbs : List (BasicBlock I)) :
    findIn j (updateIn id f bbs) =
      if j = id then (findIn id bbs).map f else findIn j bbs := by
  induction bbs with
  | nil => simp [findIn, updateIn]
  | cons c cs ih =>
    simp only [updateIn]
    by_cases hc : c.id = id
    · simp only [hc, if_true, findIn, hf]
      by_cases hj : j = id
      · simp [hj]
      · have : ¬ id = j := fun h => hj h.symm
        simp [hj, this]
    · simp only [hc, if_false, findIn]
      by_cases hj : j = id
      · subst hj
        simp only [hc, if_false, ih, if_true]
      · by_cases hcj : c.id = j
        · simp [hcj, hj]
        · simp only [hcj, if_false, ih, hj]

theorem findBB_updateBB {I : Type} (bbm : BasicBlockManager I) (id j : Int)
    (f : BasicBlock I → BasicBlock I) (hf : ∀ b, (f b).id = b.id) :
    findBB (updateBB bbm id f) j =
      if j = id then (findBB bbm id).map f else findBB bbm j :=
  findIn_updateIn id j f hf bbm.bbs

theorem mem_updateIn {I : Type} {id : Int} {f : BasicBlock I → BasicBlock I}
    {bbs : List (BasicBlock I)} {b : BasicBlock I} (h : b ∈ updateIn id f bbs) :
    b ∈ bbs ∨ ∃ c, findIn id bbs = some c ∧ b = f c := by
  induction bbs with
  | nil => simp [updateIn] at h
  | cons c cs ih =>
    simp only [updateIn] at h
    split_ifs at h with hc
    · rcases List.mem_cons.mp h with rfl | h
      · exact Or.inr ⟨c, by simp [findIn, hc], rfl⟩
      · exact Or.inl (List.mem_cons_of_mem _ h)
    · rcases List.mem_cons.mp h with rfl | h
      · exact Or.inl (List.mem_cons_self _ _)
      · rcases ih h with h | ⟨d, hd, rfl⟩
        · exact Or.inl (List.mem_cons_of_mem _ h)
        · exact Or.inr ⟨d, by simpa [findIn, hc] using hd, rfl⟩

theorem updateIn_eq_self {I : Type} (id : Int) (f : BasicBlock I → BasicBlock I)
    (bbs : List (BasicBlock I)) (h : ∀ b, findIn id bbs = some b → f b = b) :
    updateIn id f bbs = bbs := by
  induction bbs with
  | nil => rfl
  | cons c cs ih =>
    simp only [updateIn]
    split_ifs with hc
    · rw [h c (by simp [findIn, hc])]
    · rw [ih (fun b hb => h b (by simpa [findIn, hc] using hb))]


/-! ### The recomputed live-in vector -/

theorem unionSuccessor_some {bbm : BasicBlockManager LivenessBasicBlockImpl} {nowId sid : Int}
    {liveins r : List Int} (h : unionSuccessor bbm nowId liveins sid = some r) :
    ∃ S, findBB bbm sid = some S ∧ S.impl ≠ none ∧
      r = addPhis nowId (phisOf S) (set_union liveins S.liveins) := by
  unfold unionSuccessor at h
  cases hS : findBB bbm sid with
  | none => simp [hS] at h
  | some S =>
    cases hi : S.impl with
    | none => simp [hS, hi] at h
    | some i =>
      simp only [hS, hi, Option.some.injEq] at h
      exact ⟨S, rfl, by simp [hi], by simp [phisOf, hi, h]⟩

theorem mem_unionSuccessor {bbm : BasicBlockManager LivenessBasicBlockImpl} {nowId sid : Int}
    {liveins r : List Int} (h : unionSuccessor bbm nowId liveins sid = some r) (v : Int) :
    v ∈ r ↔ v ∈ liveins ∨ Contribution bbm nowId sid v := by
  obtain ⟨S, hS, -, rfl⟩ := unionSuccessor_some h
  rw [mem_addPhis, mem_set_union]
  unfold Contribution
  constructor
  · rintro ((h1 | h1) | h1)
    · exact Or.inl h1
    · exact Or.inr ⟨S, hS, Or.inl h1⟩
    · exact Or.inr ⟨S, hS, Or.inr h1⟩
  · rintro (h1 | ⟨S', hS', h1⟩)
    · exact Or.inl (Or.inl h1)
    · rw [hS] at hS'
      cases hS'
      rcases h1 with h1 | h1
      · exact Or.inl (Or.inr h1)
      · exact Or.inr h1

theorem mem_unionSuccessors {bbm : BasicBlockManager LivenessBasicBlockImpl} {nowId : Int}
    (succs : List Int) {liveins r : List Int}
    (h : unionSuccessors bbm nowId succs liveins = some r) (v : Int) :
    v ∈ r ↔ v ∈ liveins ∨ ∃ sid ∈ succs, Contribution bbm nowId sid v := by
  induction succs generalizing liveins with
  | nil =>
    simp only [unionSuccessors, Option.some.injEq] at h
    subst h
    simp
  | cons sid rest ih =>
    simp only [unionSuccessors] at h
    cases h1 : unionSuccessor bbm nowId liveins sid with
    | none => simp [h1] at h
    | some l1 =>
      simp only [h1] at h
      rw [ih h, mem_unionSuccessor h1]
      constructor
      · rintro ((h2 | h2) | ⟨s, hs, h2⟩)
        · exact Or.inl h2
        · exact Or.inr ⟨sid, List.mem_cons_self _ _, h2⟩
        · exact Or.inr ⟨s, List.mem_cons_of_mem _ hs, h2⟩
      · rintro (h2 | ⟨s, hs, h2⟩)
        · exact Or.inl (Or.inl h2)
        · rcases List.mem_cons.mp hs with rfl | hs
          · exact Or.inl (Or.inr h2)
          · exact Or.inr ⟨s, hs, h2⟩

theorem sorted_unionSuccessors {bbm : BasicBlockManager LivenessBasicBlockImpl} {nowId : Int}
    (hs : LiveinsSorted bbm) (succs : List Int) {liveins r : List Int}
    (hl : StrictlySorted liveins)
    (h : unionSuccessors bbm nowId succs liveins = some r) : StrictlySorted r := by
  induction succs generalizing liveins with
  | nil =>
    simp only [unionSuccessors, Option.some.injEq] at h
    exact h ▸ hl
  | cons sid rest ih =>
    simp only [unionSuccessors] at h
    cases h1 : unionSuccessor bbm nowId liveins sid with
    | none => simp [h1] at h
    | some l1 =>
      simp only [h1] at h
      obtain ⟨S, hS, -, rfl⟩ := unionSuccessor_some h1
      exact ih (sorted_addPhis _ _ _ (sorted_set_union _ _ hl (hs S (findIn_some hS).1))) h

theorem unionSuccessors_isSome {bbm : BasicBlockManager LivenessBasicBlockImpl} (nowId : Int)
    (succs : List Int) (liveins : List Int) (h : ∀ s ∈ succs, hasImpl bbm s = true) :
    ∃ r, unionSuccessors bbm nowId succs liveins = some r := by
  induction succs generalizing liveins with
  | nil => exact ⟨liveins, rfl⟩
  | cons sid rest ih =>
    have h1 := h sid (List.mem_cons_self _ _)
    unfold hasImpl at h1
    cases hS : findBB bbm sid with
    | none => simp [hS] at h1
    | some S =>
      cases hi : S.impl with
      | none => simp [hS, hi] at h1
      | some i =>
        simp only [unionSuccessors, unionSuccessor, hS, hi]
        exact ih _ (fun s hs => h s (List.mem_cons_of_mem _ hs))

theorem mem_clearDefines {b : BasicBlock LivenessBasicBlockImpl} {l r : List Int}
    (h : clearDefines b.impl l = some r) (v : Int) :
    v ∈ r ↔ v ∈ l ∧ v ∉ definesOf b := by
  unfold clearDefines at h
  unfold definesOf
  cases hi : b.impl with
  | none =>
    simp only [hi] at h
    split_ifs at h with hl
    cases h
    simp [hl]
  | some i =>
    simp only [hi, Option.some.injEq] at h
    subst h
    simp [List.mem_filter]

theorem sorted_clearDefines {impl : Option LivenessBasicBlockImpl} {l r : List Int}
    (hl : StrictlySorted l) (h : clearDefines impl l = some r) : StrictlySorted r := by
  unfold clearDefines at h
  cases impl with
  | none =>
    simp only at h
    split_ifs at h
    cases h
    exact List.Pairwise.nil
  | some i =>
    simp only [Option.some.injEq] at h
    subst h
    exact List.Pairwise.filter _ hl

/-- Membership in the recomputed vector: not defined in the block, and either
already live-in or contributed by a successor. -/
theorem mem_recompute {bbm : BasicBlockManager LivenessBasicBlockImpl}
    {now : BasicBlock LivenessBasicBlockImpl} {result : List Int}
    (h : recompute bbm now = some result) (v : Int) :
    v ∈ result ↔
      v ∉ definesOf now ∧
        (v ∈ now.liveins ∨ ∃ sid ∈ now.successors, Contribution bbm now.id sid v) := by
  unfold recompute at h
  cases h1 : unionSuccessors bbm now.id now.successors now.liveins with
  | none => simp [h1] at h
  | some l =>
    simp only [h1] at h
    rw [mem_clearDefines h, mem_unionSuccessors _ h1]
    tauto

theorem sorted_recompute {bbm : BasicBlockManager LivenessBasicBlockImpl}
    {now : BasicBlock LivenessBasicBlockImpl} {result : List Int}
    (hs : LiveinsSorted bbm) (hn : StrictlySorted now.liveins)
    (h : recompute bbm now = some result) : StrictlySorted result := by
  unfold recompute at h
  cases h1 : unionSuccessors bbm now.id now.successors now.liveins with
  | none => simp [h1] at h
  | some l =>
    simp only [h1] at h
    exact sorted_clearDefines (sorted_unionSuccessors hs _ hn h1) h

theorem recompute_isSome {bbm : BasicBlockManager LivenessBasicBlockImpl}
    {now : BasicBlock LivenessBasicBlockImpl} (hp : PointersValid bbm) (hn : now ∈ bbm.bbs) :
    ∃ result, recompute bbm now = some result := by
  obtain ⟨h1, -, h3⟩ := hp now hn
  obtain ⟨l, hl⟩ := unionSuccessors_isSome now.id now.successors now.liveins h1
  unfold recompute
  rw [hl]
  cases hi : now.impl with
  | some i => exact ⟨_, rfl⟩
  | none =>
    obtain ⟨h4, h5⟩ := h3 hi
    rw [h5, h4] at hl
    simp only [unionSuccessors, Option.some.injEq] at hl
    subst hl
    exact ⟨[], by simp [clearDefines]⟩


/-! ### One iteration of the worklist loop -/

theorem step_some {bbm bbm' : BasicBlockManager LivenessBasicBlockImpl} {id : Int}
    {wl wl' : List Int} (h : step bbm id wl = some (bbm', wl')) :
    ∃ now result, findBB bbm id = some now ∧ recompute bbm now = some result ∧
      bbm' = updateBB bbm id (fun b => { b with liveins := result }) ∧
      wl' = if CompareLiveins now.liveins result then wl ++ now.predecessors else wl := by
  unfold step at h
  cases h1 : findBB bbm id with
  | none => simp [h1] at h
  | some now =>
    cases h2 : recompute bbm now with
    | none => simp [h1, h2] at h
    | some result =>
      simp only [h1, h2, Option.some.injEq, Prod.mk.injEq] at h
      exact ⟨now, result, rfl, h2, h.1.symm, h.2.symm⟩

theorem step_of_some {bbm : BasicBlockManager LivenessBasicBlockImpl} {id : Int}
    {now : BasicBlock LivenessBasicBlockImpl} {result : List Int} (wl : List Int)
    (h1 : findBB bbm id = some now) (h2 : recompute bbm now = some result) :
    step bbm id wl =
      some (updateBB bbm id (fun b => { b with liveins := result }),
        if CompareLiveins now.liveins result then wl ++ now.predecessors else wl) := by
  simp [step, h1, h2]

theorem findBB_setLiveins (bbm : BasicBlockManager LivenessBasicBlockImpl) (id j : Int)
    (result : List Int) :
    findBB (updateBB bbm id (fun b => { b with liveins := result })) j =
      if j = id then (findBB bbm id).map (fun b => { b with liveins := result })
      else findBB bbm j :=
  findBB_updateBB bbm id j _ (fun _ => rfl)

theorem isBlock_setLiveins (bbm : BasicBlockManager LivenessBasicBlockImpl) (id j : Int)
    (result : List Int) :
    isBlock (updateBB bbm id (fun b => { b with liveins := result })) j = isBlock bbm j := by
  unfold isBlock
  rw [findBB_setLiveins]
  split_ifs with h
  · subst h; cases findBB bbm j <;> rfl
  · rfl

theorem hasImpl_setLiveins (bbm : BasicBlockManager LivenessBasicBlockImpl) (id j : Int)
    (result : List Int) :
    hasImpl (updateBB bbm id (fun b => { b with liveins := result })) j = hasImpl bbm j := by
  unfold hasImpl
  rw [findBB_setLiveins]
  split_ifs with h
  · subst h; cases findBB bbm j <;> rfl
  · rfl

theorem mem_setLiveins {bbm : BasicBlockManager LivenessBasicBlockImpl} {id : Int}
    {result : List Int} {b : BasicBlock LivenessBasicBlockImpl}
    (h : b ∈ (updateBB bbm id (fun b => { b with liveins := result })).bbs) :
    b ∈ bbm.bbs ∨ ∃ now, findBB bbm id = some now ∧ b = { now with liveins := result } :=
  mem_updateIn h

theorem recompute_nil_of_no_impl {bbm : BasicBlockManager LivenessBasicBlockImpl}
    {now : BasicBlock LivenessBasicBlockImpl} {result : List Int}
    (h : recompute bbm now = some result) (hi : now.impl = none) : result = [] := by
  unfold recompute at h
  cases h1 : unionSuccessors bbm now.id now.successors now.liveins with
  | none => simp [h1] at h
  | some l =>
    simp only [h1, hi, clearDefines] at h
    split_ifs at h
    cases h
    rfl

theorem step_pointersValid {bbm bbm' : BasicBlockManager LivenessBasicBlockImpl} {id : Int}
    {wl wl' : List Int} (h : step bbm id wl = some (bbm', wl')) (hp : PointersValid bbm) :
    PointersValid bbm' := by
  obtain ⟨now, result, h1, h2, rfl, -⟩ := step_some h
  intro b hb
  have key : ∀ c ∈ bbm.bbs, ∀ l : List Int, (c.impl = none → l = []) →
      (∀ s ∈ c.successors,
        hasImpl (updateBB bbm id (fun b => { b with liveins := result })) s = true) ∧
      (∀ p ∈ c.predecessors,
        isBlock (updateBB bbm id (fun b => { b with liveins := result })) p = true) ∧
      (c.impl = none → l = [] ∧ c.successors = []) := by
    intro c hc l hl
    obtain ⟨q1, q2, q3⟩ := hp c hc
    refine ⟨fun s hs => ?_, fun p hp' => ?_, fun hi => ⟨hl hi, (q3 hi).2⟩⟩
    · rw [hasImpl_setLiveins]; exact q1 s hs
    · rw [isBlock_setLiveins]; exact q2 p hp'
  rcases mem_setLiveins hb with hb | ⟨now', h1', rfl⟩
  · exact key b hb b.liveins (fun hi => ((hp b hb).2.2 hi).1)
  · rw [h1] at h1'
    cases h1'
    exact key now (findIn_some h1).1 result (fun hi => recompute_nil_of_no_impl h2 hi)

theorem step_liveinsSorted {bbm bbm' : BasicBlockManager LivenessBasicBlockImpl} {id : Int}
    {wl wl' : List Int} (h : step bbm id wl = some (bbm', wl')) (hs : LiveinsSorted bbm) :
    LiveinsSorted bbm' := by
  obtain ⟨now, result, h1, h2, rfl, -⟩ := step_some h
  intro b hb
  rcases mem_setLiveins hb with hb | ⟨now', h1', rfl⟩
  · exact hs b hb
  · rw [h1] at h1'
    cases h1'
    exact sorted_recompute hs (hs now (findIn_some h1).1) h2

theorem step_allBlocks {bbm bbm' : BasicBlockManager LivenessBasicBlockImpl} {id : Int}
    {wl wl' : List Int} (h : step bbm id wl = some (bbm', wl')) (hp : PointersValid bbm)
    (hw : AllBlocks bbm wl) : AllBlocks bbm' wl' := by
  obtain ⟨now, result, h1, h2, rfl, rfl⟩ := step_some h
  intro j hj
  rw [isBlock_setLiveins]
  split_ifs at hj with hc
  · rcases List.mem_append.mp hj with hj | hj
    · exact hw j hj
    · exact (hp now (findIn_some h1).1).2.1 j hj
  · exact hw j hj

theorem step_isSome {bbm : BasicBlockManager LivenessBasicBlockImpl} {id : Int}
    (wl : List Int) (hp : PointersValid bbm) (hid : isBlock bbm id = true) :
    ∃ r, step bbm id wl = some r := by
  unfold isBlock at hid
  cases h1 : findBB bbm id with
  | none => simp [h1] at hid
  | some now =>
    obtain ⟨result, h2⟩ := recompute_isSome hp (findIn_some h1).1
    exact ⟨_, step_of_some wl h1 h2⟩

theorem step_rpo {bbm bbm' : BasicBlockManager LivenessBasicBlockImpl} {id : Int}
    {wl wl' : List Int} (h : step bbm id wl = some (bbm', wl')) : bbm'.rpo = bbm.rpo := by
  obtain ⟨now, result, -, -, rfl, -⟩ := step_some h
  rfl

/-! ### Termination -/

theorem inUniverse_valueUniverse (bbm : BasicBlockManager LivenessBasicBlockImpl) :
    InUniverse (valueUniverse bbm) bbm := by
  intro b hb
  unfold valueUniverse
  refine ⟨fun v hv => ?_, fun phi hphi => ?_⟩
  · exact List.mem_flatMap.mpr ⟨b, hb, List.mem_append_left _ hv⟩
  · exact List.mem_flatMap.mpr ⟨b, hb, List.mem_append_right _ (List.mem_map.mpr ⟨phi, hphi, rfl⟩)⟩

theorem recompute_subset_universe {U : List Int}
    {bbm : BasicBlockManager LivenessBasicBlockImpl}
    {now : BasicBlock LivenessBasicBlockImpl} {result : List Int}
    (hu : InUniverse U bbm) (hn : now ∈ bbm.bbs) (h : recompute bbm now = some result) :
    ∀ v ∈ result, v ∈ U := by
  intro v hv
  rcases ((mem_recompute h v).mp hv).2 with h1 | ⟨sid, -, S, hS, h1⟩
  · exact (hu now hn).1 v h1
  · rcases h1 with h1 | ⟨phi, hphi, -, rfl⟩
    · exact (hu S (findIn_some hS).1).1 v h1
    · exact (hu S (findIn_some hS).1).2 phi hphi

theorem step_inUniverse {U : List Int} {bbm bbm' : BasicBlockManager LivenessBasicBlockImpl}
    {id : Int} {wl wl' : List Int} (h : step bbm id wl = some (bbm', wl'))
    (hu : InUniverse U bbm) : InUniverse U bbm' := by
  obtain ⟨now, result, h1, h2, rfl, -⟩ := step_some h
  intro b hb
  rcases mem_setLiveins hb with hb | ⟨now', h1', rfl⟩
  · exact hu b hb
  · rw [h1] at h1'
    cases h1'
    exact ⟨recompute_subset_universe hu (findIn_some h1).1 h2, (hu now (findIn_some h1).1).2⟩

theorem length_le_of_sorted_subset {l U : List Int} (hl : StrictlySorted l)
    (h : ∀ v ∈ l, v ∈ U) : l.length ≤ U.length :=
  (List.subperm_of_subset (List.Pairwise.imp ne_of_lt hl) h).length_le

theorem eq_of_sorted_subset_length {l r : List Int} (hl : StrictlySorted l)
    (hr : StrictlySorted r) (h : ∀ v ∈ l, v ∈ r) (hlen : r.length ≤ l.length) : l = r :=
  List.eq_of_perm_of_sorted
    ((List.subperm_of_subset (List.Pairwise.imp ne_of_lt hl) h).perm_of_length_le hlen) hl hr

theorem eq_of_sorted_mem_iff {l r : List Int} (hl : StrictlySorted l)
    (hr : StrictlySorted r) (h : ∀ v, v ∈ l ↔ v ∈ r) : l = r :=
  List.eq_of_perm_of_sorted
    ((List.perm_ext_iff_of_nodup (List.Pairwise.imp ne_of_lt hl)
      (List.Pairwise.imp ne_of_lt hr)).mpr h) hl hr

theorem blockMeasure_recompute {U : List Int} {bbm : BasicBlockManager LivenessBasicBlockImpl}
    {now : BasicBlock LivenessBasicBlockImpl} {result : List Int}
    (hs : LiveinsSorted bbm) (hu : InUniverse U bbm) (hn : now ∈ bbm.bbs)
    (h : recompute bbm now = some result) (hne : result ≠ now.liveins) :
    blockMeasure U.length { now with liveins := result } < blockMeasure U.length now := by
  have hres : StrictlySorted result := sorted_recompute hs (hs now hn) h
  have hlen : result.length ≤ U.length :=
    length_le_of_sorted_subset hres (recompute_subset_universe hu hn h)
  have hclean : ∀ v ∈ result, v ∉ definesOf now := fun v hv => ((mem_recompute h v).mp hv).1
  have hnew : blockMeasure U.length { now with liveins := result } = U.length - result.length := by
    unfold blockMeasure
    have : ∀ v ∈ result, v ∉ definesOf { now with liveins := result } := hclean
    rw [if_pos this, Nat.zero_add]
  rw [hnew]
  unfold blockMeasure
  by_cases hc : ∀ v ∈ now.liveins, v ∉ definesOf now
  · rw [if_pos hc, Nat.zero_add]
    have hsub : ∀ v ∈ now.liveins, v ∈ result :=
      fun v hv => (mem_recompute h v).mpr ⟨hc v hv, Or.inl hv⟩
    have hlt : now.liveins.length < result.length := by
      by_contra hge
      exact hne (eq_of_sorted_subset_length (hs now hn) hres hsub (not_lt.mp hge)).symm
    omega
  · rw [if_neg hc]
    omega

theorem storeMeasure_updateIn (N : Nat) (id : Int)
    (f : BasicBlock LivenessBasicBlockImpl → BasicBlock LivenessBasicBlockImpl)
    (bbs : List (BasicBlock LivenessBasicBlockImpl)) (now : BasicBlock LivenessBasicBlockImpl)
    (h : findIn id bbs = some now) :
    storeMeasure N (updateIn id f bbs) + blockMeasure N now =
      storeMeasure N bbs + blockMeasure N (f now) := by
  induction bbs with
  | nil => simp [findIn] at h
  | cons c cs ih =>
    simp only [findIn] at h
    simp only [updateIn]
    split_ifs at h ⊢ with hc
    · cases h
      simp only [storeMeasure, List.map_cons, List.sum_cons]
      omega
    · have := ih h
      simp only [storeMeasure, List.map_cons, List.sum_cons] at this ⊢
      omega

theorem blockMeasure_le_storeMeasure (N : Nat) {bbs : List (BasicBlock LivenessBasicBlockImpl)}
    {b : BasicBlock LivenessBasicBlockImpl} (h : b ∈ bbs) :
    blockMeasure N b ≤ storeMeasure N bbs := by
  induction bbs with
  | nil => cases h
  | cons c cs ih =>
    simp only [storeMeasure, List.map_cons, List.sum_cons]
    rcases List.mem_cons.mp h with rfl | h
    · omega
    · have := ih h
      simp only [storeMeasure] at this
      omega

theorem predecessors_le_count {bbm : BasicBlockManager LivenessBasicBlockImpl}
    {b : BasicBlock LivenessBasicBlockImpl} (h : b ∈ bbm.bbs) :
    b.predecessors.length ≤ predecessorCount bbm := by
  unfold predecessorCount
  generalize bbm.bbs = bbs at h
  induction bbs with
  | nil => cases h
  | cons c cs ih =>
    simp only [List.map_cons, List.sum_cons]
    rcases List.mem_cons.mp h with rfl | h
    · omega
    · have := ih h
      omega

theorem step_predecessors {bbm bbm' : BasicBlockManager LivenessBasicBlockImpl} {id : Int}
    {wl wl' : List Int} (h : step bbm id wl = some (bbm', wl')) {P : Nat}
    (hP : ∀ b ∈ bbm.bbs, b.predecessors.length ≤ P) :
    ∀ b ∈ bbm'.bbs, b.predecessors.length ≤ P := by
  obtain ⟨now, result, h1, h2, rfl, -⟩ := step_some h
  intro b hb
  rcases mem_setLiveins hb with hb | ⟨now', h1', rfl⟩
  · exact hP b hb
  · exact hP now' (findIn_some h1').1

/-- One iteration lowers the rank `storeMeasure * (P + 1) + length worklist`. -/
theorem step_measure {U : List Int} {P : Nat}
    {bbm bbm' : BasicBlockManager LivenessBasicBlockImpl} {id : Int} {wl wl' : List Int}
    (h : step bbm id wl = some (bbm', wl')) (hs : LiveinsSorted bbm) (hu : InUniverse U bbm)
    (hP : ∀ b ∈ bbm.bbs, b.predecessors.length ≤ P) :
    storeMeasure U.length bbm'.bbs * (P + 1) + wl'.length <
      storeMeasure U.length bbm.bbs * (P + 1) + (id :: wl).length := by
  obtain ⟨now, result, h1, h2, rfl, rfl⟩ := step_some h
  have hn := (findIn_some h1).1
  have hsum := storeMeasure_updateIn U.length id (fun b => { b with liveins := result })
    bbm.bbs now h1
  beta_reduce at hsum
  by_cases hne : result = now.liveins
  · have hcmp : CompareLiveins now.liveins result = false := by
      rw [← Bool.not_eq_true, CompareLiveins_iff]
      exact fun h => h hne.symm
    have hsame : ({ now with liveins := result } : BasicBlock LivenessBasicBlockImpl) = now := by
      rw [hne]
    simp only [hsame] at hsum
    simp only [updateBB, hcmp, List.length_cons]
    have : storeMeasure U.length (updateIn id (fun b => { b with liveins := result }) bbm.bbs) =
        storeMeasure U.length bbm.bbs := by omega
    rw [this]
    simp
  · have hdec := blockMeasure_recompute hs hu hn h2 hne
    have hle := blockMeasure_le_storeMeasure U.length hn
    have hpred := hP now hn
    have hlen : (if CompareLiveins now.liveins result then wl ++ now.predecessors else wl).length
        ≤ wl.length + P := by
      split_ifs
      · rw [List.length_append]; omega
      · omega
    simp only [updateBB, List.length_cons]
    set A := storeMeasure U.length (updateIn id (fun b => { b with liveins := result }) bbm.bbs)
    set B := storeMeasure U.length bbm.bbs
    have hAB : A + 1 ≤ B := by omega
    have : (A + 1) * (P + 1) ≤ B * (P + 1) := Nat.mul_le_mul_right _ hAB
    have h3 : (A + 1) * (P + 1) = A * (P + 1) + P + 1 := by ring
    omega

/-- The worklist loop returns whenever the fuel covers the rank. -/
theorem worklistLoop_isSome_of_measure {U : List Int} {P : Nat} :
    ∀ (n : Nat) (bbm : BasicBlockManager LivenessBasicBlockImpl) (wl : List Int),
      PointersValid bbm → LiveinsSorted bbm → AllBlocks bbm wl → InUniverse U bbm →
      (∀ b ∈ bbm.bbs, b.predecessors.length ≤ P) →
      storeMeasure U.length bbm.bbs * (P + 1) + wl.length ≤ n →
      ∃ final, worklistLoop n bbm wl = some final := by
  intro n
  induction n with
  | zero =>
    intro bbm wl _ _ _ _ _ hm
    cases wl with
    | nil => exact ⟨bbm, by simp [worklistLoop]⟩
    | cons id wl => simp at hm
  | succ n ih =>
    intro bbm wl hp hs hw hu hP hm
    cases wl with
    | nil => exact ⟨bbm, by simp [worklistLoop]⟩
    | cons id wl =>
      obtain ⟨⟨bbm', wl'⟩, hstep⟩ := step_isSome wl hp (hw id (List.mem_cons_self _ _))
      have hlt := step_measure hstep hs hu hP
      have hw' : AllBlocks bbm wl := fun j hj => hw j (List.mem_cons_of_mem _ hj)
      obtain ⟨final, hfinal⟩ := ih bbm' wl' (step_pointersValid hstep hp)
        (step_liveinsSorted hstep hs) (step_allBlocks hstep hp hw') (step_inUniverse hstep hu)
        (step_predecessors hstep hP) (by omega)
      exact ⟨final, by simp only [worklistLoop, hstep, hfinal]⟩

theorem worklistLoop_isSome (bbm : BasicBlockManager LivenessBasicBlockImpl) (wl : List Int)
    (hp : PointersValid bbm) (hs : LiveinsSorted bbm) (hw : AllBlocks bbm wl) :
    ∃ final, worklistLoop (fuelBound bbm wl) bbm wl = some final :=
  worklistLoop_isSome_of_measure (fuelBound bbm wl) bbm wl hp hs hw
    (inUniverse_valueUniverse bbm) (fun _ hb => predecessors_le_count hb) (le_refl _)

/-! ### Invariants of the worklist loop -/

/-- A property kept by every iteration holds when the loop returns. -/
theorem worklistLoop_invariant
    (Inv : BasicBlockManager LivenessBasicBlockImpl → List Int → Prop)
    (hstep : ∀ bbm id wl bbm' wl', Inv bbm (id :: wl) → step bbm id wl = some (bbm', wl') →
      Inv bbm' wl') :
    ∀ (fuel : Nat) (bbm : BasicBlockManager LivenessBasicBlockImpl) (wl : List Int)
      (final : BasicBlockManager LivenessBasicBlockImpl),
      Inv bbm wl → worklistLoop fuel bbm wl = some final → Inv final [] := by
  intro fuel
  induction fuel with
  | zero =>
    intro bbm wl final hinv h
    cases wl with
    | nil =>
      simp only [worklistLoop, Option.some.injEq] at h
      exact h ▸ hinv
    | cons id wl => simp [worklistLoop] at h
  | succ n ih =>
    intro bbm wl final hinv h
    cases wl with
    | nil =>
      simp only [worklistLoop, Option.some.injEq] at h
      exact h ▸ hinv
    | cons id wl =>
      simp only [worklistLoop] at h
      cases hs : step bbm id wl with
      | none => simp [hs] at h
      | some r =>
        obtain ⟨bbm', wl'⟩ := r
        simp only [hs] at h
        exact ih bbm' wl' final (hstep bbm id wl bbm' wl' hinv hs) h

theorem step_noUseBeforeDefine {bbm bbm' : BasicBlockManager LivenessBasicBlockImpl}
    {id : Int} {wl wl' : List Int} (h : step bbm id wl = some (bbm', wl'))
    (hc : NoUseBeforeDefine bbm) : NoUseBeforeDefine bbm' := by
  obtain ⟨now, result, h1, h2, rfl, -⟩ := step_some h
  intro b hb
  rcases mem_setLiveins hb with hb | ⟨now', h1', rfl⟩
  · exact hc b hb
  · rw [h1] at h1'
    cases h1'
    exact fun v hv => ((mem_recompute h2 v).mp hv).1

/-- After one iteration a block is looked up with the same edges and slot;
only the live-in vector of the dequeued block is new. -/
theorem step_findBB {bbm bbm' : BasicBlockManager LivenessBasicBlockImpl}
    {id : Int} {wl wl' : List Int} (h : step bbm id wl = some (bbm', wl')) (j : Int) :
    ∃ now result, findBB bbm id = some now ∧ recompute bbm now = some result ∧
      findBB bbm' j = if j = id then some { now with liveins := result } else findBB bbm j := by
  obtain ⟨now, result, h1, h2, rfl, -⟩ := step_some h
  refine ⟨now, result, h1, h2, ?_⟩
  rw [findBB_setLiveins, h1]
  rfl

/-- Live-in vectors only grow in an iteration when no block's live-ins meet
its defines. -/
theorem step_liveins_mono {bbm bbm' : BasicBlockManager LivenessBasicBlockImpl}
    {id : Int} {wl wl' : List Int} (h : step bbm id wl = some (bbm', wl'))
    (hc : NoUseBeforeDefine bbm) {j : Int} {b : BasicBlock LivenessBasicBlockImpl}
    (hb : findBB bbm j = some b) :
    ∃ b', findBB bbm' j = some b' ∧ b'.id = b.id ∧ b'.successors = b.successors ∧
      b'.predecessors = b.predecessors ∧ b'.impl = b.impl ∧ ∀ v ∈ b.liveins, v ∈ b'.liveins := by
  obtain ⟨now, result, h1, h2, h3⟩ := step_findBB h j
  by_cases hj : j = id
  · subst hj
    rw [hb] at h1
    cases h1
    rw [if_pos rfl] at h3
    refine ⟨_, h3, rfl, rfl, rfl, rfl, fun v hv => ?_⟩
    exact (mem_recompute h2 v).mpr ⟨hc b (findIn_some hb).1 v hv, Or.inl hv⟩
  · rw [if_neg hj] at h3
    exact ⟨b, h3.trans hb, rfl, rfl, rfl, rfl, fun v hv => hv⟩

theorem step_contribution_mono {bbm bbm' : BasicBlockManager LivenessBasicBlockImpl}
    {id : Int} {wl wl' : List Int} (h : step bbm id wl = some (bbm', wl'))
    (hc : NoUseBeforeDefine bbm) {n s v : Int} (hv : Contribution bbm n s v) :
    Contribution bbm' n s v := by
  obtain ⟨S, hS, hv⟩ := hv
  obtain ⟨S', hS', -, -, -, hi, hmono⟩ := step_liveins_mono h hc hS
  refine ⟨S', hS', ?_⟩
  rcases hv with hv | hv
  · exact Or.inl (hmono v hv)
  · right
    unfold phisOf at hv ⊢
    rw [hi]
    exact hv

theorem step_justified {bbm0 bbm bbm' : BasicBlockManager LivenessBasicBlockImpl}
    {id : Int} {wl wl' : List Int} (h : step bbm id wl = some (bbm', wl'))
    (hc : NoUseBeforeDefine bbm) (hj : Justified bbm0 bbm) : Justified bbm0 bbm' := by
  intro j b' hb' v hv
  obtain ⟨now, result, h1, h2, h3⟩ := step_findBB h j
  rw [hb'] at h3
  by_cases hjid : j = id
  · subst hjid
    rw [if_pos rfl] at h3
    cases h3
    have hid : now.id = j := (findIn_some h1).2
    rcases ((mem_recompute h2 v).mp hv).2 with hold | ⟨sid, hsid, hcon⟩
    · rcases hj j now h1 v hold with h0 | ⟨sid, hsid, hcon⟩
      · exact Or.inl h0
      · exact Or.inr ⟨sid, hsid, step_contribution_mono h hc hcon⟩
    · rw [hid] at hcon
      exact Or.inr ⟨sid, hsid, step_contribution_mono h hc hcon⟩
  · rw [if_neg hjid] at h3
    rcases hj j b' h3.symm v hv with h0 | ⟨sid, hsid, hcon⟩
    · exact Or.inl h0
    · exact Or.inr ⟨sid, hsid, step_contribution_mono h hc hcon⟩

theorem worklistLoop_justified {bbm final : BasicBlockManager LivenessBasicBlockImpl}
    {fuel : Nat} {wl : List Int} (hc : NoUseBeforeDefine bbm)
    (h : worklistLoop fuel bbm wl = some final) :
    NoUseBeforeDefine final ∧ Justified bbm final := by
  refine worklistLoop_invariant (fun b _ => NoUseBeforeDefine b ∧ Justified bbm b) ?_
    fuel bbm wl final ⟨hc, ?_⟩ h
  · intro b id wl b' wl' hinv hs
    exact ⟨step_noUseBeforeDefine hs hinv.1, step_justified hs hinv.1 hinv.2⟩
  · intro id b hb v hv
    exact Or.inl ⟨b, hb, hv⟩

/-! ### The fixpoint reached by the worklist loop -/

theorem unionSuccessors_congr {bbm bbm' : BasicBlockManager LivenessBasicBlockImpl}
    (nowId : Int) (succs : List Int) (liveins : List Int)
    (h : ∀ s ∈ succs, findBB bbm' s = findBB bbm s) :
    unionSuccessors bbm' nowId succs liveins = unionSuccessors bbm nowId succs liveins := by
  induction succs generalizing liveins with
  | nil => rfl
  | cons sid rest ih =>
    have h0 : unionSuccessor bbm' nowId liveins sid = unionSuccessor bbm nowId liveins sid := by
      simp only [unionSuccessor, h sid (List.mem_cons_self _ _)]
    simp only [unionSuccessors, h0]
    cases unionSuccessor bbm nowId liveins sid with
    | none => rfl
    | some l => exact ih _ (fun s hs => h s (List.mem_cons_of_mem _ hs))

theorem recompute_congr {bbm bbm' : BasicBlockManager LivenessBasicBlockImpl}
    (now : BasicBlock LivenessBasicBlockImpl)
    (h : ∀ s ∈ now.successors, findBB bbm' s = findBB bbm s) :
    recompute bbm' now = recompute bbm now := by
  unfold recompute
  rw [unionSuccessors_congr now.id now.successors now.liveins h]

theorem CompareLiveins_self (l : List Int) : CompareLiveins l l = false := by
  rw [← Bool.not_eq_true, CompareLiveins_iff]
  exact fun h => h rfl

/-- On a stable block an iteration changes neither the store nor the rest of
the worklist. -/
theorem step_of_stable {bbm : BasicBlockManager LivenessBasicBlockImpl} {id : Int}
    (wl : List Int) (hid : isBlock bbm id = true) (hst : Stable bbm id) :
    step bbm id wl = some (bbm, wl) := by
  unfold isBlock at hid
  cases h1 : findBB bbm id with
  | none => simp [h1] at hid
  | some now =>
    rw [step_of_some wl h1 (hst now h1), CompareLiveins_self]
    have : updateBB bbm id (fun b => { b with liveins := now.liveins }) = bbm := by
      unfold updateBB
      rw [updateIn_eq_self]
      intro b hb
      have : b = now := by
        have h1' : findIn id bbm.bbs = some now := h1
        rw [hb] at h1'
        exact Option.some.inj h1'
      rw [this]
    rw [this]
    rfl

/-- The block just recomputed is stable in the new store. -/
theorem step_stable_self {bbm bbm' : BasicBlockManager LivenessBasicBlockImpl}
    {id : Int} {wl wl' : List Int} (h : step bbm id wl = some (bbm', wl'))
    (hp : PointersValid bbm) (hs : LiveinsSorted bbm) : Stable bbm' id := by
  intro now' hnow'
  obtain ⟨now, result, h1, h2, h3⟩ := step_findBB h id
  rw [if_pos rfl, hnow'] at h3
  cases h3
  have hp' := step_pointersValid h hp
  have hs' := step_liveinsSorted h hs
  have hmem' := (findIn_some hnow').1
  obtain ⟨r', hr'⟩ := recompute_isSome hp' hmem'
  rw [hr']
  congr 1
  have hid : now.id = id := (findIn_some h1).2
  apply eq_of_sorted_mem_iff (sorted_recompute hs' (hs' _ hmem') hr') (hs' _ hmem')
  intro v
  rw [mem_recompute hr']
  constructor
  · rintro ⟨hd, hv | ⟨sid, hsid, S', hS', hv⟩⟩
    · exact hv
    · refine (mem_recompute h2 v).mpr ⟨hd, ?_⟩
      obtain ⟨now2, result2, h1', h2', h3'⟩ := step_findBB h sid
      rw [h1] at h1'
      cases h1'
      rw [h2] at h2'
      cases h2'
      rw [hS'] at h3'
      by_cases hsid' : sid = id
      · rw [if_pos hsid'] at h3'
        cases h3'
        rcases hv with hv | hv
        · exact (mem_recompute h2 v).mp hv |>.2
        · right
          refine ⟨sid, hsid, now, ?_, Or.inr hv⟩
          rw [hsid']
          exact h1
      · rw [if_neg hsid'] at h3'
        exact Or.inr ⟨sid, hsid, S', h3'.symm, hv⟩
  · intro hv
    exact ⟨((mem_recompute h2 v).mp hv).1, Or.inl hv⟩

theorem hasPredecessor_setLiveins (bbm : BasicBlockManager LivenessBasicBlockImpl)
    (id s p : Int) (result : List Int) :
    hasPredecessor (updateBB bbm id (fun b => { b with liveins := result })) s p =
      hasPredecessor bbm s p := by
  unfold hasPredecessor
  rw [findBB_setLiveins]
  split_ifs with h
  · subst h; cases findBB bbm s <;> rfl
  · rfl

theorem step_successorsHavePredecessors {bbm bbm' : BasicBlockManager LivenessBasicBlockImpl}
    {id : Int} {wl wl' : List Int} (h : step bbm id wl = some (bbm', wl'))
    (he : SuccessorsHavePredecessors bbm) : SuccessorsHavePredecessors bbm' := by
  obtain ⟨now, result, h1, h2, rfl, -⟩ := step_some h
  intro b hb s hsucc
  rw [hasPredecessor_setLiveins]
  rcases mem_setLiveins hb with hb | ⟨now', h1', rfl⟩
  · exact he b hb s hsucc
  · exact he now' (findIn_some h1').1 s hsucc

theorem step_pendingOrStable {bbm bbm' : BasicBlockManager LivenessBasicBlockImpl}
    {id : Int} {wl wl' : List Int} (h : step bbm id wl = some (bbm', wl'))
    (hp : PointersValid bbm) (hs : LiveinsSorted bbm) (he : SuccessorsHavePredecessors bbm)
    (hinv : PendingOrStable bbm (id :: wl)) : PendingOrStable bbm' wl' := by
  intro j hj
  rw [step_rpo h] at hj
  by_cases hjid : j = id
  · subst hjid
    exact Or.inr (step_stable_self h hp hs)
  · obtain ⟨now, result, h1, h2, hbbm, hwl⟩ := step_some h
    rcases hinv j hj with hmem | hst
    · left
      rcases List.mem_cons.mp hmem with hmem | hmem
      · exact absurd hmem hjid
      · rw [hwl]
        split_ifs
        · exact List.mem_append_left _ hmem
        · exact hmem
    · by_cases hch : result = now.liveins
      · right
        have hsame : bbm' = bbm := by
          have := step_of_stable wl (by unfold isBlock; rw [h1]; rfl)
            (fun n hn => by rw [h1] at hn; cases hn; rw [h2, hch])
          rw [h] at this
          exact (Prod.mk.inj (Option.some.inj this)).1
        rw [hsame]
        exact hst
      · have hcmp : CompareLiveins now.liveins result = true :=
          (CompareLiveins_iff _ _).mpr (fun e => hch e.symm)
        rw [hcmp, if_pos rfl] at hwl
        cases hb : findBB bbm j with
        | none =>
          right
          intro n hn
          obtain ⟨_, _, _, _, h3⟩ := step_findBB h j
          rw [if_neg hjid, hb] at h3
          rw [h3] at hn
          cases hn
        | some b =>
          by_cases hsucc : id ∈ b.successors
          · left
            have := he b (findIn_some hb).1 id hsucc
            unfold hasPredecessor at this
            rw [h1] at this
            rw [hwl, (findIn_some hb).2] at *
            exact List.mem_append_right _ (of_decide_eq_true this)
          · right
            intro n hn
            obtain ⟨_, _, _, _, h3⟩ := step_findBB h j
            rw [if_neg hjid, hb] at h3
            rw [h3] at hn
            cases hn
            have hcongr : recompute bbm' b = recompute bbm b := by
              apply recompute_congr
              intro s hs'
              obtain ⟨_, _, _, _, h4⟩ := step_findBB h s
              rw [h4, if_neg]
              rintro rfl
              exact hsucc hs'
            rw [hcongr]
            exact hst b hb

theorem worklistLoop_stable {bbm final : BasicBlockManager LivenessBasicBlockImpl}
    {fuel : Nat} (hp : PointersValid bbm) (hs : LiveinsSorted bbm)
    (he : SuccessorsHavePredecessors bbm) (hw : AllBlocks bbm bbm.rpo)
    (h : worklistLoop fuel bbm (initialWorklist bbm) = some final) :
    final.rpo = bbm.rpo ∧ AllBlocks final final.rpo ∧ ∀ id ∈ final.rpo, Stable final id := by
  have := worklistLoop_invariant
    (fun b wl => PointersValid b ∧ LiveinsSorted b ∧ SuccessorsHavePredecessors b ∧
      b.rpo = bbm.rpo ∧ AllBlocks b b.rpo ∧ AllBlocks b wl ∧ PendingOrStable b wl) ?_
    fuel bbm (initialWorklist bbm) final
    ⟨hp, hs, he, rfl, hw, fun j hj => hw j (List.mem_reverse.mp hj),
      fun j hj => Or.inl (List.mem_reverse.mpr hj)⟩ h
  · obtain ⟨-, -, -, h4, h5, -, h7⟩ := this
    refine ⟨h4, h5, fun id hid => ?_⟩
    rcases h7 id hid with h8 | h8
    · cases h8
    · exact h8
  · intro b id wl b' wl' ⟨q1, q2, q3, q4, q5, q6, q7⟩ hstep
    have hwl : AllBlocks b wl := fun j hj => q6 j (List.mem_cons_of_mem _ hj)
    refine ⟨step_pointersValid hstep q1, step_liveinsSorted hstep q2,
      step_successorsHavePredecessors hstep q3, (step_rpo hstep).trans q4, ?_,
      step_allBlocks hstep q1 hwl, step_pendingOrStable hstep q1 q2 q3 q7⟩
    intro j hj
    rw [step_rpo hstep] at hj
    obtain ⟨now, result, h1, h2, rfl, -⟩ := step_some hstep
    rw [isBlock_setLiveins]
    exact q5 j hj

/-- On a store in which every listed block is stable, the loop over that
list returns the store unchanged. -/
theorem worklistLoop_of_stable (bbm : BasicBlockManager LivenessBasicBlockImpl) :
    ∀ wl : List Int, AllBlocks bbm wl → (∀ id ∈ wl, Stable bbm id) →
      worklistLoop wl.length bbm wl = some bbm := by
  intro wl
  induction wl with
  | nil => intro _ _; rfl
  | cons id wl ih =>
    intro hw hst
    simp only [List.length_cons, worklistLoop,
      step_of_stable wl (hw id (List.mem_cons_self _ _)) (hst id (List.mem_cons_self _ _))]
    exact ih (fun j hj => hw j (List.mem_cons_of_mem _ hj))
      (fun j hj => hst j (List.mem_cons_of_mem _ hj))

open LivenessAnalysisVisitor

/-! ## The claims on the liveness fixpoint -/

/-- C1, counterexample. The visitation pass run on `useBeforeDefineCallbacks`
builds `useBeforeDefineCFG`; after the worklist loop value 7 is live-in of
block 1, although block 1 references nothing, its only successor 0 has an
empty live-in vector and there is no phi descriptor: block 1 picked 7 up from
block 0 before block 0 removed it as one of its own defines. -/
theorem C1_counterexample :
    (VisitAll init useBeforeDefineCallbacks).map (fun v => v.basic_block_manager_) =
        some useBeforeDefineCFG ∧
      ∃ final B S,
        worklistLoop 4 useBeforeDefineCFG (initialWorklist useBeforeDefineCFG) = some final ∧
        findBB final 1 = some B ∧ (7 : Int) ∈ B.liveins ∧
        (findBB useBeforeDefineCFG 1).map (fun b => b.liveins) = some [] ∧
        B.successors = [0] ∧ findBB final 0 = some S ∧ S.liveins = [] ∧ phisOf S = [] := by
  refine ⟨by decide, ?_⟩
  refine ⟨_, _, _, rfl, rfl, by decide, by decide, rfl, rfl, rfl, rfl⟩

/-- C1, amended. On a store with valid pointers and sorted live-in vectors in
which no block's live-in candidates meet its own defines, the worklist loop
of `CalculateLivesIns` returns, and afterwards every live-in `v` of every
block `B` is not in `B`'s defines and is an initial live-in of `B` (its local
references, as `EndBlock` stored them) or reaches `B` from a successor: it is
a live-in of the successor or the source of a phi descriptor of the successor
whose predecessor is `B`. -/
theorem C1_liveins_justified (bbm : BasicBlockManager LivenessBasicBlockImpl)
    (hp : PointersValid bbm) (hs : LiveinsSorted bbm) (hw : AllBlocks bbm bbm.rpo)
    (hc : NoUseBeforeDefine bbm) :
    ∃ final, worklistLoop (fuelBound bbm (initialWorklist bbm)) bbm (initialWorklist bbm)
        = some final ∧
      ∀ id B, findBB final id = some B → ∀ v ∈ B.liveins,
        v ∉ definesOf B ∧
          ((∃ B0, findBB bbm id = some B0 ∧ v ∈ B0.liveins) ∨
            ∃ sid ∈ B.successors, Contribution final id sid v) := by
  obtain ⟨final, hfinal⟩ := worklistLoop_isSome bbm (initialWorklist bbm) hp hs
    (fun j hj => hw j (List.mem_reverse.mp hj))
  obtain ⟨h1, h2⟩ := worklistLoop_justified hc hfinal
  exact ⟨final, hfinal, fun id B hB v hv => ⟨h1 B (findIn_some hB).1 v hv, h2 id B hB v hv⟩⟩

/-- C1, witness: the amended claim on the loop `loopCFG`. -/
theorem C1_liveins_justified_witness :
    PointersValid loopCFG ∧ LiveinsSorted loopCFG ∧ AllBlocks loopCFG loopCFG.rpo ∧
      NoUseBeforeDefine loopCFG ∧
      ∃ final, worklistLoop (fuelBound loopCFG (initialWorklist loopCFG)) loopCFG
          (initialWorklist loopCFG) = some final ∧
        ∀ id B, findBB final id = some B → ∀ v ∈ B.liveins,
          v ∉ definesOf B ∧
            ((∃ B0, findBB loopCFG id = some B0 ∧ v ∈ B0.liveins) ∨
              ∃ sid ∈ B.successors, Contribution final id sid v) :=
  ⟨by decide, by decide, by decide, by decide,
    C1_liveins_justified loopCFG (by decide) (by decide) (by decide) (by decide)⟩

/-- C2, counterexample. Block 0 of `singleBlockCFG` has no successor, so the
union over its successors is empty, yet after the iteration that dequeues it
its stored live-in vector is `[7]`: the iteration starts from the block's own
live-in vector. -/
theorem C2_counterexample :
    ∃ bbm' B now,
      step singleBlockCFG 0 [] = some (bbm', []) ∧ findBB bbm' 0 = some B ∧
      findBB singleBlockCFG 0 = some now ∧ now.successors = [] ∧ definesOf now = [] ∧
      B.liveins = [7] ∧
      ¬ (∀ v, v ∈ B.liveins ↔
          v ∉ definesOf now ∧ ∃ sid ∈ now.successors, Contribution singleBlockCFG 0 sid v) := by
  refine ⟨_, _, _, rfl, rfl, rfl, rfl, rfl, rfl, ?_⟩
  intro h
  obtain ⟨-, sid, hsid, -⟩ := (h 7).mp (by decide)
  cases hsid

/-- C2, amended. For the block dequeued by an iteration of the worklist loop,
the live-in vector stored at the end of the iteration has exactly these
elements: the values that are in the block's own live-in vector before the
iteration, or in the current live-in vector of one of its successors, or the
source of a phi descriptor of a successor whose predecessor is this block,
and that are not in this block's defines. -/
theorem C2_step_liveins (bbm bbm' : BasicBlockManager LivenessBasicBlockImpl) (id : Int)
    (wl wl' : List Int) (h : step bbm id wl = some (bbm', wl')) :
    ∃ now B, findBB bbm id = some now ∧ findBB bbm' id = some B ∧
      ∀ v, v ∈ B.liveins ↔
        v ∉ definesOf now ∧
          (v ∈ now.liveins ∨ ∃ sid ∈ now.successors, Contribution bbm id sid v) := by
  obtain ⟨now, result, h1, h2, h3⟩ := step_findBB h id
  rw [if_pos rfl] at h3
  refine ⟨now, _, h1, h3, fun v => ?_⟩
  have := mem_recompute h2 v
  rw [(findIn_some h1).2] at this
  exact this

/-- C2, witness: the amended claim on the iteration of `loopCFG` that
dequeues block 2. -/
theorem C2_step_liveins_witness :
    step loopCFG 2 [1, 0] =
        some (updateBB loopCFG 2 (fun b => { b with liveins := [6, 8, 10] }), [1, 0, 1]) ∧
      ∃ now B, findBB loopCFG 2 = some now ∧
        findBB (updateBB loopCFG 2 (fun b => { b with liveins := [6, 8, 10] })) 2 = some B ∧
        ∀ v, v ∈ B.liveins ↔
          v ∉ definesOf now ∧
            (v ∈ now.liveins ∨ ∃ sid ∈ now.successors, Contribution loopCFG 2 sid v) :=
  ⟨by decide, C2_step_liveins loopCFG _ 2 [1, 0] [1, 0, 1] (by decide)⟩

/-- C3, counterexample. The visitation pass run on `unannouncedEdgeCallbacks`
builds a store in which block 0 has successor 1 while block 1 has no
predecessor. The worklist loop runs to completion with an empty live-in
vector for block 0; running the same loop again changes it to `[7]`. -/
theorem C3_counterexample :
    ∃ v final final2 B B2,
      VisitAll init unannouncedEdgeCallbacks = some v ∧
      worklistLoop 3 v.basic_block_manager_ (initialWorklist v.basic_block_manager_)
        = some final ∧
      worklistLoop 4 final (initialWorklist final) = some final2 ∧
      findBB final 0 = some B ∧ B.liveins = [] ∧
      findBB final2 0 = some B2 ∧ B2.liveins = [7] := by
  refine ⟨_, _, _, _, _, rfl, rfl, rfl, rfl, rfl, rfl, rfl⟩

/-- C3, amended. On a store with valid pointers and sorted live-in vectors in
which every successor edge has its predecessor edge, the worklist loop of
`CalculateLivesIns` returns, and running the loop again on the store it
returned gives back that same store, every iteration of the second run
leaving the store and the rest of the worklist as they are (no predecessor is
enqueued). -/
theorem C3_rerun_is_noop (bbm : BasicBlockManager LivenessBasicBlockImpl)
    (hp : PointersValid bbm) (hs : LiveinsSorted bbm) (hw : AllBlocks bbm bbm.rpo)
    (he : SuccessorsHavePredecessors bbm) :
    ∃ final, worklistLoop (fuelBound bbm (initialWorklist bbm)) bbm (initialWorklist bbm)
        = some final ∧
      worklistLoop (initialWorklist final).length final (initialWorklist final) = some final ∧
      ∀ id ∈ initialWorklist final, ∀ wl, step final id wl = some (final, wl) := by
  obtain ⟨final, hfinal⟩ := worklistLoop_isSome bbm (initialWorklist bbm) hp hs
    (fun j hj => hw j (List.mem_reverse.mp hj))
  obtain ⟨-, h2, h3⟩ := worklistLoop_stable hp hs he hw hfinal
  refine ⟨final, hfinal, ?_, ?_⟩
  · exact worklistLoop_of_stable final _ (fun j hj => h2 j (List.mem_reverse.mp hj))
      (fun j hj => h3 j (List.mem_reverse.mp hj))
  · intro id hid wl
    exact step_of_stable wl (h2 id (List.mem_reverse.mp hid)) (h3 id (List.mem_reverse.mp hid))

/-- C3, witness: the amended claim on the loop `loopCFG`. -/
theorem C3_rerun_is_noop_witness :
    PointersValid loopCFG ∧ LiveinsSorted loopCFG ∧ AllBlocks loopCFG loopCFG.rpo ∧
      SuccessorsHavePredecessors loopCFG ∧
      ∃ final, worklistLoop (fuelBound loopCFG (initialWorklist loopCFG)) loopCFG
          (initialWorklist loopCFG) = some final ∧
        worklistLoop (initialWorklist final).length final (initialWorklist final)
          = some final ∧
        ∀ id ∈ initialWorklist final, ∀ wl, step final id wl = some (final, wl) :=
  ⟨by decide, by decide, by decide, by decide,
    C3_rerun_is_noop loopCFG (by decide) (by decide) (by decide) (by decide)⟩

/-- C4. The worklist loop of `CalculateLivesIns` terminates: on every store
(a finite list of blocks with finite edge lists, defines, phi descriptors and
live-in vectors) whose pointers are valid and whose live-in vectors are
sorted as `std::set_union` and `std::lower_bound` require, the loop started
on the reversed reverse postorder empties its worklist within `fuelBound`
iterations. -/
theorem C4_worklist_terminates (bbm : BasicBlockManager LivenessBasicBlockImpl)
    (hp : PointersValid bbm) (hs : LiveinsSorted bbm) (hw : AllBlocks bbm bbm.rpo) :
    ∃ final, worklistLoop (fuelBound bbm (initialWorklist bbm)) bbm (initialWorklist bbm)
      = some final :=
  worklistLoop_isSome bbm (initialWorklist bbm) hp hs
    (fun j hj => hw j (List.mem_reverse.mp hj))

/-- C4, witness: termination on `useBeforeDefineCFG`, where a live-in vector
shrinks before the vectors grow. -/
theorem C4_worklist_terminates_witness :
    PointersValid useBeforeDefineCFG ∧ LiveinsSorted useBeforeDefineCFG ∧
      AllBlocks useBeforeDefineCFG useBeforeDefineCFG.rpo ∧
      ∃ final, worklistLoop (fuelBound useBeforeDefineCFG (initialWorklist useBeforeDefineCFG))
        useBeforeDefineCFG (initialWorklist useBeforeDefineCFG) = some final :=
  ⟨by decide, by decide, by decide,
    C4_worklist_terminates useBeforeDefineCFG (by decide) (by decide) (by decide)⟩

/-- C5. `CompareLiveins` reports a change exactly when the two vectors differ
as sequences, that is in length or at some position; two vectors of equal
size and different contents are reported as changed; and an iteration of the
worklist loop appends the dequeued block's predecessors to the worklist
exactly when `CompareLiveins` of the stored and the recomputed vector is
true. -/
theorem C5_change_detection_by_content (bbm : BasicBlockManager LivenessBasicBlockImpl)
    (id : Int) (wl : List Int) (now : BasicBlock LivenessBasicBlockImpl) (result : List Int)
    (h1 : findBB bbm id = some now) (h2 : recompute bbm now = some result) :
    (∀ l r : List Int, CompareLiveins l r = true ↔ l ≠ r) ∧
      (∀ l r : List Int, l ≠ r ↔ (l.length ≠ r.length ∨ ∃ i, i < l.length ∧ l[i]? ≠ r[i]?)) ∧
      CompareLiveins [1, 2] [1, 3] = true ∧
      (CompareLiveins now.liveins result = true →
        step bbm id wl =
          some (updateBB bbm id (fun b => { b with liveins := result }),
            wl ++ now.predecessors)) ∧
      (CompareLiveins now.liveins result = false →
        step bbm id wl = some (updateBB bbm id (fun b => { b with liveins := result }), wl)) := by
  refine ⟨CompareLiveins_iff, ?_, by decide, ?_, ?_⟩
  · intro l r
    constructor
    · intro hne
      by_contra hcon
      push_neg at hcon
      apply hne
      apply List.ext_getElem? 
      intro i
      by_cases hi : i < l.length
      · exact hcon.2 i hi
      · have hl : l.length ≤ i := not_lt.mp hi
        have hr : r.length ≤ i := hcon.1 ▸ hl
        rw [List.getElem?_eq_none hl, List.getElem?_eq_none hr]
    · rintro (hlen | ⟨i, -, hi⟩) heq
      · exact hlen (heq ▸ rfl)
      · exact hi (heq ▸ rfl)
  · intro hc
    rw [step_of_some wl h1 h2, hc]
    rfl
  · intro hc
    rw [step_of_some wl h1 h2, hc]
    rfl

/-- C5, witness: the iteration of `useBeforeDefineCFG` that dequeues block 1
replaces `[]` by `[7]` and enqueues the predecessor 0. -/
theorem C5_change_detection_by_content_witness :
    findBB useBeforeDefineCFG 1 = some (livenessBlock 1 [0] [0] [] StdSet.empty []) ∧
      recompute useBeforeDefineCFG (livenessBlock 1 [0] [0] [] StdSet.empty []) = some [7] ∧
      CompareLiveins (livenessBlock 1 [0] [0] [] StdSet.empty []).liveins [7] = true ∧
      step useBeforeDefineCFG 1 [0] =
        some (updateBB useBeforeDefineCFG 1 (fun b => { b with liveins := [7] }),
          [0] ++ (livenessBlock 1 [0] [0] [] StdSet.empty []).predecessors) :=
  ⟨by decide, by decide, by decide,
    (C5_change_detection_by_content useBeforeDefineCFG 1 [0]
      (livenessBlock 1 [0] [0] [] StdSet.empty []) [7] (by decide) (by decide)).2.2.2.1
      (by decide)⟩

/-! ### The visitation pass keeps the live-in vectors sorted -/

theorem liveinsKept_refl {I : Type} (bbm : BasicBlockManager I) : LiveinsKept bbm bbm :=
  fun b hb => Or.inr ⟨b, hb, rfl, rfl⟩

theorem liveinsKept_trans {I : Type} {a b c : BasicBlockManager I}
    (h1 : LiveinsKept a b) (h2 : LiveinsKept b c) : LiveinsKept a c := by
  intro x hx
  rcases h2 x hx with h | ⟨y, hy, hid, hl⟩
  · exact Or.inl h
  · rcases h1 y hy with h | ⟨z, hz, hid', hl'⟩
    · exact Or.inl (hl ▸ h)
    · exact Or.inr ⟨z, hz, hid'.trans hid, hl'.trans hl⟩

theorem liveinsKept_ensureBB {I : Type} (bbm : BasicBlockManager I) (id : Int) :
    LiveinsKept bbm (ensureBB bbm id) := by
  unfold ensureBB
  split_ifs
  · exact liveinsKept_refl bbm
  · intro b hb
    rcases List.mem_append.mp hb with hb | hb
    · exact Or.inr ⟨b, hb, rfl, rfl⟩
    · rw [List.mem_singleton] at hb
      exact Or.inl (hb ▸ rfl)

theorem liveinsKept_updateBB {I : Type} (bbm : BasicBlockManager I) (id : Int)
    (f : BasicBlock I → BasicBlock I) (hid : ∀ b, (f b).id = b.id)
    (hl : ∀ b, (f b).liveins = b.liveins) : LiveinsKept bbm (updateBB bbm id f) := by
  intro b hb
  rcases mem_updateIn hb with hb | ⟨c, hc, rfl⟩
  · exact Or.inr ⟨b, hb, rfl, rfl⟩
  · exact Or.inr ⟨c, (findIn_some hc).1, (hid c).symm, (hl c).symm⟩

theorem liveinsKept_addPredecessors (id : Int) (preds : List Int)
    (bbm : BasicBlockManager LivenessBasicBlockImpl) :
    LiveinsKept bbm (addPredecessors id preds bbm) ∧
      (addPredecessors id preds bbm).rpo = bbm.rpo := by
  induction preds generalizing bbm with
  | nil => exact ⟨liveinsKept_refl bbm, rfl⟩
  | cons p ps ih =>
    simp only [addPredecessors]
    obtain ⟨h1, h2⟩ := ih (updateBB (ensureBB bbm p) id (fun bb => AddPredecessor bb p))
    refine ⟨liveinsKept_trans (liveinsKept_trans (liveinsKept_ensureBB bbm p)
      (liveinsKept_updateBB _ id (fun bb => AddPredecessor bb p) (fun _ => rfl)
        (fun _ => rfl))) h1, ?_⟩
    rw [h2]
    unfold updateBB ensureBB
    split_ifs <;> rfl

theorem ensureBB_rpo {I : Type} (bbm : BasicBlockManager I) (id : Int) :
    (ensureBB bbm id).rpo = bbm.rpo := by
  unfold ensureBB
  split_ifs <;> rfl

/-- A callback that keeps the live-in vectors and the current block and only
extends nothing in the reverse postorder keeps the invariant. -/
theorem visitInvariant_of_kept {v v' : LivenessAnalysisVisitor} (hinv : VisitInvariant v)
    (hk : LiveinsKept v.basic_block_manager_ v'.basic_block_manager_)
    (hr : v'.basic_block_manager_.rpo = v.basic_block_manager_.rpo)
    (hc : v'.current_basic_block_ = v.current_basic_block_) : VisitInvariant v' := by
  refine ⟨fun b' hb' => ?_, fun cur hcur => ?_⟩
  · rcases hk b' hb' with h | ⟨b, hb, hid, hl⟩
    · exact ⟨h ▸ List.Pairwise.nil, fun _ => h⟩
    · obtain ⟨q1, q2⟩ := hinv.1 b hb
      rw [hr, hc, ← hid, ← hl]
      exact ⟨q1, q2⟩
  · rw [hr]
    exact hinv.2 cur (hc ▸ hcur)

theorem EndBlock_invariant {v v' : LivenessAnalysisVisitor} (hinv : VisitInvariant v)
    (h : v.EndBlock = some v') :
    VisitInvariant v' ∧ v'.basic_block_manager_.rpo = v.basic_block_manager_.rpo := by
  unfold EndBlock at h
  cases hcur : v.current_basic_block_ with
  | none => simp [hcur] at h
  | some cur =>
    cases hbb : findBB v.basic_block_manager_ cur with
    | none => simp [hcur, hbb] at h
    | some bb =>
      cases himpl : bb.impl with
      | none => simp [hcur, hbb, himpl] at h
      | some impl =>
        simp only [hcur, hbb, himpl, Option.some.injEq] at h
        subst h
        refine ⟨⟨fun b' hb' => ?_, fun c hc => (by cases hc)⟩, rfl⟩
        rcases mem_updateIn hb' with hb' | ⟨c, hc, rfl⟩
        · obtain ⟨q1, q2⟩ := hinv.1 b' hb'
          exact ⟨q1, fun hh => q2 (hh.elim Or.inl (fun e => by cases e))⟩
        · have hcid : c.id = cur := (findIn_some hc).2
          have hnil : c.liveins = [] := (hinv.1 c (findIn_some hc).1).2 (Or.inr (by rw [hcur, hcid]))
          simp only [hnil, List.nil_append]
          refine ⟨v.current_references_.sorted, fun hh => ?_⟩
          rcases hh with hh | hh
          · exact absurd (hcid ▸ hinv.2 cur hcur) hh
          · cases hh

theorem AddIfNotInDefines_bbm (v : LivenessAnalysisVisitor) (id : Int) :
    (v.AddIfNotInDefines id).basic_block_manager_ = v.basic_block_manager_ ∧
      (v.AddIfNotInDefines id).current_basic_block_ = v.current_basic_block_ := by
  unfold AddIfNotInDefines
  split_ifs <;> exact ⟨rfl, rfl⟩

theorem AddAllIfNotInDefines_bbm (operands : List Int) (v : LivenessAnalysisVisitor) :
    (v.AddAllIfNotInDefines operands).basic_block_manager_ = v.basic_block_manager_ ∧
      (v.AddAllIfNotInDefines operands).current_basic_block_ = v.current_basic_block_ := by
  induction operands generalizing v with
  | nil => exact ⟨rfl, rfl⟩
  | cons e es ih =>
    simp only [AddAllIfNotInDefines]
    obtain ⟨h1, h2⟩ := ih (v.AddIfNotInDefines e)
    obtain ⟨h3, h4⟩ := AddIfNotInDefines_bbm v e
    exact ⟨h1.trans h3, h2.trans h4⟩

theorem visitInvariant_congr {v v' : LivenessAnalysisVisitor} (hinv : VisitInvariant v)
    (hb : v'.basic_block_manager_ = v.basic_block_manager_)
    (hc : v'.current_basic_block_ = v.current_basic_block_) : VisitInvariant v' :=
  visitInvariant_of_kept hinv (hb ▸ liveinsKept_refl _) (by rw [hb]) hc

/-- One callback keeps the invariant and extends the reverse postorder by
the block it announces, provided that block was not announced before. -/
theorem Visit_invariant {v v' : LivenessAnalysisVisitor} (c : Callback)
    (hinv : VisitInvariant v) (h : v.Visit c = some v')
    (hnew : ∀ id ∈ announcedBlocks [c], id ∉ v.basic_block_manager_.rpo) :
    VisitInvariant v' ∧
      v'.basic_block_manager_.rpo = v.basic_block_manager_.rpo ++ announcedBlocks [c] := by
  have simple : ∀ w : LivenessAnalysisVisitor, some w = some v' →
      w.basic_block_manager_ = v.basic_block_manager_ →
      w.current_basic_block_ = v.current_basic_block_ → announcedBlocks [c] = [] →
      VisitInvariant v' ∧
        v'.basic_block_manager_.rpo = v.basic_block_manager_.rpo ++ announcedBlocks [c] := by
    intro w hw hb hc ha
    cases hw
    exact ⟨visitInvariant_congr hinv hb hc, by rw [ha, hb, List.append_nil]⟩
  cases c with
  | Block id is_deferred predecessors =>
    simp only [Visit, VisitBlock] at h
    cases hcur : v.current_basic_block_ with
    | some c => simp [hcur] at h
    | none =>
      simp only [hcur, Option.some.injEq] at h
      subst h
      have hid : id ∉ v.basic_block_manager_.rpo :=
        hnew id (by simp [announcedBlocks])
      obtain ⟨hk, hr⟩ := liveinsKept_addPredecessors id predecessors
        (ensureBB v.basic_block_manager_ id)
      have hk2 := liveinsKept_trans (liveinsKept_trans
        (liveinsKept_ensureBB v.basic_block_manager_ id) hk)
        (liveinsKept_updateBB (addPredecessors id predecessors
          (ensureBB v.basic_block_manager_ id)) id
          (fun bb => { bb with deferred := is_deferred,
                               impl := some { phis := [], defines := StdSet.empty } })
          (fun _ => rfl) (fun _ => rfl))
      have hrpo : (addPredecessors id predecessors (ensureBB v.basic_block_manager_ id)).rpo
          = v.basic_block_manager_.rpo := by rw [hr, ensureBB_rpo]
      refine ⟨⟨fun b' hb' => ?_, fun c hc => ?_⟩, ?_⟩
      · rcases hk2 b' hb' with hnil | ⟨b, hb, hbid, hl⟩
        · exact ⟨hnil ▸ List.Pairwise.nil, fun _ => hnil⟩
        · obtain ⟨q1, q2⟩ := hinv.1 b hb
          rw [← hl]
          refine ⟨q1, fun hh => q2 (Or.inl ?_)⟩
          simp only [updateBB, hrpo, List.mem_append, List.mem_singleton, not_or,
            Option.some.injEq] at hh
          rw [hbid]
          rcases hh with hh | hh
          · exact hh.1
          · exact hh ▸ hid
      · simp only [Option.some.injEq] at hc
        subst hc
        simp [updateBB]
      · simp [updateBB, hrpo, announcedBlocks]
  | Goto bid =>
    simp only [Visit, VisitGoto, pushSuccessor] at h
    cases hcur : v.current_basic_block_ with
    | none => simp [hcur] at h
    | some cur =>
      simp only [hcur] at h
      split_ifs at h with hb
      · simp only [Option.bind_eq_bind, Option.some_bind] at h
        obtain ⟨q1, q2⟩ := EndBlock_invariant (visitInvariant_of_kept hinv
            (liveinsKept_trans (liveinsKept_ensureBB _ bid)
              (liveinsKept_updateBB _ cur
                (fun bb => { bb with successors := bb.successors ++ [bid] })
                (fun _ => rfl) (fun _ => rfl)))
            (by simp [updateBB, ensureBB_rpo]) hcur.symm) h
        refine ⟨q1, ?_⟩
        rw [q2]
        simp [updateBB, ensureBB_rpo, announcedBlocks]
      · simp at h
  | Branch id cmp btrue bfalse =>
    simp only [Visit, VisitBranch] at h
    cases hcur : v.current_basic_block_ with
    | none => simp [hcur] at h
    | some cur =>
      simp only [hcur] at h
      split_ifs at h with hb
      · obtain ⟨q1, q2⟩ := EndBlock_invariant (visitInvariant_of_kept hinv
            (liveinsKept_trans (liveinsKept_trans (liveinsKept_ensureBB _ btrue)
              (liveinsKept_ensureBB _ bfalse))
              (liveinsKept_updateBB _ cur
                (fun bb => { bb with successors := bb.successors ++ [btrue, bfalse] })
                (fun _ => rfl) (fun _ => rfl)))
            (by simp [updateBB, ensureBB_rpo]) hcur.symm) h
        refine ⟨q1, ?_⟩
        rw [q2]
        simp [updateBB, ensureBB_rpo, announcedBlocks]
  | Phi id rep operands =>
    simp only [Visit, VisitPhi, Define] at h
    cases hcur : v.current_basic_block_ with
    | none => simp [hcur] at h
    | some cur =>
      cases hbb : findBB v.basic_block_manager_ cur with
      | none => simp [hcur, hbb] at h
      | some bb =>
        simp only [hcur, hbb] at h
        cases himpl : bb.impl with
        | none => simp [himpl] at h
        | some impl =>
          cases hd : phiDescs bb.predecessors operands with
          | none => simp [himpl, hd] at h
          | some descs =>
            simp only [himpl, hd, Option.some.injEq] at h
            subst h
            exact ⟨visitInvariant_of_kept hinv
              (liveinsKept_updateBB _ cur
                (fun b => { b with impl := some { impl with phis := impl.phis ++ descs } })
                (fun _ => rfl) (fun _ => rfl)) rfl hcur.symm,
              by simp [updateBB, announcedBlocks]⟩
  | TailCall id code regs operands =>
    simp only [Visit] at h
    obtain ⟨h1, h2⟩ := AddAllIfNotInDefines_bbm operands v
    obtain ⟨q1, q2⟩ := EndBlock_invariant (visitInvariant_congr hinv h1 h2) h
    exact ⟨q1, by rw [q2, h1]; simp [announcedBlocks]⟩
  | Parameter id pid =>
    simp only [Visit] at h
    exact simple _ h rfl rfl rfl
  | LoadParentFramePointer id =>
    simp only [Visit] at h
    exact simple _ h rfl rfl rfl
  | Int32Constant id value =>
    simp only [Visit] at h
    exact simple _ h rfl rfl rfl
  | Load id rep semantic base offset =>
    simp only [Visit] at h
    exact simple _ h (AddIfNotInDefines_bbm _ _).1 (AddIfNotInDefines_bbm _ _).2 rfl
  | Store id rep barrier base offset value =>
    simp only [Visit] at h
    exact simple _ h ((AddIfNotInDefines_bbm _ _).1.trans (AddIfNotInDefines_bbm _ _).1)
      ((AddIfNotInDefines_bbm _ _).2.trans (AddIfNotInDefines_bbm _ _).2) rfl
  | BitcastWordToTagged id e =>
    simp only [Visit] at h
    exact simple _ h (AddIfNotInDefines_bbm _ _).1 (AddIfNotInDefines_bbm _ _).2 rfl
  | Binary op id e1 e2 =>
    simp only [Visit] at h
    exact simple _ h ((AddIfNotInDefines_bbm _ _).1.trans (AddIfNotInDefines_bbm _ _).1)
      ((AddIfNotInDefines_bbm _ _).2.trans (AddIfNotInDefines_bbm _ _).2) rfl
  | HeapConstant id magic =>
    simp only [Visit] at h
    exact simple _ h rfl rfl rfl
  | ExternalConstant id magic =>
    simp only [Visit] at h
    exact simple _ h rfl rfl rfl
  | Call id code regs operands =>
    simp only [Visit] at h
    exact simple _ h (AddAllIfNotInDefines_bbm _ _).1 (AddAllIfNotInDefines_bbm _ _).2 rfl
  | Root id index =>
    simp only [Visit] at h
    exact simple _ h rfl rfl rfl

theorem announcedBlocks_cons (c : Callback) (cs : List Callback) :
    announcedBlocks (c :: cs) = announcedBlocks [c] ++ announcedBlocks cs := by
  cases c <;> simp [announcedBlocks]

theorem VisitAll_invariant (cbs : List Callback) :
    ∀ (v v' : LivenessAnalysisVisitor), VisitInvariant v →
      (∀ id ∈ announcedBlocks cbs, id ∉ v.basic_block_manager_.rpo) →
      (announcedBlocks cbs).Nodup → v.VisitAll cbs = some v' → VisitInvariant v' := by
  induction cbs with
  | nil =>
    intro v v' hinv _ _ h
    simp only [VisitAll, Option.some.injEq] at h
    exact h ▸ hinv
  | cons c cs ih =>
    intro v v' hinv hnew hnd h
    simp only [VisitAll] at h
    cases h1 : v.Visit c with
    | none => simp [h1] at h
    | some v1 =>
      simp only [h1, Option.bind_eq_bind, Option.some_bind] at h
      rw [announcedBlocks_cons] at hnew hnd
      obtain ⟨q1, q2⟩ := Visit_invariant c hinv h1
        (fun id hid => hnew id (List.mem_append_left _ hid))
      refine ih v1 v' q1 ?_ (List.Nodup.of_append_right hnd) h
      intro id hid
      rw [q2, List.mem_append, not_or]
      exact ⟨hnew id (List.mem_append_right _ hid),
        fun hmem => (List.nodup_append.mp hnd).2.2 hmem hid⟩

theorem visitInvariant_init : VisitInvariant init :=
  ⟨fun b hb => (by cases hb), fun c hc => (by cases hc)⟩

/-! ### The edges built by the visitation pass -/

theorem findIn_append {I : Type} (j : Int) (xs ys : List (BasicBlock I)) :
    findIn j (xs ++ ys) = match findIn j xs with
      | some b => some b
      | none => findIn j ys := by
  induction xs with
  | nil => rfl
  | cons c cs ih =>
    simp only [List.cons_append, findIn]
    split_ifs
    · rfl
    · exact ih

theorem findBB_ensureBB {I : Type} (bbm : BasicBlockManager I) (id j : Int) :
    findBB (ensureBB bbm id) j = match findBB bbm j with
      | some b => some b
      | none => if j = id then
          some { id := id, predecessors := [], successors := [], liveins := [],
                 deferred := false, impl := none }
        else none := by
  unfold ensureBB
  by_cases hb : isBlock bbm id = true
  · rw [if_pos hb]
    cases hj : findBB bbm j with
    | some b => rfl
    | none =>
      have : j ≠ id := by
        rintro rfl
        unfold isBlock at hb
        rw [hj] at hb
        cases hb
      simp [this]
  · rw [if_neg hb]
    unfold findBB
    simp only [findIn_append]
    cases hj : findIn j bbm.bbs with
    | some b => rfl
    | none =>
      simp only [findIn]
      by_cases hji : j = id
      · simp [hji]
      · have : ¬ id = j := fun e => hji e.symm
        simp [hji, this]

theorem isBlock_ensureBB_self {I : Type} (bbm : BasicBlockManager I) (id : Int) :
    isBlock (ensureBB bbm id) id = true := by
  unfold isBlock
  rw [findBB_ensureBB]
  cases findBB bbm id <;> simp

theorem isBlock_ensureBB_of {I : Type} (bbm : BasicBlockManager I) (id j : Int)
    (h : isBlock bbm j = true) : isBlock (ensureBB bbm id) j = true := by
  unfold isBlock at h ⊢
  rw [findBB_ensureBB]
  cases hj : findBB bbm j with
  | some b => rfl
  | none => rw [hj] at h; cases h

theorem successorEdge_ensureBB {I : Type} (bbm : BasicBlockManager I) (id b1 b2 : Int) :
    SuccessorEdge (ensureBB bbm id) b1 b2 ↔ SuccessorEdge bbm b1 b2 := by
  unfold SuccessorEdge
  rw [findBB_ensureBB]
  cases hj : findBB bbm b1 with
  | some b => rfl
  | none =>
    constructor
    · rintro ⟨b, hb, hmem⟩
      split_ifs at hb
      · cases hb
        cases hmem
    · rintro ⟨b, hb, -⟩
      cases hb

theorem predecessorEdge_ensureBB {I : Type} (bbm : BasicBlockManager I) (id b1 b2 : Int) :
    PredecessorEdge (ensureBB bbm id) b1 b2 ↔ PredecessorEdge bbm b1 b2 := by
  unfold PredecessorEdge
  rw [findBB_ensureBB]
  cases hj : findBB bbm b2 with
  | some b => rfl
  | none =>
    constructor
    · rintro ⟨b, hb, hmem⟩
      split_ifs at hb
      · cases hb
        cases hmem
    · rintro ⟨b, hb, -⟩
      cases hb

theorem isBlock_updateBB {I : Type} (bbm : BasicBlockManager I) (id j : Int)
    (f : BasicBlock I → BasicBlock I) (hf : ∀ b, (f b).id = b.id) :
    isBlock (updateBB bbm id f) j = isBlock bbm j := by
  unfold isBlock
  rw [findBB_updateBB bbm id j f hf]
  split_ifs with h
  · subst h; cases findBB bbm j <;> rfl
  · rfl

/-- An update that keeps ids changes the successor edges of the updated block
only. -/
theorem successorEdge_updateBB {I : Type} (bbm : BasicBlockManager I) (id b1 b2 : Int)
    (f : BasicBlock I → BasicBlock I) (hf : ∀ b, (f b).id = b.id) :
    SuccessorEdge (updateBB bbm id f) b1 b2 ↔
      (b1 ≠ id ∧ SuccessorEdge bbm b1 b2) ∨
        (b1 = id ∧ ∃ x, findBB bbm id = some x ∧ b2 ∈ (f x).successors) := by
  unfold SuccessorEdge
  rw [findBB_updateBB bbm id b1 f hf]
  by_cases h : b1 = id
  · subst h
    simp only [if_true, ne_eq, not_true_eq_false, false_and, true_and, false_or]
    cases findBB bbm b1 with
    | none => simp
    | some x => simp
  · simp [h]

theorem predecessorEdge_updateBB {I : Type} (bbm : BasicBlockManager I) (id b1 b2 : Int)
    (f : BasicBlock I → BasicBlock I) (hf : ∀ b, (f b).id = b.id) :
    PredecessorEdge (updateBB bbm id f) b1 b2 ↔
      (b2 ≠ id ∧ PredecessorEdge bbm b1 b2) ∨
        (b2 = id ∧ ∃ x, findBB bbm id = some x ∧ b1 ∈ (f x).predecessors) := by
  unfold PredecessorEdge
  rw [findBB_updateBB bbm id b2 f hf]
  by_cases h : b2 = id
  · subst h
    simp only [if_true, ne_eq, not_true_eq_false, false_and, true_and, false_or]
    cases findBB bbm b2 with
    | none => simp
    | some x => simp
  · simp [h]

theorem successorEdge_updateBB_same {I : Type} (bbm : BasicBlockManager I) (id b1 b2 : Int)
    (f : BasicBlock I → BasicBlock I) (hf : ∀ b, (f b).id = b.id)
    (hs : ∀ b, (f b).successors = b.successors) :
    SuccessorEdge (updateBB bbm id f) b1 b2 ↔ SuccessorEdge bbm b1 b2 := by
  rw [successorEdge_updateBB bbm id b1 b2 f hf]
  unfold SuccessorEdge
  by_cases h : b1 = id
  · subst h
    simp [hs]
  · simp [h]

theorem predecessorEdge_updateBB_same {I : Type} (bbm : BasicBlockManager I) (id b1 b2 : Int)
    (f : BasicBlock I → BasicBlock I) (hf : ∀ b, (f b).id = b.id)
    (hs : ∀ b, (f b).predecessors = b.predecessors) :
    PredecessorEdge (updateBB bbm id f) b1 b2 ↔ PredecessorEdge bbm b1 b2 := by
  rw [predecessorEdge_updateBB bbm id b1 b2 f hf]
  unfold PredecessorEdge
  by_cases h : b2 = id
  · subst h
    simp [hs]
  · simp [h]

/-- Appending targets to the successor list of an existing block adds
exactly these successor edges. -/
theorem successorEdge_push {I : Type} (bbm : BasicBlockManager I) (cur b1 b2 : Int)
    (targets : List Int) (hcur : isBlock bbm cur = true) :
    SuccessorEdge (updateBB bbm cur
        (fun bb => { bb with successors := bb.successors ++ targets })) b1 b2 ↔
      SuccessorEdge bbm b1 b2 ∨ (b1 = cur ∧ b2 ∈ targets) := by
  rw [successorEdge_updateBB bbm cur b1 b2
    (fun bb => { bb with successors := bb.successors ++ targets }) (fun _ => rfl)]
  unfold SuccessorEdge
  unfold isBlock at hcur
  by_cases h : b1 = cur
  · subst h
    cases hx : findBB bbm b1 with
    | none => rw [hx] at hcur; cases hcur
    | some x => simp [List.mem_append]
  · simp [h]

theorem predecessorEdge_push {I : Type} (bbm : BasicBlockManager I) (id b1 b2 pred : Int)
    (hid : isBlock bbm id = true) :
    PredecessorEdge (updateBB bbm id (fun bb => AddPredecessor bb pred)) b1 b2 ↔
      PredecessorEdge bbm b1 b2 ∨ (b2 = id ∧ b1 = pred) := by
  rw [predecessorEdge_updateBB bbm id b1 b2 (fun bb => AddPredecessor bb pred)
    (fun _ => rfl)]
  unfold PredecessorEdge
  unfold isBlock at hid
  by_cases h : b2 = id
  · subst h
    cases hx : findBB bbm b2 with
    | none => rw [hx] at hid; cases hid
    | some x => simp [AddPredecessor, List.mem_append]
  · simp [h]

theorem addPredecessors_edges (id : Int) (preds : List Int)
    (bbm : BasicBlockManager LivenessBasicBlockImpl) (hid : isBlock bbm id = true) :
    isBlock (addPredecessors id preds bbm) id = true ∧
      (∀ b1 b2, SuccessorEdge (addPredecessors id preds bbm) b1 b2 ↔ SuccessorEdge bbm b1 b2) ∧
      ∀ b1 b2, PredecessorEdge (addPredecessors id preds bbm) b1 b2 ↔
        PredecessorEdge bbm b1 b2 ∨ (b2 = id ∧ b1 ∈ preds) := by
  induction preds generalizing bbm with
  | nil => exact ⟨hid, fun _ _ => Iff.rfl, fun _ _ => by simp [addPredecessors]⟩
  | cons p ps ih =>
    simp only [addPredecessors]
    have hid1 : isBlock (ensureBB bbm p) id = true := isBlock_ensureBB_of bbm p id hid
    have hid2 : isBlock (updateBB (ensureBB bbm p) id (fun bb => AddPredecessor bb p)) id
        = true := by
      rw [isBlock_updateBB _ _ _ (fun bb => AddPredecessor bb p) (fun _ => rfl)]
      exact hid1
    obtain ⟨q1, q2, q3⟩ := ih _ hid2
    refine ⟨q1, fun b1 b2 => ?_, fun b1 b2 => ?_⟩
    · rw [q2, successorEdge_updateBB_same _ _ _ _ (fun bb => AddPredecessor bb p)
        (fun _ => rfl) (fun _ => rfl), successorEdge_ensureBB]
    · rw [q3, predecessorEdge_push _ _ _ _ _ hid1, predecessorEdge_ensureBB]
      simp only [List.mem_cons]
      tauto

theorem EndBlock_edges {v v' : LivenessAnalysisVisitor} (h : v.EndBlock = some v') :
    (∀ b1 b2, SuccessorEdge v'.basic_block_manager_ b1 b2 ↔
        SuccessorEdge v.basic_block_manager_ b1 b2) ∧
      (∀ b1 b2, PredecessorEdge v'.basic_block_manager_ b1 b2 ↔
        PredecessorEdge v.basic_block_manager_ b1 b2) ∧
      v'.current_basic_block_ = none := by
  unfold EndBlock at h
  cases hcur : v.current_basic_block_ with
  | none => simp [hcur] at h
  | some cur =>
    cases hbb : findBB v.basic_block_manager_ cur with
    | none => simp [hcur, hbb] at h
    | some bb =>
      cases himpl : bb.impl with
      | none => simp [hcur, hbb, himpl] at h
      | some impl =>
        simp only [hcur, hbb, himpl, Option.some.injEq] at h
        subst h
        refine ⟨fun b1 b2 => ?_, fun b1 b2 => ?_, rfl⟩
        · rw [successorEdge_updateBB_same]
          · intro _; rfl
          · intro _; rfl
        · rw [predecessorEdge_updateBB_same]
          · intro _; rfl
          · intro _; rfl

/-- The edges and the current block after one accepted callback. -/
theorem Visit_edges {v v' : LivenessAnalysisVisitor} (c : Callback)
    (h : v.Visit c = some v') :
    (∀ b1 b2, SuccessorEdge v'.basic_block_manager_ b1 b2 ↔
        SuccessorEdge v.basic_block_manager_ b1 b2 ∨
          (b1, b2) ∈ jumpsOf v.current_basic_block_ c) ∧
      (∀ b1 b2, PredecessorEdge v'.basic_block_manager_ b1 b2 ↔
        PredecessorEdge v.basic_block_manager_ b1 b2 ∨ (b1, b2) ∈ announcedEdges [c]) ∧
      v'.current_basic_block_ = currentAfter v.current_basic_block_ c := by
  have simple : ∀ w : LivenessAnalysisVisitor, some w = some v' →
      w.basic_block_manager_ = v.basic_block_manager_ →
      w.current_basic_block_ = v.current_basic_block_ →
      jumpsOf v.current_basic_block_ c = [] → announcedEdges [c] = [] →
      currentAfter v.current_basic_block_ c = v.current_basic_block_ →
      (∀ b1 b2, SuccessorEdge v'.basic_block_manager_ b1 b2 ↔
          SuccessorEdge v.basic_block_manager_ b1 b2 ∨
            (b1, b2) ∈ jumpsOf v.current_basic_block_ c) ∧
        (∀ b1 b2, PredecessorEdge v'.basic_block_manager_ b1 b2 ↔
          PredecessorEdge v.basic_block_manager_ b1 b2 ∨ (b1, b2) ∈ announcedEdges [c]) ∧
        v'.current_basic_block_ = currentAfter v.current_basic_block_ c := by
    intro w hw hb hc hj ha hca
    cases hw
    rw [hj, ha, hca, hb]
    exact ⟨fun _ _ => by simp, fun _ _ => by simp, hc⟩
  cases c with
  | Block id is_deferred predecessors =>
    simp only [Visit, VisitBlock] at h
    cases hcur : v.current_basic_block_ with
    | some c => simp [hcur] at h
    | none =>
      simp only [hcur, Option.some.injEq] at h
      subst h
      obtain ⟨q1, q2, q3⟩ := addPredecessors_edges id predecessors
        (ensureBB v.basic_block_manager_ id) (isBlock_ensureBB_self _ id)
      refine ⟨fun b1 b2 => ?_, fun b1 b2 => ?_, rfl⟩
      · show SuccessorEdge (updateBB _ id _) b1 b2 ↔ _
        rw [successorEdge_updateBB_same, q2, successorEdge_ensureBB]
        · simp [jumpsOf]
        · intro _; rfl
        · intro _; rfl
      · show PredecessorEdge (updateBB _ id _) b1 b2 ↔ _
        rw [predecessorEdge_updateBB_same, q3, predecessorEdge_ensureBB]
        · simp only [announcedEdges, List.append_nil, List.mem_map, Prod.mk.injEq]
          constructor
          · rintro (h1 | ⟨rfl, h2⟩)
            · exact Or.inl h1
            · exact Or.inr ⟨b1, h2, rfl, rfl⟩
          · rintro (h1 | ⟨a, ha, rfl, rfl⟩)
            · exact Or.inl h1
            · exact Or.inr ⟨rfl, ha⟩
        · intro _; rfl
        · intro _; rfl
  | Goto bid =>
    simp only [Visit, VisitGoto, pushSuccessor] at h
    cases hcur : v.current_basic_block_ with
    | none => simp [hcur] at h
    | some cur =>
      simp only [hcur] at h
      split_ifs at h with hb
      · simp only [Option.bind_eq_bind, Option.some_bind] at h
        obtain ⟨q1, q2, q3⟩ := EndBlock_edges h
        refine ⟨fun b1 b2 => ?_, fun b1 b2 => ?_, q3⟩
        · rw [q1]
          show SuccessorEdge (updateBB _ cur _) b1 b2 ↔ _
          rw [successorEdge_push _ _ _ _ [bid] (isBlock_ensureBB_of _ bid cur hb),
            successorEdge_ensureBB]
          simp [jumpsOf]
        · rw [q2]
          show PredecessorEdge (updateBB _ cur _) b1 b2 ↔ _
          rw [predecessorEdge_updateBB_same, predecessorEdge_ensureBB]
          · simp [announcedEdges]
          · intro _; rfl
          · intro _; rfl
      · simp at h
  | Branch id cmp btrue bfalse =>
    simp only [Visit, VisitBranch] at h
    cases hcur : v.current_basic_block_ with
    | none => simp [hcur] at h
    | some cur =>
      simp only [hcur] at h
      split_ifs at h with hb
      · obtain ⟨q1, q2, q3⟩ := EndBlock_edges h
        refine ⟨fun b1 b2 => ?_, fun b1 b2 => ?_, q3⟩
        · rw [q1]
          show SuccessorEdge (updateBB _ cur _) b1 b2 ↔ _
          rw [successorEdge_push _ _ _ _ [btrue, bfalse]
            (isBlock_ensureBB_of _ bfalse cur (isBlock_ensureBB_of _ btrue cur hb)),
            successorEdge_ensureBB, successorEdge_ensureBB]
          simp only [jumpsOf, List.mem_cons, Prod.mk.injEq, List.mem_singleton,
            List.not_mem_nil, or_false]
          tauto
        · rw [q2]
          show PredecessorEdge (updateBB _ cur _) b1 b2 ↔ _
          rw [predecessorEdge_updateBB_same, predecessorEdge_ensureBB,
            predecessorEdge_ensureBB]
          · simp [announcedEdges]
          · intro _; rfl
          · intro _; rfl
  | Phi id rep operands =>
    simp only [Visit, VisitPhi, Define] at h
    cases hcur : v.current_basic_block_ with
    | none => simp [hcur] at h
    | some cur =>
      cases hbb : findBB v.basic_block_manager_ cur with
      | none => simp [hcur, hbb] at h
      | some bb =>
        simp only [hcur, hbb] at h
        cases himpl : bb.impl with
        | none => simp [himpl] at h
        | some impl =>
          cases hd : phiDescs bb.predecessors operands with
          | none => simp [himpl, hd] at h
          | some descs =>
            simp only [himpl, hd, Option.some.injEq] at h
            subst h
            refine ⟨fun b1 b2 => ?_, fun b1 b2 => ?_, ?_⟩
            · show SuccessorEdge (updateBB _ cur _) b1 b2 ↔ _
              rw [successorEdge_updateBB_same]
              · simp [jumpsOf]
              · intro _; rfl
              · intro _; rfl
            · show PredecessorEdge (updateBB _ cur _) b1 b2 ↔ _
              rw [predecessorEdge_updateBB_same]
              · simp [announcedEdges]
              · intro _; rfl
              · intro _; rfl
            · simp [currentAfter]
  | TailCall id code regs operands =>
    simp only [Visit] at h
    obtain ⟨h1, h2⟩ := AddAllIfNotInDefines_bbm operands v
    obtain ⟨q1, q2, q3⟩ := EndBlock_edges h
    refine ⟨fun b1 b2 => ?_, fun b1 b2 => ?_, q3⟩
    · rw [q1, h1]
      cases v.current_basic_block_ <;> simp [jumpsOf]
    · rw [q2, h1]
      simp [announcedEdges]
  | Parameter id pid =>
    simp only [Visit] at h
    exact simple _ h rfl rfl (by cases v.current_basic_block_ <;> rfl) rfl rfl
  | LoadParentFramePointer id =>
    simp only [Visit] at h
    exact simple _ h rfl rfl (by cases v.current_basic_block_ <;> rfl) rfl rfl
  | Int32Constant id value =>
    simp only [Visit] at h
    exact simple _ h rfl rfl (by cases v.current_basic_block_ <;> rfl) rfl rfl
  | Load id rep semantic base offset =>
    simp only [Visit] at h
    exact simple _ h (AddIfNotInDefines_bbm _ _).1 (AddIfNotInDefines_bbm _ _).2
      (by cases v.current_basic_block_ <;> rfl) rfl rfl
  | Store id rep barrier base offset value =>
    simp only [Visit] at h
    exact simple _ h ((AddIfNotInDefines_bbm _ _).1.trans (AddIfNotInDefines_bbm _ _).1)
      ((AddIfNotInDefines_bbm _ _).2.trans (AddIfNotInDefines_bbm _ _).2)
      (by cases v.current_basic_block_ <;> rfl) rfl rfl
  | BitcastWordToTagged id e =>
    simp only [Visit] at h
    exact simple _ h (AddIfNotInDefines_bbm _ _).1 (AddIfNotInDefines_bbm _ _).2
      (by cases v.current_basic_block_ <;> rfl) rfl rfl
  | Binary op id e1 e2 =>
    simp only [Visit] at h
    exact simple _ h ((AddIfNotInDefines_bbm _ _).1.trans (AddIfNotInDefines_bbm _ _).1)
      ((AddIfNotInDefines_bbm _ _).2.trans (AddIfNotInDefines_bbm _ _).2)
      (by cases v.current_basic_block_ <;> rfl) rfl rfl
  | HeapConstant id magic =>
    simp only [Visit] at h
    exact simple _ h rfl rfl (by cases v.current_basic_block_ <;> rfl) rfl rfl
  | ExternalConstant id magic =>
    simp only [Visit] at h
    exact simple _ h rfl rfl (by cases v.current_basic_block_ <;> rfl) rfl rfl
  | Call id code regs operands =>
    simp only [Visit] at h
    exact simple _ h (AddAllIfNotInDefines_bbm _ _).1 (AddAllIfNotInDefines_bbm _ _).2
      (by cases v.current_basic_block_ <;> rfl) rfl rfl
  | Root id index =>
    simp only [Visit] at h
    exact simple _ h rfl rfl (by cases v.current_basic_block_ <;> rfl) rfl rfl

theorem announcedEdges_cons (c : Callback) (cs : List Callback) :
    announcedEdges (c :: cs) = announcedEdges [c] ++ announcedEdges cs := by
  cases c <;> simp [announcedEdges]

theorem VisitAll_edges (cbs : List Callback) :
    ∀ (v v' : LivenessAnalysisVisitor), v.VisitAll cbs = some v' →
      (∀ b1 b2, SuccessorEdge v'.basic_block_manager_ b1 b2 ↔
          SuccessorEdge v.basic_block_manager_ b1 b2 ∨
            (b1, b2) ∈ jumpEdges v.current_basic_block_ cbs) ∧
        (∀ b1 b2, PredecessorEdge v'.basic_block_manager_ b1 b2 ↔
          PredecessorEdge v.basic_block_manager_ b1 b2 ∨ (b1, b2) ∈ announcedEdges cbs) := by
  induction cbs with
  | nil =>
    intro v v' h
    simp only [VisitAll, Option.some.injEq] at h
    subst h
    simp [jumpEdges, announcedEdges]
  | cons c cs ih =>
    intro v v' h
    simp only [VisitAll] at h
    cases h1 : v.Visit c with
    | none => simp [h1] at h
    | some v1 =>
      simp only [h1, Option.bind_eq_bind, Option.some_bind] at h
      obtain ⟨q1, q2, q3⟩ := Visit_edges c h1
      obtain ⟨r1, r2⟩ := ih v1 v' h
      refine ⟨fun b1 b2 => ?_, fun b1 b2 => ?_⟩
      · rw [r1, q1, q3]
        simp only [jumpEdges, List.mem_append]
        tauto
      · rw [r2, q2, announcedEdges_cons c cs]
        simp only [List.mem_append]
        tauto

/-! ## The claims on the visitation pass -/

theorem insertPhiValue_of_all_lt (x : Int) (l : List Int) (h : ∀ y ∈ l, y < x) :
    insertPhiValue x l = l ++ [x] := by
  induction l with
  | nil => rfl
  | cons a l ih =>
    simp only [insertPhiValue, h a (List.mem_cons_self _ _), if_true, List.cons_append]
    rw [ih (fun y hy => h y (List.mem_cons_of_mem _ hy))]

theorem insertPhiValue_of_lt_all (x : Int) (l : List Int) (h : ∀ y ∈ l, x < y) :
    insertPhiValue x l = x :: l := by
  cases l with
  | nil => rfl
  | cons a l =>
    have ha := h a (List.mem_cons_self _ _)
    simp only [insertPhiValue, not_lt.mpr (le_of_lt ha), if_false, ne_eq, ne_of_gt ha,
      not_false_eq_true, if_true]

theorem insertPhiValue_of_mem (x : Int) (l : List Int) (hs : StrictlySorted l) (h : x ∈ l) :
    insertPhiValue x l = l := by
  induction l with
  | nil => cases h
  | cons a l ih =>
    have hl := List.pairwise_cons.mp hs
    simp only [insertPhiValue]
    rcases List.mem_cons.mp h with rfl | h
    · simp
    · have hax : a < x := hl.1 x h
      simp only [hax, if_true]
      rw [ih hl.2 h]

/-- C6, counterexample. `revisitCallbacks` announces block 0 twice; the second
`EndBlock` copies its references `[3]` behind the `[7]` of the first, and the
live-in vector `[7, 3]` is not increasing. -/
theorem C6_counterexample :
    ∃ v B, VisitAll init revisitCallbacks = some v ∧
      findBB v.basic_block_manager_ 0 = some B ∧ B.liveins = [7, 3] ∧
      ¬ StrictlySorted B.liveins := by
  refine ⟨_, _, rfl, rfl, rfl, by decide⟩

/-- C6, amended. After a visitation pass in which no block is announced by
`VisitBlock` twice, every block's live-in vector is strictly increasing; and
every iteration of the worklist loop of `CalculateLivesIns` keeps all live-in
vectors strictly increasing, as do its parts: the `set_union` with a
successor, the `lower_bound` insertion of a phi source (which appends a
source that follows every element, prepends one that precedes every element
and leaves the vector alone when the source is present) and the subtraction
of the defines. -/
theorem C6_liveins_strictly_increasing (cbs : List Callback) (v : LivenessAnalysisVisitor)
    (h : VisitAll init cbs = some v) (hn : (announcedBlocks cbs).Nodup) :
    LiveinsSorted v.basic_block_manager_ ∧
      (∀ bbm id wl bbm' wl', LiveinsSorted bbm → step bbm id wl = some (bbm', wl') →
        LiveinsSorted bbm') ∧
      (∀ l r, StrictlySorted l → StrictlySorted r → StrictlySorted (set_union l r)) ∧
      (∀ x l, StrictlySorted l → StrictlySorted (insertPhiValue x l)) ∧
      (∀ x l, (∀ y ∈ l, y < x) → insertPhiValue x l = l ++ [x]) ∧
      (∀ x l, (∀ y ∈ l, x < y) → insertPhiValue x l = x :: l) ∧
      (∀ x l, StrictlySorted l → x ∈ l → insertPhiValue x l = l) ∧
      (∀ impl l r, StrictlySorted l → clearDefines impl l = some r → StrictlySorted r) := by
  refine ⟨fun b hb => ?_, fun bbm id wl bbm' wl' hs hstep => step_liveinsSorted hstep hs,
    sorted_set_union, sorted_insertPhiValue, insertPhiValue_of_all_lt,
    insertPhiValue_of_lt_all, insertPhiValue_of_mem,
    fun impl l r hl hr => sorted_clearDefines hl hr⟩
  exact ((VisitAll_invariant cbs init v visitInvariant_init
    (fun id _ hid => by cases hid) hn h).1 b hb).1

/-- C6, witness: the amended claim on the diamond `diamondCallbacks`. -/
theorem C6_liveins_strictly_increasing_witness :
    ∃ v, VisitAll init diamondCallbacks = some v ∧ (announcedBlocks diamondCallbacks).Nodup ∧
      LiveinsSorted v.basic_block_manager_ := by
  refine ⟨_, rfl, by decide, ?_⟩
  exact (C6_liveins_strictly_increasing diamondCallbacks _ rfl (by decide)).1

/-- C7, counterexample. After `VisitBlock(0, {})` and `VisitGoto(1)` block 1
is a successor of block 0, but block 0 is not a predecessor of block 1: the
successor list is written by `VisitGoto`, the predecessor list only by a
`VisitBlock` for block 1. -/
theorem C7_counterexample :
    ∃ v, VisitAll init danglingGotoCallbacks = some v ∧
      SuccessorEdge v.basic_block_manager_ 0 1 ∧
      ¬ PredecessorEdge v.basic_block_manager_ 0 1 := by
  refine ⟨_, rfl, ⟨_, rfl, by decide⟩, ?_⟩
  rintro ⟨b, hb, hmem⟩
  have : b = { id := 1, predecessors := [], successors := [], liveins := [],
               deferred := false, impl := none } := by
    have h1 : findBB _ 1 = some b := hb
    exact (Option.some.inj (h1.symm.trans (by decide))).trans rfl
  rw [this] at hmem
  cases hmem

/-- C7, amended. After the liveness visitation pass over an accepted callback
sequence, `B2` is in `successors(B1)` exactly when a `VisitGoto` or
`VisitBranch` issued while `B1` was the current block names `B2`, and `B1` is
in `predecessors(B2)` exactly when a `VisitBlock` for `B2` lists `B1`; so the
edge lists are mutually consistent if and only if the announced predecessor
lists agree with the jumps. -/
theorem C7_edges_follow_callbacks (cbs : List Callback) (v : LivenessAnalysisVisitor)
    (h : VisitAll init cbs = some v) :
    (∀ b1 b2, SuccessorEdge v.basic_block_manager_ b1 b2 ↔ (b1, b2) ∈ jumpEdges none cbs) ∧
      (∀ b1 b2, PredecessorEdge v.basic_block_manager_ b1 b2 ↔ (b1, b2) ∈ announcedEdges cbs) ∧
      (EdgesConsistent v.basic_block_manager_ ↔
        ∀ e, e ∈ jumpEdges none cbs ↔ e ∈ announcedEdges cbs) := by
  obtain ⟨h1, h2⟩ := VisitAll_edges cbs init v h
  have hs : ∀ b1 b2, ¬ SuccessorEdge init.basic_block_manager_ b1 b2 := by
    rintro b1 b2 ⟨b, hb, -⟩
    cases hb
  have hp : ∀ b1 b2, ¬ PredecessorEdge init.basic_block_manager_ b1 b2 := by
    rintro b1 b2 ⟨b, hb, -⟩
    cases hb
  have q1 : ∀ b1 b2, SuccessorEdge v.basic_block_manager_ b1 b2 ↔
      (b1, b2) ∈ jumpEdges none cbs := by
    intro b1 b2
    rw [h1]
    exact ⟨fun hh => hh.elim (fun x => absurd x (hs b1 b2)) id, Or.inr⟩
  have q2 : ∀ b1 b2, PredecessorEdge v.basic_block_manager_ b1 b2 ↔
      (b1, b2) ∈ announcedEdges cbs := by
    intro b1 b2
    rw [h2]
    exact ⟨fun hh => hh.elim (fun x => absurd x (hp b1 b2)) id, Or.inr⟩
  refine ⟨q1, q2, ?_⟩
  unfold EdgesConsistent
  constructor
  · rintro hc ⟨b1, b2⟩
    rw [← q1, ← q2]
    exact hc b1 b2
  · intro he b1 b2
    rw [q1, q2]
    exact he (b1, b2)

/-- C7, witness: the diamond `diamondCallbacks` announces every block with
exactly the blocks that jump to it, and its edge lists are consistent. -/
theorem C7_edges_follow_callbacks_witness :
    ∃ v, VisitAll init diamondCallbacks = some v ∧
      jumpEdges none diamondCallbacks = announcedEdges diamondCallbacks ∧
      EdgesConsistent v.basic_block_manager_ := by
  have he : jumpEdges none diamondCallbacks = announcedEdges diamondCallbacks := by decide
  refine ⟨_, rfl, he, ?_⟩
  exact (C7_edges_follow_callbacks diamondCallbacks _ rfl).2.2.mpr (fun e => by rw [he])

/-! ## The builder: merging the predecessors of a block -/

open LLVMTFBuilder

/-! ### The builder's block store -/

theorem GetImpl_updateImpl (bbm : BuilderBlocks) (id j : Int)
    (f : LLVMTFBuilderBasicBlockImpl → LLVMTFBuilderBasicBlockImpl) :
    GetImpl (updateImpl bbm id f) j =
      if j = id then (GetImpl bbm id).map f else GetImpl bbm j := by
  unfold GetImpl updateImpl
  rw [findBB_updateBB bbm id j (fun bb => { bb with impl := bb.impl.map f }) (fun _ => rfl)]
  split_ifs with h
  · cases findBB bbm id with
    | none => rfl
    | some bb => rfl
  · rfl

theorem GetImpl_EnsureImpl (bbm : BuilderBlocks) (id j : Int) :
    GetImpl (EnsureImpl bbm id) j =
      if j = id then
        (findBB bbm id).map (fun bb => bb.impl.getD LLVMTFBuilderBasicBlockImpl.fresh)
      else GetImpl bbm j := by
  unfold GetImpl EnsureImpl
  rw [findBB_updateBB bbm id j _ (fun bb => by cases h : bb.impl <;> simp [h])]
  split_ifs with h
  · cases findBB bbm id with
    | none => rfl
    | some bb => cases h2 : bb.impl <;> simp [h2]
  · rfl

theorem lookupValue_cons (nid k : Int) (v : LValue) (l : List (Int × LValue)) :
    LLVMTFBuilderBasicBlockImpl.lookupValue nid ((k, v) :: l) =
      if k = nid then some v else LLVMTFBuilderBasicBlockImpl.lookupValue nid l := rfl

theorem value_set_value (impl : LLVMTFBuilderBasicBlockImpl) (nid k : Int) (v : LValue) :
    (impl.set_value nid v).value k = if k = nid then some v else impl.value k := by
  unfold LLVMTFBuilderBasicBlockImpl.value LLVMTFBuilderBasicBlockImpl.set_value
  rw [lookupValue_cons]
  by_cases h : nid = k
  · simp [h]
  · have : ¬ k = nid := fun e => h e.symm
    simp [h, this]

/-- What `set_value` on block `id` changes: the slot of that block. -/
theorem set_value_some {b b1 : LLVMTFBuilder} {id nid : Int} {v : LValue}
    (h : b.set_value id nid v = some b1) :
    b1 = { b with basic_block_manager_ :=
                    updateImpl b.basic_block_manager_ id (fun impl => impl.set_value nid v) } ∧
      (GetImpl b.basic_block_manager_ id).isSome := by
  unfold LLVMTFBuilder.set_value at h
  cases hi : GetImpl b.basic_block_manager_ id with
  | none => simp [hi] at h
  | some impl =>
    simp only [hi, Option.some.injEq] at h
    exact ⟨h.symm, rfl⟩

theorem valueIn_updateImpl_set_value (bbm : BuilderBlocks) (id nid j k : Int) (v : LValue)
    (hi : (GetImpl bbm id).isSome) :
    valueIn (updateImpl bbm id (fun impl => impl.set_value nid v)) j k =
      if j = id ∧ k = nid then some v else valueIn bbm j k := by
  unfold valueIn
  rw [GetImpl_updateImpl]
  by_cases hj : j = id
  · subst hj
    cases hg : GetImpl bbm j with
    | none => rw [hg] at hi; cases hi
    | some impl =>
      simp only [if_true, Option.map_some', value_set_value, true_and]
  · simp [hj]

/-! ### The merge from a single predecessor -/

theorem copyFromPredecessor_spec (pred id : Int) (liveins : List Int) :
    ∀ (b b' : LLVMTFBuilder), copyFromPredecessor pred id liveins b = some b' →
      b'.output_ = b.output_ ∧ b'.phi_rebuild_worklist_ = b.phi_rebuild_worklist_ ∧
      b'.current_bb_ = b.current_bb_ ∧
      (∀ j k, j ≠ id → valueIn b'.basic_block_manager_ j k = valueIn b.basic_block_manager_ j k) ∧
      (∀ k, valueIn b'.basic_block_manager_ pred k = valueIn b.basic_block_manager_ pred k) ∧
      (∀ live ∈ liveins, ∃ value, valueIn b.basic_block_manager_ pred live = some value ∧
        valueIn b'.basic_block_manager_ id live = some value) ∧
      (∀ k, k ∉ liveins →
        valueIn b'.basic_block_manager_ id k = valueIn b.basic_block_manager_ id k) := by
  induction liveins with
  | nil =>
    intro b b' h
    simp only [copyFromPredecessor, Option.some.injEq] at h
    subst h
    exact ⟨rfl, rfl, rfl, fun _ _ _ => rfl, fun _ => rfl, fun _ hl => (by cases hl),
      fun _ _ => rfl⟩
  | cons live rest ih =>
    intro b b' h
    simp only [copyFromPredecessor] at h
    cases hv : valueIn b.basic_block_manager_ pred live with
    | none => simp [hv] at h
    | some value =>
      simp only [hv] at h
      cases hs : b.set_value id live value with
      | none => simp [hs] at h
      | some b1 =>
        simp only [hs] at h
        obtain ⟨hb1, hsome⟩ := set_value_some hs
        have hval : ∀ j k, valueIn b1.basic_block_manager_ j k =
            if j = id ∧ k = live then some value else valueIn b.basic_block_manager_ j k := by
          intro j k
          rw [hb1]
          exact valueIn_updateImpl_set_value _ _ _ _ _ _ hsome
        have hpred : ∀ k, valueIn b1.basic_block_manager_ pred k =
            valueIn b.basic_block_manager_ pred k := by
          intro k
          rw [hval]
          split_ifs with hc
          · rw [hc.2, hv]
          · rfl
        obtain ⟨q1, q2, q3, q4, q5, q6, q7⟩ := ih b1 b' h
        refine ⟨?_, ?_, ?_, ?_, ?_, ?_, ?_⟩
        · rw [q1, hb1]
        · rw [q2, hb1]
        · rw [q3, hb1]
        · intro j k hj
          rw [q4 j k hj, hval]
          simp [hj]
        · intro k
          rw [q5, hpred]
        · intro l hl
          by_cases hlr : l ∈ rest
          · obtain ⟨value', hv1, hv2⟩ := q6 l hlr
            exact ⟨value', (hpred l) ▸ hv1, hv2⟩
          · rcases List.mem_cons.mp hl with rfl | hl
            · refine ⟨value, hv, ?_⟩
              rw [q7 l hlr, hval]
              simp
            · exact absurd hl hlr
        · intro k hk
          rw [List.mem_cons, not_or] at hk
          rw [q7 k hk.2, hval]
          simp [hk.1]

/-- The copy loop returns when the block has a slot and the predecessor
binds every live-in. -/
theorem copyFromPredecessor_isSome (pred id : Int) (liveins : List Int) :
    ∀ b : LLVMTFBuilder, (GetImpl b.basic_block_manager_ id).isSome →
      (∀ live ∈ liveins, (valueIn b.basic_block_manager_ pred live).isSome) →
      (copyFromPredecessor pred id liveins b).isSome := by
  induction liveins with
  | nil => intro b _ _; rfl
  | cons live rest ih =>
    intro b hi hb
    simp only [copyFromPredecessor]
    cases hv : valueIn b.basic_block_manager_ pred live with
    | none =>
      have := hb live (List.mem_cons_self _ _)
      simp [hv] at this
    | some value =>
      simp only
      cases hs : b.set_value id live value with
      | none =>
        unfold LLVMTFBuilder.set_value at hs
        cases hg : GetImpl b.basic_block_manager_ id with
        | none => simp [hg] at hi
        | some i => simp [hg] at hs
      | some b1 =>
        simp only
        obtain ⟨hb1, hsome⟩ := set_value_some hs
        apply ih
        · rw [hb1]
          show (GetImpl (updateImpl _ _ _) id).isSome = true
          rw [GetImpl_updateImpl, if_pos rfl]
          cases hg : GetImpl b.basic_block_manager_ id with
          | none => simp [hg] at hi
          | some i => rfl
        · intro l hl
          rw [hb1]
          show (valueIn (updateImpl _ _ _) pred l).isSome = true
          rw [valueIn_updateImpl_set_value _ _ _ _ _ _ hsome]
          split_ifs
          · rfl
          · exact hb l (List.mem_cons_of_mem _ hl)

/-! ### The loops over the predecessors -/

theorem addIncomingFromAll_spec (phi : LValue) (live : Int) (preds : List Int) :
    ∀ (b b' : LLVMTFBuilder), addIncomingFromAll phi live preds b = some b' →
      ∃ L : List (LValue × LBasicBlock),
        L.map some = preds.map (phiEntry b.basic_block_manager_ live) ∧
        b' = { b with output_ := { b.output_ with
                incoming := b.output_.incoming ++
                  L.map (fun e => { phi := phi, value := e.1, block := e.2 }) } } := by
  induction preds with
  | nil =>
    intro b b' h
    simp only [addIncomingFromAll, Option.some.injEq] at h
    subst h
    exact ⟨[], rfl, by simp⟩
  | cons pred rest ih =>
    intro b b' h
    simp only [addIncomingFromAll] at h
    cases hv : valueIn b.basic_block_manager_ pred live with
    | none => simp [hv] at h
    | some value =>
      cases hc : GetNativeBBContinuation b.basic_block_manager_ pred with
      | none => simp [hv, hc] at h
      | some native =>
        simp only [hv, hc] at h
        obtain ⟨L, hL, hb'⟩ := ih _ _ h
        refine ⟨(value, native) :: L, ?_, ?_⟩
        · simp only [List.map_cons, hL, phiEntry, hv, hc]
        · rw [hb']
          simp [Output.addIncoming, List.append_assoc]

theorem sameReads_started {bbm bbm' : BuilderBlocks} (h : SameReads bbm bbm') (j : Int) :
    IsBBStartedToBuild bbm' j = IsBBStartedToBuild bbm j := by
  have := h j
  unfold IsBBStartedToBuild
  cases h1 : GetImpl bbm' j <;> cases h2 : GetImpl bbm j <;> simp_all

theorem sameReads_valueIn {bbm bbm' : BuilderBlocks} (h : SameReads bbm bbm') (j k : Int) :
    valueIn bbm' j k = valueIn bbm j k := by
  have := h j
  unfold LLVMToy.valueIn LLVMTFBuilderBasicBlockImpl.value
  cases h1 : GetImpl bbm' j <;> cases h2 : GetImpl bbm j <;> simp_all

theorem sameReads_continuation {bbm bbm' : BuilderBlocks} (h : SameReads bbm bbm') (j : Int) :
    GetNativeBBContinuation bbm' j = GetNativeBBContinuation bbm j := by
  have := h j
  unfold GetNativeBBContinuation
  cases h1 : GetImpl bbm' j <;> cases h2 : GetImpl bbm j <;> simp_all

theorem sameReads_phiEntry {bbm bbm' : BuilderBlocks} (h : SameReads bbm bbm') (live p : Int) :
    phiEntry bbm' live p = phiEntry bbm live p := by
  unfold LLVMToy.phiEntry
  rw [sameReads_valueIn h, sameReads_continuation h]

theorem sameReads_updateImpl (bbm : BuilderBlocks) (id : Int)
    (f : LLVMTFBuilderBasicBlockImpl → LLVMTFBuilderBasicBlockImpl)
    (hf : ∀ i, ((f i).values_, (f i).native_bb, (f i).continuation, (f i).started, (f i).ended)
      = (i.values_, i.native_bb, i.continuation, i.started, i.ended)) :
    SameReads bbm (updateImpl bbm id f) := by
  intro j
  rw [GetImpl_updateImpl]
  split_ifs with h
  · subst h
    cases GetImpl bbm j with
    | none => rfl
    | some i => simp only [Option.map_some', hf]
  · rfl

theorem startedPredecessors_congr {bbm bbm' : BuilderBlocks} (h : SameReads bbm bbm')
    (l : List Int) : startedPredecessors bbm' l = startedPredecessors bbm l :=
  List.filter_congr (fun p _ => sameReads_started h p)

theorem deferredRecords_congr {bbm bbm' : BuilderBlocks} (h : SameReads bbm bbm')
    (l : List Int) (live : Int) (phi : LValue) :
    deferredRecords bbm' l live phi = deferredRecords bbm l live phi := by
  unfold deferredRecords
  rw [List.filter_congr (fun p _ => by rw [sameReads_started h p])]

theorem startedPredecessors_cons (bbm : BuilderBlocks) (p : Int) (l : List Int) :
    startedPredecessors bbm (p :: l) =
      if IsBBStartedToBuild bbm p then p :: startedPredecessors bbm l
      else startedPredecessors bbm l := by
  unfold startedPredecessors
  rw [List.filter_cons]

theorem deferredRecords_cons (bbm : BuilderBlocks) (p : Int) (l : List Int) (live : Int)
    (phi : LValue) :
    deferredRecords bbm (p :: l) live phi =
      if IsBBStartedToBuild bbm p then deferredRecords bbm l live phi
      else { pred := p, value := live, phi := phi } :: deferredRecords bbm l live phi := by
  unfold deferredRecords
  rw [List.filter_cons]
  cases IsBBStartedToBuild bbm p <;> simp

theorem addIncomingFromStarted_spec (phi : LValue) (live id : Int) (preds : List Int) :
    ∀ (b b' : LLVMTFBuilder), addIncomingFromStarted phi live id preds b = some b' →
      ∃ L : List (LValue × LBasicBlock),
        L.map some = (startedPredecessors b.basic_block_manager_ preds).map
          (phiEntry b.basic_block_manager_ live) ∧
        b'.output_ = { b.output_ with
          incoming := b.output_.incoming ++
            L.map (fun e => { phi := phi, value := e.1, block := e.2 }) } ∧
        b'.current_bb_ = b.current_bb_ ∧
        b'.phi_rebuild_worklist_ = b.phi_rebuild_worklist_ ∧
        ∀ j, GetImpl b'.basic_block_manager_ j =
          if j = id then
            (GetImpl b.basic_block_manager_ id).map (fun impl =>
              { impl with not_merged_phis := impl.not_merged_phis ++
                                               deferredRecords b.basic_block_manager_ preds live phi })
          else GetImpl b.basic_block_manager_ j := by
  induction preds with
  | nil =>
    intro b b' h
    simp only [addIncomingFromStarted, Option.some.injEq] at h
    subst h
    refine ⟨[], rfl, by simp, rfl, rfl, fun j => ?_⟩
    split_ifs with hj
    · subst hj
      cases GetImpl b.basic_block_manager_ j <;> simp [deferredRecords]
    · rfl
  | cons pred rest ih =>
    intro b b' h
    simp only [addIncomingFromStarted] at h
    by_cases hs : IsBBStartedToBuild b.basic_block_manager_ pred = true
    · simp only [hs, Bool.not_true, Bool.false_eq_true, if_false] at h
      cases hv : valueIn b.basic_block_manager_ pred live with
      | none => simp [hv] at h
      | some value =>
        cases hc : GetNativeBBContinuation b.basic_block_manager_ pred with
        | none => simp [hv, hc] at h
        | some native =>
          simp only [hv, hc] at h
          obtain ⟨L, hL, q1, q2, q3, q4⟩ := ih _ _ h
          refine ⟨(value, native) :: L, ?_, ?_, q2, q3, ?_⟩
          · rw [startedPredecessors_cons, hs, if_pos rfl, List.map_cons, List.map_cons, ← hL]
            simp only [phiEntry, hv, hc]
          · rw [q1]
            simp [Output.addIncoming, List.append_assoc]
          · intro j
            rw [q4 j, deferredRecords_cons, hs, if_pos rfl]
    · have hs' : IsBBStartedToBuild b.basic_block_manager_ pred = false := by
        simpa using hs
      simp only [hs', Bool.not_false, if_true] at h
      have hsame := sameReads_updateImpl b.basic_block_manager_ id
        (fun impl => { impl with not_merged_phis := impl.not_merged_phis ++ [{ pred := pred, value := live, phi := phi }] })
        (fun _ => rfl)
      obtain ⟨L, hL, q1, q2, q3, q4⟩ := ih _ _ h
      refine ⟨L, ?_, q1, q2, q3, ?_⟩
      · simp only [startedPredecessors_cons, hs', Bool.false_eq_true, if_false]
        rw [hL, startedPredecessors_congr hsame]
        exact List.map_congr_left (fun p _ => sameReads_phiEntry hsame live p)
      · intro j
        rw [q4 j, deferredRecords_congr hsame]
        simp only [deferredRecords_cons, hs', Bool.false_eq_true, if_false]
        split_ifs with hj
        · rw [GetImpl_updateImpl, if_pos rfl]
          cases GetImpl b.basic_block_manager_ id with
          | none => rfl
          | some i => simp [List.append_assoc]
        · rw [GetImpl_updateImpl, if_neg hj]

/-! ### One live-in of the merge -/

theorem IsBBStartedToBuild_congr {bbm bbm' : BuilderBlocks} {p : Int}
    (h : GetImpl bbm' p = GetImpl bbm p) :
    IsBBStartedToBuild bbm' p = IsBBStartedToBuild bbm p := by
  unfold IsBBStartedToBuild
  rw [h]

theorem valueIn_congr {bbm bbm' : BuilderBlocks} {p : Int}
    (h : GetImpl bbm' p = GetImpl bbm p) (k : Int) : valueIn bbm' p k = valueIn bbm p k := by
  unfold valueIn
  rw [h]

theorem phiEntry_congr {bbm bbm' : BuilderBlocks} {p : Int}
    (h : GetImpl bbm' p = GetImpl bbm p) (live : Int) :
    phiEntry bbm' live p = phiEntry bbm live p := by
  unfold phiEntry valueIn GetNativeBBContinuation
  rw [h]

theorem startedPredecessors_congr_on {bbm bbm' : BuilderBlocks} (l : List Int)
    (h : ∀ p ∈ l, GetImpl bbm' p = GetImpl bbm p) :
    startedPredecessors bbm' l = startedPredecessors bbm l :=
  List.filter_congr (fun p hp => IsBBStartedToBuild_congr (h p hp))

theorem deferredRecords_congr_on {bbm bbm' : BuilderBlocks} (l : List Int) (live : Int)
    (phi : LValue) (h : ∀ p ∈ l, GetImpl bbm' p = GetImpl bbm p) :
    deferredRecords bbm' l live phi = deferredRecords bbm l live phi := by
  unfold deferredRecords
  rw [List.filter_congr (fun p hp => by rw [IsBBStartedToBuild_congr (h p hp)])]

theorem startedPredecessors_subset (bbm : BuilderBlocks) (l : List Int) :
    ∀ p ∈ startedPredecessors bbm l, p ∈ l :=
  fun _ hp => (List.mem_filter.mp hp).1

theorem startedPredecessors_of_all (bbm : BuilderBlocks) (l : List Int)
    (h : ∀ p ∈ l, IsBBStartedToBuild bbm p = true) : startedPredecessors bbm l = l :=
  List.filter_eq_self.mpr h

theorem deferredRecords_of_all (bbm : BuilderBlocks) (l : List Int) (live : Int)
    (phi : LValue) (h : ∀ p ∈ l, IsBBStartedToBuild bbm p = true) :
    deferredRecords bbm l live phi = [] := by
  unfold deferredRecords
  rw [List.filter_eq_nil_iff.mpr (fun p hp => by simp [h p hp])]
  rfl

theorem incomingOf_of_incoming {o o' : Output} {X : List Incoming}
    (h : o'.incoming = o.incoming ++ X) (phi : LValue) :
    o'.incomingOf phi =
      o.incomingOf phi ++ (X.filter (fun e => e.phi = phi)).map (fun e => (e.value, e.block)) := by
  unfold Output.incomingOf
  rw [h, List.filter_append, List.map_append]

theorem filter_phi_eq_nil_of_known {α : Type} (phiOf : α → LValue) (l : List α) (o : Output)
    (n : Nat) (t : LType) (hn : o.nextValue ≤ n)
    (h : ∀ e ∈ l, isKnown o (phiOf e) = true) :
    l.filter (fun e => phiOf e = LValue.inst n t) = [] := by
  rw [List.filter_eq_nil_iff]
  intro e he heq
  have hk := h e he
  simp only [decide_eq_true_eq] at heq
  rw [heq] at hk
  simp only [isKnown, decide_eq_true_eq] at hk
  omega

theorem filter_phi_eq_nil_of_new {α : Type} (phiOf : α → LValue) (l : List α)
    (n m : Nat) (t : LType) (hn : n < m)
    (h : ∀ e ∈ l, ∃ k t', phiOf e = LValue.inst k t' ∧ m ≤ k) :
    l.filter (fun e => phiOf e = LValue.inst n t) = [] := by
  rw [List.filter_eq_nil_iff]
  intro e he heq
  obtain ⟨k, t', hk, hmk⟩ := h e he
  simp only [decide_eq_true_eq] at heq
  rw [heq] at hk
  cases hk
  omega

theorem deferredOf_set_value (bbm : BuilderBlocks) (id nid : Int) (v : LValue) :
    deferredOf (updateImpl bbm id (fun impl => impl.set_value nid v)) id = deferredOf bbm id := by
  unfold deferredOf
  rw [GetImpl_updateImpl, if_pos rfl]
  cases GetImpl bbm id <;> rfl

/-- The effect of `set_value` alone on the merge of `live`. -/
theorem liveStep_set_value {s s1 : LLVMTFBuilder} {id live : Int} {v : LValue}
    (h : s.set_value id live v = some s1) :
    LiveStep id [live] s s1 ∧ valueIn s1.basic_block_manager_ id live = some v := by
  obtain ⟨hs1, hsome⟩ := set_value_some h
  subst hs1
  refine ⟨⟨fun j hj => ?_, fun k hk => ?_, le_refl _, ⟨[], by simp, fun _ he => by cases he⟩,
    ⟨[], ?_, fun _ he => by cases he⟩, fun _ he => he, rfl⟩, ?_⟩
  · show GetImpl (updateImpl _ _ _) j = _
    rw [GetImpl_updateImpl, if_neg hj]
  · show valueIn (updateImpl _ _ _) id k = _
    rw [valueIn_updateImpl_set_value _ _ _ _ _ _ hsome]
    simp only [List.mem_singleton] at hk
    simp [hk]
  · show deferredOf (updateImpl _ _ _) id = _
    rw [deferredOf_set_value, List.append_nil]
  · show valueIn (updateImpl _ _ _) id live = _
    rw [valueIn_updateImpl_set_value _ _ _ _ _ _ hsome]
    simp

theorem mergeLive_spec {s s1 : LLVMTFBuilder} {ref_pred id live : Int} {preds : List Int}
    (hall : ∀ p ∈ preds, IsBBStartedToBuild s.basic_block_manager_ p = true)
    (hfresh : HandlesFresh s id) (h : mergeLive ref_pred id preds live s = some s1) :
    LiveStep id [live] s s1 ∧ LiveMerged preds ref_pred id live s s1 := by
  unfold mergeLive at h
  cases hv : valueIn s.basic_block_manager_ ref_pred live with
  | none => simp [hv] at h
  | some ref_value =>
    simp only [hv] at h
    by_cases ht : typeOf ref_value = LType.taggedType
    · simp only [ht, ne_eq, not_true_eq_false, if_false] at h
      cases ha : addIncomingFromAll (LValue.inst s.output_.nextValue LType.taggedType) live preds
          { s with output_ := (s.output_.buildPhi LType.taggedType).1 } with
      | none =>
        simp only [Output.buildPhi, Output.emit] at h ha
        simp [ha] at h
      | some b1 =>
        have h' : b1.set_value id live (LValue.inst s.output_.nextValue LType.taggedType)
            = some s1 := by
          simp only [Output.buildPhi, Output.emit] at h ha
          simpa [ha] using h
        obtain ⟨L, hL, hb1⟩ := addIncomingFromAll_spec _ _ _ _ _ ha
        obtain ⟨hstep, hval⟩ := liveStep_set_value h'
        have hb1bbm : b1.basic_block_manager_ = s.basic_block_manager_ := by rw [hb1]
        have hb1next : b1.output_.nextValue = s.output_.nextValue + 1 := by
          rw [hb1]; rfl
        have hb1inc : b1.output_.incoming = s.output_.incoming ++
            L.map (fun e => { phi := LValue.inst s.output_.nextValue LType.taggedType,
                              value := e.1, block := e.2 }) := by
          rw [hb1]; rfl
        have hs1out : s1.output_ = b1.output_ := by
          obtain ⟨e, -⟩ := set_value_some h'
          rw [e]
        have hb1w : b1.phi_rebuild_worklist_ = s.phi_rebuild_worklist_ := by rw [hb1]
        refine ⟨⟨fun j hj => ?_, fun k hk => ?_, ?_,
          ⟨L.map (fun e => { phi := LValue.inst s.output_.nextValue LType.taggedType,
                              value := e.1, block := e.2 }), ?_, ?_⟩,
          ⟨[], ?_, fun _ he => (by cases he)⟩,
          ?_, ?_⟩, ref_value, hv, fun hne => absurd ht hne, fun _ => ?_⟩
        · rw [hstep.others j hj, hb1bbm]
        · rw [hstep.values k hk, hb1bbm]
        · rw [hs1out, hb1next]; omega
        · rw [hs1out, hb1inc]
        · intro e he
          obtain ⟨x, -, rfl⟩ := List.mem_map.mp he
          exact ⟨_, _, rfl, le_refl _, by rw [hs1out, hb1next]; omega⟩
        · obtain ⟨e, -⟩ := set_value_some h'
          rw [e]
          show deferredOf (updateImpl _ _ _) id = _
          rw [deferredOf_set_value, hb1bbm, List.append_nil]
        · intro e he
          rw [hs1out, hb1]
          exact List.mem_append_left _ he
        · rw [hstep.worklist, hb1w]
        · refine ⟨s.output_.nextValue, le_refl _, by rw [hs1out, hb1next]; omega, hval, ?_, ?_, ?_⟩
          · rw [hs1out, hb1]
            exact ⟨_, List.mem_append_right _ (List.mem_singleton.mpr rfl), rfl, rfl⟩
          · rw [hs1out, incomingOf_of_incoming hb1inc]
            have hold : s.output_.incomingOf (LValue.inst s.output_.nextValue LType.taggedType)
                = [] := by
              unfold Output.incomingOf
              rw [filter_phi_eq_nil_of_known (fun e : Incoming => e.phi) _ s.output_ _ _
                (le_refl _) hfresh.1]
              rfl
            rw [hold, List.nil_append, startedPredecessors_of_all _ _ hall, ← hL]
            rw [List.filter_eq_self.mpr (fun e he => by
              obtain ⟨x, -, rfl⟩ := List.mem_map.mp he
              simp)]
            simp [List.map_map, Function.comp]
          · rw [deferredRecords_of_all _ _ _ _ hall]
            have hd : deferredOf s1.basic_block_manager_ id = deferredOf s.basic_block_manager_ id := by
              obtain ⟨e, -⟩ := set_value_some h'
              rw [e, ← hb1bbm]
              exact deferredOf_set_value _ _ _ _
            rw [hd]
            exact filter_phi_eq_nil_of_known (fun r : NotMergedPhiDesc => r.phi) _ s.output_ _ _
              (le_refl _) hfresh.2
    · simp only [ne_eq, ht, not_false_eq_true, if_true] at h
      obtain ⟨hstep, hval⟩ := liveStep_set_value h
      exact ⟨hstep, ref_value, hv, fun _ => hval, fun he => absurd he ht⟩

theorem valueIn_of_map {bbm bbm' : BuilderBlocks} {p : Int}
    {f : LLVMTFBuilderBasicBlockImpl → LLVMTFBuilderBasicBlockImpl}
    (h : GetImpl bbm' p = (GetImpl bbm p).map f)
    (hf : ∀ i, (f i).values_ = i.values_) (k : Int) :
    valueIn bbm' p k = valueIn bbm p k := by
  unfold valueIn
  rw [h]
  cases GetImpl bbm p with
  | none => rfl
  | some i => simp [LLVMTFBuilderBasicBlockImpl.value, hf]

theorem deferredOf_of_map {bbm bbm' : BuilderBlocks} {p : Int} {R : List NotMergedPhiDesc}
    (hsome : (GetImpl bbm p).isSome)
    (h : GetImpl bbm' p = (GetImpl bbm p).map (fun impl =>
      { impl with not_merged_phis := impl.not_merged_phis ++ R })) :
    deferredOf bbm' p = deferredOf bbm p ++ R := by
  unfold deferredOf
  rw [h]
  cases hg : GetImpl bbm p with
  | none => simp [hg] at hsome
  | some i => rfl

theorem deferredRecords_phi (bbm : BuilderBlocks) (preds : List Int) (live : Int) (phi : LValue) :
    ∀ r ∈ deferredRecords bbm preds live phi, r.phi = phi := by
  intro r hr
  unfold deferredRecords at hr
  obtain ⟨p, -, rfl⟩ := List.mem_map.mp hr
  rfl

/-- The effect of the body of the loop of `BuildPhiAndPushToWorkList` for one
live-in, when the block is not its own predecessor. -/
theorem buildPhiLive_spec {s s1 : LLVMTFBuilder} {ref_pred id live : Int} {preds : List Int}
    (hid : id ∉ preds) (hfresh : HandlesFresh s id)
    (h : buildPhiLive ref_pred id preds live s = some s1) :
    LiveStep id [live] s s1 ∧ LiveMerged preds ref_pred id live s s1 := by
  unfold buildPhiLive at h
  cases hv : valueIn s.basic_block_manager_ ref_pred live with
  | none => simp [hv] at h
  | some ref_value =>
    simp only [hv] at h
    by_cases ht : typeOf ref_value = LType.taggedType
    · simp only [ht, ne_eq, not_true_eq_false, if_false] at h
      cases hb : LLVMTFBuilder.set_value
          { s with output_ := (s.output_.buildPhi LType.taggedType).1 } id live
          (LValue.inst s.output_.nextValue LType.taggedType) with
      | none =>
        simp only [Output.buildPhi, Output.emit] at h hb
        simp [hb] at h
      | some b1 =>
        have h' : addIncomingFromStarted (LValue.inst s.output_.nextValue LType.taggedType)
            live id preds b1 = some s1 := by
          simp only [Output.buildPhi, Output.emit] at h hb
          simpa [hb] using h
        obtain ⟨hstep, hval⟩ := liveStep_set_value hb
        obtain ⟨hb1, hsome0⟩ := set_value_some hb
        obtain ⟨L, hL, hout, -, hw, hget⟩ := addIncomingFromStarted_spec _ _ _ _ _ _ h'
        have hpreds : ∀ p ∈ preds,
            GetImpl b1.basic_block_manager_ p = GetImpl s.basic_block_manager_ p :=
          fun p hp => hstep.others p (fun e => hid (e ▸ hp))
        have hsome : (GetImpl b1.basic_block_manager_ id).isSome := by
          rw [hb1]
          show (GetImpl (updateImpl _ _ _) id).isSome = true
          rw [GetImpl_updateImpl, if_pos rfl]
          cases hg : GetImpl s.basic_block_manager_ id with
          | none => simp [hg] at hsome0
          | some i => rfl
        have hb1out : b1.output_ = (s.output_.buildPhi LType.taggedType).1 := by rw [hb1]
        have hnext : s1.output_.nextValue = s.output_.nextValue + 1 := by
          rw [hout, hb1out]; rfl
        have hinc : s1.output_.incoming = s.output_.incoming ++
            L.map (fun e => { phi := LValue.inst s.output_.nextValue LType.taggedType,
                              value := e.1, block := e.2 }) := by
          rw [hout, hb1out]; rfl
        have hinstr : s1.output_.instructions = s.output_.instructions ++
            [{ position := s.output_.position, block := s.output_.currentBlock,
               result := LValue.inst s.output_.nextValue LType.taggedType,
               instr := Instr.phi }] := by
          rw [hout, hb1out]; rfl
        have hgid := hget id
        rw [if_pos rfl] at hgid
        have hdef : deferredOf s1.basic_block_manager_ id = deferredOf s.basic_block_manager_ id ++
            deferredRecords s.basic_block_manager_ preds live
              (LValue.inst s.output_.nextValue LType.taggedType) := by
          rw [deferredOf_of_map hsome hgid, deferredRecords_congr_on _ _ _ hpreds]
          obtain ⟨R, hR, -⟩ := hstep.deferred
          have : R = [] := by
            have e1 : deferredOf b1.basic_block_manager_ id
                = deferredOf s.basic_block_manager_ id := by
              rw [hb1]
              exact deferredOf_set_value _ _ _ _
            rw [e1] at hR
            exact List.append_right_eq_self.mp hR.symm |> fun x => x
          rw [hR, this, List.append_nil]
        have hvalid : ∀ k, valueIn s1.basic_block_manager_ id k
            = valueIn b1.basic_block_manager_ id k :=
          fun k => valueIn_of_map hgid (fun _ => rfl) k
        refine ⟨⟨fun j hj => ?_, fun k hk => ?_, ?_,
          ⟨L.map (fun e => { phi := LValue.inst s.output_.nextValue LType.taggedType,
                              value := e.1, block := e.2 }), hinc, ?_⟩,
          ⟨_, hdef, ?_⟩, ?_, ?_⟩, ref_value, hv, fun hne => absurd ht hne, fun _ => ?_⟩
        · have := hget j
          rw [if_neg hj] at this
          rw [this]
          exact hstep.others j hj
        · rw [hvalid]
          exact hstep.values k hk
        · rw [hnext]; omega
        · intro e he
          obtain ⟨x, -, rfl⟩ := List.mem_map.mp he
          exact ⟨_, _, rfl, le_refl _, by rw [hnext]; omega⟩
        · intro r hr
          exact ⟨_, _, deferredRecords_phi _ _ _ _ r hr, le_refl _, by rw [hnext]; omega⟩
        · intro e he
          rw [hinstr]
          exact List.mem_append_left _ he
        · rw [hw]
          exact hstep.worklist
        · refine ⟨s.output_.nextValue, le_refl _, by rw [hnext]; omega, ?_, ?_, ?_, ?_⟩
          · rw [hvalid]; exact hval
          · unfold IsPhi
            rw [hinstr]
            exact ⟨_, List.mem_append_right _ (List.mem_singleton.mpr rfl), rfl, rfl⟩
          · rw [incomingOf_of_incoming hinc]
            have hold : s.output_.incomingOf (LValue.inst s.output_.nextValue LType.taggedType)
                = [] := by
              unfold Output.incomingOf
              rw [filter_phi_eq_nil_of_known (fun e : Incoming => e.phi) _ s.output_ _ _
                (le_refl _) hfresh.1]
              rfl
            rw [hold, List.nil_append]
            rw [List.filter_eq_self.mpr (fun e he => by
              obtain ⟨x, -, rfl⟩ := List.mem_map.mp he
              simp)]
            rw [startedPredecessors_congr_on _ hpreds] at hL
            have hentries : (startedPredecessors s.basic_block_manager_ preds).map
                (phiEntry b1.basic_block_manager_ live) =
                (startedPredecessors s.basic_block_manager_ preds).map
                (phiEntry s.basic_block_manager_ live) :=
              List.map_congr_left (fun p hp =>
                phiEntry_congr (hpreds p (startedPredecessors_subset _ _ p hp)) live)
            rw [← hentries, ← hL]
            simp [List.map_map, Function.comp]
          · rw [hdef, List.filter_append]
            rw [filter_phi_eq_nil_of_known (fun r : NotMergedPhiDesc => r.phi) _ s.output_ _ _
              (le_refl _) hfresh.2, List.nil_append]
            exact List.filter_eq_self.mpr (fun r hr => by
              simp [deferredRecords_phi _ _ _ _ r hr])
    · simp only [ne_eq, ht, not_false_eq_true, if_true] at h
      obtain ⟨hstep, hval⟩ := liveStep_set_value h
      exact ⟨hstep, ref_value, hv, fun _ => hval, fun he => absurd he ht⟩

/-! ### Composition of the per-live-in steps -/

theorem liveStep_trans {id : Int} {l1 l2 : List Int} {s s1 s2 : LLVMTFBuilder}
    (h1 : LiveStep id l1 s s1) (h2 : LiveStep id l2 s1 s2) : LiveStep id (l1 ++ l2) s s2 := by
  obtain ⟨X1, hX1, hX1n⟩ := h1.incoming
  obtain ⟨X2, hX2, hX2n⟩ := h2.incoming
  obtain ⟨R1, hR1, hR1n⟩ := h1.deferred
  obtain ⟨R2, hR2, hR2n⟩ := h2.deferred
  have hn1 := h1.next
  have hn2 := h2.next
  refine ⟨fun j hj => ?_, fun k hk => ?_, le_trans hn1 hn2, ⟨X1 ++ X2, ?_, ?_⟩,
    ⟨R1 ++ R2, ?_, ?_⟩, fun e he => h2.instructions e (h1.instructions e he), ?_⟩
  · rw [h2.others j hj, h1.others j hj]
  · rw [List.mem_append, not_or] at hk
    rw [h2.values k hk.2, h1.values k hk.1]
  · rw [hX2, hX1, List.append_assoc]
  · intro e he
    rcases List.mem_append.mp he with he | he
    · obtain ⟨n, t, e1, e2, e3⟩ := hX1n e he
      exact ⟨n, t, e1, e2, lt_of_lt_of_le e3 hn2⟩
    · obtain ⟨n, t, e1, e2, e3⟩ := hX2n e he
      exact ⟨n, t, e1, le_trans hn1 e2, e3⟩
  · rw [hR2, hR1, List.append_assoc]
  · intro e he
    rcases List.mem_append.mp he with he | he
    · obtain ⟨n, t, e1, e2, e3⟩ := hR1n e he
      exact ⟨n, t, e1, e2, lt_of_lt_of_le e3 hn2⟩
    · obtain ⟨n, t, e1, e2, e3⟩ := hR2n e he
      exact ⟨n, t, e1, le_trans hn1 e2, e3⟩
  · rw [h2.worklist, h1.worklist]

theorem isKnown_mono {o o' : Output} (h : o.nextValue ≤ o'.nextValue) (v : LValue)
    (hv : isKnown o v = true) : isKnown o' v = true := by
  cases v with
  | inst n t =>
    simp only [isKnown, decide_eq_true_eq] at hv ⊢
    omega
  | const t c => rfl
  | undef t => rfl
  | param i t => rfl

theorem handlesFresh_step {id : Int} {l : List Int} {s s1 : LLVMTFBuilder}
    (h : LiveStep id l s s1) (hf : HandlesFresh s id) : HandlesFresh s1 id := by
  obtain ⟨X, hX, hXn⟩ := h.incoming
  obtain ⟨R, hR, hRn⟩ := h.deferred
  refine ⟨fun e he => ?_, fun r hr => ?_⟩
  · rw [hX] at he
    rcases List.mem_append.mp he with he | he
    · exact isKnown_mono h.next _ (hf.1 e he)
    · obtain ⟨n, t, e1, -, e3⟩ := hXn e he
      rw [e1]
      simpa [isKnown] using e3
  · rw [hR] at hr
    rcases List.mem_append.mp hr with hr | hr
    · exact isKnown_mono h.next _ (hf.2 r hr)
    · obtain ⟨n, t, e1, -, e3⟩ := hRn r hr
      rw [e1]
      simpa [isKnown] using e3

/-- A merged live-in stays merged through the steps for other live-ins. -/
theorem liveMerged_forward {preds : List Int} {ref_pred id live : Int} {l : List Int}
    {s s1 s2 : LLVMTFBuilder} (hl : live ∉ l) (h2 : LiveStep id l s1 s2)
    (h : LiveMerged preds ref_pred id live s s1) : LiveMerged preds ref_pred id live s s2 := by
  obtain ⟨ref_value, hv, hplain, htagged⟩ := h
  obtain ⟨X, hX, hXn⟩ := h2.incoming
  obtain ⟨R, hR, hRn⟩ := h2.deferred
  refine ⟨ref_value, hv, fun ht => ?_, fun ht => ?_⟩
  · rw [h2.values live hl]
    exact hplain ht
  · obtain ⟨n, hn1, hn2, hval, ⟨e, he, her, hei⟩, hinc, hdef⟩ := htagged ht
    refine ⟨n, hn1, lt_of_lt_of_le hn2 h2.next, ?_, ⟨e, h2.instructions e he, her, hei⟩, ?_, ?_⟩
    · rw [h2.values live hl]
      exact hval
    · rw [incomingOf_of_incoming hX,
        filter_phi_eq_nil_of_new (fun e : Incoming => e.phi) X n s1.output_.nextValue _ hn2
          (fun e he => by
            obtain ⟨k, t, e1, e2, -⟩ := hXn e he
            exact ⟨k, t, e1, e2⟩)]
      simpa using hinc
    · rw [hR, List.filter_append,
        filter_phi_eq_nil_of_new (fun r : NotMergedPhiDesc => r.phi) R n s1.output_.nextValue _ hn2
          (fun e he => by
            obtain ⟨k, t, e1, e2, -⟩ := hRn e he
            exact ⟨k, t, e1, e2⟩), List.append_nil]
      exact hdef

/-- A merge seen from a later state is a merge seen from an earlier one, when
the steps between did not touch what it reads. -/
theorem liveMerged_rebase {preds : List Int} {ref_pred id live : Int} {l : List Int}
    {s s1 s2 : LLVMTFBuilder} (hid : id ∉ preds) (href : ref_pred ≠ id)
    (h1 : LiveStep id l s s1) (h : LiveMerged preds ref_pred id live s1 s2) :
    LiveMerged preds ref_pred id live s s2 := by
  obtain ⟨ref_value, hv, hplain, htagged⟩ := h
  have hpreds : ∀ p ∈ preds,
      GetImpl s1.basic_block_manager_ p = GetImpl s.basic_block_manager_ p :=
    fun p hp => h1.others p (fun e => hid (e ▸ hp))
  refine ⟨ref_value, ?_, hplain, fun ht => ?_⟩
  · rw [← valueIn_congr (h1.others ref_pred href)]
    exact hv
  · obtain ⟨n, hn1, hn2, hval, hphi, hinc, hdef⟩ := htagged ht
    refine ⟨n, le_trans h1.next hn1, hn2, hval, hphi, ?_, ?_⟩
    · rw [hinc, startedPredecessors_congr_on _ hpreds]
      exact List.map_congr_left (fun p hp =>
        phiEntry_congr (hpreds p (startedPredecessors_subset _ _ p hp)) live)
    · rw [hdef, deferredRecords_congr_on _ _ _ hpreds]

/-- The loop over the live-ins, from a specification of its body. -/
theorem forEachLive_spec {body : Int → LLVMTFBuilder → Option LLVMTFBuilder}
    {id ref_pred : Int} {preds : List Int} (Q : LLVMTFBuilder → Prop)
    (hid : id ∉ preds) (href : ref_pred ≠ id)
    (hQ : ∀ s s1, (∀ j, j ≠ id →
      GetImpl s1.basic_block_manager_ j = GetImpl s.basic_block_manager_ j) → Q s → Q s1)
    (hbody : ∀ s s1 live, HandlesFresh s id → Q s → body live s = some s1 →
      LiveStep id [live] s s1 ∧ LiveMerged preds ref_pred id live s s1) :
    ∀ (lives : List Int) (s s' : LLVMTFBuilder), lives.Nodup → HandlesFresh s id → Q s →
      forEachLive body lives s = some s' →
      LiveStep id lives s s' ∧ ∀ live ∈ lives, LiveMerged preds ref_pred id live s s' := by
  intro lives
  induction lives with
  | nil =>
    intro s s' _ _ _ h
    simp only [forEachLive, Option.some.injEq] at h
    subst h
    exact ⟨⟨fun _ _ => rfl, fun _ _ => rfl, le_refl _, ⟨[], by simp, fun _ he => (by cases he)⟩,
      ⟨[], by simp, fun _ he => (by cases he)⟩, fun _ he => he, rfl⟩, fun _ hl => (by cases hl)⟩
  | cons live rest ih =>
    intro s s' hnd hf hq h
    rw [List.nodup_cons] at hnd
    simp only [forEachLive] at h
    cases hb : body live s with
    | none => simp [hb] at h
    | some s1 =>
      simp only [hb] at h
      obtain ⟨hstep, hmerged⟩ := hbody s s1 live hf hq hb
      obtain ⟨hrest, hall⟩ := ih s1 s' hnd.2 (handlesFresh_step hstep hf)
        (hQ s s1 hstep.others hq) h
      refine ⟨liveStep_trans hstep hrest, fun l hl => ?_⟩
      rcases List.mem_cons.mp hl with e | hl
      · subst e
        exact liveMerged_forward hnd.1 hrest hmerged
      · exact liveMerged_rebase hid href hstep (hall l hl)

/-! ### The scan of the predecessors and the merge as a whole -/

theorem AllPredecessorStarted_fst (bbm : BuilderBlocks) (preds : List Int) :
    ∀ ref : Option Int, (AllPredecessorStarted bbm preds ref).1 =
      preds.all (fun p => IsBBStartedToBuild bbm p) := by
  induction preds with
  | nil => intro ref; rfl
  | cons p rest ih =>
    intro ref
    unfold AllPredecessorStarted
    cases hs : IsBBStartedToBuild bbm p
    · simp [hs]
    · simp [hs, ih]

theorem AllPredecessorStarted_snd (bbm : BuilderBlocks) (preds : List Int) :
    ∀ ref : Option Int, (AllPredecessorStarted bbm preds ref).2 =
      match ref with
      | some r => some r
      | none => (startedPredecessors bbm preds).head? := by
  induction preds with
  | nil => intro ref; cases ref <;> rfl
  | cons p rest ih =>
    intro ref
    unfold AllPredecessorStarted
    rw [startedPredecessors_cons]
    cases hs : IsBBStartedToBuild bbm p
    · simp only [Bool.false_eq_true, if_false]
      exact ih ref
    · simp only [if_true]
      rw [ih]
      cases ref <;> rfl

theorem all_started_iff (bbm : BuilderBlocks) (preds : List Int) :
    preds.all (fun p => IsBBStartedToBuild bbm p) = true ↔
      startedPredecessors bbm preds = preds := by
  unfold startedPredecessors
  rw [List.filter_eq_self, List.all_eq_true]

/-- The call `EnsureImpl(bb)` is a step that changes nothing the merge reads. -/
theorem liveStep_EnsureImpl (b : LLVMTFBuilder) (id : Int) :
    LiveStep id [] b { b with basic_block_manager_ := EnsureImpl b.basic_block_manager_ id } := by
  have hget := GetImpl_EnsureImpl b.basic_block_manager_ id
  refine ⟨fun j hj => ?_, fun k _ => ?_, le_refl _, ⟨[], by simp, fun _ he => (by cases he)⟩,
    ⟨[], ?_, fun _ he => (by cases he)⟩, fun _ he => he, rfl⟩
  · show GetImpl (EnsureImpl _ _) j = _
    rw [hget, if_neg hj]
  · show valueIn (EnsureImpl _ _) id k = _
    unfold valueIn
    rw [hget, if_pos rfl]
    unfold GetImpl
    cases findBB b.basic_block_manager_ id with
    | none => rfl
    | some bb =>
      cases hi : bb.impl with
      | none => simp [hi]; rfl
      | some i => simp [hi]
  · show deferredOf (EnsureImpl _ _) id = _
    unfold deferredOf
    rw [hget, if_pos rfl, List.append_nil]
    unfold GetImpl
    cases findBB b.basic_block_manager_ id with
    | none => rfl
    | some bb =>
      cases hi : bb.impl with
      | none => simp [hi]; rfl
      | some i => simp [hi]

/-! ## The claims on the merge of predecessors -/

/-- When `MergePredecessors` returns for a block with at least two
predecessors that is not its own predecessor, there is a reference
predecessor, the first started one, and every live-in is merged: a value
not tagged there is bound as there; a tagged one is bound to a phi created by
the merge, whose incoming entries are, in the order of the predecessor list,
one per started predecessor with that predecessor's binding and continuation
block, and the block holds one deferred record per predecessor not started.
The block is pushed on the worklist exactly when some predecessor is not
started. -/
theorem MergePredecessors_merged (b b' : LLVMTFBuilder) (id : Int)
    (bb : BasicBlock LLVMTFBuilderBasicBlockImpl)
    (hbb : findBB b.basic_block_manager_ id = some bb)
    (hp : 2 ≤ bb.predecessors.length) (hself : id ∉ bb.predecessors)
    (hnd : bb.liveins.Nodup) (hfresh : HandlesFresh b id)
    (h : b.MergePredecessors id = some b') :
    ∃ ref_pred,
      (startedPredecessors b.basic_block_manager_ bb.predecessors).head? = some ref_pred ∧
      (∀ live ∈ bb.liveins, LiveMerged bb.predecessors ref_pred id live b b') ∧
      b'.phi_rebuild_worklist_ = b.phi_rebuild_worklist_ ++
        (if startedPredecessors b.basic_block_manager_ bb.predecessors = bb.predecessors
         then [] else [id]) := by
  unfold MergePredecessors at h
  simp only [hbb] at h
  have hfst := AllPredecessorStarted_fst b.basic_block_manager_ bb.predecessors none
  have hsnd := AllPredecessorStarted_snd b.basic_block_manager_ bb.predecessors none
  have hrefmem : ∀ r, (startedPredecessors b.basic_block_manager_ bb.predecessors).head? = some r →
      r ∈ bb.predecessors := fun r hr =>
    startedPredecessors_subset _ _ r (List.mem_of_mem_head? hr)
  rcases hpreds : bb.predecessors with _ | ⟨p, _ | ⟨q, rest⟩⟩
  · rw [hpreds] at hp; simp at hp
  · rw [hpreds] at hp; simp at hp
  · rw [hpreds] at h hfst hsnd hself hrefmem
    simp only at h hsnd
    generalize AllPredecessorStarted b.basic_block_manager_ (p :: q :: rest) none = A
      at h hfst hsnd
    obtain ⟨flag, ref⟩ := A
    simp only at hfst hsnd
    cases ref with
    | none =>
      cases flag with
      | false => simp at h
      | true =>
        have hall := (all_started_iff _ _).mp hfst.symm
        rw [hall] at hsnd
        simp at hsnd
    | some ref_pred =>
      have href : ref_pred ≠ id := fun e => hself (e ▸ hrefmem ref_pred hsnd.symm)
      refine ⟨ref_pred, hsnd.symm, ?_⟩
      cases flag with
      | true =>
        have hall := (all_started_iff _ _).mp hfst.symm
        simp only at h
        have hstarted : ∀ p' ∈ p :: q :: rest,
            IsBBStartedToBuild b.basic_block_manager_ p' = true := by
          have := hfst.symm
          rw [List.all_eq_true] at this
          exact this
        obtain ⟨hstep, hmerged⟩ := forEachLive_spec
          (fun s => ∀ p' ∈ p :: q :: rest, IsBBStartedToBuild s.basic_block_manager_ p' = true)
          hself href
          (fun s s1 hothers hq p' hp' => by
            rw [IsBBStartedToBuild_congr (hothers p' (fun e => hself (e ▸ hp')))]
            exact hq p' hp')
          (fun s s1 live hf hq hb => mergeLive_spec hq hf hb)
          bb.liveins b b' hnd hfresh hstarted h
        exact ⟨hmerged, by rw [hstep.worklist, if_pos hall, List.append_nil]⟩
      | false =>
        have hnall : startedPredecessors b.basic_block_manager_ (p :: q :: rest)
            ≠ p :: q :: rest := fun e => by
          have := (all_started_iff _ _).mpr e
          rw [← hfst] at this
          cases this
        simp only at h
        unfold BuildPhiAndPushToWorkList at h
        simp only [hbb, hpreds] at h
        cases hb : buildPhis ref_pred id (p :: q :: rest) bb.liveins
            { b with basic_block_manager_ := EnsureImpl b.basic_block_manager_ id } with
        | none => simp [hb] at h
        | some b1 =>
          simp only [hb, Option.some.injEq] at h
          subst h
          have h0 := liveStep_EnsureImpl b id
          obtain ⟨hstep, hmerged⟩ := forEachLive_spec (fun _ => True) hself href
            (fun _ _ _ _ => trivial)
            (fun s s1 live hf _ hb => buildPhiLive_spec hself hf hb)
            bb.liveins _ b1 hnd (handlesFresh_step h0 hfresh) trivial hb
          refine ⟨fun live hl => liveMerged_rebase hself href h0 (hmerged live hl), ?_⟩
          show b1.phi_rebuild_worklist_ ++ [id] = _
          rw [hstep.worklist, if_neg hnall]

/-- C9. For a block with exactly one predecessor, `MergePredecessors` returns
when that predecessor is started, the block has its slot and the predecessor
binds every live-in of the block; and whenever it returns it has emitted
nothing (the output, and with it the set of phi nodes, is unchanged), every
live-in of the block is bound to the value the predecessor binds it to when
the merge starts, and every other binding of the block and all bindings of
other blocks are as they were. -/
theorem C9_single_predecessor_copies (b : LLVMTFBuilder) (id pred : Int)
    (bb : BasicBlock LLVMTFBuilderBasicBlockImpl)
    (hbb : findBB b.basic_block_manager_ id = some bb) (hp : bb.predecessors = [pred]) :
    (IsBBStartedToBuild b.basic_block_manager_ pred = true →
      (GetImpl b.basic_block_manager_ id).isSome →
      (∀ live ∈ bb.liveins, (valueIn b.basic_block_manager_ pred live).isSome) →
      (b.MergePredecessors id).isSome) ∧
    ∀ b', b.MergePredecessors id = some b' →
      b'.output_ = b.output_ ∧
      (∀ live ∈ bb.liveins, ∃ value,
        valueIn b.basic_block_manager_ pred live = some value ∧
        valueIn b'.basic_block_manager_ id live = some value) ∧
      (∀ nid, nid ∉ bb.liveins →
        valueIn b'.basic_block_manager_ id nid = valueIn b.basic_block_manager_ id nid) ∧
      (∀ j nid, j ≠ id →
        valueIn b'.basic_block_manager_ j nid = valueIn b.basic_block_manager_ j nid) := by
  unfold MergePredecessors
  simp only [hbb, hp]
  refine ⟨fun hs hi hb => ?_, fun b' h => ?_⟩
  · rw [if_pos hs]
    exact copyFromPredecessor_isSome pred id bb.liveins b hi hb
  · split_ifs at h with hs
    obtain ⟨q1, -, -, q4, -, q6, q7⟩ := copyFromPredecessor_spec pred id bb.liveins b b' h
    exact ⟨q1, q6, q7, q4⟩

/-- C9, witness: block 1 of `chainState` copies both bindings of its
predecessor 0. -/
theorem C9_single_predecessor_copies_witness :
    ∃ b', chainState.MergePredecessors 1 = some b' ∧
      b'.output_ = chainState.output_ ∧
      (∀ live ∈ [7, 8], ∃ value,
        valueIn chainState.basic_block_manager_ 0 live = some value ∧
        valueIn b'.basic_block_manager_ 1 live = some value) := by
  have hc := C9_single_predecessor_copies chainState 1 0
    (builderBlock 1 [0] [] [7, 8] (some (startedImpl 2))) (by decide) rfl
  obtain ⟨b', hb'⟩ := Option.isSome_iff_exists.mp (hc.1 (by decide) (by decide) (by decide))
  have := hc.2 b' hb'
  exact ⟨b', hb', this.1, this.2.1⟩

/-- C10 (the code diverges): the merge tests `IsBBStartedToBuild`, and the
block being entered is itself started and not ended. In `selfLoopDeferredState`
block 1 has the predecessors 0 (built), 1 (itself) and 2 (not started): its
phi for the tagged live-in 7 gets an incoming entry from block 1, which is
not ended, carrying the phi itself, and only predecessor 2 gets a deferred
record. In `selfLoopState`, with the predecessors 0 and 1 only, the block is
taken for one with all predecessors built and the read of its own binding of
7 fails the assertion of `value`. -/
theorem C10_self_predecessor_taken_as_built :
    (∃ b', selfLoopDeferredState.VisitBlock 1 = some b' ∧
      IsBBEndedToBuild b'.basic_block_manager_ 1 = false ∧
      valueIn b'.basic_block_manager_ 1 7 = some (LValue.inst 2 LType.taggedType) ∧
      b'.output_.incomingOf (LValue.inst 2 LType.taggedType) =
        [(LValue.inst 0 LType.taggedType, 0), (LValue.inst 2 LType.taggedType, 2)] ∧
      deferredOf b'.basic_block_manager_ 1 =
        [{ pred := 2, value := 7, phi := LValue.inst 2 LType.taggedType }] ∧
      b'.phi_rebuild_worklist_ = [1]) ∧
    selfLoopState.VisitBlock 1 = none :=
  ⟨⟨_, rfl, rfl, rfl, rfl, rfl, rfl⟩, rfl⟩

/-! ## The builder: the phi fixup -/

theorem isPhiInput_mono {o o' : Output} {val v : LValue} {type : LType}
    (hsub : ∀ e ∈ o.instructions, e ∈ o'.instructions) (h : IsPhiInput o val type v) :
    IsPhiInput o' val type v := by
  rcases h with h | ⟨h1, h2, e, he, h3⟩
  · exact Or.inl h
  · exact Or.inr ⟨h1, h2, e, hsub e he, h3⟩

theorem completes_mono {bbm : BuilderBlocks} {o o' : Output} {r : NotMergedPhiDesc}
    {e : Incoming} (hsub : ∀ e ∈ o.instructions, e ∈ o'.instructions)
    (h : Completes bbm o r e) : Completes bbm o' r e := by
  obtain ⟨h1, h2, val, h3, h4⟩ := h
  exact ⟨h1, h2, val, h3, isPhiInput_mono hsub h4⟩

theorem completes_congr {bbm bbm' : BuilderBlocks} {o : Output} {r : NotMergedPhiDesc}
    {e : Incoming} (hsame : SameReads bbm bbm') (h : Completes bbm' o r e) :
    Completes bbm o r e := by
  obtain ⟨h1, h2, val, h3, h4⟩ := h
  exact ⟨h1, by rw [← sameReads_continuation hsame]; exact h2, val,
    by rw [← sameReads_valueIn hsame]; exact h3, h4⟩

/-- What `EnsurePhiInput` changes and returns. -/
theorem EnsurePhiInput_spec {b b1 : LLVMTFBuilder} {pred index : Int} {type : LType}
    {v : LValue} (h : b.EnsurePhiInput pred index type = some (b1, v)) :
    b1.basic_block_manager_ = b.basic_block_manager_ ∧
      b1.phi_rebuild_worklist_ = b.phi_rebuild_worklist_ ∧
      b1.current_bb_ = b.current_bb_ ∧
      b1.output_.incoming = b.output_.incoming ∧
      (∀ e ∈ b.output_.instructions, e ∈ b1.output_.instructions) ∧
      ∃ val, valueIn b.basic_block_manager_ pred index = some val ∧
        IsPhiInput b1.output_ val type v := by
  unfold EnsurePhiInput at h
  cases hv : valueIn b.basic_block_manager_ pred index with
  | none => simp [hv] at h
  | some val =>
    simp only [hv] at h
    by_cases ht : typeOf val = type
    · simp only [ht, if_true, Option.some.injEq, Prod.mk.injEq] at h
      obtain ⟨rfl, rfl⟩ := h
      exact ⟨rfl, rfl, rfl, rfl, fun _ he => he, val, rfl, Or.inl ⟨ht, rfl⟩⟩
    · simp only [ht, if_false] at h
      cases hc : GetNativeBBContinuation b.basic_block_manager_ pred with
      | none => simp [hc] at h
      | some continuation =>
        simp only [hc] at h
        cases htm : b.output_.getBasicBlockTerminator continuation with
        | none =>
          simp only [htm] at h
          split_ifs at h
        | some terminator =>
          simp only [htm, Output.buildCast, Output.emit, Output.positionBefore] at h
          have key : ∀ (op : CastOp) (dst : LType), dst = type →
              some (({ b with output_ :=
                  { nextValue := b.output_.nextValue + 1, nextBlock := b.output_.nextBlock,
                    position := Position.before terminator,
                    instructions := b.output_.instructions ++
                      [{ position := Position.before terminator,
                         block := Output.currentBlock
                           { b.output_ with position := Position.before terminator },
                         result := LValue.inst b.output_.nextValue dst,
                         instr := Instr.cast op val }],
                    incoming := b.output_.incoming, prologue := b.output_.prologue,
                    root_ := b.output_.root_, fp_ := b.output_.fp_,
                    lr_ensured_ := b.output_.lr_ensured_ } } :
                  LLVMTFBuilder), LValue.inst b.output_.nextValue dst) = some (b1, v) →
              b1.basic_block_manager_ = b.basic_block_manager_ ∧
              b1.phi_rebuild_worklist_ = b.phi_rebuild_worklist_ ∧
              b1.current_bb_ = b.current_bb_ ∧
              b1.output_.incoming = b.output_.incoming ∧
              (∀ e ∈ b.output_.instructions, e ∈ b1.output_.instructions) ∧
              ∃ val', some val = some val' ∧ IsPhiInput b1.output_ val' type v := by
            intro op dst hd heq
            simp only [Option.some.injEq, Prod.mk.injEq] at heq
            obtain ⟨rfl, rfl⟩ := heq
            refine ⟨rfl, rfl, rfl, rfl, fun e he => List.mem_append_left _ he, val, rfl,
              Or.inr ⟨ht, hd, _, List.mem_append_right _ (List.mem_singleton.mpr rfl),
                rfl, op, rfl⟩⟩
          split_ifs at h with c1 c2 c3
          · exact key _ _ c1.2.symm h
          · exact key _ _ c2.2.symm h
          · exact key _ _ c3.2.symm h

theorem sameReads_refl (bbm : BuilderBlocks) : SameReads bbm bbm := fun _ => rfl

theorem sameReads_trans {a b c : BuilderBlocks} (h1 : SameReads a b) (h2 : SameReads b c) :
    SameReads a c := fun j => (h2 j).trans (h1 j)

/-- The loop over the deferred records of one block: the store is untouched
and every record is completed by one `addIncoming` call, in order. -/
theorem mergeDeferred_spec (rs : List NotMergedPhiDesc) :
    ∀ (b b' : LLVMTFBuilder), mergeDeferred rs b = some b' →
      b'.basic_block_manager_ = b.basic_block_manager_ ∧
      b'.phi_rebuild_worklist_ = b.phi_rebuild_worklist_ ∧
      (∀ e ∈ b.output_.instructions, e ∈ b'.output_.instructions) ∧
      (∀ r ∈ rs, IsBBStartedToBuild b.basic_block_manager_ r.pred = true) ∧
      ∃ X, b'.output_.incoming = b.output_.incoming ++ X ∧
        List.Forall₂ (Completes b.basic_block_manager_ b'.output_) rs X := by
  induction rs with
  | nil =>
    intro b b' h
    simp only [mergeDeferred, Option.some.injEq] at h
    subst h
    exact ⟨rfl, rfl, fun _ he => he, fun _ hr => (by cases hr), [], by simp, List.Forall₂.nil⟩
  | cons r rest ih =>
    intro b b' h
    simp only [mergeDeferred] at h
    cases hs : IsBBStartedToBuild b.basic_block_manager_ r.pred with
    | false => simp [hs] at h
    | true =>
      simp only [hs, Bool.not_true, Bool.false_eq_true, if_false] at h
      cases he : b.EnsurePhiInput r.pred r.value (typeOf r.phi) with
      | none => simp [he] at h
      | some res =>
        obtain ⟨b1, value⟩ := res
        simp only [he] at h
        obtain ⟨q1, q2, -, q4, q5, val, q6, q7⟩ := EnsurePhiInput_spec he
        cases hc : GetNativeBBContinuation b1.basic_block_manager_ r.pred with
        | none => simp [hc] at h
        | some native =>
          simp only [hc] at h
          obtain ⟨p1, p2, p3, p4, X, p5, p6⟩ := ih _ b' h
          have p1' : b'.basic_block_manager_ = b.basic_block_manager_ := by rw [p1]; exact q1
          have hsub1 : ∀ e ∈ b1.output_.instructions, e ∈ b'.output_.instructions :=
            fun e he => p3 e he
          refine ⟨p1', by rw [p2]; exact q2, fun e he => hsub1 e (q5 e he), ?_,
            { phi := r.phi, value := value, block := native } :: X, ?_, ?_⟩
          · intro r' hr'
            rcases List.mem_cons.mp hr' with e | hr'
            · rw [e]; exact hs
            · have := p4 r' hr'
              rw [q1] at this
              exact this
          · rw [p5]
            show (b1.output_.incoming ++ _) ++ X = _
            rw [q4, List.append_assoc]
            rfl
          · refine List.Forall₂.cons ⟨rfl, ?_, val, q6, isPhiInput_mono hsub1 q7⟩ ?_
            · rw [← q1]; exact hc
            · have hb : ({ b1 with output_ := b1.output_.addIncoming r.phi value native } :
                  LLVMTFBuilder).basic_block_manager_ = b.basic_block_manager_ := q1
              rw [hb] at p6
              exact p6

theorem deferredOf_cleared (bbm : BuilderBlocks) (id : Int) :
    deferredOf (updateImpl bbm id (fun i => { i with not_merged_phis := [] })) id = [] := by
  unfold deferredOf
  rw [GetImpl_updateImpl, if_pos rfl]
  cases GetImpl bbm id <;> rfl

theorem deferredOf_congr {bbm bbm' : BuilderBlocks} {id : Int}
    (h : GetImpl bbm' id = GetImpl bbm id) : deferredOf bbm' id = deferredOf bbm id := by
  unfold deferredOf; rw [h]

/-- The loop over the worklist. -/
theorem processWorkList_spec (ids : List Int) :
    ∀ (b b' : LLVMTFBuilder), processWorkList ids b = some b' →
      SameReads b.basic_block_manager_ b'.basic_block_manager_ ∧
      (∀ id ∈ ids, deferredOf b'.basic_block_manager_ id = []) ∧
      (∀ id, id ∉ ids →
        GetImpl b'.basic_block_manager_ id = GetImpl b.basic_block_manager_ id) ∧
      (∀ e ∈ b.output_.instructions, e ∈ b'.output_.instructions) ∧
      (∀ r ∈ pendingRecords b.basic_block_manager_ ids,
        IsBBStartedToBuild b.basic_block_manager_ r.pred = true) ∧
      ∃ X, b'.output_.incoming = b.output_.incoming ++ X ∧
        List.Forall₂ (Completes b.basic_block_manager_ b'.output_)
          (pendingRecords b.basic_block_manager_ ids) X := by
  induction ids with
  | nil =>
    intro b b' h
    simp only [processWorkList, Option.some.injEq] at h
    subst h
    exact ⟨sameReads_refl _, fun _ hi => (by cases hi), fun _ _ => rfl, fun _ he => he,
      fun _ hr => (by cases hr), [], by simp, List.Forall₂.nil⟩
  | cons id rest ih =>
    intro b b' h
    simp only [processWorkList] at h
    cases hi : GetImpl b.basic_block_manager_ id with
    | none => simp [hi] at h
    | some impl =>
      simp only [hi] at h
      cases hm : mergeDeferred impl.not_merged_phis b with
      | none => simp [hm] at h
      | some b1 =>
        simp only [hm] at h
        obtain ⟨m1, -, m3, m4, X1, m5, m6⟩ := mergeDeferred_spec _ b b1 hm
        obtain ⟨q1, q2, q3, q4, q5, X2, q6, q7⟩ := ih _ b' h
        have hdef : deferredOf b.basic_block_manager_ id = impl.not_merged_phis := by
          unfold deferredOf; rw [hi]
        have hbbm : LLVMTFBuilder.basic_block_manager_
            { b1 with basic_block_manager_ := updateImpl b1.basic_block_manager_ id
                                                (fun i => { i with not_merged_phis := [] }) } =
            updateImpl b.basic_block_manager_ id (fun i => { i with not_merged_phis := [] }) := by
          show updateImpl b1.basic_block_manager_ _ _ = _
          rw [m1]
        rw [hbbm] at q1 q3 q5 q7
        have hsame : SameReads b.basic_block_manager_
            (updateImpl b.basic_block_manager_ id (fun i => { i with not_merged_phis := [] })) :=
          sameReads_updateImpl _ _ _ (fun _ => rfl)
        refine ⟨sameReads_trans hsame q1, ?_, ?_, fun e he => q4 e (m3 e he), ?_,
          X1 ++ X2, ?_, ?_⟩
        · intro j hj
          by_cases hjr : j ∈ rest
          · exact q2 j hjr
          · have hjid : j = id := by
              rcases List.mem_cons.mp hj with e | e
              · exact e
              · exact absurd e hjr
            rw [hjid] at hjr ⊢
            rw [deferredOf_congr (q3 id hjr)]
            exact deferredOf_cleared _ _
        · intro j hj
          rw [List.mem_cons, not_or] at hj
          rw [q3 j hj.2, GetImpl_updateImpl, if_neg hj.1]
        · intro r hr
          simp only [pendingRecords, hdef] at hr
          rcases List.mem_append.mp hr with hr | hr
          · exact m4 r hr
          · rw [← sameReads_started hsame]
            exact q5 r hr
        · rw [q6]
          show (b1.output_.incoming ++ X2) = _
          rw [m5, List.append_assoc]
        · simp only [pendingRecords, hdef]
          refine List.rel_append ?_ ?_
          · exact List.Forall₂.imp (fun r e hc => completes_mono q4 hc) m6
          · exact List.Forall₂.imp (fun r e hc => completes_congr hsame hc) q7

theorem EnsurePhiInputAndPosition_spec {b b1 : LLVMTFBuilder} {pred index : Int} {type : LType}
    {v : LValue} (h : b.EnsurePhiInputAndPosition pred index type = some (b1, v)) :
    b1.basic_block_manager_ = b.basic_block_manager_ ∧
      b1.phi_rebuild_worklist_ = b.phi_rebuild_worklist_ ∧
      b1.output_.incoming = b.output_.incoming := by
  unfold EnsurePhiInputAndPosition at h
  cases he : b.EnsurePhiInput pred index type with
  | none => simp [he] at h
  | some res =>
    obtain ⟨b0, value⟩ := res
    simp only [he] at h
    obtain ⟨q1, q2, -, q4, -, -⟩ := EnsurePhiInput_spec he
    cases hc : b0.current_bb_ with
    | none => simp [hc] at h
    | some cur =>
      simp only [hc] at h
      cases hn : GetNativeBB b0.basic_block_manager_ cur with
      | none => simp [hn] at h
      | some native =>
        simp only [hn, Option.some.injEq, Prod.mk.injEq] at h
        obtain ⟨rfl, -⟩ := h
        exact ⟨q1, q2, q4⟩

/-- The loop of `VisitPhi` over the predecessors: one `addIncoming` call per
started predecessor, naming its continuation block, and one deferred record
per predecessor that is not started. -/
theorem visitPhiOperands_spec (phi : LValue) (phi_type : LType) (cur : Int) (preds : List Int) :
    ∀ (operands : List Int) (flag flag' : Bool) (b b' : LLVMTFBuilder),
      visitPhiOperands phi phi_type cur preds operands flag b = some (b', flag') →
      SameReads b.basic_block_manager_ b'.basic_block_manager_ ∧
      b'.phi_rebuild_worklist_ = b.phi_rebuild_worklist_ ∧
      (∀ j, j ≠ cur → GetImpl b'.basic_block_manager_ j = GetImpl b.basic_block_manager_ j) ∧
      ∃ X R, b'.output_.incoming = b.output_.incoming ++ X ∧
        deferredOf b'.basic_block_manager_ cur = deferredOf b.basic_block_manager_ cur ++ R ∧
        (∀ e ∈ X, e.phi = phi) ∧ (∀ r ∈ R, r.phi = phi) ∧
        X.map (fun e => some e.block) =
          (startedPredecessors b.basic_block_manager_ preds).map
            (GetNativeBBContinuation b.basic_block_manager_) ∧
        R.map (fun r => r.pred) =
          preds.filter (fun p => !IsBBStartedToBuild b.basic_block_manager_ p) ∧
        flag' = (flag || !R.isEmpty) := by
  induction preds with
  | nil =>
    intro operands flag flag' b b' h
    simp only [visitPhiOperands, Option.some.injEq, Prod.mk.injEq] at h
    obtain ⟨rfl, rfl⟩ := h
    exact ⟨sameReads_refl _, rfl, fun _ _ => rfl, [], [], by simp, by simp, by simp, by simp,
      rfl, rfl, by simp⟩
  | cons pred rest ih =>
    intro operands flag flag' b b' h
    cases operands with
    | nil => simp [visitPhiOperands] at h
    | cons operand operands =>
      simp only [visitPhiOperands] at h
      cases hs : IsBBStartedToBuild b.basic_block_manager_ pred with
      | true =>
        simp only [hs, if_true] at h
        cases he : b.EnsurePhiInputAndPosition pred operand phi_type with
        | none => simp [he] at h
        | some res =>
          obtain ⟨b1, value⟩ := res
          simp only [he] at h
          obtain ⟨q1, q2, q3⟩ := EnsurePhiInputAndPosition_spec he
          cases hc : GetNativeBBContinuation b1.basic_block_manager_ pred with
          | none => simp [hc] at h
          | some native =>
            simp only [hc] at h
            obtain ⟨p1, p2, p3, X, R, p4, p5, p6, p7, p8, p9, p10⟩ := ih _ _ _ _ _ h
            have hb : LLVMTFBuilder.basic_block_manager_
                { b1 with output_ := b1.output_.addIncoming phi value native } =
                b.basic_block_manager_ := q1
            rw [hb] at p1 p3 p5 p8 p9
            refine ⟨p1, by rw [p2]; exact q2, p3,
              { phi := phi, value := value, block := native } :: X, R, ?_, p5, ?_, p7, ?_, ?_,
              p10⟩
            · rw [p4]
              show (b1.output_.incoming ++ _) ++ X = _
              rw [q3, List.append_assoc]
              rfl
            · intro e he'
              rcases List.mem_cons.mp he' with e1 | e1
              · rw [e1]
              · exact p6 e e1
            · rw [startedPredecessors_cons, hs, if_pos rfl, List.map_cons, List.map_cons, p8,
                ← q1, hc]
            · rw [p9, List.filter_cons]
              simp [hs]
      | false =>
        simp only [hs, Bool.false_eq_true, if_false] at h
        cases hi : GetImpl b.basic_block_manager_ cur with
        | none => simp [hi] at h
        | some impl =>
          simp only [hi] at h
          obtain ⟨p1, p2, p3, X, R, p4, p5, p6, p7, p8, p9, p10⟩ := ih _ _ _ _ _ h
          have hsame := sameReads_updateImpl b.basic_block_manager_ cur
            (fun impl => { impl with not_merged_phis :=
              impl.not_merged_phis ++ [{ pred := pred, value := operand, phi := phi }] })
            (fun _ => rfl)
          have hb : ∀ x, LLVMTFBuilder.basic_block_manager_
              { b with basic_block_manager_ := x } = x := fun _ => rfl
          rw [hb] at p1 p3 p5 p8 p9
          have hdef : deferredOf (updateImpl b.basic_block_manager_ cur
              (fun impl => { impl with not_merged_phis :=
                impl.not_merged_phis ++ [{ pred := pred, value := operand, phi := phi }] })) cur =
              deferredOf b.basic_block_manager_ cur ++
                [{ pred := pred, value := operand, phi := phi }] :=
            deferredOf_of_map (by rw [hi]; rfl) (by rw [GetImpl_updateImpl, if_pos rfl])
          refine ⟨sameReads_trans hsame p1, p2, ?_, X,
            { pred := pred, value := operand, phi := phi } :: R, p4, ?_, p6, ?_, ?_, ?_, ?_⟩
          · intro j hj
            rw [p3 j hj, GetImpl_updateImpl, if_neg hj]
          · rw [p5, hdef, List.append_assoc]
            rfl
          · intro r hr
            rcases List.mem_cons.mp hr with e1 | e1
            · rw [e1]
            · exact p7 r e1
          · rw [p8, startedPredecessors_cons, hs, if_neg (by simp),
              startedPredecessors_congr hsame]
            exact List.map_congr_left (fun p _ => sameReads_continuation hsame p)
          · rw [List.map_cons, p9, List.filter_cons]
            simp only [hs, Bool.not_false, if_true]
            congr 1
            exact List.filter_congr (fun p _ => by rw [sameReads_started hsame])
          · rw [p10]; simp

theorem deferredOf_eq_nil_of_not_block {bbm : BuilderBlocks} {id : Int}
    (h : findBB bbm id = none) : deferredOf bbm id = [] := by
  unfold deferredOf GetImpl
  rw [h]

/-- The callback `VisitPhi`: the new phi is bound to the id, gets one
`addIncoming` call per started predecessor and one deferred record per
predecessor that is not started, and the block is queued exactly when there
is such a record. -/
theorem VisitPhi_spec {b b' : LLVMTFBuilder} {id cur : Int} {rep : MachineRepresentation}
    {operands : List Int} {bb : BasicBlock LLVMTFBuilderBasicBlockImpl}
    (hcur : b.current_bb_ = some cur) (hbb : findBB b.basic_block_manager_ cur = some bb)
    (h : b.VisitPhi id rep operands = some b') :
    ∃ phi X R, valueIn b'.basic_block_manager_ cur id = some phi ∧
      b'.output_.incoming = b.output_.incoming ++ X ∧
      deferredOf b'.basic_block_manager_ cur = deferredOf b.basic_block_manager_ cur ++ R ∧
      (∀ e ∈ X, e.phi = phi) ∧ (∀ r ∈ R, r.phi = phi) ∧
      X.map (fun e => some e.block) =
        (startedPredecessors b.basic_block_manager_ bb.predecessors).map
          (GetNativeBBContinuation b.basic_block_manager_) ∧
      R.map (fun r => r.pred) =
        bb.predecessors.filter (fun p => !IsBBStartedToBuild b.basic_block_manager_ p) ∧
      b'.phi_rebuild_worklist_ = b.phi_rebuild_worklist_ ++ (if R.isEmpty then [] else [cur]) := by
  obtain ⟨o, bbm, c, w, m, n, u⟩ := b
  simp only at hcur hbb
  subst hcur
  unfold LLVMTFBuilder.VisitPhi at h
  cases ht : getMachineRepresentationType rep with
  | none => simp [ht] at h
  | some phi_type =>
    simp only [ht, hbb, Output.buildPhi, Output.emit] at h
    cases hl : visitPhiOperands (LValue.inst o.nextValue phi_type) phi_type cur
        bb.predecessors operands false
        { output_ := (o.buildPhi phi_type).1, basic_block_manager_ := bbm,
          current_bb_ := some cur, phi_rebuild_worklist_ := w, stack_map_info_map_ := m,
          state_point_id_next_ := n, code_uses_map_ := u } with
    | none =>
      simp only [Output.buildPhi, Output.emit] at hl
      simp [hl] at h
    | some res =>
      obtain ⟨b1, flag⟩ := res
      obtain ⟨p1, p2, -, X, R, p4, p5, p6, p7, p8, p9, p10⟩ :=
        visitPhiOperands_spec _ _ _ _ _ _ _ _ _ hl
      simp only [Output.buildPhi, Output.emit] at hl
      simp only [hl] at h
      obtain ⟨e, hsome⟩ := set_value_some h
      refine ⟨LValue.inst o.nextValue phi_type, X, R, ?_, ?_, ?_, p6, p7, p8, p9, ?_⟩
      · rw [e]
        show valueIn (updateImpl _ _ _) cur id = _
        rw [valueIn_updateImpl_set_value _ _ _ _ _ _ hsome]
        simp
      · rw [e]
        cases flag <;> exact p4
      · rw [e]
        show deferredOf (updateImpl _ _ _) cur = _
        rw [deferredOf_set_value]
        cases flag <;> exact p5
      · rw [e]
        cases flag
        · have : R.isEmpty = true := by simpa using p10
          simp only [this, if_true, List.append_nil]
          exact p2
        · have : R.isEmpty = false := by simpa using p10
          simp only [this, Bool.false_eq_true, if_false]
          show b1.phi_rebuild_worklist_ ++ [cur] = _
          rw [p2]

/-! ## The claims on the phi fixup -/

/-- C11, counterexample. In the loop of `phiLoopBuilt` the header, block 1,
holds the phi `inst 3` for value 9 with the deferred record of its back-edge
predecessor 2 for value 8, and is queued twice. Before the fixup the phi has
the entry of block 0 only; after it the entry for block 2 carries `inst 6`,
the result of a cast inserted in block 2, while the final binding of value 8
in block 2 is the pointer-sized integer `inst 1`. -/
theorem C11_counterexample :
    ∃ b b', phiLoopBuilt = some b ∧ b.ProcessPhiWorkList = some b' ∧
      b.phi_rebuild_worklist_ = [1, 1] ∧
      deferredOf b.basic_block_manager_ 1 =
        [{ pred := 2, value := 8, phi := LValue.inst 3 LType.taggedType }] ∧
      b.output_.incomingOf (LValue.inst 3 LType.taggedType) =
        [(LValue.inst 0 LType.taggedType, 0)] ∧
      valueIn b'.basic_block_manager_ 2 8 = some (LValue.inst 1 LType.intPtr) ∧
      GetNativeBBContinuation b'.basic_block_manager_ 2 = some 2 ∧
      b'.output_.incomingOf (LValue.inst 3 LType.taggedType) =
        [(LValue.inst 0 LType.taggedType, 0), (LValue.inst 6 LType.taggedType, 2)] :=
  ⟨_, _, rfl, rfl, rfl, rfl, rfl, rfl, rfl, rfl⟩

/-- C12. `EnsurePhiInput(pred, index, type)` on a predecessor that binds
`index` to `val`: when the type of `val` is the requested type it returns
`val` and emits nothing; when the pair (type of `val`, requested type) is
pointer-sized integer to tagged, any pointer to pointer-sized integer, or
1-bit integer to pointer-sized integer, it returns the result of one cast
(`IntToPtr`, `PtrToInt`, `ZExt`) of `val` to the requested type, emitted
before the terminator of the predecessor's continuation block; for every
other pair it traps and returns nothing. -/
theorem C12_EnsurePhiInput_coerces (b : LLVMTFBuilder) (pred index : Int) (type : LType)
    (val : LValue) (hval : valueIn b.basic_block_manager_ pred index = some val) :
    (typeOf val = type → b.EnsurePhiInput pred index type = some (b, val)) ∧
    (typeOf val ≠ type →
      ∀ continuation terminator,
        GetNativeBBContinuation b.basic_block_manager_ pred = some continuation →
        b.output_.getBasicBlockTerminator continuation = some terminator →
        ∀ op, (typeOf val = LType.intPtr ∧ type = LType.taggedType ∧ op = CastOp.IntToPtr) ∨
            ((typeOf val).isPointerKind = true ∧ type = LType.intPtr ∧ op = CastOp.PtrToInt) ∨
            (typeOf val = LType.int1 ∧ type = LType.intPtr ∧ op = CastOp.ZExt) →
          b.EnsurePhiInput pred index type =
            some ({ b with output_ :=
                      ((b.output_.positionBefore terminator).buildCast op val type).1 },
                  LValue.inst b.output_.nextValue type)) ∧
    (typeOf val ≠ type →
      ¬ ((typeOf val = LType.intPtr ∧ type = LType.taggedType) ∨
         ((typeOf val).isPointerKind = true ∧ type = LType.intPtr) ∨
         (typeOf val = LType.int1 ∧ type = LType.intPtr)) →
      b.EnsurePhiInput pred index type = none) := by
  refine ⟨fun h => ?_, fun h continuation terminator hc ht op hop => ?_, fun h hn => ?_⟩
  · simp [EnsurePhiInput, hval, h]
  · rcases hop with ⟨h1, h2, h3⟩ | ⟨h1, h2, h3⟩ | ⟨h1, h2, h3⟩
    · subst h2 h3
      simp [EnsurePhiInput, hval, h, hc, ht, h1, Output.buildCast, Output.emit,
        Output.positionBefore]
    · subst h2 h3
      have hne : ¬ typeOf val = LType.intPtr := h
      simp [EnsurePhiInput, hval, hne, hc, ht, h1, Output.buildCast, Output.emit,
        Output.positionBefore]
    · subst h2 h3
      simp [EnsurePhiInput, hval, hc, ht, h1, Output.buildCast, Output.emit,
        Output.positionBefore, LType.isPointerKind]
  · simp only [not_or, not_and] at hn
    obtain ⟨n1, n2, n3⟩ := hn
    unfold EnsurePhiInput
    simp only [hval, h, if_false]
    cases hc : GetNativeBBContinuation b.basic_block_manager_ pred with
    | none => rfl
    | some continuation =>
      simp only
      by_cases e1 : typeOf val = LType.intPtr ∧ type = LType.taggedType
      · exact absurd e1.2 (n1 e1.1)
      · by_cases e2 : (typeOf val).isPointerKind = true ∧ type = LType.intPtr
        · exact absurd e2.2 (n2 e2.1)
        · by_cases e3 : typeOf val = LType.int1 ∧ type = LType.intPtr
          · exact absurd e3.2 (n3 e3.1)
          · simp only [e1, e2, e3, if_false]

/-- C12, witness: in the loop of `phiLoopBuilt` block 2 binds value 8 to the
pointer-sized integer `inst 1`; a request for that type returns the binding,
a request for the tagged type returns the cast `inst 6` emitted before the
terminator `inst 5` of block 2, and a request for a 32-bit integer traps. -/
theorem C12_EnsurePhiInput_coerces_witness :
    ∃ b, phiLoopBuilt = some b ∧
      valueIn b.basic_block_manager_ 2 8 = some (LValue.inst 1 LType.intPtr) ∧
      b.EnsurePhiInput 2 8 LType.intPtr = some (b, LValue.inst 1 LType.intPtr) ∧
      b.EnsurePhiInput 2 8 LType.taggedType =
        some ({ b with output_ :=
                  ((b.output_.positionBefore (LValue.inst 5 (LType.other 0))).buildCast
                    CastOp.IntToPtr (LValue.inst 1 LType.intPtr) LType.taggedType).1 },
              LValue.inst 6 LType.taggedType) ∧
      b.EnsurePhiInput 2 8 LType.int32 = none := by
  have h1 : ∃ b, phiLoopBuilt = some b := ⟨_, rfl⟩
  obtain ⟨b, hb⟩ := h1
  have hfacts : phiLoopBuilt.map (fun s => (valueIn s.basic_block_manager_ 2 8,
      GetNativeBBContinuation s.basic_block_manager_ 2,
      s.output_.getBasicBlockTerminator 2, s.output_.nextValue)) =
      some (some (LValue.inst 1 LType.intPtr), some 2, some (LValue.inst 5 (LType.other 0)), 6) :=
    rfl
  rw [hb] at hfacts
  simp only [Option.map_some', Option.some.injEq, Prod.mk.injEq] at hfacts
  obtain ⟨hv, hc, ht, hn⟩ := hfacts
  have key := C12_EnsurePhiInput_coerces b 2 8
  refine ⟨b, hb, hv, (key LType.intPtr _ hv).1 rfl, ?_,
    (key LType.int32 _ hv).2.2 (by decide) (by decide)⟩
  have := (key LType.taggedType _ hv).2.1 (by decide) 2 _ hc ht CastOp.IntToPtr
    (Or.inl ⟨rfl, rfl, rfl⟩)
  rw [hn] at this
  exact this

open CallOperandResolver

/-! ## The call lowering: register assignment -/

theorem firstFree_eq_head (set : List Bool) (count : Nat) :
    ∀ i, firstFree set count i = (freeFrom set count i).head? := by
  induction count with
  | zero => intro i; rfl
  | succ n ih =>
    intro i
    simp only [firstFree, freeFrom]
    split_ifs
    · exact ih (i + 1)
    · rfl

theorem freeFrom_ge (set : List Bool) (count : Nat) :
    ∀ i, ∀ f ∈ freeFrom set count i, i ≤ f ∧ f < i + count ∧ set.getD f false = false := by
  induction count with
  | zero => intro i f hf; cases hf
  | succ n ih =>
    intro i f hf
    simp only [freeFrom] at hf
    split_ifs at hf with hs
    · obtain ⟨h1, h2, h3⟩ := ih (i + 1) f hf
      exact ⟨by omega, by omega, h3⟩
    · rcases List.mem_cons.mp hf with rfl | hf
      · exact ⟨le_refl _, by omega, by simpa using hs⟩
      · obtain ⟨h1, h2, h3⟩ := ih (i + 1) f hf
        exact ⟨by omega, by omega, h3⟩

theorem freeFrom_congr {set set' : List Bool} (count : Nat) :
    ∀ i, (∀ j, i ≤ j → set'.getD j false = set.getD j false) →
      freeFrom set' count i = freeFrom set count i := by
  induction count with
  | zero => intro i _; rfl
  | succ n ih =>
    intro i h
    simp only [freeFrom, h i (le_refl _)]
    rw [ih (i + 1) (fun j hj => h j (by omega))]

/-- After the first free register is taken, the free registers are the
rest of the list. -/
theorem freeFrom_tail (set : List Bool) (count : Nat) :
    ∀ i f F, freeFrom set count i = f :: F →
      freeFrom (set.set f true) (count + i - (f + 1)) (f + 1) = F := by
  induction count with
  | zero => intro i f F h; cases h
  | succ n ih =>
    intro i f F h
    simp only [freeFrom] at h
    split_ifs at h with hs
    · have := ih (i + 1) f F h
      have e : n + 1 + i - (f + 1) = n + (i + 1) - (f + 1) := by omega
      rw [e]
      exact this
    · simp only [List.cons.injEq] at h
      obtain ⟨rfl, rfl⟩ := h
      have e : n + 1 + i - (i + 1) = n := by omega
      rw [e]
      exact freeFrom_congr n (i + 1) (fun j hj => by
        rw [List.getD_eq_getElem?_getD, List.getD_eq_getElem?_getD,
          List.getElem?_set_ne (by omega)])

theorem queueLocations_nil_succ (n : Nat) :
    queueLocations [] (n + 1) = -1 :: queueLocations [] n := by
  simp [queueLocations, List.replicate_succ]

theorem queueLocations_cons_succ (f : Nat) (F : List Nat) (n : Nat) :
    queueLocations (f :: F) (n + 1) = (f : Int) :: queueLocations F n := by
  simp [queueLocations]

theorem queueLocations_zero (F : List Nat) : queueLocations F 0 = [] := by
  simp [queueLocations]

/-- One value served by `FindNextReg` and `SetOperandValue`. -/
theorem place_spec (r : CallOperandResolver) (v : LValue) :
    (r.FindNextReg.1.SetOperandValue r.FindNextReg.2 v).current_bb_ = r.current_bb_ ∧
      (r.FindNextReg.1.SetOperandValue r.FindNextReg.2 v).target_ = r.target_ ∧
      (r.FindNextReg.1.SetOperandValue r.FindNextReg.2 v).locations_ = r.locations_ ∧
      (r.FindNextReg.1.SetOperandValue r.FindNextReg.2 v).operand_values_ =
        assignQueue r.free [v] r.operand_values_ ∧
      [r.FindNextReg.2] = queueLocations r.free 1 ∧
      (r.FindNextReg.1.SetOperandValue r.FindNextReg.2 v).free = r.free.tail := by
  by_cases hn : r.next_reg_ < 0
  · have hfree : r.free = [] := by simp [CallOperandResolver.free, hn]
    have hfind : r.FindNextReg = (r, -1) := by simp [CallOperandResolver.FindNextReg, hn]
    rw [hfind, hfree]
    refine ⟨rfl, rfl, rfl, rfl, rfl, ?_⟩
    simp [SetOperandValue, CallOperandResolver.free, hn]
  · cases hF : freeFrom r.allocatable_register_set_
        (kV8CCRegisterParameterCount - r.next_reg_.toNat) r.next_reg_.toNat with
    | nil =>
      have hfree : r.free = [] := by simp [CallOperandResolver.free, hn, hF]
      have hfind : r.FindNextReg = ({ r with next_reg_ := -1 }, -1) := by
        simp [CallOperandResolver.FindNextReg, hn, firstFree_eq_head, hF]
      rw [hfind, hfree]
      refine ⟨rfl, rfl, rfl, rfl, rfl, ?_⟩
      simp [SetOperandValue, CallOperandResolver.free]
    | cons f F =>
      have hfree : r.free = f :: F := by simp [CallOperandResolver.free, hn, hF]
      have hfind : r.FindNextReg = ({ r with next_reg_ := (f : Int) + 1 }, (f : Int)) := by
        simp [CallOperandResolver.FindNextReg, hn, firstFree_eq_head, hF]
      have hlt : r.next_reg_.toNat < kV8CCRegisterParameterCount := by
        by_contra hge
        have : kV8CCRegisterParameterCount - r.next_reg_.toNat = 0 := by omega
        rw [this] at hF
        cases hF
      have hmem := freeFrom_ge _ _ _ f (hF ▸ List.mem_cons_self f F)
      have htail := freeFrom_tail _ _ _ f F hF
      have e : kV8CCRegisterParameterCount - r.next_reg_.toNat + r.next_reg_.toNat - (f + 1)
          = kV8CCRegisterParameterCount - (f + 1) := by omega
      rw [e] at htail
      have hf0 : (0 : Int) ≤ (f : Int) := Int.ofNat_nonneg f
      have hf1 : ¬ ((f : Int) + 1 < 0) := by omega
      have e2 : ((f : Int) + 1).toNat = f + 1 := by omega
      rw [hfind, hfree]
      refine ⟨?_, ?_, ?_, ?_, ?_, ?_⟩
      · simp [SetOperandValue, hf0]
      · simp [SetOperandValue, hf0]
      · simp [SetOperandValue, hf0]
      · simp [SetOperandValue, hf0, assignQueue]
      · rw [queueLocations_cons_succ, queueLocations_zero]
      · simp only [SetOperandValue, hf0, if_true, CallOperandResolver.free, hf1, if_false, e2,
          Int.toNat_ofNat, List.tail_cons]
        exact htail

theorem assignQueue_cons (F : List Nat) (q : LValue) (Q vs : List LValue) :
    assignQueue F (q :: Q) vs = assignQueue F.tail Q (assignQueue F [q] vs) := by
  cases F <;> simp [assignQueue]

theorem queueLocations_succ (F : List Nat) (n : Nat) :
    queueLocations F (n + 1) = queueLocations F 1 ++ queueLocations F.tail n := by
  cases F with
  | nil =>
    rw [queueLocations_nil_succ, queueLocations_nil_succ, queueLocations_zero]
    rfl
  | cons f F =>
    rw [queueLocations_cons_succ, queueLocations_cons_succ, queueLocations_zero]
    rfl

/-- The loop over the stack operands serves their values from the free
registers. -/
theorem placeStackOperands_spec (bbm : BuilderBlocks) (stack : List Int) :
    ∀ (r r' : CallOperandResolver), placeStackOperands bbm stack r = some r' →
      ∃ Q : List LValue, stack.map (valueIn bbm r.current_bb_) = Q.map some ∧
        r'.operand_values_ = assignQueue r.free Q r.operand_values_ ∧
        r'.locations_ = r.locations_ ++ queueLocations r.free Q.length := by
  induction stack with
  | nil =>
    intro r r' h
    simp only [placeStackOperands, Option.some.injEq] at h
    subst h
    exact ⟨[], rfl, by cases r.free <;> rfl, by rw [List.length_nil, queueLocations_zero,
      List.append_nil]⟩
  | cons operand rest ih =>
    intro r r' h
    simp only [placeStackOperands] at h
    cases hv : valueIn bbm r.current_bb_ operand with
    | none => simp [hv] at h
    | some v =>
      simp only [hv] at h
      obtain ⟨p1, -, p3, p4, p5, p6⟩ := place_spec r v
      obtain ⟨Q, q1, q2, q3⟩ := ih _ r' h
      have q1' : List.map (valueIn bbm r.current_bb_) rest = List.map some Q := by
        rw [← p1]; exact q1
      have q2' : r'.operand_values_ =
          assignQueue r.free.tail Q (assignQueue r.free [v] r.operand_values_) := by
        rw [← p6, ← p4]; exact q2
      have q3' : r'.locations_ =
          (r.locations_ ++ queueLocations r.free 1) ++ queueLocations r.free.tail Q.length := by
        rw [← p6, ← p5, ← p3]; exact q3
      refine ⟨v :: Q, ?_, ?_, ?_⟩
      · rw [List.map_cons, List.map_cons, hv, q1']
      · rw [q2']
        exact (assignQueue_cons _ _ _ _).symm
      · rw [q3', List.length_cons, List.append_assoc]
        exact congrArg _ (queueLocations_succ _ _).symm

/-! ### The operand list after a queue was served -/

theorem assignQueue_nil_free (Q vs : List LValue) : assignQueue [] Q vs = vs ++ Q := by
  induction Q generalizing vs with
  | nil => simp [assignQueue]
  | cons q Q ih => simp [assignQueue, ih]

theorem assignQueue_untouched (F : List Nat) :
    ∀ (Q vs : List LValue) (i : Nat), i < vs.length → i ∉ F →
      (assignQueue F Q vs)[i]? = vs[i]? := by
  induction F with
  | nil =>
    intro Q vs i hi _
    rw [assignQueue_nil_free, List.getElem?_append_left hi]
  | cons f F ih =>
    intro Q vs i hi hF
    cases Q with
    | nil => rfl
    | cons q Q =>
      simp only [assignQueue]
      rw [List.mem_cons, not_or] at hF
      rw [ih Q _ i (by rw [List.length_set]; exact hi) hF.2,
        List.getElem?_set_ne (fun e => hF.1 e.symm)]

theorem assignQueue_served (F : List Nat) :
    ∀ (Q vs : List LValue), F.Pairwise (· < ·) → (∀ f ∈ F, f < vs.length) →
      ∀ (k f : Nat) (q : LValue), F[k]? = some f → Q[k]? = some q →
        (assignQueue F Q vs)[f]? = some q := by
  induction F with
  | nil => intro Q vs _ _ k f q hk; simp at hk
  | cons f0 F ih =>
    intro Q vs hp hlt k f q hk hq
    cases Q with
    | nil => simp at hq
    | cons q0 Q =>
      simp only [assignQueue]
      rw [List.pairwise_cons] at hp
      cases k with
      | zero =>
        simp only [List.getElem?_cons_zero, Option.some.injEq] at hk hq
        subst hk hq
        have hnot : f0 ∉ F := fun hm => lt_irrefl _ (hp.1 f0 hm)
        have hl := hlt f0 (List.mem_cons_self _ _)
        rw [assignQueue_untouched F Q _ f0 (by rw [List.length_set]; exact hl) hnot,
          List.getElem?_set_self hl]
      | succ k =>
        simp only [List.getElem?_cons_succ] at hk hq
        exact ih Q _ hp.2 (fun g hg => by
          rw [List.length_set]; exact hlt g (List.mem_cons_of_mem _ hg)) k f q hk hq

theorem assignQueue_overflow (F : List Nat) :
    ∀ (Q vs : List LValue), (∀ f ∈ F, f < vs.length) →
      (assignQueue F Q vs).drop vs.length = Q.drop F.length := by
  induction F with
  | nil =>
    intro Q vs _
    rw [assignQueue_nil_free, List.drop_left, List.length_nil, List.drop_zero]
  | cons f F ih =>
    intro Q vs hlt
    cases Q with
    | nil => simp [assignQueue]
    | cons q Q =>
      simp only [assignQueue, List.length_cons, List.drop_succ_cons]
      have := ih Q (vs.set f q) (fun g hg => by
        rw [List.length_set]; exact hlt g (List.mem_cons_of_mem _ hg))
      rw [List.length_set] at this
      exact this

theorem SetOperandValue_fixed (r : CallOperandResolver) (reg : Int) (v : LValue)
    (h0 : 0 ≤ reg) :
    (r.SetOperandValue reg v).operand_values_ = r.operand_values_.set reg.toNat v ∧
      (r.SetOperandValue reg v).allocatable_register_set_ =
        r.allocatable_register_set_.set reg.toNat true ∧
      (r.SetOperandValue reg v).next_reg_ = r.next_reg_ ∧
      (r.SetOperandValue reg v).locations_ = r.locations_ ∧
      (r.SetOperandValue reg v).current_bb_ = r.current_bb_ ∧
      (r.SetOperandValue reg v).target_ = r.target_ := by
  simp [SetOperandValue, h0]

theorem getD_set_true (set : List Bool) (i j : Nat) (hi : i < set.length) :
    (set.set i true).getD j false = (set.getD j false || decide (j = i)) := by
  rw [List.getD_eq_getElem?_getD, List.getD_eq_getElem?_getD]
  by_cases h : j = i
  · subst h
    rw [List.getElem?_set_self hi]
    simp
  · rw [List.getElem?_set_ne (fun e => h e.symm)]
    simp [h]

/-- The first loop of `Resolve`: the operands with a fixed register are in
their slots, their registers are taken, the others are collected. -/
theorem setupRegisterOperands_spec (bbm : BuilderBlocks) (regs : List Int) :
    ∀ (operands stack : List Int) (r r1 : CallOperandResolver) (stack' : List Int),
      r.allocatable_register_set_.length = kV8CCRegisterParameterCount →
      kV8CCRegisterParameterCount ≤ r.operand_values_.length →
      setupRegisterOperands bbm regs operands stack r = some (r1, stack') →
      stack' = stack ++ stackOperands regs operands ∧
      r1.next_reg_ = r.next_reg_ ∧ r1.locations_ = r.locations_ ∧
      r1.current_bb_ = r.current_bb_ ∧ r1.target_ = r.target_ ∧
      r1.operand_values_.length = r.operand_values_.length ∧
      r1.allocatable_register_set_.length = kV8CCRegisterParameterCount ∧
      (∀ reg ∈ regs, reg < kV8CCRegisterParameterCount) ∧
      (∀ j : Nat, r1.allocatable_register_set_.getD j false =
        (r.allocatable_register_set_.getD j false || decide ((j : Int) ∈ regs))) ∧
      (∀ j : Nat, (j : Int) ∉ regs → r1.operand_values_[j]? = r.operand_values_[j]?) ∧
      (∀ (i : Nat) (reg : Int), regs[i]? = some reg → 0 ≤ reg →
        (∀ j, i < j → regs[j]? ≠ some reg) →
        ∃ operand val, operands[i]? = some operand ∧
          valueIn bbm r.current_bb_ operand = some val ∧
          r1.operand_values_[reg.toNat]? = some val) := by
  induction regs with
  | nil =>
    intro operands stack r r1 stack' _ _ h
    simp only [setupRegisterOperands, Option.some.injEq, Prod.mk.injEq] at h
    obtain ⟨rfl, rfl⟩ := h
    refine ⟨by cases operands <;> simp [stackOperands], rfl, rfl, rfl, rfl, rfl, ‹_›,
      fun _ hr => (by cases hr), fun j => by simp, fun _ _ => rfl, fun i reg hi => by simp at hi⟩
  | cons reg regs ih =>
    intro operands stack r r1 stack' hset hlen h
    cases operands with
    | nil => simp [setupRegisterOperands] at h
    | cons operand operands =>
      simp only [setupRegisterOperands] at h
      by_cases hbig : (kV8CCRegisterParameterCount : Int) ≤ reg
      · simp [hbig] at h
      · simp only [hbig, if_false] at h
        have hreglt : reg < kV8CCRegisterParameterCount := by omega
        by_cases hneg : reg < 0
        · simp only [hneg, if_true] at h
          obtain ⟨q1, q2, q3, q4, q5, q6, q7, q8, q9, q10, q11⟩ :=
            ih operands _ r r1 stack' hset hlen h
          refine ⟨?_, q2, q3, q4, q5, q6, q7, ?_, ?_, ?_, ?_⟩
          · rw [q1, List.append_assoc]
            simp [stackOperands, hneg]
          · intro g hg
            rcases List.mem_cons.mp hg with e | hg
            · rw [e]; exact hreglt
            · exact q8 g hg
          · intro j
            rw [q9 j]
            have : (j : Int) ≠ reg := by omega
            simp [this]
          · intro j hj
            rw [List.mem_cons, not_or] at hj
            exact q10 j hj.2
          · intro i g hi hg hlast
            cases i with
            | zero =>
              simp only [List.getElem?_cons_zero, Option.some.injEq] at hi
              omega
            | succ i =>
              simp only [List.getElem?_cons_succ] at hi ⊢
              exact q11 i g hi hg (fun j hj => by
                have := hlast (j + 1) (by omega)
                simpa using this)
        · simp only [hneg, if_false] at h
          have h0 : 0 ≤ reg := by omega
          cases hv : valueIn bbm r.current_bb_ operand with
          | none => simp [hv] at h
          | some val =>
            simp only [hv] at h
            obtain ⟨s1, s2, s3, s4, s5, s6⟩ := SetOperandValue_fixed r reg val h0
            have hidx : reg.toNat < kV8CCRegisterParameterCount := by omega
            obtain ⟨q1, q2, q3, q4, q5, q6, q7, q8, q9, q10, q11⟩ :=
              ih operands stack (r.SetOperandValue reg val) r1 stack'
                (by rw [s2, List.length_set]; exact hset)
                (by rw [s1, List.length_set]; exact hlen) h
            rw [s1, List.length_set] at q6
            refine ⟨?_, by rw [q2, s3], by rw [q3, s4], by rw [q4, s5], by rw [q5, s6], q6, q7,
              ?_, ?_, ?_, ?_⟩
            · rw [q1]
              simp [stackOperands, hneg]
            · intro g hg
              rcases List.mem_cons.mp hg with e | hg
              · rw [e]; exact hreglt
              · exact q8 g hg
            · intro j
              rw [q9 j, s2, getD_set_true _ _ _ (by rw [hset]; exact hidx)]
              have e : (j = reg.toNat) ↔ ((j : Int) = reg) := by omega
              cases r.allocatable_register_set_.getD j false <;>
                by_cases hm : (j : Int) ∈ regs <;> by_cases he : (j : Int) = reg <;>
                simp [hm, he, e]
            · intro j hj
              rw [List.mem_cons, not_or] at hj
              rw [q10 j hj.2, s1, List.getElem?_set_ne (by omega)]
            · intro i g hi hg hlast
              cases i with
              | zero =>
                simp only [List.getElem?_cons_zero, Option.some.injEq] at hi
                subst hi
                refine ⟨operand, val, by simp, hv, ?_⟩
                have hnot : ((reg.toNat : Nat) : Int) ∉ regs := by
                  rw [Int.toNat_of_nonneg h0]
                  intro hm
                  obtain ⟨j, hj, hje⟩ := List.getElem_of_mem hm
                  have := hlast (j + 1) (by omega)
                  simp only [List.getElem?_cons_succ] at this
                  exact this (by rw [List.getElem?_eq_getElem hj, hje])
                rw [q10 _ hnot, s1, List.getElem?_set_self (by omega)]
              | succ i =>
                simp only [List.getElem?_cons_succ] at hi ⊢
                obtain ⟨o, v, e1, e2, e3⟩ := q11 i g hi hg (fun j hj => by
                  have := hlast (j + 1) (by omega)
                  simpa using this)
                exact ⟨o, v, e1, by rw [← s5]; exact e2, e3⟩

theorem freeFrom_eq_filter (set : List Bool) (count : Nat) :
    ∀ i, freeFrom set count i = (List.range' i count).filter (fun j => !set.getD j false) := by
  induction count with
  | zero => intro i; rfl
  | succ n ih =>
    intro i
    rw [freeFrom, List.range'_succ, List.filter_cons, ih (i + 1)]
    cases set.getD i false <;> simp

theorem freeRegisters_lt (regs : List Int) :
    ∀ f ∈ freeRegisters regs, f < kV8CCRegisterParameterCount ∧ (f : Int) ∉ regs ∧
      f ≠ kRootReg ∧ f ≠ kFPReg := by
  intro f hf
  unfold freeRegisters at hf
  rw [List.mem_filter, List.mem_range] at hf
  simp only [Bool.and_eq_true, decide_eq_true_eq] at hf
  exact ⟨hf.1, hf.2.1.1, hf.2.1.2, hf.2.2⟩

theorem freeRegisters_sorted (regs : List Int) : (freeRegisters regs).Pairwise (· < ·) :=
  List.Pairwise.sublist (List.filter_sublist _) (List.pairwise_lt_range _)

theorem assignQueue_append (F : List Nat) :
    ∀ (Q1 Q2 vs : List LValue),
      assignQueue F (Q1 ++ Q2) vs = assignQueue (F.drop Q1.length) Q2 (assignQueue F Q1 vs) := by
  intro Q1
  induction Q1 generalizing F with
  | nil => intro Q2 vs; cases F <;> simp [assignQueue]
  | cons q Q1 ih =>
    intro Q2 vs
    cases F with
    | nil =>
      simp only [List.cons_append, assignQueue, List.drop_nil]
      have := ih [] Q2 (vs ++ [q])
      simpa using this
    | cons f F =>
      simp only [List.cons_append, assignQueue, List.length_cons, List.drop_succ_cons]
      exact ih F Q2 _

theorem queueLocations_add (F : List Nat) (m n : Nat) :
    queueLocations F (m + n) = queueLocations F m ++ queueLocations (F.drop m) n := by
  induction m generalizing F with
  | zero => simp [queueLocations_zero]
  | succ m ih =>
    have e : m + 1 + n = (m + n) + 1 := by omega
    rw [e, queueLocations_succ, queueLocations_succ F m, ih F.tail, List.append_assoc]
    congr 2
    cases F <;> simp

/-- The artifact operands and the target: root and frame pointer are put in
their slots, then the target is served from the free registers. -/
theorem setupArtifacts_spec (output : Output) (regs : List Int) (r1 : CallOperandResolver)
    (hset : r1.allocatable_register_set_.length = kV8CCRegisterParameterCount)
    (hbits : ∀ j : Nat, r1.allocatable_register_set_.getD j false = decide ((j : Int) ∈ regs))
    (hnext : r1.next_reg_ = 0) :
    (setupArtifacts output r1).current_bb_ = r1.current_bb_ ∧
      (setupArtifacts output r1).operand_values_ =
        assignQueue (freeRegisters regs) (if r1.target_.isUndef then [] else [r1.target_])
          ((r1.operand_values_.set kRootReg output.root_).set kFPReg output.fp_) ∧
      (setupArtifacts output r1).locations_ = r1.locations_ ++
        (if r1.target_.isUndef then [-1] else queueLocations (freeRegisters regs) 1) ∧
      (setupArtifacts output r1).free =
        (freeRegisters regs).drop (if r1.target_.isUndef then [] else [r1.target_]).length := by
  obtain ⟨a1, a2, a3, a4, a5, a6⟩ := SetOperandValue_fixed r1 kRootReg output.root_ (by decide)
  obtain ⟨b1, b2, b3, b4, b5, b6⟩ := SetOperandValue_fixed
    (r1.SetOperandValue kRootReg output.root_) kFPReg output.fp_ (by decide)
  have e10 : (kRootReg : Int).toNat = kRootReg := rfl
  have e11 : (kFPReg : Int).toNat = kFPReg := rfl
  rw [a1, e10, e11] at b1
  rw [a2, e10, e11] at b2
  rw [a3, hnext] at b3
  rw [a4] at b4
  rw [a5] at b5
  rw [a6] at b6
  have hfree : ((r1.SetOperandValue kRootReg output.root_).SetOperandValue kFPReg
      output.fp_).free = freeRegisters regs := by
    unfold CallOperandResolver.free
    rw [b3, b2]
    simp only [lt_irrefl, if_false, Int.toNat_zero, Nat.sub_zero]
    rw [freeFrom_eq_filter]
    unfold freeRegisters
    rw [List.range_eq_range']
    refine List.filter_congr (fun j hj => ?_)
    have hj12 : j < kV8CCRegisterParameterCount := by
      rw [List.mem_range'_1] at hj
      omega
    rw [getD_set_true _ _ _ (by rw [List.length_set, hset]; decide),
      getD_set_true _ _ _ (by rw [hset]; decide), hbits j]
    by_cases hm : (j : Int) ∈ regs <;> by_cases h10 : j = kRootReg <;>
      by_cases h11 : j = kFPReg <;> simp [hm, h10, h11]
  have htarget : ((r1.SetOperandValue kRootReg output.root_).SetOperandValue kFPReg
      output.fp_).FindNextReg.1.target_ = r1.target_ := by
    rw [← b6]
    unfold CallOperandResolver.FindNextReg
    split_ifs
    · rfl
    · split <;> rfl
  unfold setupArtifacts
  simp only [b6, htarget]
  by_cases hu : r1.target_.isUndef = true
  · simp only [hu, if_true, List.length_nil, List.drop_zero]
    refine ⟨b5, ?_, by rw [b4], ?_⟩
    · rw [b1]
      cases freeRegisters regs <;> rfl
    · exact hfree
  · simp only [hu, Bool.false_eq_true, if_false, List.length_singleton]
    obtain ⟨p1, -, p3, p4, p5, p6⟩ := place_spec
      ((r1.SetOperandValue kRootReg output.root_).SetOperandValue kFPReg output.fp_) r1.target_
    rw [hfree] at p4 p5 p6
    refine ⟨by rw [← b5]; exact p1, ?_, ?_, ?_⟩
    · rw [← b1]; exact p4
    · rw [← p5, ← b4, ← p3]
    · rw [List.drop_one]; exact p6

/-- Method `Resolve` on a new resolver: the operand list is the list of the
fixed slots, root and frame pointer included, after the queue of the target
and the stack operands was served from the free registers. -/
theorem Resolve_spec {bbm : BuilderBlocks} {output : Output} {cur : Int} {target : LValue}
    {operands regs : List Int} {r' : CallOperandResolver}
    (h : (CallOperandResolver.new cur target).Resolve bbm output operands regs = some r') :
    ∃ (fixedValues stackValues : List LValue),
      fixedValues.length = kV8CCRegisterParameterCount ∧
      fixedValues[kRootReg]? = some output.root_ ∧ fixedValues[kFPReg]? = some output.fp_ ∧
      (∀ (i : Nat) (reg : Int), regs[i]? = some reg → 0 ≤ reg → reg ≠ kRootReg → reg ≠ kFPReg →
        (∀ j, i < j → regs[j]? ≠ some reg) →
        ∃ operand val, operands[i]? = some operand ∧ valueIn bbm cur operand = some val ∧
          fixedValues[reg.toNat]? = some val) ∧
      (∀ reg ∈ regs, reg < kV8CCRegisterParameterCount) ∧
      (stackOperands regs operands).map (valueIn bbm cur) = stackValues.map some ∧
      r'.operand_values_ = assignQueue (freeRegisters regs)
        ((if target.isUndef then [] else [target]) ++ stackValues) fixedValues ∧
      r'.locations_ = (if target.isUndef then [-1] else []) ++
        queueLocations (freeRegisters regs)
          ((if target.isUndef then [] else [target]) ++ stackValues).length := by
  unfold CallOperandResolver.Resolve at h
  cases hs : setupRegisterOperands bbm regs operands [] (CallOperandResolver.new cur target) with
  | none => simp [hs] at h
  | some res =>
    obtain ⟨r1, stack⟩ := res
    simp only [hs] at h
    obtain ⟨q1, q2, q3, q4, q5, q6, q7, q8, q9, q10, q11⟩ :=
      setupRegisterOperands_spec bbm regs operands [] _ r1 stack
        (by simp [CallOperandResolver.new]) (by simp [CallOperandResolver.new]) hs
    have hcur : r1.current_bb_ = cur := q4
    have htar : r1.target_ = target := q5
    have hlen : r1.operand_values_.length = kV8CCRegisterParameterCount := by
      rw [q6]; simp [CallOperandResolver.new]
    have hbits : ∀ j : Nat, r1.allocatable_register_set_.getD j false =
        decide ((j : Int) ∈ regs) := by
      intro j
      rw [q9 j]
      have : (CallOperandResolver.new cur target).allocatable_register_set_.getD j false
          = false := by
        simp only [CallOperandResolver.new, List.getD_eq_getElem?_getD,
          List.getElem?_replicate]
        split_ifs <;> rfl
      rw [this, Bool.false_or]
    obtain ⟨s1, s2, s3, s4⟩ := setupArtifacts_spec output regs r1 q7 hbits q2
    obtain ⟨Q, p1, p2, p3⟩ := placeStackOperands_spec bbm stack _ r' h
    rw [s1, hcur, q1, List.nil_append] at p1
    rw [s4, s2, htar, ← assignQueue_append] at p2
    rw [s3, s4, q3, htar] at p3
    refine ⟨(r1.operand_values_.set kRootReg output.root_).set kFPReg output.fp_, Q, ?_, ?_, ?_,
      ?_, q8, p1, p2, ?_⟩
    · rw [List.length_set, List.length_set, hlen]
    · rw [List.getElem?_set_ne (by decide), List.getElem?_set_self (by rw [hlen]; decide)]
    · rw [List.getElem?_set_self (by rw [List.length_set, hlen]; decide)]
    · intro i reg hi h0 h10 h11 hlast
      obtain ⟨operand, val, e1, e2, e3⟩ := q11 i reg hi h0 hlast
      refine ⟨operand, val, e1, e2, ?_⟩
      have n10 : kRootReg ≠ reg.toNat := by
        intro e; apply h10; rw [e]; exact (Int.toNat_of_nonneg h0).symm
      have n11 : kFPReg ≠ reg.toNat := by
        intro e; apply h11; rw [e]; exact (Int.toNat_of_nonneg h0).symm
      rw [List.getElem?_set_ne n11, List.getElem?_set_ne n10]
      exact e3
    · rw [p3]
      have hnil : (CallOperandResolver.new cur target).locations_ = [] := rfl
      rw [hnil, List.nil_append]
      by_cases hu : target.isUndef = true
      · simp [hu]
      · simp only [hu, Bool.false_eq_true, if_false, List.nil_append, List.length_singleton,
          List.singleton_append, List.length_cons]
        have e : Q.length + 1 = 1 + Q.length := by omega
        rw [e, queueLocations_add]
        rfl

theorem queueLocations_length (F : List Nat) (n : Nat) : (queueLocations F n).length = n := by
  induction n generalizing F with
  | zero => rw [queueLocations_zero]; rfl
  | succ n ih =>
    cases F with
    | nil => rw [queueLocations_nil_succ, List.length_cons, ih]
    | cons f F => rw [queueLocations_cons_succ, List.length_cons, ih]

/-! ## The claims on the call lowering -/

/-- C14. For a call of `Resolve` on a new resolver that returns: the queue
of the target (when it is not undefined) and, behind it, the values of the
operands without a fixed register, in their original order, is served from
the free registers, which are in increasing register number. The location
list has one entry for the target (-1 for an undefined target) followed by
one entry per such operand: the registers in increasing order while they
last, then -1; a value with a register sits in the slot of the register, and
the values without one are the operand list behind the 12 register slots, in
their order. -/
theorem C14_stack_operands_in_order (bbm : BuilderBlocks) (output : Output) (cur : Int)
    (target : LValue) (operands regs : List Int) (r' : CallOperandResolver)
    (h : (CallOperandResolver.new cur target).Resolve bbm output operands regs = some r') :
    ∃ stackValues : List LValue,
      (stackOperands regs operands).map (valueIn bbm cur) = stackValues.map some ∧
      (freeRegisters regs).Pairwise (· < ·) ∧
      r'.locations_ = (if target.isUndef then [-1] else []) ++
        queueLocations (freeRegisters regs)
          ((if target.isUndef then [] else [target]) ++ stackValues).length ∧
      r'.locations_.length = 1 + stackValues.length ∧
      (∀ (k f : Nat) (q : LValue), (freeRegisters regs)[k]? = some f →
        ((if target.isUndef then [] else [target]) ++ stackValues)[k]? = some q →
        r'.operand_values_[f]? = some q) ∧
      r'.operand_values_.drop kV8CCRegisterParameterCount =
        ((if target.isUndef then [] else [target]) ++ stackValues).drop
          (freeRegisters regs).length := by
  obtain ⟨fixedValues, stackValues, q1, -, -, -, -, q6, q7, q8⟩ := Resolve_spec h
  have hlt : ∀ f ∈ freeRegisters regs, f < fixedValues.length := fun f hf => by
    rw [q1]; exact (freeRegisters_lt regs f hf).1
  refine ⟨stackValues, q6, freeRegisters_sorted regs, q8, ?_, ?_, ?_⟩
  · rw [q8, List.length_append, queueLocations_length]
    by_cases hu : target.isUndef = true
    · simp [hu]
    · simp [hu, Nat.add_comm]
  · intro k f q hk hq
    rw [q7]
    exact assignQueue_served _ _ _ (freeRegisters_sorted regs) hlt k f q hk hq
  · rw [q7, ← q1]
    exact assignQueue_overflow _ _ _ hlt

/-- C14, witness: fourteen operands, the first and the last with the fixed
registers 0 and 3, the twelve between without; the target and the first
seven of them get the registers 1, 2, 4, ..., 9, the other five are behind
the 12 slots with location -1. -/
theorem C14_stack_operands_in_order_witness :
    ∃ r', (CallOperandResolver.new 0 (LValue.param 0 LType.ref8)).Resolve callBlocks callOutput
        [0, 1, 2, 3, 4, 5, 6, 7, 8, 9, 10, 11, 12, 13] overflowMapping = some r' ∧
      freeRegisters overflowMapping = [1, 2, 4, 5, 6, 7, 8, 9] ∧
      r'.locations_ = [1, 2, 4, 5, 6, 7, 8, 9, -1, -1, -1, -1, -1] ∧
      r'.operand_values_.drop 12 =
        [LValue.inst 8 LType.taggedType, LValue.inst 9 LType.taggedType,
         LValue.inst 10 LType.taggedType, LValue.inst 11 LType.taggedType,
         LValue.inst 12 LType.taggedType] := by
  have h1 : ∃ r', (CallOperandResolver.new 0 (LValue.param 0 LType.ref8)).Resolve callBlocks
      callOutput [0, 1, 2, 3, 4, 5, 6, 7, 8, 9, 10, 11, 12, 13] overflowMapping = some r' :=
    ⟨_, rfl⟩
  obtain ⟨r', hr'⟩ := h1
  obtain ⟨stackValues, q1, -, q3, -, -, q6⟩ := C14_stack_operands_in_order _ _ _ _ _ _ r' hr'
  have hfree : freeRegisters overflowMapping = [1, 2, 4, 5, 6, 7, 8, 9] := by decide
  have hstack : stackValues = [LValue.inst 1 LType.taggedType, LValue.inst 2 LType.taggedType,
      LValue.inst 3 LType.int32, LValue.inst 4 LType.taggedType, LValue.inst 5 LType.taggedType,
      LValue.inst 6 LType.taggedType, LValue.inst 7 LType.taggedType,
      LValue.inst 8 LType.taggedType, LValue.inst 9 LType.taggedType,
      LValue.inst 10 LType.taggedType, LValue.inst 11 LType.taggedType,
      LValue.inst 12 LType.taggedType] := by
    have e : (stackOperands overflowMapping [0, 1, 2, 3, 4, 5, 6, 7, 8, 9, 10, 11, 12, 13]).map
        (valueIn callBlocks 0) = List.map some [LValue.inst 1 LType.taggedType,
          LValue.inst 2 LType.taggedType, LValue.inst 3 LType.int32,
          LValue.inst 4 LType.taggedType, LValue.inst 5 LType.taggedType,
          LValue.inst 6 LType.taggedType, LValue.inst 7 LType.taggedType,
          LValue.inst 8 LType.taggedType, LValue.inst 9 LType.taggedType,
          LValue.inst 10 LType.taggedType, LValue.inst 11 LType.taggedType,
          LValue.inst 12 LType.taggedType] := by decide
    rw [e] at q1
    exact (List.map_injective_iff.mpr (Option.some_injective _) q1).symm
  subst hstack
  rw [hfree] at q3 q6
  exact ⟨r', hr', hfree, q3, q6⟩

/-- C15. After a call of `Resolve` on a new resolver that returns, whatever
the operands and the register mapping, operand slot 10 holds the root
pointer and operand slot 11 the frame pointer, and every operand that the
mapping gives a register other than 10 and 11 sits in the slot of that
register, unless a later operand is mapped to the same register. -/
theorem C15_reserved_slots (bbm : BuilderBlocks) (output : Output) (cur : Int)
    (target : LValue) (operands regs : List Int) (r' : CallOperandResolver)
    (h : (CallOperandResolver.new cur target).Resolve bbm output operands regs = some r') :
    r'.operand_values_[kRootReg]? = some output.root_ ∧
      r'.operand_values_[kFPReg]? = some output.fp_ ∧
      ∀ (i : Nat) (reg : Int), regs[i]? = some reg → 0 ≤ reg → reg ≠ kRootReg → reg ≠ kFPReg →
        (∀ j, i < j → regs[j]? ≠ some reg) →
        ∃ operand val, operands[i]? = some operand ∧ valueIn bbm cur operand = some val ∧
          r'.operand_values_[reg.toNat]? = some val := by
  obtain ⟨fixedValues, stackValues, q1, q2, q3, q4, q5, -, q7, -⟩ := Resolve_spec h
  rw [q7]
  refine ⟨?_, ?_, fun i reg hi h0 h10 h11 hlast => ?_⟩
  · rw [assignQueue_untouched _ _ _ kRootReg (by rw [q1]; decide)
      (fun hm => (freeRegisters_lt regs _ hm).2.2.1 rfl)]
    exact q2
  · rw [assignQueue_untouched _ _ _ kFPReg (by rw [q1]; decide)
      (fun hm => (freeRegisters_lt regs _ hm).2.2.2 rfl)]
    exact q3
  · obtain ⟨operand, val, e1, e2, e3⟩ := q4 i reg hi h0 h10 h11 hlast
    refine ⟨operand, val, e1, e2, ?_⟩
    have hmem : reg ∈ regs := List.getElem?_mem hi
    have hlt := q5 reg hmem
    rw [assignQueue_untouched _ _ _ reg.toNat (by rw [q1]; omega) (fun hm => by
      apply (freeRegisters_lt regs _ hm).2.1
      rw [Int.toNat_of_nonneg h0]
      exact hmem)]
    exact e3

/-- C15, witness: a mapping that names the root register for operand 4, the
frame pointer register for operand 6 and register 2 for the operands 5 and
7: slot 10 holds the root pointer, slot 11 the frame pointer and slot 2 the
value of operand 7, the later of the two. -/
theorem C15_reserved_slots_witness :
    ∃ r', (CallOperandResolver.new 0 (LValue.undef LType.intPtr)).Resolve callBlocks callOutput
        [4, 5, 6, 7] reservedMapping = some r' ∧
      r'.operand_values_[10]? = some callOutput.root_ ∧
      r'.operand_values_[11]? = some callOutput.fp_ ∧
      r'.operand_values_[2]? = some (LValue.inst 7 LType.taggedType) := by
  have h1 : ∃ r', (CallOperandResolver.new 0 (LValue.undef LType.intPtr)).Resolve callBlocks
      callOutput [4, 5, 6, 7] reservedMapping = some r' := ⟨_, rfl⟩
  obtain ⟨r', hr'⟩ := h1
  obtain ⟨q1, q2, q3⟩ := C15_reserved_slots _ _ _ _ _ _ r' hr'
  obtain ⟨operand, val, e1, e2, e3⟩ := q3 3 2 (by decide) (by decide) (by decide) (by decide)
    (fun j hj => by
      have : reservedMapping[j]? = none := by
        apply List.getElem?_eq_none
        show 4 ≤ j
        omega
      rw [this]
      exact fun e => Option.noConfusion e)
  simp only [List.getElem?_cons_succ, List.getElem?_cons_zero, Option.some.injEq] at e1
  subst e1
  have hv : valueIn callBlocks 0 7 = some (LValue.inst 7 LType.taggedType) := by decide
  rw [hv] at e2
  rw [← Option.some.inj e2] at e3
  exact ⟨r', hr', q1, q2, e3⟩


/-! ## The call lowering: values across the call -/

theorem gcOperands_eq (bbm : BuilderBlocks) (cur id : Int) (liveins : List Int) :
    ∀ T, gcOperands bbm cur id liveins = some T →
      T = taggedBindings bbm cur (liveins.filter (fun l => l ≠ id)) := by
  induction liveins with
  | nil =>
    intro T h
    simp only [gcOperands, Option.some.injEq] at h
    subst h; rfl
  | cons livein rest ih =>
    intro T h
    simp only [gcOperands] at h
    by_cases hid : livein = id
    · simp only [hid, if_true] at h
      rw [ih T h]
      simp [hid]
    · simp only [hid, if_false] at h
      cases hv : valueIn bbm cur livein with
      | none => simp [hv] at h
      | some v =>
        simp only [hv] at h
        by_cases ht : typeOf v = LType.taggedType
        · simp only [ht, ne_eq, not_true_eq_false, if_false] at h
          cases hr : gcOperands bbm cur id rest with
          | none => simp [hr] at h
          | some T' =>
            simp only [hr, Option.map_some', Option.some.injEq] at h
            subst h
            rw [ih T' hr]
            simp [taggedBindings, hid, hv, ht]
        · simp only [ne_eq, ht, not_false_eq_true, if_true] at h
          rw [ih T h]
          simp [taggedBindings, hid, hv, ht]

theorem isRelocated_mono {o o' : Output} {sp v : LValue}
    (hsub : ∀ e ∈ o.instructions, e ∈ o'.instructions) (h : IsRelocated o sp v) :
    IsRelocated o' sp v := by
  obtain ⟨e, he, h1, h2⟩ := h
  exact ⟨e, hsub e he, h1, h2⟩

/-- The loop "rebuild value" of `DoCall`: a live-in bound to a tagged value is
rebound to the result of a relocate call, the others and the values that are
not live-ins keep their binding. -/
theorem relocateLiveins_spec (cur id : Int) (sp : LValue) (liveins : List Int) :
    ∀ (gc : Nat) (b b1 : LLVMTFBuilder), relocateLiveins cur id sp liveins gc b = some b1 →
      (∀ nid, nid ∉ liveins →
        valueIn b1.basic_block_manager_ cur nid = valueIn b.basic_block_manager_ cur nid) ∧
      (∀ e ∈ b.output_.instructions, e ∈ b1.output_.instructions) ∧
      b1.current_bb_ = b.current_bb_ ∧
      (∀ live ∈ liveins, live ≠ id → ∃ v, valueIn b.basic_block_manager_ cur live = some v ∧
        (typeOf v ≠ LType.taggedType → valueIn b1.basic_block_manager_ cur live = some v) ∧
        (typeOf v = LType.taggedType → ∃ r, valueIn b1.basic_block_manager_ cur live = some r ∧
          typeOf r = LType.taggedType ∧ IsRelocated b1.output_ sp r)) := by
  induction liveins with
  | nil =>
    intro gc b b1 h
    simp only [relocateLiveins, Option.some.injEq] at h
    subst h
    exact ⟨fun _ _ => rfl, fun _ he => he, rfl, fun _ hl => (by cases hl)⟩
  | cons livein rest ih =>
    intro gc b b1 h
    simp only [relocateLiveins] at h
    by_cases hid : livein = id
    · simp only [hid, if_true] at h
      obtain ⟨q1, q2, q3, q4⟩ := ih gc b b1 h
      refine ⟨fun nid hn => q1 nid (fun hm => hn (List.mem_cons_of_mem _ hm)), q2, q3,
        fun live hl hne => ?_⟩
      rcases List.mem_cons.mp hl with e | hl
      · exact absurd (e.trans hid) hne
      · exact q4 live hl hne
    · simp only [hid, if_false] at h
      cases hv : valueIn b.basic_block_manager_ cur livein with
      | none => simp [hv] at h
      | some v =>
        simp only [hv] at h
        by_cases ht : typeOf v = LType.taggedType
        · simp only [ht, ne_eq, not_true_eq_false, if_false, Output.buildCall,
            Output.emit] at h
          cases hs : LLVMTFBuilder.set_value
              { b with output_ := (b.output_.buildCall Intrinsic.gcRelocate
                  [sp, Output.constInt32 gc, Output.constInt32 gc] LType.taggedType).1 }
              cur livein (LValue.inst b.output_.nextValue LType.taggedType) with
          | none =>
            simp only [Output.buildCall, Output.emit] at hs
            simp [hs] at h
          | some b0 =>
            simp only [Output.buildCall, Output.emit] at hs
            simp only [hs] at h
            obtain ⟨q1, q2, q3, q4⟩ := ih _ b0 b1 h
            obtain ⟨e0, hsome⟩ := set_value_some hs
            have hval : ∀ nid, valueIn b0.basic_block_manager_ cur nid =
                if nid = livein then some (LValue.inst b.output_.nextValue LType.taggedType)
                else valueIn b.basic_block_manager_ cur nid := by
              intro nid
              rw [e0]
              show valueIn (updateImpl _ _ _) cur nid = _
              rw [valueIn_updateImpl_set_value _ _ _ _ _ _ hsome]
              simp
            have hinstr : ∀ e ∈ b.output_.instructions, e ∈ b0.output_.instructions := by
              intro e he
              rw [e0]
              exact List.mem_append_left _ he
            have hrel : IsRelocated b0.output_ sp
                (LValue.inst b.output_.nextValue LType.taggedType) := by
              rw [e0]
              exact ⟨_, List.mem_append_right _ (List.mem_singleton.mpr rfl), rfl, gc, rfl⟩
            refine ⟨fun nid hn => ?_, fun e he => q2 e (hinstr e he), ?_, fun live hl hne => ?_⟩
            · rw [List.mem_cons, not_or] at hn
              rw [q1 nid hn.2, hval, if_neg hn.1]
            · rw [q3, e0]
            · by_cases hlr : live ∈ rest
              · obtain ⟨v', e1, e2, e3⟩ := q4 live hlr hne
                rw [hval] at e1
                by_cases hle : live = livein
                · rw [if_pos hle] at e1
                  have hv' : v' = LValue.inst b.output_.nextValue LType.taggedType :=
                    (Option.some.inj e1).symm
                  refine ⟨v, by rw [hle]; exact hv, fun hnt => absurd ht hnt, fun _ => ?_⟩
                  exact e3 (by rw [hv']; rfl)
                · rw [if_neg hle] at e1
                  exact ⟨v', e1, e2, e3⟩
              · have hle : live = livein := by
                  rcases List.mem_cons.mp hl with e | e
                  · exact e
                  · exact absurd e hlr
                refine ⟨v, by rw [hle]; exact hv, fun hnt => absurd ht hnt, fun _ => ?_⟩
                refine ⟨LValue.inst b.output_.nextValue LType.taggedType, ?_, rfl,
                  isRelocated_mono q2 hrel⟩
                rw [q1 live hlr, hval, if_pos hle]
        · simp only [ne_eq, ht, not_false_eq_true, if_true] at h
          obtain ⟨q1, q2, q3, q4⟩ := ih gc b b1 h
          refine ⟨fun nid hn => q1 nid (fun hm => hn (List.mem_cons_of_mem _ hm)), q2, q3,
            fun live hl hne => ?_⟩
          by_cases hlr : live ∈ rest
          · exact q4 live hlr hne
          · have hle : live = livein := by
              rcases List.mem_cons.mp hl with e | e
              · exact e
              · exact absurd e hlr
            refine ⟨v, by rw [hle]; exact hv, fun _ => ?_, fun hte => absurd hte ht⟩
            rw [q1 live hlr, hle]
            exact hv


/-- The part of `DoCall` after the statepoint call. -/
theorem rebindAfterCall_spec {b b2 : LLVMTFBuilder} {id cur front : Int} {return_count gc : Nat}
    {sp : LValue} {bb successor : BasicBlock LLVMTFBuilderBasicBlockImpl} {more : List Int}
    (h : b.rebindAfterCall id return_count sp gc = some b2)
    (hcur : b.current_bb_ = some cur) (hbb : findBB b.basic_block_manager_ cur = some bb)
    (hsucc : bb.successors = front :: more)
    (hfront : findBB b.basic_block_manager_ front = some successor) :
    (∀ e ∈ b.output_.instructions, e ∈ b2.output_.instructions) ∧
    (∃ ret, valueIn b2.basic_block_manager_ cur id = some ret ∧
      ∃ e ∈ b2.output_.instructions, e.result = ret ∧
        e.instr = Instr.call
          (if return_count = 2 then Intrinsic.gcResult2 else Intrinsic.gcResult) [sp]) ∧
    (∀ live ∈ successor.liveins, live ≠ id →
      ∃ v, valueIn b.basic_block_manager_ cur live = some v ∧
        (typeOf v ≠ LType.taggedType → valueIn b2.basic_block_manager_ cur live = some v) ∧
        (typeOf v = LType.taggedType → ∃ r, valueIn b2.basic_block_manager_ cur live = some r ∧
          typeOf r = LType.taggedType ∧ IsRelocated b2.output_ sp r)) := by
  unfold rebindAfterCall at h
  simp only [hcur, hbb, hsucc, hfront] at h
  cases hr : relocateLiveins cur id sp successor.liveins gc b with
  | none => simp [hr] at h
  | some b1 =>
    simp only [hr, Output.buildCall, Output.emit] at h
    obtain ⟨q1, q2, q3, q4⟩ := relocateLiveins_spec cur id sp successor.liveins gc b b1 hr
    obtain ⟨e0, hsome⟩ := set_value_some h
    have hval : ∀ nid, valueIn b2.basic_block_manager_ cur nid =
        if nid = id then some (LValue.inst b1.output_.nextValue
            (if return_count = 2 then LType.other 2 else LType.taggedType))
        else valueIn b1.basic_block_manager_ cur nid := by
      intro nid
      rw [e0]
      show valueIn (updateImpl _ _ _) cur nid = _
      rw [valueIn_updateImpl_set_value _ _ _ _ _ _ hsome]
      simp
    have hinstr : ∀ e ∈ b1.output_.instructions, e ∈ b2.output_.instructions := by
      intro e he
      rw [e0]
      exact List.mem_append_left _ he
    refine ⟨fun e he => hinstr e (q2 e he),
      ⟨_, (hval id).trans (if_pos rfl),
        { position := b1.output_.position, block := b1.output_.currentBlock,
          result := LValue.inst b1.output_.nextValue
            (if return_count = 2 then LType.other 2 else LType.taggedType),
          instr := Instr.call
            (if return_count = 2 then Intrinsic.gcResult2 else Intrinsic.gcResult) [sp] },
        ?_, rfl, rfl⟩, fun live hl hne => ?_⟩
    · rw [e0]
      exact List.mem_append_right _ (List.mem_singleton.mpr rfl)
    · obtain ⟨v, e1, e2, e3⟩ := q4 live hl hne
      refine ⟨v, e1, fun hnt => ?_, fun ht => ?_⟩
      · rw [hval, if_neg hne]
        exact e2 hnt
      · obtain ⟨r, r1, r2, r3⟩ := e3 ht
        refine ⟨r, ?_, r2, isRelocated_mono hinstr r3⟩
        rw [hval, if_neg hne]
        exact r1

/-- A call that is not a tail call: the statepoint call has, after its
header, the tagged bindings of the live-ins of the first successor, and the
bindings after the call are those of `rebindAfterCall`. -/
theorem DoCall_spec {b b2 : LLVMTFBuilder} {k : V8Constants} {id cur front : Int} {code : Bool}
    {call_desc : CallDescriptor} {operands : List Int}
    {bb successor : BasicBlock LLVMTFBuilderBasicBlockImpl} {more : List Int}
    (hcur : b.current_bb_ = some cur) (hbb : findBB b.basic_block_manager_ cur = some bb)
    (hsucc : bb.successors = front :: more)
    (hfront : findBB b.basic_block_manager_ front = some successor)
    (h : b.DoCall k id code call_desc operands false = some b2) :
    ∃ (header : List LValue) (sp : LValue),
      (∃ e ∈ b2.output_.instructions, e.result = sp ∧
        e.instr = Instr.call Intrinsic.statepoint
          (header ++ taggedBindings b.basic_block_manager_ cur
            (successor.liveins.filter (fun l => l ≠ id)))) ∧
      (∃ ret, valueIn b2.basic_block_manager_ cur id = some ret ∧
        ∃ e ∈ b2.output_.instructions, e.result = ret ∧
          e.instr = Instr.call
            (if call_desc.return_count = 2 then Intrinsic.gcResult2 else Intrinsic.gcResult)
            [sp]) ∧
      (∀ live ∈ successor.liveins, live ≠ id →
        ∃ v, valueIn b.basic_block_manager_ cur live = some v ∧
          (typeOf v ≠ LType.taggedType → valueIn b2.basic_block_manager_ cur live = some v) ∧
          (typeOf v = LType.taggedType → ∃ r, valueIn b2.basic_block_manager_ cur live = some r ∧
            typeOf r = LType.taggedType ∧ IsRelocated b2.output_ sp r)) := by
  unfold DoCall at h
  cases operands with
  | nil => simp [hcur] at h
  | cons first rest =>
    simp only [hcur] at h
    cases ht : b.callTarget k cur code first with
    | none => simp [ht] at h
    | some t =>
      obtain ⟨out1, target, code_magic, addition0⟩ := t
      simp only [ht, Bool.false_eq_true, false_and, if_false] at h
      cases hres : (CallOperandResolver.new cur target).Resolve b.basic_block_manager_ out1 rest
          call_desc.registers_for_operands with
      | none => simp [hres] at h
      | some resolver =>
        simp only [hres, hbb, hsucc, hfront] at h
        cases hg : gcOperands b.basic_block_manager_ cur id successor.liveins with
        | none => simp [hg] at h
        | some T =>
          simp only [hg, Output.buildCall, Output.emit] at h
          rw [gcOperands_eq _ _ _ _ T hg] at h
          match hre : rebindAfterCall _ _ _ _ _, h with
          | some b3, h =>
            simp only [Option.some.injEq] at h
            subst h
            obtain ⟨q1, q2, q3⟩ := rebindAfterCall_spec hre rfl hbb hsucc hfront
            exact ⟨statepointHeader b.state_point_id_next_ resolver addition0
                (LType.callee
                  (if call_desc.return_count = 2 then LType.other 2 else LType.taggedType)
                  resolver.operand_value_types_.length),
              LValue.inst out1.nextValue (LType.other 1),
              ⟨_, q1 _ (List.mem_append_right _ (List.mem_singleton.mpr rfl)), rfl, rfl⟩, q2, q3⟩


/-! ## C13: live values across a call -/

/-- Counterexample to C13 as stated: in block 0 of `callState`, whose first
successor has the live-ins 2, 3 and 9, the call with result id 9 passes only
the binding of value 2 as tracked reference. Value 3, bound to a 32-bit
integer, is a live-in other than the call's id, yet its binding is not among
the statepoint operands and is the same after the call. -/
theorem C13_counterexample :
    ∃ b2 args, callState.DoCall armConstants 9 false
        { registers_for_operands := [0, -1], return_count := 1 } [1, 4, 5] false = some b2 ∧
      (findBB callState.basic_block_manager_ 1).map (fun s => s.liveins) = some [2, 3, 9] ∧
      b2.output_.instructions.map (fun e => e.instr) =
        [Instr.call Intrinsic.statepoint args,
         Instr.call Intrinsic.gcRelocate
           [LValue.inst 14 (LType.other 1), Output.constInt32 19, Output.constInt32 19],
         Instr.call Intrinsic.gcResult [LValue.inst 14 (LType.other 1)]] ∧
      args.drop 19 = [LValue.inst 2 LType.taggedType] ∧
      valueIn callState.basic_block_manager_ 0 3 = some (LValue.inst 3 LType.int32) ∧
      LValue.inst 3 LType.int32 ∉ args ∧
      valueIn b2.basic_block_manager_ 0 3 = some (LValue.inst 3 LType.int32) ∧
      valueIn b2.basic_block_manager_ 0 2 = some (LValue.inst 15 LType.taggedType) :=
  ⟨_, _, rfl, rfl, rfl, rfl, rfl, by decide, rfl, rfl⟩

/-- C13, amended: for a non-tail call lowered by `DoCall`, the statepoint
call has as tracked references, after its header and in the order of the
live-in set of the current block's first successor, the bindings of the
live-ins other than the call's own result id that are bound to a tagged
value. After the call each such id is bound to a tagged value produced by a
relocate call on the statepoint's result, a live-in bound to a value of
another type keeps its binding, and the call's id is bound to the result
taken from the statepoint. -/
theorem C13_live_values_relocated (b b2 : LLVMTFBuilder) (k : V8Constants) (id cur front : Int)
    (code : Bool) (call_desc : CallDescriptor) (operands : List Int)
    (bb successor : BasicBlock LLVMTFBuilderBasicBlockImpl) (more : List Int)
    (hcur : b.current_bb_ = some cur) (hbb : findBB b.basic_block_manager_ cur = some bb)
    (hsucc : bb.successors = front :: more)
    (hfront : findBB b.basic_block_manager_ front = some successor)
    (h : b.DoCall k id code call_desc operands false = some b2) :
    ∃ (header : List LValue) (statepoint_ret : LValue),
      (∃ e ∈ b2.output_.instructions, e.result = statepoint_ret ∧
        e.instr = Instr.call Intrinsic.statepoint
          (header ++ taggedBindings b.basic_block_manager_ cur
            (successor.liveins.filter (fun l => l ≠ id)))) ∧
      (∃ ret, valueIn b2.basic_block_manager_ cur id = some ret ∧
        ∃ e ∈ b2.output_.instructions, e.result = ret ∧
          e.instr = Instr.call
            (if call_desc.return_count = 2 then Intrinsic.gcResult2 else Intrinsic.gcResult)
            [statepoint_ret]) ∧
      (∀ live ∈ successor.liveins, live ≠ id →
        ∃ v, valueIn b.basic_block_manager_ cur live = some v ∧
          (typeOf v ≠ LType.taggedType → valueIn b2.basic_block_manager_ cur live = some v) ∧
          (typeOf v = LType.taggedType → ∃ r, valueIn b2.basic_block_manager_ cur live = some r ∧
            typeOf r = LType.taggedType ∧ IsRelocated b2.output_ statepoint_ret r)) :=
  DoCall_spec hcur hbb hsucc hfront h

/-- The call of `callState`: the binding of value 2 is the one tracked
reference, value 2 is rebound to the relocated value and value 3 is not. -/
theorem C13_live_values_relocated_witness :
    ∃ b2, callState.DoCall armConstants 9 false
        { registers_for_operands := [0, -1], return_count := 1 } [1, 4, 5] false = some b2 ∧
      ∃ (header : List LValue) (statepoint_ret : LValue),
        (∃ e ∈ b2.output_.instructions, e.result = statepoint_ret ∧
          e.instr = Instr.call Intrinsic.statepoint
            (header ++ taggedBindings callState.basic_block_manager_ 0
              ([2, 3, 9].filter (fun l => l ≠ 9)))) ∧
        (∃ ret, valueIn b2.basic_block_manager_ 0 9 = some ret ∧
          ∃ e ∈ b2.output_.instructions, e.result = ret ∧
            e.instr = Instr.call
              (if (1 : Nat) = 2 then Intrinsic.gcResult2 else Intrinsic.gcResult)
              [statepoint_ret]) ∧
        (∀ live ∈ [2, 3, 9], live ≠ 9 →
          ∃ v, valueIn callState.basic_block_manager_ 0 live = some v ∧
            (typeOf v ≠ LType.taggedType → valueIn b2.basic_block_manager_ 0 live = some v) ∧
            (typeOf v = LType.taggedType →
              ∃ r, valueIn b2.basic_block_manager_ 0 live = some r ∧
                typeOf r = LType.taggedType ∧ IsRelocated b2.output_ statepoint_ret r)) :=
  ⟨_, rfl, C13_live_values_relocated callState _ armConstants 9 0 1 false
    { registers_for_operands := [0, -1], return_count := 1 } [1, 4, 5]
    (builderBlock 0 [] [1] []
      (some { not_merged_phis := [],
              values_ := [(0, .inst 0 .taggedType), (1, .inst 1 .taggedType),
                          (2, .inst 2 .taggedType), (3, .inst 3 .int32),
                          (4, .inst 4 .taggedType), (5, .inst 5 .taggedType),
                          (6, .inst 6 .taggedType), (7, .inst 7 .taggedType),
                          (8, .inst 8 .taggedType), (9, .inst 9 .taggedType),
                          (10, .inst 10 .taggedType), (11, .inst 11 .taggedType),
                          (12, .inst 12 .taggedType), (13, .inst 13 .taggedType)],
              native_bb := some 0, continuation := some 0,
              started := true, ended := false }))
    (builderBlock 1 [0] [] [2, 3, 9] none) [] rfl rfl rfl rfl rfl⟩


/-! ## The store lowering -/

theorem page_mask_eq (n : Nat) : ~~~(((2 ^ n : Nat) : Int) - 1) = -(2 ^ n : Int) := by
  have h : 0 < 2 ^ n := Nat.pow_pos (by decide)
  obtain ⟨m, hm⟩ : ∃ m, 2 ^ n = m + 1 := ⟨2 ^ n - 1, by omega⟩
  rw [hm]
  have e : ((m + 1 : Nat) : Int) - 1 = Int.ofNat m := by simp
  rw [e]
  show Int.negSucc m = _
  have e2 : (2 : Int) ^ n = ((2 ^ n : Nat) : Int) := by simp
  rw [e2, hm]
  rfl

theorem GetNativeBBContinuation_some {bbm : BuilderBlocks} {id : Int} {C : LBasicBlock}
    (h : GetNativeBBContinuation bbm id = some C) : (GetImpl bbm id).isSome := by
  unfold GetNativeBBContinuation at h
  cases hg : GetImpl bbm id with
  | none => simp [hg] at h
  | some impl => rfl

theorem CheckPageFlag_spec (r : StoreBarrierResolver) (k : V8Constants) (b : LLVMTFBuilder)
    (base : LValue) (mask : Int) (C : LBasicBlock)
    (h : GetNativeBBContinuation b.basic_block_manager_ r.current_bb_ = some C) :
    ∃ o c, r.CheckPageFlag k b base mask = some { b with output_ := o } ∧
      o.instructions = b.output_.instructions ++ c ∧ IsPageFlagCheck k base mask C c ∧
      o.nextBlock = b.output_.nextBlock + 1 ∧ o.root_ = b.output_.root_ ∧
      o.lr_ensured_ = b.output_.lr_ensured_ := by
  unfold StoreBarrierResolver.CheckPageFlag
  simp only [h, Output.buildCast, Output.buildAnd, Output.buildGEPWithByteOffset,
    Output.buildLoad, Output.buildICmp, Output.buildCondBr, Output.appendBasicBlock,
    Output.positionToBBEnd, Output.emit, page_mask_eq, List.append_assoc, List.singleton_append]
  exact ⟨_, _, rfl, rfl, ⟨rfl, rfl, rfl, rfl, rfl, rfl, rfl, _, rfl⟩, rfl, rfl, rfl⟩

theorem CheckSmi_spec (r : StoreBarrierResolver) (b : LLVMTFBuilder)
    (value : LValue) (C : LBasicBlock)
    (h : GetNativeBBContinuation b.basic_block_manager_ r.current_bb_ = some C) :
    ∃ o c, r.CheckSmi b value = some { b with output_ := o } ∧
      o.instructions = b.output_.instructions ++ c ∧ IsSmiCheck value C c ∧
      o.nextBlock = b.output_.nextBlock + 1 ∧ o.root_ = b.output_.root_ ∧
      o.lr_ensured_ = b.output_.lr_ensured_ := by
  unfold StoreBarrierResolver.CheckSmi
  simp only [h, Output.buildCast, Output.buildAnd, Output.buildICmp, Output.buildCondBr,
    Output.appendBasicBlock, Output.positionToBBEnd, Output.emit, List.append_assoc,
    List.singleton_append]
  exact ⟨_, _, rfl, rfl, ⟨rfl, rfl, rfl, _, rfl⟩, rfl, rfl, rfl⟩


theorem GetNativeBBContinuation_updateImpl (bbm : BuilderBlocks) (id : Int) (C : LBasicBlock)
    (h : (GetImpl bbm id).isSome) :
    GetNativeBBContinuation
      (updateImpl bbm id (fun impl => { impl with continuation := some C })) id = some C := by
  unfold GetNativeBBContinuation
  rw [GetImpl_updateImpl, if_pos rfl]
  cases hg : GetImpl bbm id with
  | none => rw [hg] at h; cases h
  | some impl => rfl

/-- Method `Resolve` of the store barrier: what it emits and what it leaves
in the builder. -/
theorem storeBarrier_Resolve_spec (r : StoreBarrierResolver) (k : V8Constants)
    (b : LLVMTFBuilder) (base offset value : LValue) (kind : WriteBarrierKind)
    (himpl : (GetImpl b.basic_block_manager_ r.current_bb_).isSome) :
    ∃ (b2 : LLVMTFBuilder) (c1 c2 c3 : List Emitted) (call branch : Emitted),
      r.Resolve k b base offset value kind = some b2 ∧
      b2.output_.instructions =
        b.output_.instructions ++ c1 ++ c2 ++ c3 ++ [call] ++ [branch] ∧
      IsPageFlagCheck k base k.kPointersFromHereAreInterestingMask b.output_.nextBlock c1 ∧
      (kind = WriteBarrierKind.kFullWriteBarrier → IsSmiCheck value b.output_.nextBlock c2) ∧
      (kind ≠ WriteBarrierKind.kFullWriteBarrier → c2 = []) ∧
      IsPageFlagCheck k value k.kPointersToHereAreInterestingMask b.output_.nextBlock c3 ∧
      call.instr = Instr.call Intrinsic.patchpointVoid
        [Output.constInt64 r.patch_point_id_,
         Output.constInt32 (4 * (if r.needs_frame_ then 3 else 3 + 2)),
         Output.constNull LType.ref8, Output.constInt32 6, base, offset,
         LValue.undef LType.int32,
         Output.constIntPtr
           (if kind = WriteBarrierKind.kPointerWriteBarrier ∨
               kind = WriteBarrierKind.kFullWriteBarrier then 0 else 2),
         Output.constIntPtr 0, b.output_.root_] ∧
      branch.instr = Instr.br b.output_.nextBlock ∧
      b2.basic_block_manager_ = updateImpl b.basic_block_manager_ r.current_bb_
        (fun impl => { impl with continuation := some b.output_.nextBlock }) ∧
      b2.stack_map_info_map_ =
        b.stack_map_info_map_.emplace r.patch_point_id_ StackMapInfo.StoreBarrierInfo ∧
      b2.output_.position = Position.atEnd b.output_.nextBlock ∧
      b2.state_point_id_next_ = b.state_point_id_next_ ∧ b2.current_bb_ = b.current_bb_ := by
  obtain ⟨impl, hg⟩ := Option.isSome_iff_exists.mp himpl
  have hC := GetNativeBBContinuation_updateImpl b.basic_block_manager_ r.current_bb_
    b.output_.nextBlock himpl
  unfold StoreBarrierResolver.Resolve
  simp only [hg, StoreBarrierResolver.CreateContination, Output.appendBasicBlock]
  obtain ⟨o1, c1, e1, i1, p1, n1, r1, l1⟩ := CheckPageFlag_spec r k
    { b with output_ := { b.output_ with nextBlock := b.output_.nextBlock + 1 },
             basic_block_manager_ := updateImpl b.basic_block_manager_ r.current_bb_
               (fun impl => { impl with continuation := some b.output_.nextBlock }) }
    base k.kPointersFromHereAreInterestingMask b.output_.nextBlock hC
  simp only at e1 i1 n1 r1 l1
  rw [e1]
  simp only
  by_cases hk : kind = WriteBarrierKind.kFullWriteBarrier
  · subst hk
    obtain ⟨o2, c2, e2, i2, p2, n2, r2, l2⟩ := CheckSmi_spec r
      { b with output_ := o1,
               basic_block_manager_ := updateImpl b.basic_block_manager_ r.current_bb_
                 (fun impl => { impl with continuation := some b.output_.nextBlock }) }
      value b.output_.nextBlock hC
    simp only at e2 i2 n2 r2 l2
    have hgt : WriteBarrierKind.kFullWriteBarrier.toNat >
        WriteBarrierKind.kPointerWriteBarrier.toNat := by decide
    simp only [hgt, if_true, e2]
    obtain ⟨o3, c3, e3, i3, p3, n3, r3, l3⟩ := CheckPageFlag_spec r k
      { b with output_ := o2,
               basic_block_manager_ := updateImpl b.basic_block_manager_ r.current_bb_
                 (fun impl => { impl with continuation := some b.output_.nextBlock }) }
      value k.kPointersToHereAreInterestingMask b.output_.nextBlock hC
    simp only at e3 i3 n3 r3 l3
    simp only [e3, StoreBarrierResolver.CallPatchpoint, hC, Output.buildCall, Output.buildBr,
      Output.positionToBBEnd, Output.emit, Output.ensureLR]
    cases hn : r.needs_frame_ <;> simp only [hn, if_true, if_false, Bool.false_eq_true]
    · refine ⟨_, c1, c2, c3, ?call1, ?branch1, rfl, ?eq1, p1, fun _ => p2,
        fun h => absurd rfl h, p3, ?ci1, ?bi1, rfl, rfl, rfl, rfl, rfl⟩
      case eq1 =>
        simp only
        rw [← i1, ← i2, ← i3]
        exact rfl
      case ci1 =>
        simp [r3, r2, r1, WriteBarrierKind.toNat, RememberedSetAction.toInt,
          SaveFPRegsMode.toInt]
      case bi1 => rfl
    · refine ⟨_, c1, c2, c3, ?call2, ?branch2, rfl, ?eq2, p1, fun _ => p2,
        fun h => absurd rfl h, p3, ?ci2, ?bi2, rfl, rfl, rfl, rfl, rfl⟩
      case eq2 =>
        simp only
        rw [← i1, ← i2, ← i3]
        exact rfl
      case ci2 =>
        simp [r3, r2, r1, WriteBarrierKind.toNat, RememberedSetAction.toInt,
          SaveFPRegsMode.toInt]
      case bi2 => rfl
  · have hgt : ¬ kind.toNat > WriteBarrierKind.kPointerWriteBarrier.toNat := by
      cases kind <;> simp [WriteBarrierKind.toNat] at hk ⊢
    simp only [hgt, if_false]
    obtain ⟨o3, c3, e3, i3, p3, n3, r3, l3⟩ := CheckPageFlag_spec r k
      { b with output_ := o1,
               basic_block_manager_ := updateImpl b.basic_block_manager_ r.current_bb_
                 (fun impl => { impl with continuation := some b.output_.nextBlock }) }
      value k.kPointersToHereAreInterestingMask b.output_.nextBlock hC
    simp only at e3 i3 n3 r3 l3
    simp only [e3, StoreBarrierResolver.CallPatchpoint, hC, Output.buildCall, Output.buildBr,
      Output.positionToBBEnd, Output.emit, Output.ensureLR]
    cases hn : r.needs_frame_ <;> simp only [hn, if_true, if_false, Bool.false_eq_true]
    · refine ⟨_, c1, [], c3, ?call3, ?branch3, rfl, ?eq3, p1, fun h => absurd h hk,
        fun _ => rfl, p3, ?ci3, ?bi3, rfl, rfl, rfl, rfl, rfl⟩
      case eq3 =>
        simp only [List.append_nil]
        rw [← i1, ← i3]
        exact rfl
      case ci3 =>
        cases kind <;>
          simp [r3, r1, WriteBarrierKind.toNat, RememberedSetAction.toInt,
            SaveFPRegsMode.toInt] at hk ⊢
      case bi3 => rfl
    · refine ⟨_, c1, [], c3, ?call4, ?branch4, rfl, ?eq4, p1, fun h => absurd h hk,
        fun _ => rfl, p3, ?ci4, ?bi4, rfl, rfl, rfl, rfl, rfl⟩
      case eq4 =>
        simp only [List.append_nil]
        rw [← i1, ← i3]
        exact rfl
      case ci4 =>
        cases kind <;>
          simp [r3, r1, WriteBarrierKind.toNat, RememberedSetAction.toInt,
            SaveFPRegsMode.toInt] at hk ⊢
      case bi4 => rfl


theorem buildAccessPointer_spec (o : Output) (value offset : LValue)
    (rep : MachineRepresentation) (type : LType)
    (hrep : getMachineRepresentationType rep = some type) :
    ∃ (o1 : Output) (pointer : LValue) (access : List Emitted),
      buildAccessPointer o value offset rep = some (o1, pointer) ∧
      o1.instructions = o.instructions ++ access ∧
      (∀ e ∈ access, e.instr.isAccess = true) ∧
      o1.nextBlock = o.nextBlock ∧ o1.root_ = o.root_ ∧ o1.lr_ensured_ = o.lr_ensured_ := by
  unfold buildAccessPointer
  cases hk : (typeOf value).isIntegerKind
  · simp only [hrep, Bool.false_eq_true, if_false, Output.buildGEPWithByteOffset, Output.emit]
    refine ⟨_, _, ?acc1, rfl, ?eq1, ?all1, rfl, rfl, rfl⟩
    case eq1 => exact rfl
    case all1 =>
      intro e he
      rw [List.mem_singleton.mp he]
      rfl
  · simp only [hrep, if_true, Output.buildGEPWithByteOffset, Output.buildCast, Output.emit]
    refine ⟨_, _, ?acc2, rfl, ?eq2, ?all2, rfl, rfl, rfl⟩
    case eq2 =>
      simp only [List.append_assoc, List.singleton_append]
      exact rfl
    case all2 =>
      intro e he
      simp only [List.mem_cons, List.mem_singleton, List.not_mem_nil, or_false] at he
      rcases he with h | h <;> rw [h] <;> rfl

theorem valueIn_isSome {bbm : BuilderBlocks} {id nid : Int} {v : LValue}
    (h : valueIn bbm id nid = some v) : (GetImpl bbm id).isSome := by
  unfold valueIn at h
  cases hg : GetImpl bbm id with
  | none => simp [hg] at h
  | some impl => rfl

/-- Method `VisitStore` up to the barrier: the access is emitted and the
store bound, then the barrier is resolved when the kind asks for one. -/
theorem VisitStore_spec (b : LLVMTFBuilder) (k : V8Constants) (id : Int)
    (rep : MachineRepresentation) (barrier : WriteBarrierKind) (base offset value cur : Int)
    (base_value offset_value bound : LValue) (type : LType)
    (hcur : b.current_bb_ = some cur)
    (hbase : valueIn b.basic_block_manager_ cur base = some base_value)
    (hoffset : valueIn b.basic_block_manager_ cur offset = some offset_value)
    (hvalue : valueIn b.basic_block_manager_ cur value = some bound)
    (hrep : getMachineRepresentationType rep = some type) :
    ∃ (o : Output) (access : List Emitted) (stored pointer val destination : LValue),
      b.VisitStore k id rep barrier base offset value =
        (if barrier ≠ WriteBarrierKind.kNoWriteBarrier then
          StoreBarrierResolver.Resolve
            { current_bb_ := cur, id_ := id, patch_point_id_ := b.state_point_id_next_,
              needs_frame_ := b.basic_block_manager_.needs_frame } k
            { b with output_ := o,
                     basic_block_manager_ := updateImpl b.basic_block_manager_ cur
                       (fun impl => impl.set_value id val),
                     state_point_id_next_ := b.state_point_id_next_ + 1 }
            destination pointer stored barrier
        else some { b with output_ := o,
                           basic_block_manager_ := updateImpl b.basic_block_manager_ cur
                             (fun impl => impl.set_value id val) }) ∧
      o.instructions = b.output_.instructions ++ access ∧
      (∀ e ∈ access, e.instr.isAccess = true) ∧
      (∃ e ∈ access, e.instr = Instr.store stored pointer) ∧
      valueIn (updateImpl b.basic_block_manager_ cur (fun impl => impl.set_value id val))
        cur base = some destination ∧
      o.nextBlock = b.output_.nextBlock ∧ o.root_ = b.output_.root_ := by
  have himpl := valueIn_isSome hbase
  obtain ⟨impl, hg⟩ := Option.isSome_iff_exists.mp himpl
  obtain ⟨o1, pointer, acc, e1, i1, a1, n1, r1, l1⟩ :=
    buildAccessPointer_spec b.output_ base_value offset_value rep type hrep
  have hneeds : ∀ f, (updateImpl b.basic_block_manager_ cur f).needs_frame =
      b.basic_block_manager_.needs_frame := fun _ => rfl
  have hdest : ∀ val, valueIn (updateImpl b.basic_block_manager_ cur
      (fun impl => impl.set_value id val)) cur base =
        some (if base = id then val else base_value) := by
    intro val
    rw [valueIn_updateImpl_set_value _ _ _ _ _ _ himpl]
    by_cases hbi : base = id
    · simp [hbi]
    · simp [hbi, hbase]
  unfold LLVMTFBuilder.VisitStore
  simp only [hcur, hbase, hoffset, hvalue, e1, LLVMTFBuilder.set_value, hg]
  by_cases ht : getElementType (typeOf pointer) ≠ typeOf bound
  · simp only [if_pos ht, Output.buildCast, Output.buildStore, Output.emit, hdest, hneeds]
    refine ⟨_, ?acc1, _, _, _, _, rfl, ?eq1, ?all1, ?st1, rfl, n1, r1⟩
    case eq1 =>
      simp only [i1, List.append_assoc, List.singleton_append]
      exact rfl
    case all1 =>
      intro e he
      simp only [List.mem_append, List.mem_cons, List.mem_singleton, List.not_mem_nil,
        or_false] at he
      rcases he with h | h | h
      · exact a1 e h
      · rw [h]; rfl
      · rw [h]; rfl
    case st1 =>
      exact ⟨_, List.mem_append_right _ (List.mem_cons_of_mem _ (List.mem_singleton.mpr rfl)),
        rfl⟩
  · simp only [if_neg ht, Output.buildStore, Output.emit, hdest, hneeds]
    refine ⟨_, ?acc2, _, _, _, _, rfl, ?eq2, ?all2, ?st2, rfl, n1, r1⟩
    case eq2 =>
      simp only [i1, List.append_assoc]
      exact rfl
    case all2 =>
      intro e he
      simp only [List.mem_append, List.mem_singleton] at he
      rcases he with h | h
      · exact a1 e h
      · rw [h]; rfl
    case st2 =>
      exact ⟨_, List.mem_append_right _ (List.mem_singleton.mpr rfl), rfl⟩


theorem GetNativeBBContinuation_set_value (bbm : BuilderBlocks) (id nid : Int) (v : LValue) :
    GetNativeBBContinuation (updateImpl bbm id (fun impl => impl.set_value nid v)) id =
      GetNativeBBContinuation bbm id := by
  unfold GetNativeBBContinuation
  rw [GetImpl_updateImpl, if_pos rfl]
  cases GetImpl bbm id with
  | none => rfl
  | some impl => rfl

theorem valueIn_updateImpl_continuation (bbm : BuilderBlocks) (id : Int) (C : LBasicBlock)
    (j k : Int) :
    valueIn (updateImpl bbm id (fun impl => { impl with continuation := some C })) j k =
      valueIn bbm j k := by
  unfold valueIn
  rw [GetImpl_updateImpl]
  by_cases hj : j = id
  · subst hj
    rw [if_pos rfl]
    cases GetImpl bbm j with
    | none => rfl
    | some impl => rfl
  · rw [if_neg hj]

/-! ## C17: the small-integer check of the barrier -/

theorem pageFlagCheck_no_smiTest {k : V8Constants} {base : LValue} {mask : Int}
    {C : LBasicBlock} {c : List Emitted} (h : IsPageFlagCheck k base mask C c) :
    ∀ e ∈ c, e.instr.isSmiTest = false := by
  unfold IsPageFlagCheck at h
  split at h
  · obtain ⟨h1, h2, h3, h4, h5, h6, h7, fall, h8⟩ := h
    intro e he
    have hne : ((-(2 ^ k.kPageSizeBits) : Int) = 1) = False := by
      have hp : (0 : Int) < 2 ^ k.kPageSizeBits := by positivity
      simp only [eq_iff_iff, iff_false]
      omega
    simp only [List.mem_cons, List.mem_singleton, List.not_mem_nil, or_false] at he
    rcases he with e0 | e0 | e0 | e0 | e0 | e0 | e0 | e0 <;> subst e0
    · rw [h1]; rfl
    · rw [h2]
      simp [Instr.isSmiTest, Output.intPtrOne, Output.constIntPtr, hne]
    · rw [h3]; rfl
    · rw [h4]; rfl
    · rw [h5]; rfl
    · rw [h6]
      simp [Instr.isSmiTest, Output.intPtrOne, Output.constIntPtr, Output.constInt32]
    · rw [h7]; rfl
    · rw [h8]; rfl
  · exact absurd h id

theorem smiCheck_has_smiTest {value : LValue} {C : LBasicBlock} {c : List Emitted}
    (h : IsSmiCheck value C c) : ∃ e ∈ c, e.instr.isSmiTest = true := by
  unfold IsSmiCheck at h
  split at h
  · obtain ⟨h1, h2, h3, fall, h4⟩ := h
    refine ⟨_, List.mem_cons_of_mem _ (List.mem_cons_self _ _), ?_⟩
    rw [h2]
    simp [Instr.isSmiTest]
  · exact absurd h id

/-- Counterexample to C17 as stated: the pointer barrier exceeds the map
barrier, yet `Resolve` with the pointer barrier emits no small-integer
check: none of the instructions it emits tests the low bit of a value. -/
theorem C17_counterexample :
    WriteBarrierKind.kPointerWriteBarrier.toNat > WriteBarrierKind.kMapWriteBarrier.toNat ∧
    ∃ b2, StoreBarrierResolver.Resolve
        { current_bb_ := 0, id_ := 20, patch_point_id_ := 0, needs_frame_ := false }
        armConstants callState (LValue.inst 1 LType.taggedType)
        (LValue.inst 5 (LType.pointerTo LType.taggedType)) (LValue.inst 2 LType.taggedType)
        WriteBarrierKind.kPointerWriteBarrier = some b2 ∧
      b2.output_.instructions.length = 18 ∧
      b2.output_.instructions.all (fun e => !e.instr.isSmiTest) = true :=
  ⟨by decide, _, rfl, rfl, by decide⟩

/-- C17, amended: `Resolve` emits the page-flag check of the destination,
then the small-integer check of the stored value exactly when the barrier
kind is the full barrier (it exceeds the pointer barrier), then the page-flag
check of the stored value and the patch-point call; for the map barrier and
the pointer barrier no instruction that `Resolve` emits tests the low bit of
a value. -/
theorem C17_smi_check_for_full_barrier (r : StoreBarrierResolver) (k : V8Constants)
    (b : LLVMTFBuilder) (base offset value : LValue) (kind : WriteBarrierKind)
    (himpl : (GetImpl b.basic_block_manager_ r.current_bb_).isSome) :
    ∃ (b2 : LLVMTFBuilder) (c1 c2 c3 : List Emitted) (call branch : Emitted),
      r.Resolve k b base offset value kind = some b2 ∧
      b2.output_.instructions =
        b.output_.instructions ++ c1 ++ c2 ++ c3 ++ [call] ++ [branch] ∧
      IsPageFlagCheck k base k.kPointersFromHereAreInterestingMask b.output_.nextBlock c1 ∧
      IsPageFlagCheck k value k.kPointersToHereAreInterestingMask b.output_.nextBlock c3 ∧
      (∃ args, call.instr = Instr.call Intrinsic.patchpointVoid args) ∧
      branch.instr = Instr.br b.output_.nextBlock ∧
      (IsSmiCheck value b.output_.nextBlock c2 ↔ kind = WriteBarrierKind.kFullWriteBarrier) ∧
      (c2 = [] ↔ kind ≠ WriteBarrierKind.kFullWriteBarrier) ∧
      ((∃ e ∈ c1 ++ c2 ++ c3 ++ [call] ++ [branch], e.instr.isSmiTest = true) ↔
        kind = WriteBarrierKind.kFullWriteBarrier) := by
  obtain ⟨b2, c1, c2, c3, call, branch, q0, q1, q2, q3, q4, q5, q6, q7, -⟩ :=
    storeBarrier_Resolve_spec r k b base offset value kind himpl
  have hnil : ¬ IsSmiCheck value b.output_.nextBlock [] := fun h => h
  have hcons : ∀ c, IsSmiCheck value b.output_.nextBlock c → c ≠ [] := by
    intro c hc e
    rw [e] at hc
    exact hnil hc
  refine ⟨b2, c1, c2, c3, call, branch, q0, q1, q2, q5, ⟨_, q6⟩, q7, ⟨fun h => ?_, q3⟩,
    ⟨fun h hf => hcons c2 (q3 hf) h, q4⟩, ⟨fun h => ?_, fun h => ?_⟩⟩
  · by_contra hk
    rw [q4 hk] at h
    exact hnil h
  · by_contra hk
    obtain ⟨e, he, hs⟩ := h
    rw [q4 hk] at he
    simp only [List.append_nil, List.mem_append, List.mem_singleton] at he
    rcases he with ((he | he) | he) | he
    · rw [pageFlagCheck_no_smiTest q2 e he] at hs
      cases hs
    · rw [pageFlagCheck_no_smiTest q5 e he] at hs
      cases hs
    · rw [he, q6] at hs
      cases hs
    · rw [he, q7] at hs
      cases hs
  · obtain ⟨e, he, hs⟩ := smiCheck_has_smiTest (q3 h)
    exact ⟨e, by simp [he], hs⟩

/-- The full barrier in block 0 of `callState`: the small-integer check is
emitted. -/
theorem C17_smi_check_for_full_barrier_witness :
    (GetImpl callState.basic_block_manager_ 0).isSome ∧
    ∃ b2 c2, StoreBarrierResolver.Resolve
        { current_bb_ := 0, id_ := 20, patch_point_id_ := 0, needs_frame_ := false }
        armConstants callState (LValue.inst 1 LType.taggedType)
        (LValue.inst 5 (LType.pointerTo LType.taggedType)) (LValue.inst 2 LType.taggedType)
        WriteBarrierKind.kFullWriteBarrier = some b2 ∧
      IsSmiCheck (LValue.inst 2 LType.taggedType) 1 c2 := by
  obtain ⟨b2, c1, c2, c3, call, branch, h, -, -, -, -, -, hs, -, -⟩ :=
    C17_smi_check_for_full_barrier
      { current_bb_ := 0, id_ := 20, patch_point_id_ := 0, needs_frame_ := false }
      armConstants callState (LValue.inst 1 LType.taggedType)
      (LValue.inst 5 (LType.pointerTo LType.taggedType)) (LValue.inst 2 LType.taggedType)
      WriteBarrierKind.kFullWriteBarrier rfl
  exact ⟨rfl, b2, c2, h, hs.mpr rfl⟩

open CodeGeneratorLLVM

/-! ## C26: the build state of a block -/

theorem impl_StartBuild_iff (i i2 : LLVMTFBuilderBasicBlockImpl) :
    i.StartBuild = some i2 ↔
      i.started = false ∧ i.ended = false ∧ i2 = { i with started := true } := by
  unfold LLVMTFBuilderBasicBlockImpl.StartBuild
  cases hs : i.started <;> cases he : i.ended <;> simp [eq_comm]

theorem impl_EndBuild_iff (i i2 : LLVMTFBuilderBasicBlockImpl) :
    i.EndBuild = some i2 ↔
      i.started = true ∧ i.ended = false ∧ i2 = { i with ended := true } := by
  unfold LLVMTFBuilderBasicBlockImpl.EndBuild
  cases hs : i.started <;> cases he : i.ended <;> simp [eq_comm]

theorem buildReachable_ended {i : LLVMTFBuilderBasicBlockImpl} (h : BuildReachable i) :
    i.ended = true → i.started = true := by
  induction h with
  | fresh => intro h; cases h
  | start _ hs _ =>
    obtain ⟨-, -, e⟩ := (impl_StartBuild_iff _ _).mp hs
    intro _
    rw [e]
  | stop _ hs _ =>
    obtain ⟨h1, -, e⟩ := (impl_EndBuild_iff _ _).mp hs
    intro _
    rw [e]
    exact h1
  | other _ h1 h2 ih =>
    intro h
    rw [h1]
    exact ih (h2 ▸ h)

/-- C26: `StartBuild` succeeds exactly on a slot that is neither started nor
ended and takes it from NotStarted to Started; `EndBuild` succeeds exactly on
a slot that is started and not ended and takes it from Started to Ended;
every other request fails its assertion (the result `none`, with no state
after it); a reachable slot that is ended is started, so that it is in one
of the three states; and `EndCurrentBlock` of the builder returns only for a
current block that is started and not ended, which it leaves ended. -/
theorem C26_build_state_machine :
    (∀ i : LLVMTFBuilderBasicBlockImpl,
      (i.StartBuild = if i.started = false ∧ i.ended = false
        then some { i with started := true } else none) ∧
      (i.EndBuild = if i.started = true ∧ i.ended = false
        then some { i with ended := true } else none)) ∧
    (∀ i i2 : LLVMTFBuilderBasicBlockImpl, i.StartBuild = some i2 →
      buildState i = some BuildState.NotStarted ∧ buildState i2 = some BuildState.Started) ∧
    (∀ i i2 : LLVMTFBuilderBasicBlockImpl, i.EndBuild = some i2 →
      buildState i = some BuildState.Started ∧ buildState i2 = some BuildState.Ended) ∧
    (∀ i : LLVMTFBuilderBasicBlockImpl, BuildReachable i →
      (i.ended = true → i.started = true) ∧ (buildState i).isSome) ∧
    (∀ (b b2 : LLVMTFBuilder) (cur : Int), b.current_bb_ = some cur →
      b.EndCurrentBlock = some b2 →
      IsBBStartedToBuild b.basic_block_manager_ cur = true ∧
      IsBBEndedToBuild b.basic_block_manager_ cur = false ∧
      IsBBStartedToBuild b2.basic_block_manager_ cur = true ∧
      IsBBEndedToBuild b2.basic_block_manager_ cur = true) := by
  refine ⟨fun i => ⟨?_, ?_⟩, fun i i2 h => ?_, fun i i2 h => ?_, fun i h => ?_,
    fun b b2 cur hcur h => ?_⟩
  · unfold LLVMTFBuilderBasicBlockImpl.StartBuild
    cases hs : i.started <;> cases he : i.ended <;> simp
  · unfold LLVMTFBuilderBasicBlockImpl.EndBuild
    cases hs : i.started <;> cases he : i.ended <;> simp
  · obtain ⟨h1, h2, e⟩ := (impl_StartBuild_iff _ _).mp h
    subst e
    simp [buildState, h1, h2]
  · obtain ⟨h1, h2, e⟩ := (impl_EndBuild_iff _ _).mp h
    subst e
    simp [buildState, h1, h2]
  · have he := buildReachable_ended h
    refine ⟨he, ?_⟩
    unfold buildState
    cases hs : i.started <;> cases hn : i.ended <;> simp
    rw [he hn] at hs
    cases hs
  · unfold EndCurrentBlock at h
    simp only [hcur] at h
    cases hf : findBB b.basic_block_manager_ cur with
    | none => simp [hf] at h
    | some bb =>
      simp only [hf] at h
      cases hi : bb.impl with
      | none => simp [hi] at h
      | some impl =>
        simp only [hi] at h
        cases hE : impl.EndBuild with
        | none => simp [hE] at h
        | some impl2 =>
          simp only [hE, Option.some.injEq] at h
          obtain ⟨h1, h2, e⟩ := (impl_EndBuild_iff _ _).mp hE
          have hg : GetImpl b.basic_block_manager_ cur = some impl := by
            unfold GetImpl
            rw [hf]
            exact hi
          subst h
          subst e
          refine ⟨?_, ?_, ?_, ?_⟩
          · simp [IsBBStartedToBuild, hg, h1]
          · simp [IsBBEndedToBuild, hg, h2]
          · simp [IsBBStartedToBuild, GetImpl_updateImpl, hg, h1]
          · simp [IsBBEndedToBuild, GetImpl_updateImpl, hg]

/-- The slot of a block that was started and then ended is reachable and in
the state Ended. -/
theorem C26_build_state_machine_witness :
    BuildReachable { LLVMTFBuilderBasicBlockImpl.fresh with started := true, ended := true } ∧
    buildState { LLVMTFBuilderBasicBlockImpl.fresh with started := true, ended := true } =
      some BuildState.Ended :=
  have hr : BuildReachable
      { LLVMTFBuilderBasicBlockImpl.fresh with started := true, ended := true } :=
    BuildReachable.stop (BuildReachable.start BuildReachable.fresh rfl) rfl
  ⟨hr, (C26_build_state_machine.2.2.1 { LLVMTFBuilderBasicBlockImpl.fresh with started := true }
    _ rfl).2⟩


/-! ## C25: growth of the live-in vectors -/

/-- Counterexample to C25 as stated: in the run of the worklist loop on
`useBeforeDefineCFG` the first step dequeues block 1 and the second step
dequeues block 0, whose stored live-in vector is `[7]` before the step and
empty after it: value 7 is one of the block's own defines. -/
theorem C25_counterexample :
    initialWorklist useBeforeDefineCFG = [1, 0] ∧
    ∃ bbm1 bbm2 wl2 B1 B2,
      step useBeforeDefineCFG 1 [0] = some (bbm1, [0, 0]) ∧
      step bbm1 0 [0] = some (bbm2, wl2) ∧
      findBB bbm1 0 = some B1 ∧ B1.liveins = [7] ∧
      findBB bbm2 0 = some B2 ∧ B2.liveins = [] ∧ definesOf B1 = [5, 7] :=
  ⟨rfl, _, _, _, _, _, rfl, rfl, rfl, rfl, rfl, rfl, rfl⟩

/-- C25, amended: a step of the worklist loop changes no block but the one
it dequeues, and of that block only the live-in vector. The vector stored
after the step holds every value of the vector stored before it if and only
if none of those values is in the block's defines set; and the vector
stored after the step holds no value of the defines set, so that every later
step that dequeues the block can only add values. -/
theorem C25_step_changes_dequeued_block (bbm bbm' : BasicBlockManager LivenessBasicBlockImpl)
    (id : Int) (wl wl' : List Int) (h : step bbm id wl = some (bbm', wl')) :
    ∃ now result, findBB bbm id = some now ∧
      findBB bbm' id = some { now with liveins := result } ∧
      ((∀ v ∈ now.liveins, v ∈ result) ↔ (∀ v ∈ now.liveins, v ∉ definesOf now)) ∧
      (∀ v ∈ result, v ∉ definesOf now) ∧
      ∀ j, j ≠ id → findBB bbm' j = findBB bbm j := by
  obtain ⟨now, result, h1, h2, h3⟩ := step_findBB h id
  rw [if_pos rfl] at h3
  refine ⟨now, result, h1, h3, ⟨fun hsup v hv => ?_, fun hdis v hv => ?_⟩, fun v hv => ?_,
    fun j hj => ?_⟩
  · exact ((mem_recompute h2 v).mp (hsup v hv)).1
  · exact (mem_recompute h2 v).mpr ⟨hdis v hv, Or.inl hv⟩
  · exact ((mem_recompute h2 v).mp hv).1
  · obtain ⟨now2, result2, -, -, h4⟩ := step_findBB h j
    rw [if_neg hj] at h4
    exact h4

/-- The step of `loopCFG` that dequeues block 2: its live-in vector grows
from `[6, 10]` to `[6, 8, 10]`. -/
theorem C25_step_changes_dequeued_block_witness :
    step loopCFG 2 [1, 0] =
        some (updateBB loopCFG 2 (fun b => { b with liveins := [6, 8, 10] }), [1, 0, 1]) ∧
    ∃ now result, findBB loopCFG 2 = some now ∧
      findBB (updateBB loopCFG 2 (fun b => { b with liveins := [6, 8, 10] })) 2 =
        some { now with liveins := result } ∧
      ((∀ v ∈ now.liveins, v ∈ result) ↔ (∀ v ∈ now.liveins, v ∉ definesOf now)) ∧
      (∀ v ∈ result, v ∉ definesOf now) ∧
      ∀ j, j ≠ 2 → findBB (updateBB loopCFG 2 (fun b => { b with liveins := [6, 8, 10] })) j =
        findBB loopCFG j :=
  ⟨by decide, C25_step_changes_dequeued_block loopCFG _ 2 [1, 0] [1, 0, 1] (by decide)⟩

/-! ## C28: the fixpoint covers what the successors ask for -/

/-- C28: on a store with valid pointers and sorted live-in vectors in which
every successor edge has its predecessor edge, the worklist loop returns,
and in the store it returns, for every visited block `B` and every successor
`S` of `B`: every live-in of `S`, and the source of every phi descriptor of
`S` whose predecessor is `B`, is a live-in of `B` or one of the defines of
`B`. -/
theorem C28_fixpoint_covers_successors (bbm : BasicBlockManager LivenessBasicBlockImpl)
    (hp : PointersValid bbm) (hs : LiveinsSorted bbm) (hw : AllBlocks bbm bbm.rpo)
    (he : SuccessorsHavePredecessors bbm) :
    ∃ final, worklistLoop (fuelBound bbm (initialWorklist bbm)) bbm (initialWorklist bbm)
        = some final ∧
      ∀ bid ∈ bbm.rpo, ∀ B S sid, findBB final bid = some B → sid ∈ B.successors →
        findBB final sid = some S →
        (∀ v ∈ S.liveins, v ∈ B.liveins ∨ v ∈ definesOf B) ∧
        (∀ phi ∈ phisOf S, phi.from_ = bid → phi.value ∈ B.liveins ∨ phi.value ∈ definesOf B) := by
  obtain ⟨final, hfinal⟩ := worklistLoop_isSome bbm (initialWorklist bbm) hp hs
    (fun j hj => hw j (List.mem_reverse.mp hj))
  obtain ⟨h1, -, h3⟩ := worklistLoop_stable hp hs he hw hfinal
  refine ⟨final, hfinal, fun bid hbid B S sid hB hsid hS => ?_⟩
  have hst := h3 bid (h1 ▸ hbid) B hB
  have hid : B.id = bid := (findIn_some hB).2
  have key : ∀ v, Contribution final B.id sid v → v ∈ B.liveins ∨ v ∈ definesOf B := by
    intro v hc
    by_cases hd : v ∈ definesOf B
    · exact Or.inr hd
    · exact Or.inl ((mem_recompute hst v).mpr ⟨hd, Or.inr ⟨sid, hsid, hc⟩⟩)
  refine ⟨fun v hv => key v ⟨S, hS, Or.inl hv⟩, fun phi hphi hfrom => ?_⟩
  exact key phi.value ⟨S, hS, Or.inr ⟨phi, hphi, hfrom.trans hid.symm, rfl⟩⟩

/-- The fixpoint of `loopCFG`. -/
theorem C28_fixpoint_covers_successors_witness :
    PointersValid loopCFG ∧ LiveinsSorted loopCFG ∧ AllBlocks loopCFG loopCFG.rpo ∧
      SuccessorsHavePredecessors loopCFG ∧
      ∃ final, worklistLoop (fuelBound loopCFG (initialWorklist loopCFG)) loopCFG
          (initialWorklist loopCFG) = some final ∧
        ∀ bid ∈ loopCFG.rpo, ∀ B S sid, findBB final bid = some B → sid ∈ B.successors →
          findBB final sid = some S →
          (∀ v ∈ S.liveins, v ∈ B.liveins ∨ v ∈ definesOf B) ∧
          (∀ phi ∈ phisOf S, phi.from_ = bid →
            phi.value ∈ B.liveins ∨ phi.value ∈ definesOf B) :=
  ⟨by decide, by decide, by decide, by decide,
    C28_fixpoint_covers_successors loopCFG (by decide) (by decide) (by decide) (by decide)⟩


/-! ## C23: references and defines of one block -/

theorem mem_StdSet_insert (s : StdSet) (v x : Int) :
    x ∈ (s.insert v).elems ↔ x = v ∨ x ∈ s.elems := by
  unfold StdSet.insert
  split
  · constructor
    · exact Or.inr
    · rintro (h | h)
      · rw [h]; assumption
      · exact h
  · simp [List.mem_orderedInsert]

theorem AddAllIfNotInDefines_spec (operands : List Int) :
    ∀ v : LivenessAnalysisVisitor,
      (v.AddAllIfNotInDefines operands).basic_block_manager_ = v.basic_block_manager_ ∧
      (v.AddAllIfNotInDefines operands).current_basic_block_ = v.current_basic_block_ ∧
      (v.AddAllIfNotInDefines operands).current_defines_ = v.current_defines_ ∧
      ∀ x, x ∈ (v.AddAllIfNotInDefines operands).current_references_.elems ↔
        x ∈ v.current_references_.elems ∨
          (x ∈ operands ∧ x ∉ v.current_defines_.elems) := by
  induction operands with
  | nil => intro v; simp [AddAllIfNotInDefines]
  | cons e rest ih =>
    intro v
    obtain ⟨q1, q2, q3, q4⟩ := ih (v.AddIfNotInDefines e)
    have hd : (v.AddIfNotInDefines e).current_defines_ = v.current_defines_ := by
      unfold AddIfNotInDefines; split <;> rfl
    have hb := AddIfNotInDefines_bbm v e
    have hr : ∀ x, x ∈ (v.AddIfNotInDefines e).current_references_.elems ↔
        x ∈ v.current_references_.elems ∨ (x = e ∧ x ∉ v.current_defines_.elems) := by
      intro x
      unfold AddIfNotInDefines
      by_cases he : e ∈ v.current_defines_.elems
      · rw [if_pos he]
        constructor
        · exact Or.inl
        · rintro (h | ⟨h1, h2⟩)
          · exact h
          · exact absurd (h1 ▸ he) h2
      · rw [if_neg he]
        simp only [mem_StdSet_insert]
        constructor
        · rintro (h | h)
          · exact Or.inr ⟨h, h ▸ he⟩
          · exact Or.inl h
        · rintro (h | ⟨h1, -⟩)
          · exact Or.inr h
          · exact Or.inl h1
    refine ⟨q1.trans hb.1, q2.trans hb.2, q3.trans hd, fun x => ?_⟩
    show x ∈ ((v.AddIfNotInDefines e).AddAllIfNotInDefines rest).current_references_.elems ↔ _
    rw [q4, hr, hd, List.mem_cons]
    tauto

/-- A value-producing operation defines its result and then records its
operands. -/
theorem Visit_valueOperation (v : LivenessAnalysisVisitor) (c : Callback)
    (hc : c.isValueOperation = true) :
    ∃ id, c.resultOf = some id ∧
      v.Visit c = some ((v.Define id).AddAllIfNotInDefines c.recordedOperands) := by
  cases c <;> simp [Callback.isValueOperation] at hc <;> exact ⟨_, rfl, rfl⟩

theorem usedBeforeDefined_cons (c : Callback) (cs : List Callback) (x : Int) :
    UsedBeforeDefined (c :: cs) x ↔
      c.resultOf ≠ some x ∧ (x ∈ c.recordedOperands ∨ UsedBeforeDefined cs x) := by
  constructor
  · rintro ⟨pre, d, post, e, h1, h2, h3⟩
    cases pre with
    | nil =>
      simp only [List.nil_append, List.cons.injEq] at e
      obtain ⟨e1, -⟩ := e
      subst e1
      exact ⟨h2, Or.inl h1⟩
    | cons p pre =>
      simp only [List.cons_append, List.cons.injEq] at e
      obtain ⟨e1, e2⟩ := e
      subst e1
      exact ⟨h3 _ (List.mem_cons_self _ _),
        Or.inr ⟨pre, d, post, e2, h1, h2, fun d' hd' => h3 d' (List.mem_cons_of_mem _ hd')⟩⟩
  · rintro ⟨h0, h | ⟨pre, d, post, e, h1, h2, h3⟩⟩
    · exact ⟨[], c, cs, rfl, h, h0, fun _ hd => (by cases hd)⟩
    · refine ⟨c :: pre, d, post, by rw [e]; rfl, h1, h2, fun d' hd' => ?_⟩
      rcases List.mem_cons.mp hd' with e' | hd'
      · rw [e']; exact h0
      · exact h3 d' hd'

/-- The current sets after a sequence of value-producing operations. -/
theorem VisitAll_valueOperations (ops : List Callback) :
    ∀ v : LivenessAnalysisVisitor, (∀ c ∈ ops, c.isValueOperation = true) →
      ∃ v1, v.VisitAll ops = some v1 ∧
        v1.basic_block_manager_ = v.basic_block_manager_ ∧
        v1.current_basic_block_ = v.current_basic_block_ ∧
        (∀ x, x ∈ v1.current_defines_.elems ↔
          x ∈ v.current_defines_.elems ∨ some x ∈ ops.map Callback.resultOf) ∧
        (∀ x, x ∈ v1.current_references_.elems ↔
          x ∈ v.current_references_.elems ∨
            (x ∉ v.current_defines_.elems ∧ UsedBeforeDefined ops x)) := by
  induction ops with
  | nil =>
    intro v _
    refine ⟨v, rfl, rfl, rfl, fun x => by simp, fun x => ?_⟩
    constructor
    · exact Or.inl
    · rintro (h | ⟨-, pre, c, post, e, -⟩)
      · exact h
      · cases pre <;> cases e
  | cons c cs ih =>
    intro v hall
    obtain ⟨id, hid, hv⟩ := Visit_valueOperation v c (hall c (List.mem_cons_self _ _))
    obtain ⟨a1, a2, a3, a4⟩ := AddAllIfNotInDefines_spec c.recordedOperands (v.Define id)
    obtain ⟨v1, q0, q1, q2, q3, q4⟩ := ih ((v.Define id).AddAllIfNotInDefines c.recordedOperands)
      (fun d hd => hall d (List.mem_cons_of_mem _ hd))
    have hdef : ∀ x, x ∈ (v.Define id).current_defines_.elems ↔
        x = id ∨ x ∈ v.current_defines_.elems := fun x => mem_StdSet_insert _ _ _
    refine ⟨v1, ?_, q1.trans a1, q2.trans a2, fun x => ?_, fun x => ?_⟩
    · simp only [VisitAll, hv, Option.bind_some]
      exact q0
    · rw [q3, a3, hdef, List.map_cons, List.mem_cons, hid]
      simp only [Option.some.injEq]
      tauto
    · rw [q4, a4, a3, hdef, usedBeforeDefined_cons, hid]
      have e1 : (v.Define id).current_references_ = v.current_references_ := rfl
      rw [e1]
      simp only [ne_eq, Option.some.injEq]
      constructor
      · rintro ((h | ⟨h1, h2⟩) | ⟨h1, h2⟩)
        · exact Or.inl h
        · exact Or.inr ⟨fun h => h2 (Or.inr h), fun h => h2 (Or.inl h.symm), Or.inl h1⟩
        · exact Or.inr ⟨fun h => h1 (Or.inr h), fun h => h1 (Or.inl h.symm), Or.inr h2⟩
      · rintro (h | ⟨h1, h2, h3 | h3⟩)
        · exact Or.inl (Or.inl h)
        · exact Or.inl (Or.inr ⟨h3, fun h => h.elim (fun e => h2 e.symm) h1⟩)
        · exact Or.inr ⟨fun h => h.elim (fun e => h2 e.symm) h1, h3⟩

theorem VisitAll_append (cs ds : List Callback) :
    ∀ v : LivenessAnalysisVisitor,
      v.VisitAll (cs ++ ds) = (v.VisitAll cs).bind (fun v1 => v1.VisitAll ds) := by
  induction cs with
  | nil => intro v; rfl
  | cons c cs ih =>
    intro v
    simp only [List.cons_append, VisitAll]
    cases v.Visit c with
    | none => rfl
    | some v1 => exact ih v1

/-- Method `EndBlock` on a current block with a slot: the references are
appended to the live-in vector and the defines stored. -/
theorem EndBlock_spec {v : LivenessAnalysisVisitor} {cur : Int}
    {bb : BasicBlock LivenessBasicBlockImpl} {impl : LivenessBasicBlockImpl}
    (hcur : v.current_basic_block_ = some cur)
    (hbb : findBB v.basic_block_manager_ cur = some bb) (himpl : bb.impl = some impl) :
    ∃ v2 B, v.EndBlock = some v2 ∧ findBB v2.basic_block_manager_ cur = some B ∧
      B.liveins = bb.liveins ++ v.current_references_.elems ∧
      definesOf B = v.current_defines_.elems ∧ B.successors = bb.successors ∧
      B.predecessors = bb.predecessors := by
  unfold EndBlock
  simp only [hcur, hbb, himpl]
  refine ⟨_, { bb with liveins := bb.liveins ++ v.current_references_.elems,
                       impl := some { impl with defines := v.current_defines_ } },
    rfl, ?_, rfl, rfl, rfl, rfl⟩
  have hf := findBB_updateBB v.basic_block_manager_ cur cur (fun b =>
    { b with liveins := b.liveins ++ v.current_references_.elems,
             impl := some { impl with defines := v.current_defines_ } }) (fun _ => rfl)
  rw [if_pos rfl, hbb] at hf
  exact hf


theorem pushSuccessor_spec {v : LivenessAnalysisVisitor} {cur : Int}
    {bb : BasicBlock LivenessBasicBlockImpl} (bid : Int)
    (hcur : v.current_basic_block_ = some cur)
    (hbb : findBB v.basic_block_manager_ cur = some bb) :
    ∃ v1, v.pushSuccessor bid = some v1 ∧ v1.current_basic_block_ = some cur ∧
      v1.current_references_ = v.current_references_ ∧
      v1.current_defines_ = v.current_defines_ ∧
      findBB v1.basic_block_manager_ cur =
        some { bb with successors := bb.successors ++ [bid] } := by
  unfold pushSuccessor
  have hblock : isBlock v.basic_block_manager_ cur = true := by
    unfold isBlock; rw [hbb]; rfl
  simp only [hcur, hblock, if_true]
  refine ⟨_, rfl, rfl, rfl, rfl, ?_⟩
  have hf := findBB_updateBB (ensureBB v.basic_block_manager_ bid) cur cur
    (fun b => { b with successors := b.successors ++ [bid] }) (fun _ => rfl)
  rw [if_pos rfl, findBB_ensureBB, hbb] at hf
  exact hf

/-- C23: in a block entered with empty current sets and an empty live-in
vector, after a sequence of value-producing operations (`Load`, `Store`,
`BitcastWordToTagged`, binary operations and comparisons, `Call`) the
references set holds exactly the recorded operand ids used by an operation
that neither defines the id itself nor is preceded by an operation defining
it, and the defines set holds exactly the result ids of the operations. When
the block is then ended by `VisitGoto`, these are the live-in candidates and
the defines stored for the block; when it is ended by a tail call, the
operands of the tail call count as used and the tail call defines nothing. -/
theorem C23_references_and_defines (v : LivenessAnalysisVisitor) (ops : List Callback)
    (cur : Int) (bb : BasicBlock LivenessBasicBlockImpl) (impl : LivenessBasicBlockImpl)
    (hops : ∀ c ∈ ops, c.isValueOperation = true)
    (hcur : v.current_basic_block_ = some cur)
    (hbb : findBB v.basic_block_manager_ cur = some bb) (himpl : bb.impl = some impl)
    (hrefs : v.current_references_.elems = []) (hdefs : v.current_defines_.elems = [])
    (hlive : bb.liveins = []) :
    (∃ v1, v.VisitAll ops = some v1 ∧
      (∀ x, x ∈ v1.current_references_.elems ↔ UsedBeforeDefined ops x) ∧
      (∀ x, x ∈ v1.current_defines_.elems ↔ some x ∈ ops.map Callback.resultOf)) ∧
    (∀ bid, ∃ v2 B, v.VisitAll (ops ++ [Callback.Goto bid]) = some v2 ∧
      findBB v2.basic_block_manager_ cur = some B ∧
      (∀ x, x ∈ B.liveins ↔ UsedBeforeDefined ops x) ∧
      (∀ x, x ∈ definesOf B ↔ some x ∈ ops.map Callback.resultOf)) ∧
    (∀ id code registers_for_operands operands, ∃ v2 B,
      v.VisitAll (ops ++ [Callback.TailCall id code registers_for_operands operands]) =
        some v2 ∧
      findBB v2.basic_block_manager_ cur = some B ∧
      (∀ x, x ∈ B.liveins ↔
        UsedBeforeDefined
          (ops ++ [Callback.TailCall id code registers_for_operands operands]) x) ∧
      (∀ x, x ∈ definesOf B ↔ some x ∈ ops.map Callback.resultOf)) := by
  obtain ⟨v1, q0, q1, q2, q3, q4⟩ := VisitAll_valueOperations ops v hops
  have hd : ∀ x, x ∈ v1.current_defines_.elems ↔ some x ∈ ops.map Callback.resultOf := by
    intro x
    rw [q3, hdefs]
    simp
  have hr : ∀ x, x ∈ v1.current_references_.elems ↔ UsedBeforeDefined ops x := by
    intro x
    rw [q4, hrefs, hdefs]
    simp
  have hcur1 : v1.current_basic_block_ = some cur := q2.trans hcur
  have hbb1 : findBB v1.basic_block_manager_ cur = some bb := by rw [q1]; exact hbb
  refine ⟨⟨v1, q0, hr, hd⟩, fun bid => ?_, fun id code regs operands => ?_⟩
  · obtain ⟨v2, p0, p1, p2, p3, p4⟩ := pushSuccessor_spec bid hcur1 hbb1
    obtain ⟨v3, B, e0, e1, e2, e3, -, -⟩ := EndBlock_spec p1 p4 himpl
    refine ⟨v3, B, ?_, e1, fun x => ?_, fun x => ?_⟩
    · rw [VisitAll_append, q0]
      simp only [Option.bind_some, Option.some_bind, VisitAll, Visit,
        LivenessAnalysisVisitor.VisitGoto, p0, e0]
    · rw [e2, p2]
      simp only [hlive, List.nil_append]
      exact hr x
    · rw [e3, p3]
      exact hd x
  · obtain ⟨a1, a2, a3, a4⟩ := AddAllIfNotInDefines_spec operands v1
    obtain ⟨v3, B, e0, e1, e2, e3, -, -⟩ := EndBlock_spec (a2.trans hcur1)
      (a1 ▸ hbb1) himpl
    refine ⟨v3, B, ?_, e1, fun x => ?_, fun x => ?_⟩
    · rw [VisitAll_append, q0]
      simp only [Option.bind_some, Option.some_bind, VisitAll, Visit, e0]
    · rw [e2, hlive, List.nil_append, a4, hr]
      constructor
      · rintro (⟨pre, c, post, e, h1, h2, h3⟩ | ⟨h1, h2⟩)
        · exact ⟨pre, c, post ++ [Callback.TailCall id code regs operands],
            by rw [e]; simp, h1, h2, h3⟩
        · refine ⟨ops, Callback.TailCall id code regs operands, [], rfl, h1,
            fun h => (by cases h), fun d hdm hres => ?_⟩
          exact h2 ((hd x).mpr (hres ▸ List.mem_map_of_mem _ hdm))
      · rintro ⟨pre, c, post, e, h1, h2, h3⟩
        rcases List.eq_nil_or_concat post with hp | ⟨post2, last, hp⟩
        · subst hp
          have e2 : ops ++ [Callback.TailCall id code regs operands] = pre ++ [c] := e
          obtain ⟨e3, e4⟩ := List.append_inj' e2 rfl
          simp only [List.cons.injEq, and_true] at e4
          subst e3
          subst e4
          right
          refine ⟨h1, fun hx => ?_⟩
          obtain ⟨d, hdm, hdr⟩ := List.mem_map.mp ((hd x).mp hx)
          exact h3 d hdm hdr
        · subst hp
          have e2 : ops ++ [Callback.TailCall id code regs operands] =
              (pre ++ c :: post2) ++ [last] := by
            rw [e]; simp
          obtain ⟨e3, -⟩ := List.append_inj' e2 rfl
          exact Or.inl ⟨pre, c, post2, e3, h1, h2, h3⟩
    · rw [e3, a3]
      exact hd x

/-- A block that loads through value 1, adds 9 to the loaded value 2 and
stores value 3 through value 2: the references are 1, 3 and 9. -/
theorem C23_references_and_defines_witness :
    ∃ v, init.VisitAll [Callback.Block 0 false []] = some v ∧
      ∃ v1, v.VisitAll
          [Callback.Load 2 MachineRepresentation.kTagged MachineSemantic.kAny 1 5,
           Callback.Binary BinaryOp.Int32Add 4 2 9,
           Callback.Store 6 MachineRepresentation.kTagged WriteBarrierKind.kNoWriteBarrier
             2 5 3] = some v1 ∧
        v1.current_references_.elems = [1, 3, 9] ∧ v1.current_defines_.elems = [2, 4, 6] ∧
        ∀ x, x ∈ v1.current_references_.elems ↔
          UsedBeforeDefined
            [Callback.Load 2 MachineRepresentation.kTagged MachineSemantic.kAny 1 5,
             Callback.Binary BinaryOp.Int32Add 4 2 9,
             Callback.Store 6 MachineRepresentation.kTagged WriteBarrierKind.kNoWriteBarrier
               2 5 3] x := by
  refine ⟨_, rfl, ?_⟩
  obtain ⟨⟨v1, h0, h1, -⟩, -, -⟩ := C23_references_and_defines
    { basic_block_manager_ :=
        { bbs := [{ id := 0, predecessors := [], successors := [], liveins := [],
                    deferred := false, impl := some { phis := [], defines := StdSet.empty } }],
          rpo := [0] },
      current_basic_block_ := some 0, current_references_ := StdSet.empty,
      current_defines_ := StdSet.empty }
    [Callback.Load 2 MachineRepresentation.kTagged MachineSemantic.kAny 1 5,
     Callback.Binary BinaryOp.Int32Add 4 2 9,
     Callback.Store 6 MachineRepresentation.kTagged WriteBarrierKind.kNoWriteBarrier 2 5 3]
    0 _ { phis := [], defines := StdSet.empty } (by decide) rfl rfl rfl rfl rfl rfl
  have e : v1 = _ := Option.some.inj (h0.symm.trans rfl)
  exact ⟨v1, h0, by rw [e]; rfl, by rw [e]; rfl, h1⟩


/-! ## C24: the condition of a branch -/

/-- C24 does not hold of the code: `VisitBranch` of the liveness pass does
not read the condition, so a branch visited with one condition leaves the
same state as with any other, and the live-in candidates of the block are
the references as they were before the branch. On `branchCallbacks`, where
block 0 defines value 5 and block 1 branches on it, block 1 has no live-in
after the pass and after the worklist loop; the builder, run on that store,
enters block 1 without a binding for value 5, and its `VisitBranch`, which
looks the condition up in the current block, fails. -/
theorem C24_branch_condition_not_recorded :
    (∀ (v : LivenessAnalysisVisitor) (id cmp cmp2 btrue bfalse : Int),
      v.Visit (Callback.Branch id cmp btrue bfalse) =
        v.Visit (Callback.Branch id cmp2 btrue bfalse)) ∧
    ∃ v final b,
      VisitAll init branchCallbacks = some v ∧
      (findBB v.basic_block_manager_ 1).map (fun B => B.liveins) = some [] ∧
      (findBB v.basic_block_manager_ 0).map definesOf = some [5] ∧
      worklistLoop 4 v.basic_block_manager_ (initialWorklist v.basic_block_manager_) =
        some final ∧
      (findBB final 1).map (fun B => B.liveins) = some [] ∧
      ((((builderOn (builderBlocksOf final)).VisitBlock 0).bind
        (fun b => b.VisitInt32Constant 5 1)).bind
        (fun b => LLVMTFBuilder.VisitGoto b 1)).bind (fun b => LLVMTFBuilder.VisitBlock b 1) =
        some b ∧
      valueIn b.basic_block_manager_ 0 5 = some (Output.constInt32 1) ∧
      b.current_bb_ = some 1 ∧
      valueIn b.basic_block_manager_ 1 5 = none ∧
      LLVMTFBuilder.VisitBranch b 6 5 2 3 = none :=
  ⟨fun _ _ _ _ _ _ => rfl, _, _, _, rfl, rfl, rfl, rfl, rfl, rfl, rfl, rfl, rfl, rfl⟩

/-! ## C27: the register of the call target -/

theorem freeRegisters_head_least (regs : List Int) (f : Nat)
    (hf : (freeRegisters regs).head? = some f) :
    f < 10 ∧ (f : Int) ∉ regs ∧ ∀ g : Nat, g < f → (g : Int) ∈ regs := by
  have hmem : f ∈ freeRegisters regs := List.mem_of_mem_head? hf
  obtain ⟨h1, h2, h3, h4⟩ := freeRegisters_lt regs f hmem
  have h10 : f < 10 := by
    have e1 : kV8CCRegisterParameterCount = 12 := rfl
    have e2 : kRootReg = 10 := rfl
    have e3 : kFPReg = 11 := rfl
    omega
  refine ⟨h10, h2, fun g hg => ?_⟩
  by_contra hn
  have hgm : g ∈ freeRegisters regs := by
    unfold freeRegisters
    rw [List.mem_filter, List.mem_range]
    have e1 : kV8CCRegisterParameterCount = 12 := rfl
    have e2 : kRootReg = 10 := rfl
    have e3 : kFPReg = 11 := rfl
    refine ⟨by omega, ?_⟩
    simp only [Bool.and_eq_true, decide_eq_true_eq]
    exact ⟨⟨hn, by omega⟩, by omega⟩
  have hs := freeRegisters_sorted regs
  cases hF : freeRegisters regs with
  | nil => rw [hF] at hmem; cases hmem
  | cons a F =>
    rw [hF] at hf hgm hs
    simp only [List.head?_cons, Option.some.injEq] at hf
    subst hf
    rcases List.mem_cons.mp hgm with e | hm
    · omega
    · have := (List.pairwise_cons.mp hs).1 g hm
      omega

/-- Counterexample to C27 as stated: the mapping gives the registers 0 to 9
to ten operands; the target is present, `FindNextReg` finds no register, and
the first entry of the location list is -1; the target is passed behind the
12 register slots. -/
theorem C27_counterexample :
    ∃ r', (CallOperandResolver.new 0 (LValue.inst 13 LType.taggedType)).Resolve callBlocks
        callOutput [0, 1, 2, 4, 5, 6, 7, 8, 9, 10] [0, 1, 2, 3, 4, 5, 6, 7, 8, 9] = some r' ∧
      (LValue.inst 13 LType.taggedType).isUndef = false ∧
      r'.locations_ = [-1] ∧
      r'.operand_values_[12]? = some (LValue.inst 13 LType.taggedType) ∧
      r'.operand_values_.length = 13 :=
  ⟨_, rfl, rfl, rfl, rfl, rfl⟩

/-- C27, amended: after a call of `Resolve` on a new resolver that returns,
a target that is present and finds a register in 0..9 to which the mapping
gives no operand sits in the lowest such register: the register is below 10,
no operand is mapped to it, every lower register has a mapped operand, the
operand slot of the register holds the target, and the register is the
first entry of the location list. The first entry of the location list is -1
if and only if the target is absent or every register in 0..9 has a mapped
operand; in the latter case the target is passed behind the 12 register
slots. -/
theorem C27_target_register (bbm : BuilderBlocks) (output : Output) (cur : Int)
    (target : LValue) (operands regs : List Int) (r' : CallOperandResolver)
    (h : (CallOperandResolver.new cur target).Resolve bbm output operands regs = some r') :
    (∀ f, target.isUndef = false → (freeRegisters regs).head? = some f →
      r'.locations_.head? = some (f : Int) ∧ r'.operand_values_[f]? = some target ∧
      f < 10 ∧ (f : Int) ∉ regs ∧ ∀ g : Nat, g < f → (g : Int) ∈ regs) ∧
    (target.isUndef = false → freeRegisters regs = [] →
      r'.operand_values_[kV8CCRegisterParameterCount]? = some target) ∧
    (r'.locations_.head? = some (-1) ↔ target.isUndef = true ∨ freeRegisters regs = []) := by
  obtain ⟨fixedValues, stackValues, q1, -, -, -, -, -, q7, hloc⟩ := Resolve_spec h
  have hlt : ∀ f ∈ freeRegisters regs, f < fixedValues.length := fun f hf => by
    rw [q1]; exact (freeRegisters_lt regs f hf).1
  have hserved : ∀ (k f : Nat) (q : LValue), (freeRegisters regs)[k]? = some f →
      ((if target.isUndef then [] else [target]) ++ stackValues)[k]? = some q →
      r'.operand_values_[f]? = some q := by
    intro k f q hk hq
    rw [q7]
    exact assignQueue_served _ _ _ (freeRegisters_sorted regs) hlt k f q hk hq
  have hover : r'.operand_values_.drop kV8CCRegisterParameterCount =
      ((if target.isUndef then [] else [target]) ++ stackValues).drop
        (freeRegisters regs).length := by
    rw [q7, ← q1]
    exact assignQueue_overflow _ _ _ hlt
  refine ⟨fun f hu hf => ?_, fun hu hnil => ?_, ?_⟩
  · obtain ⟨a1, a2, a3⟩ := freeRegisters_head_least regs f hf
    refine ⟨?_, ?_, a1, a2, a3⟩
    · rw [hloc]
      cases hF : freeRegisters regs with
      | nil => rw [hF] at hf; cases hf
      | cons a F =>
        rw [hF] at hf
        simp only [List.head?_cons, Option.some.injEq] at hf
        subst hf
        simp [hu, queueLocations_cons_succ]
    · apply hserved 0 f target
      · cases hF : freeRegisters regs with
        | nil => rw [hF] at hf; cases hf
        | cons a F =>
          rw [hF] at hf
          simpa using hf
      · simp [hu]
  · have := congrArg (fun l => l[0]?) hover
    simp only [hu, hnil, List.length_nil, List.drop_zero, Bool.false_eq_true, if_false,
      List.singleton_append, List.getElem?_cons_zero] at this
    rw [← this]
    simp
  · rw [hloc]
    by_cases hu : target.isUndef = true
    · simp [hu]
    · have hu' : target.isUndef = false := by simpa using hu
      cases hF : freeRegisters regs with
      | nil => simp [hu', queueLocations_nil_succ]
      | cons a F =>
        simp only [hu', Bool.false_eq_true, if_false, List.nil_append, List.singleton_append,
          List.length_cons, queueLocations_cons_succ, List.head?_cons, Option.some.injEq,
          false_or]
        constructor
        · intro e
          omega
        · intro e
          cases e

/-- A call with one operand in register 0 and one without register: the
target gets register 1, the lowest free one. -/
theorem C27_target_register_witness :
    ∃ r', (CallOperandResolver.new 0 (LValue.inst 1 LType.taggedType)).Resolve callBlocks
        callOutput [4, 5] [0, -1] = some r' ∧
      r'.locations_.head? = some 1 ∧
      r'.operand_values_[1]? = some (LValue.inst 1 LType.taggedType) := by
  have h1 : ∃ r', (CallOperandResolver.new 0 (LValue.inst 1 LType.taggedType)).Resolve
      callBlocks callOutput [4, 5] [0, -1] = some r' := ⟨_, rfl⟩
  obtain ⟨r', hr'⟩ := h1
  obtain ⟨a, -, -⟩ := C27_target_register _ _ _ _ _ _ r' hr'
  obtain ⟨b1, b2, -⟩ := a 1 rfl (by decide)
  exact ⟨r', hr', b1, b2⟩

/-! ## C30: the indices of the tracked references -/

theorem trackedIds_cons (bbm : BuilderBlocks) (cur id live : Int) (rest : List Int) :
    trackedIds bbm cur id (live :: rest) =
      if live ≠ id ∧ ∃ v, valueIn bbm cur live = some v ∧ typeOf v = LType.taggedType then
        live :: trackedIds bbm cur id rest
      else trackedIds bbm cur id rest := by
  unfold trackedIds
  rw [List.filter_cons]
  by_cases hid : live = id
  · simp [hid]
  · cases hv : valueIn bbm cur live with
    | none => simp [hid]
    | some v =>
      by_cases ht : typeOf v = LType.taggedType
      · simp [hid, ht]
      · simp [hid, ht]

theorem trackedIds_congr {bbm bbm' : BuilderBlocks} (cur id : Int) (liveins : List Int)
    (h : ∀ l ∈ liveins, (∃ v, valueIn bbm' cur l = some v ∧ typeOf v = LType.taggedType) ↔
      ∃ v, valueIn bbm cur l = some v ∧ typeOf v = LType.taggedType) :
    trackedIds bbm' cur id liveins = trackedIds bbm cur id liveins := by
  induction liveins with
  | nil => rfl
  | cons l rest ih =>
    rw [trackedIds_cons, trackedIds_cons, ih (fun x hx => h x (List.mem_cons_of_mem _ hx))]
    exact if_congr (and_congr Iff.rfl (h l (List.mem_cons_self _ _))) rfl rfl

theorem taggedBindings_eq (bbm : BuilderBlocks) (cur id : Int) (liveins : List Int) :
    (taggedBindings bbm cur (liveins.filter (fun l => l ≠ id))).map some =
      (trackedIds bbm cur id liveins).map (valueIn bbm cur) := by
  induction liveins with
  | nil => rfl
  | cons l rest ih =>
    rw [trackedIds_cons]
    by_cases hid : l = id
    · simp only [hid, ne_eq, not_true_eq_false, false_and, if_false]
      rw [← ih]
      simp [hid]
    · cases hv : valueIn bbm cur l with
      | none =>
        simp only [ne_eq, hid, not_false_eq_true, true_and, reduceCtorEq, false_and,
          exists_false, if_false]
        rw [← ih]
        simp [taggedBindings, hid, hv]
      | some v =>
        by_cases ht : typeOf v = LType.taggedType
        · simp only [ne_eq, hid, not_false_eq_true, Option.some.injEq, exists_eq_left', ht,
            and_self, if_true, List.map_cons, hv]
          rw [← ih]
          simp [taggedBindings, hid, hv, ht]
        · simp only [ne_eq, hid, not_false_eq_true, Option.some.injEq, exists_eq_left', ht,
            and_false, if_false]
          rw [← ih]
          simp [taggedBindings, hid, hv, ht]

/-- The relocate calls of the loop "rebuild value": one for each tracked
live-in, in order, with consecutive indices from `gc` on. -/
theorem relocateLiveins_calls (cur id : Int) (sp : LValue) (liveins : List Int) :
    ∀ (gc : Nat) (b b1 : LLVMTFBuilder), relocateLiveins cur id sp liveins gc b = some b1 →
      ∃ relocs : List Emitted,
        b1.output_.instructions = b.output_.instructions ++ relocs ∧
        relocs.map (fun e => e.instr) =
          (List.range (trackedIds b.basic_block_manager_ cur id liveins).length).map
            (fun k => Instr.call Intrinsic.gcRelocate
              [sp, Output.constInt32 ((gc + k : Nat) : Int),
               Output.constInt32 ((gc + k : Nat) : Int)]) ∧
        (liveins.Nodup → ∀ (k : Nat) (live : Int),
          (trackedIds b.basic_block_manager_ cur id liveins)[k]? = some live →
          ∃ e, relocs[k]? = some e ∧
            valueIn b1.basic_block_manager_ cur live = some e.result) := by
  induction liveins with
  | nil =>
    intro gc b b1 h
    simp only [relocateLiveins, Option.some.injEq] at h
    subst h
    exact ⟨[], by simp, rfl, fun _ k live hk => by simp [trackedIds] at hk⟩
  | cons livein rest ih =>
    intro gc b b1 h
    have hfull := h
    simp only [relocateLiveins] at h
    by_cases hid : livein = id
    · simp only [hid, if_true] at h
      obtain ⟨relocs, q1, q2, q3⟩ := ih gc b b1 h
      rw [trackedIds_cons]
      simp only [hid, ne_eq, not_true_eq_false, false_and, if_false]
      exact ⟨relocs, q1, q2, fun hnd => q3 (List.nodup_cons.mp hnd).2⟩
    · simp only [hid, if_false] at h
      cases hv : valueIn b.basic_block_manager_ cur livein with
      | none => simp [hv] at h
      | some v =>
        simp only [hv] at h
        by_cases ht : typeOf v = LType.taggedType
        · simp only [ht, ne_eq, not_true_eq_false, if_false, Output.buildCall,
            Output.emit] at h
          match hs : LLVMTFBuilder.set_value _ cur livein _, h with
          | some b0, h =>
            simp only at h
            obtain ⟨relocs, q1, q2, q3⟩ := ih (gc + 1) b0 b1 h
            obtain ⟨e0, hsome⟩ := set_value_some hs
            have hval : ∀ nid, valueIn b0.basic_block_manager_ cur nid =
                if nid = livein then some (LValue.inst b.output_.nextValue LType.taggedType)
                else valueIn b.basic_block_manager_ cur nid := by
              intro nid
              rw [e0]
              show valueIn (updateImpl _ _ _) cur nid = _
              rw [valueIn_updateImpl_set_value _ _ _ _ _ _ hsome]
              simp
            have htr : trackedIds b0.basic_block_manager_ cur id rest =
                trackedIds b.basic_block_manager_ cur id rest := by
              apply trackedIds_congr
              intro l _
              rw [hval]
              by_cases hl : l = livein
              · rw [if_pos hl, hl, hv]
                have e1 : typeOf (LValue.inst b.output_.nextValue LType.taggedType) =
                    LType.taggedType := rfl
                simp [ht, e1]
              · rw [if_neg hl]
            rw [htr] at q2 q3
            have hinstr : b0.output_.instructions = b.output_.instructions ++
                [{ position := b.output_.position, block := b.output_.currentBlock,
                   result := LValue.inst b.output_.nextValue LType.taggedType,
                   instr := Instr.call Intrinsic.gcRelocate
                     [sp, Output.constInt32 gc, Output.constInt32 gc] }] := by
              rw [e0]
            have hcond : livein ≠ id ∧ ∃ v, valueIn b.basic_block_manager_ cur livein = some v ∧
                typeOf v = LType.taggedType := ⟨hid, v, hv, ht⟩
            rw [trackedIds_cons, if_pos hcond]
            refine ⟨{ position := b.output_.position, block := b.output_.currentBlock,
                      result := LValue.inst b.output_.nextValue LType.taggedType,
                      instr := Instr.call Intrinsic.gcRelocate
                        [sp, Output.constInt32 gc, Output.constInt32 gc] } :: relocs,
              ?_, ?_, fun hnd k live hk => ?_⟩
            · rw [q1, hinstr, List.append_assoc, List.singleton_append]
            · rw [List.map_cons, q2, List.length_cons, List.range_succ_eq_map, List.map_cons,
                List.map_map]
              refine congrArg₂ _ (by simp) (List.map_congr_left (fun k _ => ?_))
              simp only [Function.comp_apply]
              have e : ((gc + 1 + k : Nat) : Int) = ((gc + (k + 1) : Nat) : Int) := by
                push_cast; ring
              rw [e]
            · rw [List.nodup_cons] at hnd
              cases k with
              | zero =>
                simp only [List.getElem?_cons_zero, Option.some.injEq] at hk
                subst hk
                refine ⟨_, List.getElem?_cons_zero, ?_⟩
                obtain ⟨u1, -, -, -⟩ := relocateLiveins_spec cur id sp rest (gc + 1) b0 b1 h
                rw [u1 livein hnd.1, hval, if_pos rfl]
              | succ k =>
                simp only [List.getElem?_cons_succ] at hk ⊢
                exact q3 hnd.2 k live hk
        · simp only [ne_eq, ht, not_false_eq_true, if_true] at h
          obtain ⟨relocs, q1, q2, q3⟩ := ih gc b b1 h
          have hcond : ¬ (livein ≠ id ∧ ∃ v, valueIn b.basic_block_manager_ cur livein = some v ∧
              typeOf v = LType.taggedType) := by
            rintro ⟨-, v', hv', ht'⟩
            rw [hv] at hv'
            cases hv'
            exact ht ht'
          rw [trackedIds_cons, if_neg hcond]
          exact ⟨relocs, q1, q2, fun hnd => q3 (List.nodup_cons.mp hnd).2⟩


theorem callTarget_instructions {b : LLVMTFBuilder} {k : V8Constants} {cur first : Int}
    {code : Bool} {out1 : Output} {target : LValue} {code_magic : Int} {addition0 : Nat}
    (h : b.callTarget k cur code first = some (out1, target, code_magic, addition0)) :
    ∃ pre : List Emitted, out1.instructions = b.output_.instructions ++ pre ∧
      ∀ e ∈ pre, ∀ f a, e.instr ≠ Instr.call f a := by
  unfold callTarget at h
  by_cases hc : code = true
  · simp only [hc, if_true] at h
    cases hl : b.code_uses_map_.lookup first with
    | some magic =>
      simp only [hl, Option.some.injEq, Prod.mk.injEq] at h
      exact ⟨[], by rw [← h.1]; simp, fun e he => by simp at he⟩
    | none =>
      simp only [hl] at h
      cases hv : valueIn b.basic_block_manager_ cur first with
      | none => simp [hv] at h
      | some cv =>
        simp only [hv, Output.buildGEPWithByteOffset, Output.emit, Option.some.injEq,
          Prod.mk.injEq] at h
        refine ⟨_, by rw [← h.1], fun e he f a => ?_⟩
        rw [List.mem_singleton] at he
        rw [he]
        simp
  · simp only [hc, if_false] at h
    cases hv : valueIn b.basic_block_manager_ cur first with
    | none => simp [hv] at h
    | some cv =>
      simp only [hv, Bool.false_eq_true, if_false, Option.some.injEq, Prod.mk.injEq] at h
      exact ⟨[], by rw [← h.1]; simp, fun e he => by simp at he⟩

theorem statepointHeader_length (patchid : Nat) (resolver : CallOperandResolver)
    (addition : Nat) (callee_type : LType) :
    (statepointHeader patchid resolver addition callee_type).length =
      7 + resolver.operand_values_.length := by
  simp [statepointHeader]
  omega

theorem statepointHeader_params (patchid : Nat) (resolver : CallOperandResolver)
    (addition : Nat) (callee_type : LType) :
    (statepointHeader patchid resolver addition callee_type)[3]? =
        some (Output.constInt32 resolver.operand_values_.length) ∧
      ((statepointHeader patchid resolver addition callee_type).drop 5).take
        resolver.operand_values_.length = resolver.operand_values_ := by
  constructor
  · simp [statepointHeader]
  · simp [statepointHeader]

/-- The instructions that a non-tail call emits, with the indices of the
tracked references. -/
theorem DoCall_calls {b b2 : LLVMTFBuilder} {k : V8Constants} {id cur front : Int} {code : Bool}
    {call_desc : CallDescriptor} {operands : List Int}
    {bb successor : BasicBlock LLVMTFBuilderBasicBlockImpl} {more : List Int}
    (hcur : b.current_bb_ = some cur) (hbb : findBB b.basic_block_manager_ cur = some bb)
    (hsucc : bb.successors = front :: more)
    (hfront : findBB b.basic_block_manager_ front = some successor)
    (h : b.DoCall k id code call_desc operands false = some b2) :
    ∃ (target : LValue) (out : Output) (resolver : CallOperandResolver) (header : List LValue)
      (pre relocs : List Emitted) (spE resE : Emitted),
      (CallOperandResolver.new cur target).Resolve b.basic_block_manager_ out operands.tail
        call_desc.registers_for_operands = some resolver ∧
      header.length = 7 + resolver.operand_values_.length ∧
      header[3]? = some (Output.constInt32 resolver.operand_values_.length) ∧
      (header.drop 5).take resolver.operand_values_.length = resolver.operand_values_ ∧
      b2.output_.instructions = b.output_.instructions ++ pre ++ [spE] ++ relocs ++ [resE] ∧
      (∀ e ∈ pre, ∀ f a, e.instr ≠ Instr.call f a) ∧
      spE.instr = Instr.call Intrinsic.statepoint
        (header ++ taggedBindings b.basic_block_manager_ cur
          (successor.liveins.filter (fun l => l ≠ id))) ∧
      resE.instr = Instr.call
        (if call_desc.return_count = 2 then Intrinsic.gcResult2 else Intrinsic.gcResult)
        [spE.result] ∧
      relocs.map (fun e => e.instr) =
        (List.range (trackedIds b.basic_block_manager_ cur id successor.liveins).length).map
          (fun i => Instr.call Intrinsic.gcRelocate
            [spE.result, Output.constInt32 ((header.length + i : Nat) : Int),
             Output.constInt32 ((header.length + i : Nat) : Int)]) ∧
      (successor.liveins.Nodup → ∀ (i : Nat) (live : Int),
        (trackedIds b.basic_block_manager_ cur id successor.liveins)[i]? = some live →
        ∃ e, relocs[i]? = some e ∧
          valueIn b2.basic_block_manager_ cur live = some e.result) := by
  unfold DoCall at h
  cases operands with
  | nil => simp [hcur] at h
  | cons first rest =>
    simp only [hcur] at h
    cases ht : b.callTarget k cur code first with
    | none => simp [ht] at h
    | some t =>
      obtain ⟨out1, target, code_magic, addition0⟩ := t
      simp only [ht, Bool.false_eq_true, false_and, if_false] at h
      obtain ⟨pre, hpre, hnocall⟩ := callTarget_instructions ht
      cases hres : (CallOperandResolver.new cur target).Resolve b.basic_block_manager_ out1 rest
          call_desc.registers_for_operands with
      | none => simp [hres] at h
      | some resolver =>
        simp only [hres, hbb, hsucc, hfront] at h
        cases hg : gcOperands b.basic_block_manager_ cur id successor.liveins with
        | none => simp [hg] at h
        | some T =>
          simp only [hg, Output.buildCall, Output.emit] at h
          rw [gcOperands_eq _ _ _ _ T hg] at h
          match hre : rebindAfterCall _ _ _ _ _, h with
          | some b3, h =>
            simp only [Option.some.injEq] at h
            subst h
            unfold rebindAfterCall at hre
            simp only [hcur, hbb, hsucc, hfront] at hre
            match hr : relocateLiveins _ _ _ _ _ _, hre with
            | some b1, hre =>
              simp only [Output.buildCall, Output.emit] at hre
              obtain ⟨relocs, q1, q2, q3⟩ := relocateLiveins_calls _ _ _ _ _ _ _ hr
              obtain ⟨e0, hsome⟩ := set_value_some hre
              have hval : ∀ nid, valueIn b3.basic_block_manager_ cur nid =
                  if nid = id then some (LValue.inst b1.output_.nextValue
                      (if call_desc.return_count = 2 then LType.other 2 else LType.taggedType))
                  else valueIn b1.basic_block_manager_ cur nid := by
                intro nid
                rw [e0]
                show valueIn (updateImpl _ _ _) cur nid = _
                rw [valueIn_updateImpl_set_value _ _ _ _ _ _ hsome]
                simp
              refine ⟨target, out1, resolver,
                statepointHeader b.state_point_id_next_ resolver addition0
                  (LType.callee
                    (if call_desc.return_count = 2 then LType.other 2 else LType.taggedType)
                    resolver.operand_value_types_.length),
                pre, relocs,
                { position := out1.position, block := out1.currentBlock,
                  result := LValue.inst out1.nextValue (LType.other 1),
                  instr := Instr.call Intrinsic.statepoint
                    (statepointHeader b.state_point_id_next_ resolver addition0
                      (LType.callee
                        (if call_desc.return_count = 2 then LType.other 2
                         else LType.taggedType)
                        resolver.operand_value_types_.length) ++
                      taggedBindings b.basic_block_manager_ cur
                        (successor.liveins.filter (fun l => l ≠ id))) },
                { position := b1.output_.position, block := b1.output_.currentBlock,
                  result := LValue.inst b1.output_.nextValue
                    (if call_desc.return_count = 2 then LType.other 2 else LType.taggedType),
                  instr := Instr.call
                    (if call_desc.return_count = 2 then Intrinsic.gcResult2
                     else Intrinsic.gcResult) [LValue.inst out1.nextValue (LType.other 1)] },
                hres, statepointHeader_length _ _ _ _, (statepointHeader_params _ _ _ _).1,
                (statepointHeader_params _ _ _ _).2, ?_, hnocall, rfl, rfl, q2, ?_⟩
              · rw [e0]
                show b1.output_.instructions ++ _ = _
                rw [q1]
                show (out1.instructions ++ _) ++ _ ++ _ = _
                rw [hpre]
              · intro hnd i live hi
                obtain ⟨e, e1, e2⟩ := q3 hnd i live hi
                refine ⟨e, e1, ?_⟩
                have hne : live ≠ id := by
                  have hm := List.mem_iff_getElem?.mpr ⟨i, hi⟩
                  unfold trackedIds at hm
                  rw [List.mem_filter] at hm
                  have hm2 := hm.2
                  rw [Bool.and_eq_true] at hm2
                  exact of_decide_eq_true hm2.1
                show valueIn b3.basic_block_manager_ cur live = _
                rw [hval, if_neg hne]
                exact e2


/-- C30: in `DoCall` for a call that is not a tail call, let `n` be the number
of operand values of the call's resolver, which is also the statepoint
operand at index 3, followed at indices 5 to 4 + n by those values. The
statepoint operand list has 7 + n operands and then the tracked references;
the i-th tracked id (from 0, in the order of the live-ins of the current
block's first successor, the call's own id and the ids bound to a value that
is not tagged left out) has its binding at index 7 + n + i. The calls that
`DoCall` emits are the statepoint call, then the relocate calls, then the
call that takes the result: the relocate calls are as many as the tracked
references, the i-th has the statepoint's result and twice the index
7 + n + i as operands, and, the live-ins being without repetition, its result
is the binding of the i-th tracked id after the call. -/
theorem C30_tracked_reference_indices (b b2 : LLVMTFBuilder) (k : V8Constants)
    (id cur front : Int) (code : Bool) (call_desc : CallDescriptor) (operands : List Int)
    (bb successor : BasicBlock LLVMTFBuilderBasicBlockImpl) (more : List Int)
    (hcur : b.current_bb_ = some cur) (hbb : findBB b.basic_block_manager_ cur = some bb)
    (hsucc : bb.successors = front :: more)
    (hfront : findBB b.basic_block_manager_ front = some successor)
    (h : b.DoCall k id code call_desc operands false = some b2) :
    ∃ (target : LValue) (out : Output) (resolver : CallOperandResolver) (args : List LValue)
      (pre relocs : List Emitted) (spE resE : Emitted),
      (CallOperandResolver.new cur target).Resolve b.basic_block_manager_ out operands.tail
        call_desc.registers_for_operands = some resolver ∧
      args[3]? = some (Output.constInt32 resolver.operand_values_.length) ∧
      (args.drop 5).take resolver.operand_values_.length = resolver.operand_values_ ∧
      b2.output_.instructions = b.output_.instructions ++ pre ++ [spE] ++ relocs ++ [resE] ∧
      (∀ e ∈ pre, ∀ f a, e.instr ≠ Instr.call f a) ∧
      spE.instr = Instr.call Intrinsic.statepoint args ∧
      resE.instr = Instr.call
        (if call_desc.return_count = 2 then Intrinsic.gcResult2 else Intrinsic.gcResult)
        [spE.result] ∧
      args.length = 7 + resolver.operand_values_.length +
        (trackedIds b.basic_block_manager_ cur id successor.liveins).length ∧
      (∀ (i : Nat) (live : Int),
        (trackedIds b.basic_block_manager_ cur id successor.liveins)[i]? = some live →
        ∃ v, valueIn b.basic_block_manager_ cur live = some v ∧ typeOf v = LType.taggedType ∧
          args[7 + resolver.operand_values_.length + i]? = some v) ∧
      relocs.length = (trackedIds b.basic_block_manager_ cur id successor.liveins).length ∧
      args.length = 7 + resolver.operand_values_.length + relocs.length ∧
      (∀ (i : Nat) (e : Emitted), relocs[i]? = some e →
        e.instr = Instr.call Intrinsic.gcRelocate
          [spE.result,
           Output.constInt32 ((7 + resolver.operand_values_.length + i : Nat) : Int),
           Output.constInt32 ((7 + resolver.operand_values_.length + i : Nat) : Int)]) ∧
      (successor.liveins.Nodup → ∀ (i : Nat) (live : Int),
        (trackedIds b.basic_block_manager_ cur id successor.liveins)[i]? = some live →
        ∃ e, relocs[i]? = some e ∧
          valueIn b2.basic_block_manager_ cur live = some e.result) := by
  obtain ⟨target, out, resolver, header, pre, relocs, spE, resE, q1, q2, q3, q4, q5, q6, q7, q8,
    q9, q10⟩ := DoCall_calls hcur hbb hsucc hfront h
  have htb := taggedBindings_eq b.basic_block_manager_ cur id successor.liveins
  have hlen : (taggedBindings b.basic_block_manager_ cur
      (successor.liveins.filter (fun l => l ≠ id))).length =
      (trackedIds b.basic_block_manager_ cur id successor.liveins).length := by
    have := congrArg List.length htb
    simpa using this
  have hrl : relocs.length =
      (trackedIds b.basic_block_manager_ cur id successor.liveins).length := by
    have := congrArg List.length q9
    simpa using this
  have h3 : 3 < header.length := by omega
  refine ⟨target, out, resolver, _, pre, relocs, spE, resE, q1, ?_, ?_, q5, q6, q7, q8, ?_, ?_,
    hrl, ?_, ?_, q10⟩
  · rw [List.getElem?_append_left h3]
    exact q3
  · rw [List.drop_append_of_le_length (by omega), List.take_append_of_le_length
      (by rw [List.length_drop]; omega)]
    exact q4
  · rw [List.length_append, q2, hlen]
  · intro i live hi
    have hm := List.mem_iff_getElem?.mpr ⟨i, hi⟩
    unfold trackedIds at hm
    rw [List.mem_filter, Bool.and_eq_true] at hm
    have hi2 : ((taggedBindings b.basic_block_manager_ cur
        (successor.liveins.filter (fun l => l ≠ id))).map some)[i]? =
        some (valueIn b.basic_block_manager_ cur live) := by
      rw [htb, List.getElem?_map, hi]
      rfl
    rw [List.getElem?_map] at hi2
    cases hv : valueIn b.basic_block_manager_ cur live with
    | none =>
      have := hm.2.2
      rw [hv] at this
      cases this
    | some v =>
      have ht := hm.2.2
      rw [hv] at ht
      refine ⟨v, rfl, of_decide_eq_true ht, ?_⟩
      rw [← q2, List.getElem?_append_right (by omega)]
      have e : header.length + i - header.length = i := by omega
      rw [e]
      cases hg : (taggedBindings b.basic_block_manager_ cur
          (successor.liveins.filter (fun l => l ≠ id)))[i]? with
      | none => rw [hg] at hi2; cases hi2
      | some w =>
        rw [hg, hv] at hi2
        simp only [Option.map_some', Option.some.injEq] at hi2
        rw [hi2]
  · rw [List.length_append, q2, hlen, hrl]
  · intro i e hie
    have hi2 : (relocs.map (fun e => e.instr))[i]? = some e.instr := by
      rw [List.getElem?_map, hie]
      rfl
    rw [q9, List.getElem?_map] at hi2
    have hlt : i < (trackedIds b.basic_block_manager_ cur id successor.liveins).length := by
      rw [← hrl]
      exact (List.getElem?_eq_some_iff.mp hie).1
    rw [List.getElem?_range hlt] at hi2
    simp only [Option.map_some', Option.some.injEq] at hi2
    rw [← hi2, q2]

/-- The call of `callState`, whose resolver has 12 operand values: the one
tracked reference, the binding of value 2, is the statepoint operand at index
19, the one relocate call has the index 19 twice, and its result is the
binding of value 2 after the call. -/
theorem C30_tracked_reference_indices_witness :
    ∃ b2, callState.DoCall armConstants 9 false
        { registers_for_operands := [0, -1], return_count := 1 } [1, 4, 5] false = some b2 ∧
      trackedIds callState.basic_block_manager_ 0 9 [2, 3, 9] = [2] ∧
      ∃ (target : LValue) (out : Output) (resolver : CallOperandResolver) (args : List LValue)
        (pre relocs : List Emitted) (spE resE : Emitted),
        (CallOperandResolver.new 0 target).Resolve callState.basic_block_manager_ out [4, 5]
          [0, -1] = some resolver ∧
        args[3]? = some (Output.constInt32 resolver.operand_values_.length) ∧
        (args.drop 5).take resolver.operand_values_.length = resolver.operand_values_ ∧
        b2.output_.instructions =
          callState.output_.instructions ++ pre ++ [spE] ++ relocs ++ [resE] ∧
        (∀ e ∈ pre, ∀ f a, e.instr ≠ Instr.call f a) ∧
        spE.instr = Instr.call Intrinsic.statepoint args ∧
        resE.instr = Instr.call
          (if (1 : Nat) = 2 then Intrinsic.gcResult2 else Intrinsic.gcResult) [spE.result] ∧
        args.length = 7 + resolver.operand_values_.length +
          (trackedIds callState.basic_block_manager_ 0 9 [2, 3, 9]).length ∧
        (∀ (i : Nat) (live : Int),
          (trackedIds callState.basic_block_manager_ 0 9 [2, 3, 9])[i]? = some live →
          ∃ v, valueIn callState.basic_block_manager_ 0 live = some v ∧
            typeOf v = LType.taggedType ∧
            args[7 + resolver.operand_values_.length + i]? = some v) ∧
        relocs.length = (trackedIds callState.basic_block_manager_ 0 9 [2, 3, 9]).length ∧
        args.length = 7 + resolver.operand_values_.length + relocs.length ∧
        (∀ (i : Nat) (e : Emitted), relocs[i]? = some e →
          e.instr = Instr.call Intrinsic.gcRelocate
            [spE.result,
             Output.constInt32 ((7 + resolver.operand_values_.length + i : Nat) : Int),
             Output.constInt32 ((7 + resolver.operand_values_.length + i : Nat) : Int)]) ∧
        (([2, 3, 9] : List Int).Nodup → ∀ (i : Nat) (live : Int),
          (trackedIds callState.basic_block_manager_ 0 9 [2, 3, 9])[i]? = some live →
          ∃ e, relocs[i]? = some e ∧
            valueIn b2.basic_block_manager_ 0 live = some e.result) :=
  ⟨_, rfl, by decide, C30_tracked_reference_indices callState _ armConstants 9 0 1 false
    { registers_for_operands := [0, -1], return_count := 1 } [1, 4, 5]
    (builderBlock 0 [] [1] []
      (some { not_merged_phis := [],
              values_ := [(0, .inst 0 .taggedType), (1, .inst 1 .taggedType),
                          (2, .inst 2 .taggedType), (3, .inst 3 .int32),
                          (4, .inst 4 .taggedType), (5, .inst 5 .taggedType),
                          (6, .inst 6 .taggedType), (7, .inst 7 .taggedType),
                          (8, .inst 8 .taggedType), (9, .inst 9 .taggedType),
                          (10, .inst 10 .taggedType), (11, .inst 11 .taggedType),
                          (12, .inst 12 .taggedType), (13, .inst 13 .taggedType)],
              native_bb := some 0, continuation := some 0,
              started := true, ended := false }))
    (builderBlock 1 [0] [] [2, 3, 9] none) [] rfl rfl rfl rfl rfl⟩

/-! ## C22: a section without its last byte -/

theorem instructionsOf_append (k : V8Constants) (l1 l2 : List MasmInstr) :
    instructionsOf k (l1 ++ l2) = instructionsOf k l1 + instructionsOf k l2 := by
  unfold instructionsOf
  rw [List.map_append, List.sum_append]

theorem instructionCount_pos (k : V8Constants) (i : MasmInstr) :
    1 ≤ i.instructionCount k := by
  cases i <;> simp [MasmInstr.instructionCount]

theorem length_le_instructionsOf (k : V8Constants) (l : List MasmInstr) :
    l.length ≤ instructionsOf k l := by
  induction l with
  | nil => simp [instructionsOf]
  | cons i rest ih =>
    have h1 := instructionCount_pos k i
    have e : instructionsOf k (i :: rest) = i.instructionCount k + instructionsOf k rest := by
      simp [instructionsOf]
    rw [e, List.length_cons]
    omega

theorem pc_offset_append (k : V8Constants) (m m2 : MacroAssembler) (emitted : List MasmInstr)
    (h : m2.buffer = m.buffer ++ emitted) :
    m2.pc_offset k - m.pc_offset k = 4 * (instructionsOf k emitted : Int) := by
  unfold MacroAssembler.pc_offset
  rw [h, instructionsOf_append]
  push_cast
  ring

/-- The emitting calls of `HandleCall`, in order: the adjustment of the stack
pointer of a tail call that returns values, the push of the registers of the
list, and the branch. -/
theorem HandleCall_buffer (m : MacroAssembler) (is_tailcall : Bool)
    (tailcall_return_count : Int) (reg_list : Nat) (call_target_reg : Int) :
    (if (!is_tailcall) = true then
      (if reg_list ≠ 0 then
        (if is_tailcall = true ∧ tailcall_return_count ≠ 0 then
          m.emit (MasmInstr.add_imm Register.sp Register.sp
            (toInt32 (tailcall_return_count * 4)))
         else m).emit (MasmInstr.stm_db_w Register.sp reg_list)
       else
        (if is_tailcall = true ∧ tailcall_return_count ≠ 0 then
          m.emit (MasmInstr.add_imm Register.sp Register.sp
            (toInt32 (tailcall_return_count * 4)))
         else m)).emit (MasmInstr.blx (Register.from_code call_target_reg))
     else
      (if reg_list ≠ 0 then
        (if is_tailcall = true ∧ tailcall_return_count ≠ 0 then
          m.emit (MasmInstr.add_imm Register.sp Register.sp
            (toInt32 (tailcall_return_count * 4)))
         else m).emit (MasmInstr.stm_db_w Register.sp reg_list)
       else
        (if is_tailcall = true ∧ tailcall_return_count ≠ 0 then
          m.emit (MasmInstr.add_imm Register.sp Register.sp
            (toInt32 (tailcall_return_count * 4)))
         else m)).emit (MasmInstr.bx (Register.from_code call_target_reg))).buffer =
    m.buffer ++
      ((if is_tailcall = true ∧ tailcall_return_count ≠ 0 then
          [MasmInstr.add_imm Register.sp Register.sp (toInt32 (tailcall_return_count * 4))]
        else []) ++
       (if reg_list ≠ 0 then [MasmInstr.stm_db_w Register.sp reg_list] else []) ++
       [if is_tailcall = true then MasmInstr.bx (Register.from_code call_target_reg)
        else MasmInstr.blx (Register.from_code call_target_reg)]) := by
  cases is_tailcall <;> by_cases hl : reg_list = 0 <;>
    by_cases hc : tailcall_return_count = 0 <;> simp [hl, hc, MacroAssembler.emit]

/-- Method `HandleCall`: when it returns, what it emits, what it returns and
the safepoint it defines. It makes no test on the locations after the
first. -/
theorem HandleCall_spec {g g2 : CodeGeneratorLLVM} {k : V8Constants} {locations : List Int}
    {is_tailcall : Bool} {tailcall_return_count n : Int} {record : StackMaps.Record}
    (h : g.HandleCall k locations is_tailcall tailcall_return_count record = some (g2, n)) :
    ∃ (call_target_reg : Int) (rest : List Int) (emitted : List MasmInstr),
      locations = call_target_reg :: rest ∧
      emitted =
        (if is_tailcall = true ∧ tailcall_return_count ≠ 0 then
          [MasmInstr.add_imm Register.sp Register.sp (toInt32 (tailcall_return_count * 4))]
         else []) ++
        (if regList k rest 0 ≠ 0 then [MasmInstr.stm_db_w Register.sp (regList k rest 0)]
         else []) ++
        [if is_tailcall = true then MasmInstr.bx (Register.from_code call_target_reg)
         else MasmInstr.blx (Register.from_code call_target_reg)] ∧
      g2.masm_.buffer = g.masm_.buffer ++ emitted ∧ n = instructionsOf k emitted ∧
      n = (g2.masm_.pc_offset k - g.masm_.pc_offset k) / 4 ∧
      g2.record_reference_map_ = g.record_reference_map_ ∧
      g2.slot_count_ = g.slot_count_ ∧
      (is_tailcall = true → g2.safepoint_table_builder_ = g.safepoint_table_builder_) ∧
      (is_tailcall = false → ∃ slots,
        definePointerSlots k g.slot_count_ record.locations [] = some slots ∧
        g2.safepoint_table_builder_ =
          g.safepoint_table_builder_ ++ [{ pc := g2.masm_.pc_offset k, slots := slots }]) := by
  unfold HandleCall at h
  cases locations with
  | nil => simp at h
  | cons call_target_reg rest =>
    simp only at h
    have hb := HandleCall_buffer g.masm_ is_tailcall tailcall_return_count (regList k rest 0)
      call_target_reg
    generalize hm3 : (if (!is_tailcall) = true then _ else _ : MacroAssembler) = m3 at h hb
    generalize hE : (_ ++ _ ++ [_] : List MasmInstr) = E at hb
    have hpc := pc_offset_append k g.masm_ m3 _ hb
    have h0 : ∀ x : Nat, (4 * (x : Int)) % 4 = 0 := fun x => by omega
    have h1 : ∀ x : Nat, (4 * (x : Int)) / 4 = x := fun x => by omega
    simp only [hpc, h0, h1, if_true] at h
    cases is_tailcall with
    | false =>
      simp only [Bool.not_false, if_true] at h
      cases hd : definePointerSlots k g.slot_count_ record.locations [] with
      | none => simp [hd] at h
      | some slots =>
        simp only [hd, Option.some.injEq, Prod.mk.injEq] at h
        obtain ⟨e1, e2⟩ := h
        subst e1
        refine ⟨call_target_reg, rest, E, rfl, hE.symm, hb, e2.symm, ?_, rfl, rfl,
          fun hf => (by cases hf), fun _ => ⟨slots, rfl, rfl⟩⟩
        show n = (m3.pc_offset k - g.masm_.pc_offset k) / 4
        rw [hpc, h1, ← e2]
    | true =>
      simp only [Bool.not_true, Bool.false_eq_true, if_false, Option.some.injEq,
        Prod.mk.injEq] at h
      obtain ⟨e1, e2⟩ := h
      subst e1
      refine ⟨call_target_reg, rest, E, rfl, hE.symm, hb, e2.symm, ?_, rfl, rfl,
        fun _ => rfl, fun hf => (by cases hf)⟩
      show n = (m3.pc_offset k - g.masm_.pc_offset k) / 4
      rw [hpc, h1, ← e2]

/-- The loop of `HandleCall` over the locations of the record returns exactly
when every Indirect location is based on register 13 or on register 11. -/
theorem definePointerSlots_isSome (k : V8Constants) (slot_count : Int)
    (locations : List StackMaps.Location) :
    ∀ acc, (definePointerSlots k slot_count locations acc).isSome = true ↔
      ∀ l ∈ locations, l.kind = StackMaps.Kind.Indirect → l.dwarfReg = 13 ∨ l.dwarfReg = 11 := by
  induction locations with
  | nil => intro acc; simp [definePointerSlots]
  | cons location rest ih =>
    intro acc
    simp only [definePointerSlots, List.mem_cons, forall_eq_or_imp]
    by_cases hk : location.kind = StackMaps.Kind.Indirect
    · simp only [hk, ne_eq, not_true_eq_false, if_false, true_implies]
      by_cases h13 : location.dwarfReg = 13
      · simp only [h13, if_true, true_or, true_and]
        exact ih _
      · simp only [h13, if_false, false_or]
        by_cases h11 : location.dwarfReg = 11
        · simp only [h11, if_true, true_and]
          exact ih _
        · simp [h11]
    · simp only [ne_eq, hk, not_false_eq_true, if_true, false_implies, true_and]
      exact ih _

/-- Method `HandleCall` returns exactly when the location list has the entry
of the call target and, for a call that is not a tail call, every Indirect
location of the record is based on register 13 or on register 11. -/
theorem HandleCall_isSome (g : CodeGeneratorLLVM) (k : V8Constants) (locations : List Int)
    (is_tailcall : Bool) (tailcall_return_count : Int) (record : StackMaps.Record) :
    (g.HandleCall k locations is_tailcall tailcall_return_count record).isSome = true ↔
      locations ≠ [] ∧ (is_tailcall = false → ∀ l ∈ record.locations,
        l.kind = StackMaps.Kind.Indirect → l.dwarfReg = 13 ∨ l.dwarfReg = 11) := by
  unfold HandleCall
  cases locations with
  | nil => simp
  | cons call_target_reg rest =>
    simp only
    have hb := HandleCall_buffer g.masm_ is_tailcall tailcall_return_count (regList k rest 0)
      call_target_reg
    generalize hm3 : (if (!is_tailcall) = true then _ else _ : MacroAssembler) = m3 at hb ⊢
    generalize hE : (_ ++ _ ++ [_] : List MasmInstr) = E at hb
    have hpc := pc_offset_append k g.masm_ m3 _ hb
    have h0 : ∀ x : Nat, (4 * (x : Int)) % 4 = 0 := fun x => by omega
    simp only [hpc, h0, if_true]
    cases is_tailcall with
    | false =>
      simp only [Bool.not_false, if_true, ne_eq, reduceCtorEq, not_false_eq_true, true_and,
        true_implies]
      rw [← definePointerSlots_isSome k g.slot_count_ record.locations []]
      cases hd : definePointerSlots k g.slot_count_ record.locations [] with
      | none => simp
      | some slots => simp
    | true => simp


/-- Method `HandleStoreBarrier` always returns: one branch is emitted and its
count of instructions is returned. -/
theorem HandleStoreBarrier_spec (g : CodeGeneratorLLVM) (k : V8Constants)
    (record : StackMaps.Record) :
    g.HandleStoreBarrier k record =
      some ({ g with masm_ := g.masm_.emit (MasmInstr.blx Register.ip) },
        (instructionsOf k [MasmInstr.blx Register.ip] : Int)) := by
  unfold HandleStoreBarrier
  have hpc := pc_offset_append k g.masm_ (g.masm_.emit (MasmInstr.blx Register.ip))
    [MasmInstr.blx Register.ip] rfl
  have h0 : ∀ x : Nat, (4 * (x : Int)) % 4 = 0 := fun x => by omega
  have h1 : ∀ x : Nat, (4 * (x : Int)) / 4 = x := fun x => by omega
  simp only [hpc, h0, h1, if_true]

/-- Method `HandleReturn`: the emitting calls it makes and the literal it
returns. -/
theorem HandleReturn_spec (g : CodeGeneratorLLVM) (pop_count_is_constant : Bool)
    (constant : Int) (record : StackMaps.Record) :
    g.HandleReturn pop_count_is_constant constant record =
      ({ g with masm_ := { buffer := g.masm_.buffer ++
          (if pop_count_is_constant = true then
            (if constant = 0 then [MasmInstr.bx Register.lr]
             else [MasmInstr.add_imm Register.sp Register.sp (toInt32 (constant * 4)),
                   MasmInstr.bx Register.lr])
           else [MasmInstr.add_lsl Register.sp Register.sp Register.r1 2,
                 MasmInstr.bx Register.lr]) } },
       if pop_count_is_constant = true ∧ constant = 0 then 1 else 2) := by
  unfold HandleReturn
  cases pop_count_is_constant with
  | true =>
    by_cases hc : constant = 0
    · simp [hc, MacroAssembler.emit]
    · simp [hc, MacroAssembler.emit]
  | false => simp [MacroAssembler.emit]

theorem toInt32_of_fits (x : Int) (h1 : -2 ^ 31 ≤ x) (h2 : x < 2 ^ 31) : toInt32 x = x := by
  unfold toInt32
  have e : (x + 2 ^ 31) % 2 ^ 32 = x + 2 ^ 31 := by
    apply Int.emod_eq_of_lt <;> omega
  rw [e]
  omega

/-! ## C19: the count a rewrite returns -/

/-- Counterexample to C19 as stated. `HandleReturn` for the constant pop
count 257 makes two emitting calls, the adjustment of the stack pointer by
1028 and the return branch, and returns 2; 1028 has no encoding as an
immediate, so that with `armConstants` the adjustment takes two instructions
and three instructions are emitted. And for the constant pop count 2^30 the
product by 4, taken on an `int`, is 0: the adjustment is by 0 and not by
2^32. -/
theorem C19_counterexample :
    (emptyGenerator.HandleReturn true 257 spillRecord).2 = 2 ∧
    (emptyGenerator.HandleReturn true 257 spillRecord).1.masm_.buffer =
      [MasmInstr.add_imm Register.sp Register.sp 1028, MasmInstr.bx Register.lr] ∧
    isArmImmediate 1028 = false ∧
    ((emptyGenerator.HandleReturn true 257 spillRecord).1.masm_.pc_offset armConstants -
      emptyGenerator.masm_.pc_offset armConstants) / 4 = 3 ∧
    (emptyGenerator.HandleReturn true 1073741824 spillRecord).1.masm_.buffer =
      [MasmInstr.add_imm Register.sp Register.sp 0, MasmInstr.bx Register.lr] ∧
    (1073741824 : Int) * 4 = 4294967296 := by
  refine ⟨rfl, ?_, ?_, ?_, ?_, by decide⟩
  · decide
  · decide
  · decide
  · decide

/-- C19, amended. `HandleCall`, when it returns, and `HandleStoreBarrier`,
which always returns, return exactly the number of instructions they
emitted, which is the difference of the output offset before and after
divided by 4. `HandleReturn` always returns: 1 with only the return branch
emitted when the pop count is the constant 0, 2 with one adjustment of the
stack pointer by `constant * 4`, taken on 32 bits, before the branch when it
is another constant, and 2 with one adjustment by `r1` shifted left by 2
before the branch when it is not constant. The count `HandleReturn` returns
is the number of its emitting calls; it is the number of instructions
emitted if and only if the assembler puts one instruction for each. -/
theorem C19_rewrite_returns_emitted_count (g : CodeGeneratorLLVM) (k : V8Constants)
    (record : StackMaps.Record) :
    (∀ locations code_magic tailcall tailcall_return_count g2 n,
      g.HandleStackMapInfo k
        (StackMapInfo.CallInfo locations code_magic tailcall tailcall_return_count) record =
        some (g2, n) →
      ∃ emitted : List MasmInstr, g2.masm_.buffer = g.masm_.buffer ++ emitted ∧
        n = instructionsOf k emitted ∧
        n = (g2.masm_.pc_offset k - g.masm_.pc_offset k) / 4) ∧
    (∃ g2, g.HandleStackMapInfo k StackMapInfo.StoreBarrierInfo record =
        some (g2, (instructionsOf k [MasmInstr.blx Register.ip] : Int)) ∧
      g2.masm_.buffer = g.masm_.buffer ++ [MasmInstr.blx Register.ip] ∧
      (instructionsOf k [MasmInstr.blx Register.ip] : Int) =
        (g2.masm_.pc_offset k - g.masm_.pc_offset k) / 4) ∧
    (∀ constant : Int,
      g.HandleStackMapInfo k (StackMapInfo.ReturnInfo true constant) record =
        some (g.HandleReturn true constant record) ∧
      (g.HandleReturn true constant record).2 = (if constant = 0 then 1 else 2) ∧
      (g.HandleReturn true constant record).1.masm_.buffer = g.masm_.buffer ++
        (if constant = 0 then [MasmInstr.bx Register.lr]
         else [MasmInstr.add_imm Register.sp Register.sp (toInt32 (constant * 4)),
               MasmInstr.bx Register.lr]) ∧
      (-2 ^ 31 ≤ constant * 4 → constant * 4 < 2 ^ 31 →
        toInt32 (constant * 4) = constant * 4)) ∧
    (∀ constant : Int,
      g.HandleStackMapInfo k (StackMapInfo.ReturnInfo false constant) record =
        some (g.HandleReturn false constant record) ∧
      (g.HandleReturn false constant record).2 = 2 ∧
      (g.HandleReturn false constant record).1.masm_.buffer = g.masm_.buffer ++
        [MasmInstr.add_lsl Register.sp Register.sp Register.r1 2,
         MasmInstr.bx Register.lr]) ∧
    (∀ (pop_count_is_constant : Bool) (constant : Int) (emitted : List MasmInstr),
      (g.HandleReturn pop_count_is_constant constant record).1.masm_.buffer =
        g.masm_.buffer ++ emitted →
      (g.HandleReturn pop_count_is_constant constant record).2 = emitted.length ∧
      ((g.HandleReturn pop_count_is_constant constant record).2 =
          ((g.HandleReturn pop_count_is_constant constant record).1.masm_.pc_offset k -
            g.masm_.pc_offset k) / 4 ↔
        ∀ i ∈ emitted, k.extraInstructions i = 0)) := by
  refine ⟨fun locations code_magic tailcall trc g2 n h => ?_, ?_, fun constant => ?_,
    fun constant => ?_, fun pop constant emitted he => ?_⟩
  · have h1 : g.HandleCall k locations tailcall trc record = some (g2, n) := h
    obtain ⟨c, rest, emitted, -, -, q1, q2, q3, -⟩ := HandleCall_spec h1
    exact ⟨emitted, q1, q2, q3⟩
  · refine ⟨_, HandleStoreBarrier_spec g k record, rfl, ?_⟩
    have hpc := pc_offset_append k g.masm_ (g.masm_.emit (MasmInstr.blx Register.ip))
      [MasmInstr.blx Register.ip] rfl
    show _ = ((g.masm_.emit (MasmInstr.blx Register.ip)).pc_offset k - g.masm_.pc_offset k) / 4
    rw [hpc]
    omega
  · refine ⟨rfl, ?_, ?_, toInt32_of_fits _⟩
    · rw [HandleReturn_spec]
      by_cases hc : constant = 0
      · simp [hc]
      · simp [hc]
    · rw [HandleReturn_spec]
      simp
  · refine ⟨rfl, ?_, ?_⟩
    · rw [HandleReturn_spec]
      simp
    · rw [HandleReturn_spec]
      simp
  · rw [HandleReturn_spec] at he ⊢
    simp only at he ⊢
    have he2 := List.append_cancel_left he
    subst he2
    have hpc := pc_offset_append k g.masm_
      { buffer := g.masm_.buffer ++
          (if pop = true then
            (if constant = 0 then [MasmInstr.bx Register.lr]
             else [MasmInstr.add_imm Register.sp Register.sp (toInt32 (constant * 4)),
                   MasmInstr.bx Register.lr])
           else [MasmInstr.add_lsl Register.sp Register.sp Register.r1 2,
                 MasmInstr.bx Register.lr]) } _ rfl
    rw [hpc]
    clear hpc he
    have key1 : ∀ x : Nat, ((1 : Int) = 4 * ((1 + x + 0 : Nat) : Int) / 4 ↔ x = 0) := by
      intro x
      constructor
      · intro h
        omega
      · intro h
        subst h
        rfl
    have key2 : ∀ x y : Nat,
        ((2 : Int) = 4 * ((1 + x + (1 + y + 0) : Nat) : Int) / 4 ↔ x = 0 ∧ y = 0) := by
      intro x y
      constructor
      · intro h
        omega
      · rintro ⟨h1, h2⟩
        subst h1
        subst h2
        rfl
    cases pop with
    | true =>
      by_cases hc : constant = 0
      · simp only [eq_self_iff_true, hc, and_self, if_true, List.length_singleton, Nat.cast_one,
          true_and, instructionsOf, List.map_cons, List.map_nil, List.sum_cons, List.sum_nil,
          MasmInstr.instructionCount, List.mem_singleton, forall_eq]
        exact key1 _
      · simp only [eq_self_iff_true, hc, and_false, if_false, true_and, if_true,
          List.length_cons, List.length_singleton, instructionsOf, List.map_cons, List.map_nil,
          List.sum_cons, List.sum_nil, MasmInstr.instructionCount, List.mem_cons,
          List.mem_singleton, forall_eq_or_imp, forall_eq, List.length_nil, List.not_mem_nil]
        refine ⟨rfl, ?_⟩
        rw [key2]
        simp
    | false =>
      simp only [Bool.false_eq_true, false_and, if_false, List.length_cons,
        List.length_singleton, instructionsOf, List.map_cons, List.map_nil, List.sum_cons,
        List.sum_nil, MasmInstr.instructionCount, List.mem_cons, List.mem_singleton,
        forall_eq_or_imp, forall_eq, List.length_nil, List.not_mem_nil]
      refine ⟨rfl, ?_⟩
      rw [key2]
      simp

/-- A tail call that pops two slots, with an operand in register 0 and one
that has no register: three instructions are emitted and 3 is returned. And
the return with the constant pop count 2, whose adjustment by 8 has an
encoding: the count 2 it returns is the number of instructions emitted. -/
theorem C19_rewrite_returns_emitted_count_witness :
    (∃ g2 emitted, emptyGenerator.HandleStackMapInfo armConstants
        (StackMapInfo.CallInfo [2, 0, -1] 0 true 2) spillRecord = some (g2, 3) ∧
      g2.masm_.buffer = emptyGenerator.masm_.buffer ++ emitted ∧
      (3 : Int) = instructionsOf armConstants emitted ∧
      (3 : Int) = (g2.masm_.pc_offset armConstants -
        emptyGenerator.masm_.pc_offset armConstants) / 4) ∧
    (emptyGenerator.HandleReturn true 2 spillRecord).2 =
      ((emptyGenerator.HandleReturn true 2 spillRecord).1.masm_.pc_offset armConstants -
        emptyGenerator.masm_.pc_offset armConstants) / 4 := by
  have h := C19_rewrite_returns_emitted_count emptyGenerator armConstants spillRecord
  have hx : ∃ g2, emptyGenerator.HandleStackMapInfo armConstants
      (StackMapInfo.CallInfo [2, 0, -1] 0 true 2) spillRecord = some (g2, 3) := by
    have h3 : (emptyGenerator.HandleStackMapInfo armConstants
        (StackMapInfo.CallInfo [2, 0, -1] 0 true 2) spillRecord).map (fun r => r.2) =
        some 3 := by decide
    cases hX : emptyGenerator.HandleStackMapInfo armConstants
        (StackMapInfo.CallInfo [2, 0, -1] 0 true 2) spillRecord with
    | none => rw [hX] at h3; cases h3
    | some r =>
      obtain ⟨g2, n⟩ := r
      rw [hX] at h3
      simp only [Option.map_some', Option.some.injEq] at h3
      subst h3
      exact ⟨g2, rfl⟩
  obtain ⟨g2, hg⟩ := hx
  obtain ⟨emitted, q⟩ := h.1 [2, 0, -1] 0 true 2 g2 3 hg
  exact ⟨⟨g2, emitted, hg, q⟩, by decide⟩


/-! ## C20: the safepoint slots of a call -/

/-- The index `HandleCall` hands to `DefinePointerSlot` for an Indirect
location. -/
theorem definePointerSlots_spec (k : V8Constants) (slot_count : Int)
    (locations : List StackMaps.Location) :
    ∀ acc slots, definePointerSlots k slot_count locations acc = some slots →
      slots = acc ++ (locations.filter (fun l => l.kind = StackMaps.Kind.Indirect)).map
        (fun l => if l.dwarfReg = 13 then slot_count - 1 - Int.tdiv l.offset k.kPointerSize
          else Int.tdiv (-l.offset) k.kPointerSize + 1) ∧
      ∀ l ∈ locations, l.kind = StackMaps.Kind.Indirect → l.dwarfReg = 13 ∨ l.dwarfReg = 11 := by
  induction locations with
  | nil =>
    intro acc slots h
    simp only [definePointerSlots, Option.some.injEq] at h
    subst h
    exact ⟨by simp, fun _ hl => (by cases hl)⟩
  | cons location rest ih =>
    intro acc slots h
    simp only [definePointerSlots] at h
    by_cases hk : location.kind = StackMaps.Kind.Indirect
    · simp only [hk, ne_eq, not_true_eq_false, if_false] at h
      by_cases h13 : location.dwarfReg = 13
      · simp only [h13, if_true] at h
        obtain ⟨q1, q2⟩ := ih _ _ h
        refine ⟨?_, fun l hl hi => ?_⟩
        · rw [q1]
          simp [hk, h13]
        · rcases List.mem_cons.mp hl with e | hl
          · left; rw [e]; exact h13
          · exact q2 l hl hi
      · simp only [h13, if_false] at h
        by_cases h11 : location.dwarfReg = 11
        · simp only [h11, if_true] at h
          obtain ⟨q1, q2⟩ := ih _ _ h
          refine ⟨?_, fun l hl hi => ?_⟩
          · rw [q1]
            simp [hk, h11]
          · rcases List.mem_cons.mp hl with e | hl
            · right; rw [e]; exact h11
            · exact q2 l hl hi
        · simp [h11] at h
    · simp only [ne_eq, hk, not_false_eq_true, if_true] at h
      obtain ⟨q1, q2⟩ := ih _ _ h
      refine ⟨?_, fun l hl hi => ?_⟩
      · rw [q1]
        simp [hk]
      · rcases List.mem_cons.mp hl with e | hl
        · rw [e] at hi; exact absurd hi hk
        · exact q2 l hl hi

/-- Counterexample to C20 as stated: with a stack size of 6 bytes and a
pointer size of 4 the slot count is 1, and the Indirect location at offset 4
from the stack pointer, a multiple of the pointer size in [0, 6), is given
the slot index -1, which is not in [0, 1). -/
theorem C20_counterexample :
    ∃ g2 n, ({ emptyGenerator with slot_count_ := ((6 / armConstants.kPointerSize.toNat : Nat) : Int) }
        : CodeGeneratorLLVM).HandleCall armConstants [2] false 0 spillRecord = some (g2, n) ∧
      spillRecord.locations =
        [{ dwarfReg := 13, kind := StackMaps.Kind.Indirect, offset := 4 }] ∧
      (4 : Int) % armConstants.kPointerSize = 0 ∧ (0 : Int) ≤ 4 ∧ (4 : Int) < 6 ∧
      g2.slot_count_ = 1 ∧
      g2.safepoint_table_builder_ = [{ pc := 4, slots := [-1] }] ∧
      ¬ ((0 : Int) ≤ -1 ∧ (-1 : Int) < g2.slot_count_) :=
  ⟨_, _, rfl, rfl, by decide, by decide, by decide, rfl, rfl, by decide⟩

/-- C20, amended. `HandleCall` returns exactly when the location list of the
call has the entry of the target and, for a call that is not a tail call,
every Indirect location of the record is based on register 13 or on register
11: another base register is fatal, and the locations of the operands,
among them the -1 of an operand without a register, are not tested. A call
that is not a tail call defines one safepoint whose slots are, in order, the
indices of the Indirect locations of the record:
`slot_count - 1 - offset / pointerSize` for a location based on register 13
and `-offset / pointerSize + 1` for one based on register 11; locations of
another kind give no slot and a tail call defines no safepoint. With
`slot_count = stackSize / pointerSize` and the stack size a multiple of the
pointer size, the index of a location based on register 13 whose offset is a
multiple of the pointer size in [0, stackSize) lies in [0, slot_count), and
of two such locations the one with the larger offset has the smaller
index. -/
theorem C20_safepoint_slot_indices (g : CodeGeneratorLLVM) (k : V8Constants)
    (locations : List Int) (is_tailcall : Bool) (tailcall_return_count : Int)
    (record : StackMaps.Record) (stackSize : Nat)
    (hp : 0 < k.kPointerSize)
    (hslot : g.slot_count_ = ((stackSize / k.kPointerSize.toNat : Nat) : Int))
    (hmul : k.kPointerSize ∣ (stackSize : Int)) :
    ((g.HandleCall k locations is_tailcall tailcall_return_count record).isSome = true ↔
      locations ≠ [] ∧ (is_tailcall = false → ∀ l ∈ record.locations,
        l.kind = StackMaps.Kind.Indirect → l.dwarfReg = 13 ∨ l.dwarfReg = 11)) ∧
    (∀ g2 n, g.HandleCall k locations is_tailcall tailcall_return_count record = some (g2, n) →
      (is_tailcall = true → g2.safepoint_table_builder_ = g.safepoint_table_builder_) ∧
      (is_tailcall = false →
        g2.safepoint_table_builder_ = g.safepoint_table_builder_ ++
          [{ pc := g2.masm_.pc_offset k,
             slots := (record.locations.filter (fun l => l.kind = StackMaps.Kind.Indirect)).map
               (fun l => if l.dwarfReg = 13 then
                   g.slot_count_ - 1 - Int.tdiv l.offset k.kPointerSize
                 else Int.tdiv (-l.offset) k.kPointerSize + 1) }])) ∧
    (∀ offset : Int, k.kPointerSize ∣ offset → 0 ≤ offset → offset < stackSize →
      0 ≤ g.slot_count_ - 1 - Int.tdiv offset k.kPointerSize ∧
      g.slot_count_ - 1 - Int.tdiv offset k.kPointerSize < g.slot_count_) ∧
    (∀ offset offset2 : Int, k.kPointerSize ∣ offset → k.kPointerSize ∣ offset2 →
      0 ≤ offset → offset < offset2 →
      g.slot_count_ - 1 - Int.tdiv offset2 k.kPointerSize <
        g.slot_count_ - 1 - Int.tdiv offset k.kPointerSize) := by
  have htdiv : ∀ offset : Int, 0 ≤ offset →
      Int.tdiv offset k.kPointerSize = offset / k.kPointerSize :=
    fun offset h0 => Int.tdiv_eq_ediv h0 (le_of_lt hp)
  have hsc : g.slot_count_ = (stackSize : Int) / k.kPointerSize := by
    rw [hslot, Int.natCast_div, Int.toNat_of_nonneg (le_of_lt hp)]
  refine ⟨HandleCall_isSome g k locations is_tailcall tailcall_return_count record,
    fun g2 n h => ?_, fun offset hd h0 hl => ?_, fun offset offset2 hd hd2 h0 hl => ?_⟩
  · obtain ⟨c, rest, emitted, -, -, -, -, -, -, -, q3, q4⟩ := HandleCall_spec h
    refine ⟨q3, fun ht => ?_⟩
    obtain ⟨slots, e1, e2⟩ := q4 ht
    obtain ⟨s1, -⟩ := definePointerSlots_spec k g.slot_count_ record.locations [] slots e1
    rw [List.nil_append] at s1
    rw [e2, s1]
  · obtain ⟨m, hm⟩ := hd
    obtain ⟨q, hq⟩ := hmul
    rw [htdiv offset h0, hsc, hm, hq, Int.mul_ediv_cancel_left _ (ne_of_gt hp),
      Int.mul_ediv_cancel_left _ (ne_of_gt hp)]
    have hlt : m < q := by
      rw [hm, hq] at hl
      exact lt_of_mul_lt_mul_left hl (le_of_lt hp)
    have hm0 : 0 ≤ m := by
      rw [hm] at h0
      exact nonneg_of_mul_nonneg_right h0 hp
    omega
  · obtain ⟨m, hm⟩ := hd
    obtain ⟨m2, hm2⟩ := hd2
    rw [htdiv offset h0, htdiv offset2 (le_of_lt (lt_of_le_of_lt h0 hl)), hm, hm2,
      Int.mul_ediv_cancel_left _ (ne_of_gt hp), Int.mul_ediv_cancel_left _ (ne_of_gt hp)]
    have hlt : m < m2 := by
      rw [hm, hm2] at hl
      exact lt_of_mul_lt_mul_left hl (le_of_lt hp)
    omega

/-- The call of `spillRecord` with a stack size of 8 bytes, an operand in
register 0 and an operand without a register, whose location is -1: the
rewrite returns, the slot count is 2 and the location at offset 4 gets the
index 0. -/
theorem C20_safepoint_slot_indices_witness :
    (0 : Int) < armConstants.kPointerSize ∧ armConstants.kPointerSize ∣ ((8 : Nat) : Int) ∧
    (({ emptyGenerator with slot_count_ := 2 } : CodeGeneratorLLVM).HandleCall
        armConstants [2, 0, -1] false 0 spillRecord).isSome = true ∧
    (∀ g2 n, ({ emptyGenerator with slot_count_ := 2 } : CodeGeneratorLLVM).HandleCall
        armConstants [2, 0, -1] false 0 spillRecord = some (g2, n) →
      g2.safepoint_table_builder_ = [{ pc := g2.masm_.pc_offset armConstants, slots := [0] }]) ∧
    (0 : Int) ≤ 2 - 1 - Int.tdiv 4 armConstants.kPointerSize ∧
    (2 : Int) - 1 - Int.tdiv 4 armConstants.kPointerSize < 2 := by
  have hp : (0 : Int) < armConstants.kPointerSize := by decide
  have hmul : armConstants.kPointerSize ∣ ((8 : Nat) : Int) := ⟨2, rfl⟩
  have h := C20_safepoint_slot_indices { emptyGenerator with slot_count_ := 2 } armConstants
    [2, 0, -1] false 0 spillRecord 8 hp rfl hmul
  refine ⟨hp, hmul, h.1.mpr ⟨by decide, fun _ => by decide⟩, fun g2 n hg => ?_,
    h.2.2.1 4 ⟨1, rfl⟩ (by decide) (by decide)⟩
  exact ((h.2.1 g2 n hg).2 rfl)


/-! ## C18: a failed parse of the stack maps -/

/-- C18 does not hold of the code: `Generate` does not read the flag that
`StackMaps::parse` returns, so its result is the same whatever the flag; and
on `failingState`, whose parse reports failure and leaves one record in the
struct, `Generate` returns a code object in which the call of that record is
patched and has a safepoint built from the record's location. -/
theorem C18_parse_failure_yields_code :
    (∀ (g : CodeGeneratorLLVM) (parser : StackMapsParser) (k : V8Constants)
        (state : CompilerState) (flag : List Nat → Bool),
      g.Generate { parser with parse := fun data => (flag data, (parser.parse data).2) } k state =
        g.Generate parser k state) ∧
    failingState.stackMapsSection_ = some [3, 0, 0, 0] ∧
    (failingParser.parse [3, 0, 0, 0]).1 = false ∧
    emptyGenerator.Generate failingParser armConstants failingState =
      some { instructions := [MasmInstr.dd 0xe1a00000, MasmInstr.blx (Register.from_code 2),
                              MasmInstr.dd 0xe1a00000],
             stack_slots := 2, safepoint_table := [{ pc := 8, slots := [0] }],
             is_turbofanned := true, kind := 0 } :=
  ⟨fun _ _ _ _ _ => rfl, rfl, rfl, by decide⟩

/-! ## C21: the record references -/

theorem lookup_none_iff_any {β : Type} (m : List (Nat × β)) (k : Nat) :
    m.lookup k = none ↔ m.any (fun e => decide (e.1 = k)) = false := by
  induction m with
  | nil => simp
  | cons e rest ih =>
    obtain ⟨a, v⟩ := e
    rw [List.lookup_cons, List.any_cons]
    by_cases hk : k = a
    · subst hk
      simp
    · have hb : (k == a) = false := by simpa using hk
      have hd : decide (a = k) = false := by simpa using fun e => hk e.symm
      rw [hb]
      simp only [hd, Bool.false_or]
      exact ih

theorem lookup_append_singleton {β : Type} (m : List (Nat × β)) (k p : Nat) (v : β) :
    (m ++ [(k, v)]).lookup p =
      match m.lookup p with
      | some e => some e
      | none => if p = k then some v else none := by
  induction m with
  | nil =>
    by_cases hk : p = k
    · subst hk
      simp [List.lookup_cons]
    · have hb : (p == k) = false := by simpa using hk
      simp [List.lookup_cons, hb, hk]
  | cons e rest ih =>
    obtain ⟨a, w⟩ := e
    rw [List.cons_append, List.lookup_cons, List.lookup_cons]
    cases hb : p == a with
    | true => rfl
    | false => exact ih

/-- What `ProcessRecordMap` leaves in the map of record references: an offset
that was present keeps its reference, and every other offset has the
reference of the first entry of the record map with that key. -/
theorem ProcessRecordMap_lookup (info_map : StackMapInfoMap) :
    ∀ (rm : List (Nat × List StackMaps.Record)) (g g2 : CodeGeneratorLLVM),
      g.ProcessRecordMap rm info_map = some g2 → ∀ p : Nat,
        (∀ e, g.record_reference_map_.lookup p = some e →
          g2.record_reference_map_.lookup p = some e) ∧
        (g.record_reference_map_.lookup p = none → rm.lookup p = none →
          g2.record_reference_map_.lookup p = none) ∧
        (g.record_reference_map_.lookup p = none → ∀ records, rm.lookup p = some records →
          ∃ record info, records = [record] ∧
            info_map.lookup record.patchpointID = some info ∧
            info.GetType.isPatchPoint = true ∧
            g2.record_reference_map_.lookup p = some (record, info)) := by
  intro rm
  induction rm with
  | nil =>
    intro g g2 h p
    simp only [ProcessRecordMap, Option.some.injEq] at h
    subst h
    exact ⟨fun e he => he, fun hn _ => hn, fun _ records hr => by simp at hr⟩
  | cons entry rest ih =>
    intro g g2 h p
    obtain ⟨k, records⟩ := entry
    match records, h with
    | [record], h =>
      simp only [ProcessRecordMap] at h
      cases hi : List.lookup record.patchpointID info_map with
      | none => simp [hi] at h
      | some info =>
        simp only [hi] at h
        cases ht : info.GetType.isPatchPoint with
        | false => simp [ht] at h
        | true =>
        simp only [ht, if_true] at h
        obtain ⟨ia, ib, ic⟩ := ih _ _ h p
        have hmap : ∀ q, List.lookup q (if (g.record_reference_map_.any
              (fun e => decide (e.1 = k))) = true then g.record_reference_map_
            else g.record_reference_map_ ++ [(k, record, info)]) =
            match g.record_reference_map_.lookup q with
            | some e => some e
            | none => if q = k ∧ g.record_reference_map_.lookup k = none then
                some (record, info) else none := by
          intro q
          by_cases ha : g.record_reference_map_.any (fun e => decide (e.1 = k)) = true
          · rw [if_pos ha]
            have hk : g.record_reference_map_.lookup k ≠ none := by
              rw [Ne, lookup_none_iff_any, ha]
              simp
            cases hq : g.record_reference_map_.lookup q with
            | some e => rfl
            | none =>
              simp only
              rw [if_neg (fun hc => hk hc.2)]
          · rw [if_neg ha, lookup_append_singleton]
            have hk : g.record_reference_map_.lookup k = none := by
              rw [lookup_none_iff_any]
              exact Bool.eq_false_iff.mpr ha
            cases hq : g.record_reference_map_.lookup q with
            | some e => rfl
            | none => simp [hk]
        refine ⟨fun e he => ia e ?_, fun hn hr => ib ?_ ?_, fun hn recs hr => ?_⟩
        · show List.lookup p (if _ then _ else _) = _
          rw [hmap, he]
        · show List.lookup p (if _ then _ else _) = _
          rw [hmap, hn]
          rw [List.lookup_cons] at hr
          cases hb : p == k with
          | true => rw [hb] at hr; cases hr
          | false =>
            have : p ≠ k := by simpa using hb
            simp [this]
        · rw [List.lookup_cons] at hr
          cases hb : p == k with
          | true => rw [hb] at hr; cases hr
          | false => rw [hb] at hr; exact hr
        · rw [List.lookup_cons] at hr
          cases hb : p == k with
          | true =>
            rw [hb] at hr
            simp only [Option.some.injEq] at hr
            subst hr
            have hpk : p = k := by simpa using hb
            subst hpk
            refine ⟨record, info, rfl, hi, ht, ia _ ?_⟩
            show List.lookup p (if _ then _ else _) = _
            rw [hmap, hn]
            simp [hn]
          | false =>
            rw [hb] at hr
            have hpk : p ≠ k := by simpa using hb
            refine ic ?_ recs hr
            show List.lookup p (if _ then _ else _) = _
            rw [hmap, hn]
            simp [hpk]
    | [], h => simp [ProcessRecordMap] at h
    | _ :: _ :: _, h => simp [ProcessRecordMap] at h

/-- When `ProcessRecordMap` returns: every entry of the record map has one
record, whose patch point id is registered with the info of a call, of a
store barrier or of a return. -/
theorem ProcessRecordMap_isSome (info_map : StackMapInfoMap) :
    ∀ (rm : List (Nat × List StackMaps.Record)) (g : CodeGeneratorLLVM),
      (g.ProcessRecordMap rm info_map).isSome = true ↔
        ∀ entry ∈ rm, ∃ record info, entry.2 = [record] ∧
          info_map.lookup record.patchpointID = some info ∧
          info.GetType.isPatchPoint = true := by
  intro rm
  induction rm with
  | nil => intro g; simp [ProcessRecordMap]
  | cons entry rest ih =>
    intro g
    obtain ⟨k, records⟩ := entry
    match records with
    | [record] =>
      simp only [ProcessRecordMap]
      cases hi : List.lookup record.patchpointID info_map with
      | none =>
        simp only [Option.isSome_none, Bool.false_eq_true, false_iff, not_forall]
        refine ⟨(k, [record]), List.mem_cons_self _ _, ?_⟩
        rintro ⟨r, info, hr, hs, -⟩
        simp only [List.cons.injEq, and_true] at hr
        subst hr
        rw [hi] at hs
        cases hs
      | some info =>
        simp only
        cases ht : info.GetType.isPatchPoint with
        | false =>
          simp only [Bool.false_eq_true, if_false, Option.isSome_none, false_iff, not_forall]
          refine ⟨(k, [record]), List.mem_cons_self _ _, ?_⟩
          rintro ⟨r, info2, hr, hs, hp⟩
          simp only [List.cons.injEq, and_true] at hr
          subst hr
          rw [hi] at hs
          simp only [Option.some.injEq] at hs
          subst hs
          rw [ht] at hp
          cases hp
        | true =>
          simp only [if_true]
          rw [ih]
          constructor
          · intro hall entry he
            rcases List.mem_cons.mp he with rfl | he
            · exact ⟨record, info, rfl, hi, ht⟩
            · exact hall entry he
          · intro hall entry he
            exact hall entry (List.mem_cons_of_mem _ he)
    | [] =>
      simp only [ProcessRecordMap, Option.isSome_none, Bool.false_eq_true, false_iff, not_forall]
      exact ⟨(k, []), List.mem_cons_self _ _, by simp⟩
    | r1 :: r2 :: more =>
      simp only [ProcessRecordMap, Option.isSome_none, Bool.false_eq_true, false_iff, not_forall]
      exact ⟨(k, r1 :: r2 :: more), List.mem_cons_self _ _, by simp⟩


theorem lookup_isSome_iff_mem {β : Type} (m : List (Nat × β)) (k : Nat) :
    (m.lookup k).isSome = true ↔ ∃ v, (k, v) ∈ m := by
  induction m with
  | nil => simp
  | cons e rest ih =>
    obtain ⟨a, w⟩ := e
    rw [List.lookup_cons]
    by_cases hk : k = a
    · subst hk
      simp only [beq_self_eq_true, Option.isSome_some, true_iff]
      exact ⟨w, List.mem_cons_self _ _⟩
    · have hb : (k == a) = false := by simpa using hk
      rw [hb]
      simp only
      rw [ih]
      constructor
      · rintro ⟨v, hv⟩
        exact ⟨v, List.mem_cons_of_mem _ hv⟩
      · rintro ⟨v, hv⟩
        rcases List.mem_cons.mp hv with e | hv
        · cases e
          exact absurd rfl hk
        · exact ⟨v, hv⟩

/-- Counterexample to C21 as stated: the record map has the record of patch
point 7, whose instruction offset is 4, under the key 7, its patch point id.
`ProcessRecordMap` registers the record under 7: the lookup at offset 4, the
record's own instruction offset, finds nothing, and the lookup at offset 7
finds the record although no record has the instruction offset 7. -/
theorem C21_counterexample :
    ∃ g2, emptyGenerator.ProcessRecordMap [(7, [barrierRecord])]
        [(7, StackMapInfo.StoreBarrierInfo)] = some g2 ∧
      barrierRecord.patchpointID = 7 ∧ barrierRecord.instructionOffset = 4 ∧
      g2.record_reference_map_.lookup 4 = none ∧
      g2.record_reference_map_.lookup 7 = some (barrierRecord, StackMapInfo.StoreBarrierInfo) :=
  ⟨_, rfl, rfl, rfl, rfl, rfl⟩

/-- C21, amended: on a generator whose map of record references is empty,
`ProcessRecordMap` returns exactly when every entry of the record map has one
record whose patch point id is registered in the info map with the info of a
call, of a store barrier or of a return (the info of a constant load is
fatal), and it registers every record under the key of its entry in the
record map. The lookup of
`Generate` at the offset `p` finds a record if and only if the record map has
an entry with the key `p`; the record found is the one of the first such
entry and the tag it is paired with is the one registered for that record's
patch point id. When every key of the record map is the instruction offset of
the records under it, the lookup at `p` finds a record if and only if some
record has the instruction offset `p`. -/
theorem C21_record_registered_under_map_key (g : CodeGeneratorLLVM)
    (rm : List (Nat × List StackMaps.Record)) (info_map : StackMapInfoMap)
    (hempty : g.record_reference_map_ = []) :
    ((g.ProcessRecordMap rm info_map).isSome = true ↔
      ∀ entry ∈ rm, ∃ record info, entry.2 = [record] ∧
        info_map.lookup record.patchpointID = some info ∧
        (info.GetType = StackMapInfoType.kCallInfo ∨
          info.GetType = StackMapInfoType.kStoreBarrier ∨
          info.GetType = StackMapInfoType.kReturn)) ∧
    ∀ g2, g.ProcessRecordMap rm info_map = some g2 →
      (∀ p : Nat, (g2.record_reference_map_.lookup p).isSome = true ↔
        ∃ records, (p, records) ∈ rm) ∧
      (∀ (p : Nat) (record : StackMaps.Record) (info : StackMapInfo),
        g2.record_reference_map_.lookup p = some (record, info) →
        rm.lookup p = some [record] ∧ info_map.lookup record.patchpointID = some info) ∧
      ((∀ entry ∈ rm, ∀ r ∈ entry.2, r.instructionOffset = entry.1) →
        ∀ p : Nat, (g2.record_reference_map_.lookup p).isSome = true ↔
          ∃ entry ∈ rm, ∃ r ∈ entry.2, r.instructionOffset = p) := by
  have hkind : ∀ info : StackMapInfo, info.GetType.isPatchPoint = true ↔
      (info.GetType = StackMapInfoType.kCallInfo ∨
        info.GetType = StackMapInfoType.kStoreBarrier ∨
        info.GetType = StackMapInfoType.kReturn) := by
    intro info
    cases info.GetType <;> simp [StackMapInfoType.isPatchPoint]
  refine ⟨?_, fun g2 h => ?_⟩
  · rw [ProcessRecordMap_isSome info_map rm g]
    constructor
    · intro hall entry he
      obtain ⟨record, info, e1, e2, e3⟩ := hall entry he
      exact ⟨record, info, e1, e2, (hkind info).mp e3⟩
    · intro hall entry he
      obtain ⟨record, info, e1, e2, e3⟩ := hall entry he
      exact ⟨record, info, e1, e2, (hkind info).mpr e3⟩
  have hn : ∀ p, g.record_reference_map_.lookup p = none := by
    intro p
    rw [hempty]
    rfl
  have hall := (ProcessRecordMap_isSome info_map rm g).mp (by rw [h]; rfl)
  have hkey : ∀ p : Nat, (g2.record_reference_map_.lookup p).isSome = true ↔
      ∃ records, (p, records) ∈ rm := by
    intro p
    obtain ⟨-, ib, ic⟩ := ProcessRecordMap_lookup info_map rm g g2 h p
    rw [← lookup_isSome_iff_mem]
    cases hr : rm.lookup p with
    | none => simp [ib (hn p) hr]
    | some records =>
      obtain ⟨record, info, -, -, -, e⟩ := ic (hn p) records hr
      simp [e]
  refine ⟨hkey, fun p record info hl => ?_, fun hoff p => ?_⟩
  · obtain ⟨-, ib, ic⟩ := ProcessRecordMap_lookup info_map rm g g2 h p
    cases hr : rm.lookup p with
    | none =>
      rw [ib (hn p) hr] at hl
      cases hl
    | some records =>
      obtain ⟨record1, info1, e1, e2, -, e3⟩ := ic (hn p) records hr
      rw [e3] at hl
      simp only [Option.some.injEq, Prod.mk.injEq] at hl
      rw [← hl.1, ← hl.2, e1]
      exact ⟨rfl, e2⟩
  · rw [hkey]
    constructor
    · rintro ⟨records, hm⟩
      obtain ⟨record, -, e1, -, -⟩ := hall _ hm
      exact ⟨_, hm, record, by rw [e1]; exact List.mem_singleton.mpr rfl,
        hoff _ hm record (by rw [e1]; exact List.mem_singleton.mpr rfl)⟩
    · rintro ⟨entry, hm, r, hr, e⟩
      refine ⟨entry.2, ?_⟩
      rw [← e, hoff entry hm r hr]
      exact hm

/-- The record map of `failingParser`, keyed by instruction offset, on the
empty generator: the record is found at its offset 4, with the call
registered for patch point 0; `ProcessRecordMap` returns, and it does not
when patch point 0 has the info of a heap constant or of an external
reference. -/
theorem C21_record_registered_under_map_key_witness :
    emptyGenerator.record_reference_map_ = [] ∧
    ((emptyGenerator.ProcessRecordMap [(4, [spillRecord])]
        [(0, StackMapInfo.CallInfo [2] 0 false 0)]).isSome = true ↔
      ∀ entry ∈ [(4, [spillRecord])], ∃ record info, entry.2 = [record] ∧
        List.lookup record.patchpointID [(0, StackMapInfo.CallInfo [2] 0 false 0)] =
          some info ∧
        (info.GetType = StackMapInfoType.kCallInfo ∨
          info.GetType = StackMapInfoType.kStoreBarrier ∨
          info.GetType = StackMapInfoType.kReturn)) ∧
    (∀ g2, emptyGenerator.ProcessRecordMap [(4, [spillRecord])]
        [(0, StackMapInfo.CallInfo [2] 0 false 0)] = some g2 →
      (∀ p : Nat, (g2.record_reference_map_.lookup p).isSome = true ↔
        ∃ records, (p, records) ∈ [(4, [spillRecord])]) ∧
      (∀ (p : Nat) (record : StackMaps.Record) (info : StackMapInfo),
        g2.record_reference_map_.lookup p = some (record, info) →
        List.lookup p [(4, [spillRecord])] = some [record] ∧
          List.lookup record.patchpointID [(0, StackMapInfo.CallInfo [2] 0 false 0)] =
            some info) ∧
      ((∀ entry ∈ [(4, [spillRecord])], ∀ r ∈ entry.2, r.instructionOffset = entry.1) →
        ∀ p : Nat, (g2.record_reference_map_.lookup p).isSome = true ↔
          ∃ entry ∈ [(4, [spillRecord])], ∃ r ∈ entry.2, r.instructionOffset = p)) ∧
    (emptyGenerator.ProcessRecordMap [(4, [spillRecord])]
      [(0, StackMapInfo.CallInfo [2] 0 false 0)]).isSome = true ∧
    emptyGenerator.ProcessRecordMap [(4, [spillRecord])]
      [(0, StackMapInfo.HeapConstantInfo)] = none ∧
    emptyGenerator.ProcessRecordMap [(4, [spillRecord])]
      [(0, StackMapInfo.ExternalReferenceInfo)] = none := by
  have h := C21_record_registered_under_map_key emptyGenerator [(4, [spillRecord])]
    [(0, StackMapInfo.CallInfo [2] 0 false 0)] rfl
  exact ⟨rfl, h.1, h.2, rfl, rfl, rfl⟩

/-! ## C29: the loop of the code generator -/

theorem generateLoop_succ (k : V8Constants) (code : List Nat) (base_offset : Int)
    (fuel num_bytes ip : Nat) (g : CodeGeneratorLLVM) :
    generateLoop k code base_offset (fuel + 1) num_bytes ip g =
      if num_bytes = 0 then some g
      else
        match generateStep k code base_offset num_bytes ip g with
        | none => none
        | some s => generateLoop k code base_offset fuel s.1 s.2.1 s.2.2 := by
  rw [generateLoop, generateStep]
  by_cases h0 : num_bytes = 0
  · simp [h0]
  · simp only [h0, if_false]
    split
    · rfl
    · cases hc : code[ip]? with
      | none => rfl
      | some instruction =>
        simp only
        cases hl : List.lookup (g.masm_.pc_offset k - base_offset).toNat
            g.record_reference_map_ with
        | none => rfl
        | some e =>
          obtain ⟨record, info⟩ := e
          simp only
          cases hh : HandleStackMapInfo { g with reference_instruction_ := instruction } k info
              record with
          | none => rfl
          | some r => rfl

/-- A rewrite that returns leaves the map of record references as it is and
returns a count of 1 at least. -/
theorem HandleStackMapInfo_step {g g2 : CodeGeneratorLLVM} {k : V8Constants}
    {info : StackMapInfo} {record : StackMaps.Record} {n : Int}
    (h : g.HandleStackMapInfo k info record = some (g2, n)) :
    g2.record_reference_map_ = g.record_reference_map_ ∧ 1 ≤ n := by
  cases info with
  | CallInfo locations code_magic tailcall trc =>
    have h1 : g.HandleCall k locations tailcall trc record = some (g2, n) := h
    obtain ⟨c, rest, emitted, -, he, -, q2, -, q4, -⟩ := HandleCall_spec h1
    refine ⟨q4, ?_⟩
    have hl := length_le_instructionsOf k emitted
    have hlen : 1 ≤ emitted.length := by
      rw [he, List.length_append, List.length_singleton]
      omega
    rw [q2]
    omega
  | StoreBarrierInfo =>
    have h1 : g.HandleStoreBarrier k record = some (g2, n) := h
    rw [HandleStoreBarrier_spec, Option.some.injEq, Prod.mk.injEq] at h1
    obtain ⟨e1, e2⟩ := h1
    subst e1
    refine ⟨rfl, ?_⟩
    have hl := length_le_instructionsOf k [MasmInstr.blx Register.ip]
    rw [← e2]
    simp only [List.length_singleton] at hl
    omega
  | ReturnInfo pop constant =>
    have h1 : some (g.HandleReturn pop constant record) = some (g2, n) := h
    rw [HandleReturn_spec, Option.some.injEq, Prod.mk.injEq] at h1
    obtain ⟨e1, e2⟩ := h1
    subst e1
    refine ⟨rfl, ?_⟩
    rw [← e2]
    split <;> decide
  | HeapConstantInfo => cases h
  | HeapConstantLocationInfo => cases h
  | ExternalReferenceInfo => cases h
  | ExternalReferenceLocationInfo => cases h

/-- The rewrite of a call and that of a store barrier are exact. -/
theorem HandleStackMapInfo_exact {g g2 : CodeGeneratorLLVM} {k : V8Constants}
    {info : StackMapInfo} {record : StackMaps.Record} {n : Int}
    (hk : info.GetType = StackMapInfoType.kCallInfo ∨
      info.GetType = StackMapInfoType.kStoreBarrier)
    (h : g.HandleStackMapInfo k info record = some (g2, n)) :
    g2.masm_.pc_offset k - g.masm_.pc_offset k = 4 * n := by
  cases info with
  | CallInfo locations code_magic tailcall trc =>
    have h1 : g.HandleCall k locations tailcall trc record = some (g2, n) := h
    obtain ⟨c, rest, emitted, -, -, q1, q2, -⟩ := HandleCall_spec h1
    rw [pc_offset_append k g.masm_ g2.masm_ emitted q1, q2]
  | StoreBarrierInfo =>
    have h1 : g.HandleStoreBarrier k record = some (g2, n) := h
    rw [HandleStoreBarrier_spec, Option.some.injEq, Prod.mk.injEq] at h1
    obtain ⟨e1, e2⟩ := h1
    subst e1
    rw [← e2]
    exact pc_offset_append k g.masm_ _ [MasmInstr.blx Register.ip] rfl
  | ReturnInfo pop constant => rcases hk with hk | hk <;> cases hk
  | HeapConstantInfo => cases h
  | HeapConstantLocationInfo => cases h
  | ExternalReferenceInfo => cases h
  | ExternalReferenceLocationInfo => cases h

/-- One turn of the loop from a state in step, every rewrite fitting and
exact: the state after the turn is in step and the cursor has moved
forward. -/
theorem generateStep_inStep {k : V8Constants} {code : List Nat} {base : Int}
    {map : List (Nat × StackMaps.Record × StackMapInfo)}
    (hsize : 4 * code.length < 2 ^ 32) (hfit : RewritesFit k code map)
    (hexact : RewritesExact k map)
    {nb ip : Nat} {g : CodeGeneratorLLVM} {s1 : Nat × Nat × CodeGeneratorLLVM}
    (hmap : g.record_reference_map_ = map) (hip : ip ≤ code.length)
    (hnb : nb = 4 * (code.length - ip)) (hpc : g.masm_.pc_offset k - base = 4 * (ip : Int))
    (h0 : nb ≠ 0) (h : generateStep k code base nb ip g = some s1) :
    s1.2.2.record_reference_map_ = map ∧ s1.2.1 ≤ code.length ∧
      s1.1 = 4 * (code.length - s1.2.1) ∧
      s1.2.2.masm_.pc_offset k - base = 4 * (s1.2.1 : Int) ∧ ip < s1.2.1 := by
  have hlt : ip < code.length := by omega
  subst hmap
  unfold generateStep at h
  simp only at h
  split at h
  · cases h
  · rw [List.getElem?_eq_getElem hlt] at h
    simp only at h
    have hoff : (g.masm_.pc_offset k - base).toNat = 4 * ip := by
      rw [hpc]
      omega
    rw [hoff] at h
    cases hl : List.lookup (4 * ip) g.record_reference_map_ with
    | none =>
      rw [hl] at h
      simp only [Option.some.injEq] at h
      subst h
      refine ⟨rfl, hlt, ?_, ?_, Nat.lt_succ_self _⟩
      · show (((nb : Int) - 1 * 4) % 2 ^ 32).toNat = 4 * (code.length - (ip + 1))
        have e : ((nb : Int) - 1 * 4) % 2 ^ 32 = (nb : Int) - 4 := by
          apply Int.emod_eq_of_lt <;> omega
        rw [e]
        omega
      · show (g.masm_.emit (MasmInstr.dd code[ip])).pc_offset k - base =
            4 * ((ip + 1 : Nat) : Int)
        have := pc_offset_append k g.masm_ (g.masm_.emit (MasmInstr.dd code[ip])) [_] rfl
        have e1 : instructionsOf k [MasmInstr.dd code[ip]] = 1 := rfl
        rw [e1] at this
        push_cast at this ⊢
        omega
    | some e =>
      obtain ⟨record, info⟩ := e
      rw [hl] at h
      simp only at h
      cases hh : HandleStackMapInfo { g with reference_instruction_ := code[ip] } k info
          record with
      | none => rw [hh] at h; cases h
      | some r =>
        obtain ⟨g1, inc⟩ := r
        rw [hh] at h
        simp only [Option.some.injEq] at h
        subst h
        obtain ⟨a, b⟩ := HandleStackMapInfo_step hh
        have c := hexact (4 * ip) record info hl _ _ _ hh
        have hf := hfit ip record info hlt hl _ _ _ hh
        have hinc : ((inc.toNat : Nat) : Int) = inc := Int.toNat_of_nonneg (by omega)
        refine ⟨a, hf, ?_, ?_, ?_⟩
        · show (((nb : Int) - inc * 4) % 2 ^ 32).toNat = 4 * (code.length - (ip + inc.toNat))
          have e : ((nb : Int) - inc * 4) % 2 ^ 32 = (nb : Int) - inc * 4 := by
            apply Int.emod_eq_of_lt <;> omega
          rw [e]
          omega
        · show g1.masm_.pc_offset k - base = 4 * ((ip + inc.toNat : Nat) : Int)
          have c2 : g1.masm_.pc_offset k - g.masm_.pc_offset k = 4 * inc := c
          push_cast
          omega
        · show ip < ip + inc.toNat
          omega

/-- One turn of the loop from a state in step is taken when no rewrite
traps. -/
theorem generateStep_isSome {k : V8Constants} {code : List Nat} {base : Int}
    (hsize : 4 * code.length < 2 ^ 32)
    {nb ip : Nat} {g : CodeGeneratorLLVM}
    (hok : ∀ (p : Nat) (record : StackMaps.Record) (info : StackMapInfo),
      g.record_reference_map_.lookup p = some (record, info) →
      ∀ g1 : CodeGeneratorLLVM, (g1.HandleStackMapInfo k info record).isSome = true)
    (hip : ip ≤ code.length)
    (hnb : nb = 4 * (code.length - ip)) (hpc : g.masm_.pc_offset k - base = 4 * (ip : Int))
    (h0 : nb ≠ 0) : (generateStep k code base nb ip g).isSome = true := by
  have hlt : ip < code.length := by omega
  unfold generateStep
  simp only
  have hcheck : (g.masm_.pc_offset k - base + (nb : Int)) % 2 ^ 32 =
      ((4 * code.length : Nat) : Int) := by
    have e : g.masm_.pc_offset k - base + (nb : Int) = ((4 * code.length : Nat) : Int) := by
      rw [hpc]
      omega
    rw [e]
    apply Int.emod_eq_of_lt <;> omega
  rw [if_neg (not_not.mpr hcheck), List.getElem?_eq_getElem hlt]
  simp only
  cases hl : List.lookup (g.masm_.pc_offset k - base).toNat g.record_reference_map_ with
  | none => rfl
  | some e =>
    obtain ⟨record, info⟩ := e
    simp only
    have := hok _ record info hl { g with reference_instruction_ := code[ip] }
    cases hh : HandleStackMapInfo { g with reference_instruction_ := code[ip] } k info
        record with
    | none => rw [hh] at this; cases this
    | some r => rfl

/-- Every state of the loop is in step when every rewrite fits and is
exact. -/
theorem loopReaches_inStep {k : V8Constants} {code : List Nat} {g : CodeGeneratorLLVM}
    (hsize : 4 * code.length < 2 ^ 32) (hfit : RewritesFit k code g.record_reference_map_)
    (hexact : RewritesExact k g.record_reference_map_)
    {s : Nat × Nat × CodeGeneratorLLVM}
    (hs : LoopReaches k code (g.masm_.pc_offset k) (4 * code.length, 0, g) s) :
    s.2.2.record_reference_map_ = g.record_reference_map_ ∧ s.2.1 ≤ code.length ∧
      s.1 = 4 * (code.length - s.2.1) ∧
      s.2.2.masm_.pc_offset k - g.masm_.pc_offset k = 4 * (s.2.1 : Int) := by
  induction hs with
  | start => exact ⟨rfl, Nat.zero_le _, rfl, by simp⟩
  | turn s s1 _ h0 hstep ih =>
    obtain ⟨a, b, c, d⟩ := ih
    obtain ⟨a1, b1, c1, d1, -⟩ := generateStep_inStep hsize hfit hexact a b c d h0 hstep
    exact ⟨a1, b1, c1, d1⟩

/-- The state in which the loop returns is one of its states, with the
counter at 0. -/
theorem generateLoop_reaches {k : V8Constants} {code : List Nat} {base : Int}
    {s0 : Nat × Nat × CodeGeneratorLLVM} :
    ∀ (fuel nb ip : Nat) (g g4 : CodeGeneratorLLVM),
      LoopReaches k code base s0 (nb, ip, g) →
      generateLoop k code base fuel nb ip g = some g4 →
      ∃ ip4, LoopReaches k code base s0 (0, ip4, g4) := by
  intro fuel
  induction fuel with
  | zero => intro nb ip g g4 _ h; simp [generateLoop] at h
  | succ fuel ih =>
    intro nb ip g g4 hr h
    rw [generateLoop_succ] at h
    by_cases h0 : nb = 0
    · rw [if_pos h0] at h
      simp only [Option.some.injEq] at h
      subst h
      subst h0
      exact ⟨ip, hr⟩
    · rw [if_neg h0] at h
      cases hstep : generateStep k code base nb ip g with
      | none => rw [hstep] at h; cases h
      | some s1 =>
        rw [hstep] at h
        exact ih s1.1 s1.2.1 s1.2.2 g4 (LoopReaches.turn (nb, ip, g) s1 hr h0 hstep) h

/-- The loop returns within one unit of fuel per word that is left and one
more, from a state in step, when every rewrite fits and none traps. -/
theorem generateLoop_isSome {k : V8Constants} {code : List Nat} {base : Int}
    {map : List (Nat × StackMaps.Record × StackMapInfo)}
    (hsize : 4 * code.length < 2 ^ 32) (hfit : RewritesFit k code map)
    (hexact : RewritesExact k map)
    (hok : ∀ (p : Nat) (record : StackMaps.Record) (info : StackMapInfo),
      map.lookup p = some (record, info) →
      ∀ g1 : CodeGeneratorLLVM, (g1.HandleStackMapInfo k info record).isSome = true) :
    ∀ (fuel nb ip : Nat) (g : CodeGeneratorLLVM),
      g.record_reference_map_ = map → ip ≤ code.length → nb = 4 * (code.length - ip) →
      g.masm_.pc_offset k - base = 4 * (ip : Int) → code.length - ip < fuel →
      (generateLoop k code base fuel nb ip g).isSome = true := by
  intro fuel
  induction fuel with
  | zero => intro nb ip g _ _ _ _ hf; omega
  | succ fuel ih =>
    intro nb ip g hmap hip hnb hpc hf
    rw [generateLoop_succ]
    by_cases h0 : nb = 0
    · rw [if_pos h0]
      rfl
    · rw [if_neg h0]
      have hsome := generateStep_isSome hsize (by rw [hmap]; exact hok) hip hnb hpc h0
      cases hstep : generateStep k code base nb ip g with
      | none => rw [hstep] at hsome; cases hsome
      | some s1 =>
        obtain ⟨a1, b1, c1, d1, e1⟩ :=
          generateStep_inStep hsize hfit hexact hmap hip hnb hpc h0 hstep
        exact ih s1.1 s1.2.1 s1.2.2 a1 b1 c1 d1 (by omega)




/-- Counterexample to C29 as stated. First, the code section has one word
and the call registered at offset 0 is rewritten to two instructions. In the
first turn the counter, 4, is lowered by 8 and wraps around to 4294967292,
and the cursor goes to word 2, past the end of the section. At the start of
the second turn the `CHECK` holds, the sum being taken on 32 bits, and the
turn reads the word at the cursor, outside the section. `Generate` on a
compilation unit with this section and this call does not return a code
object. Second, the code section has two words and the return registered at
offset 0 adjusts the stack pointer by 1028, which has no encoding as an
immediate: the rewrite returns 2 and, with `armConstants`, emits three
instructions; the counter reaches 0 and the loop returns with 8 bytes
consumed and 12 emitted. -/
theorem C29_counterexample :
    (∃ g1, generateStep armConstants [0xe12fff3c] 0 4 0 overflowingGenerator =
        some (4294967292, 2, g1) ∧
      g1.masm_.buffer = [MasmInstr.stm_db_w Register.sp 1,
        MasmInstr.blx (Register.from_code 2)] ∧
      ¬ (2 ≤ [0xe12fff3c].length) ∧
      (g1.masm_.pc_offset armConstants - 0 + ((4294967292 : Nat) : Int)) % 2 ^ 32 =
        ((4 * [0xe12fff3c].length : Nat) : Int) ∧
      [0xe12fff3c][2]? = none ∧
      generateStep armConstants [0xe12fff3c] 0 4294967292 2 g1 = none ∧
      generateLoop armConstants [0xe12fff3c] 0 2 4 0 overflowingGenerator = none ∧
      Generate emptyGenerator callParser armConstants overflowingState = none) ∧
    (∃ g4, generateLoop armConstants [0xe12fff1e, 0xe1a00000] 0 3 8 0 returnGenerator =
        some g4 ∧
      g4.masm_.buffer = [MasmInstr.add_imm Register.sp Register.sp 1028,
        MasmInstr.bx Register.lr] ∧
      g4.masm_.pc_offset armConstants - returnGenerator.masm_.pc_offset armConstants = 12 ∧
      4 * [0xe12fff1e, 0xe1a00000].length = 8) := by
  refine ⟨⟨{ overflowingGenerator with
      masm_ := { buffer := [MasmInstr.stm_db_w Register.sp 1,
        MasmInstr.blx (Register.from_code 2)] },
      safepoint_table_builder_ := [{ pc := 8, slots := [] }],
      reference_instruction_ := 0xe12fff3c }, ?_, ?_, ?_, ?_, ?_, ?_, ?_, ?_⟩,
    ⟨{ returnGenerator with
      masm_ := { buffer := [MasmInstr.add_imm Register.sp Register.sp 1028,
        MasmInstr.bx Register.lr] },
      reference_instruction_ := 0xe12fff1e }, ?_, ?_, ?_, ?_⟩⟩
  all_goals decide

/-- C29, amended: let the code section have less than 2^32 bytes, let every
rewrite fit, that is, emit no more instructions than the section has from
the word of its patch point on, and let every rewrite be exact, that is,
return the count of the instructions it emitted, which the rewrites of calls
and of store barriers are of themselves. Then in every state the loop of
`Generate` goes through, the cursor is not past the end of the section, the
counter is the number of bytes from the cursor to the end, so it has not
wrapped around, the bytes emitted are the bytes consumed, and the `CHECK`
holds. When the loop returns, it does so with the counter at 0, the cursor at
the end and as many bytes emitted as the section has. When moreover no
rewrite traps, the loop returns within one turn per word. -/
theorem C29_loop_in_step (k : V8Constants) (code : List Nat) (g : CodeGeneratorLLVM)
    (hsize : 4 * code.length < 2 ^ 32) (hfit : RewritesFit k code g.record_reference_map_)
    (hexact : RewritesExact k g.record_reference_map_) :
    (∀ s, LoopReaches k code (g.masm_.pc_offset k) (4 * code.length, 0, g) s →
      s.2.1 ≤ code.length ∧ s.1 = 4 * (code.length - s.2.1) ∧
      s.2.2.masm_.pc_offset k - g.masm_.pc_offset k = 4 * (s.2.1 : Int) ∧
      (s.2.2.masm_.pc_offset k - g.masm_.pc_offset k + (s.1 : Int)) % 2 ^ 32 =
        ((4 * code.length : Nat) : Int)) ∧
    (∀ fuel g4,
      generateLoop k code (g.masm_.pc_offset k) fuel (4 * code.length) 0 g = some g4 →
      LoopReaches k code (g.masm_.pc_offset k) (4 * code.length, 0, g)
        (0, code.length, g4) ∧
      g4.masm_.pc_offset k - g.masm_.pc_offset k = 4 * (code.length : Int)) ∧
    ((∀ (p : Nat) (record : StackMaps.Record) (info : StackMapInfo),
        g.record_reference_map_.lookup p = some (record, info) →
        ∀ g1 : CodeGeneratorLLVM, (g1.HandleStackMapInfo k info record).isSome = true) →
      (generateLoop k code (g.masm_.pc_offset k) (code.length + 1) (4 * code.length) 0
        g).isSome = true) ∧
    (∀ (info : StackMapInfo) (record : StackMaps.Record) (g1 g2 : CodeGeneratorLLVM)
        (incremental : Int),
      info.GetType = StackMapInfoType.kCallInfo ∨
        info.GetType = StackMapInfoType.kStoreBarrier →
      g1.HandleStackMapInfo k info record = some (g2, incremental) →
      g2.masm_.pc_offset k - g1.masm_.pc_offset k = 4 * incremental) := by
  refine ⟨fun s hs => ?_, fun fuel g4 h => ?_, fun hok => ?_,
    fun info record g1 g2 incremental hk h => HandleStackMapInfo_exact hk h⟩
  · obtain ⟨-, b, c, d⟩ := loopReaches_inStep hsize hfit hexact hs
    refine ⟨b, c, d, ?_⟩
    have e : s.2.2.masm_.pc_offset k - g.masm_.pc_offset k + (s.1 : Int) =
        ((4 * code.length : Nat) : Int) := by
      rw [d]
      omega
    rw [e]
    apply Int.emod_eq_of_lt <;> omega
  · obtain ⟨ip4, hr⟩ := generateLoop_reaches fuel _ _ _ _ LoopReaches.start h
    obtain ⟨-, b, c, d⟩ := loopReaches_inStep hsize hfit hexact hr
    have hip : ip4 = code.length := by
      have c2 : 0 = 4 * (code.length - ip4) := c
      have b2 : ip4 ≤ code.length := b
      omega
    subst hip
    exact ⟨hr, d⟩
  · exact generateLoop_isSome hsize hfit hexact hok (code.length + 1) (4 * code.length) 0 g
      rfl (Nat.zero_le _) rfl (by simp) (by omega)

/-- A section of four words with a call registered at offset 4 that has an
operand in register 0 and an operand without a register, whose location is
-1: the rewrite is two instructions, which the section has from the patch
point on. -/
theorem C29_loop_in_step_witness :
    4 * [0xe1a00000, 0xe12fff3c, 0xe1a00000, 0xe1a00000].length < 2 ^ 32 ∧
    RewritesFit armConstants [0xe1a00000, 0xe12fff3c, 0xe1a00000, 0xe1a00000]
      spillGenerator.record_reference_map_ ∧
    RewritesExact armConstants spillGenerator.record_reference_map_ ∧
    (∀ fuel g4, generateLoop armConstants [0xe1a00000, 0xe12fff3c, 0xe1a00000, 0xe1a00000]
        (spillGenerator.masm_.pc_offset armConstants) fuel
        (4 * [0xe1a00000, 0xe12fff3c, 0xe1a00000, 0xe1a00000].length) 0 spillGenerator =
          some g4 →
      LoopReaches armConstants [0xe1a00000, 0xe12fff3c, 0xe1a00000, 0xe1a00000]
        (spillGenerator.masm_.pc_offset armConstants)
        (4 * [0xe1a00000, 0xe12fff3c, 0xe1a00000, 0xe1a00000].length, 0, spillGenerator)
        (0, [0xe1a00000, 0xe12fff3c, 0xe1a00000, 0xe1a00000].length, g4) ∧
      g4.masm_.pc_offset armConstants - spillGenerator.masm_.pc_offset armConstants =
        4 * ([0xe1a00000, 0xe12fff3c, 0xe1a00000, 0xe1a00000].length : Int)) ∧
    generateLoop armConstants [0xe1a00000, 0xe12fff3c, 0xe1a00000, 0xe1a00000] 0 5 16 0
        spillGenerator =
      some { spillGenerator with
        masm_ := { buffer := [MasmInstr.dd 0xe1a00000, MasmInstr.stm_db_w Register.sp 1,
          MasmInstr.blx (Register.from_code 2), MasmInstr.dd 0xe1a00000] },
        safepoint_table_builder_ := [{ pc := 12, slots := [0] }],
        reference_instruction_ := 0xe12fff3c } := by
  have hlook : ∀ (p : Nat) (record : StackMaps.Record) (info : StackMapInfo),
      spillGenerator.record_reference_map_.lookup p = some (record, info) →
      p = 4 ∧ info = StackMapInfo.CallInfo [2, 0, -1] 0 false 0 := by
    intro p record info hl
    have e : spillGenerator.record_reference_map_ =
        [(4, spillRecord, StackMapInfo.CallInfo [2, 0, -1] 0 false 0)] := rfl
    rw [e, List.lookup_cons] at hl
    cases hb : p == 4 with
    | true =>
      rw [hb] at hl
      simp only [Option.some.injEq, Prod.mk.injEq] at hl
      exact ⟨by simpa using hb, hl.2.symm⟩
    | false =>
      rw [hb] at hl
      cases hl
  have hfit : RewritesFit armConstants [0xe1a00000, 0xe12fff3c, 0xe1a00000, 0xe1a00000]
      spillGenerator.record_reference_map_ := by
    intro ip record info hip hl g g1 incremental hh
    obtain ⟨hp, hi⟩ := hlook _ record info hl
    subst hi
    have hh2 : g.HandleCall armConstants [2, 0, -1] false 0 record = some (g1, incremental) := hh
    obtain ⟨c, rest, emitted, e1, e2, -, e3, -⟩ := HandleCall_spec hh2
    simp only [List.cons.injEq] at e1
    obtain ⟨ec, er⟩ := e1
    subst ec
    subst er
    have e4 : emitted = [MasmInstr.stm_db_w Register.sp 1,
        MasmInstr.blx (Register.from_code 2)] := by
      rw [e2]
      decide
    rw [e4] at e3
    have e5 : incremental = 2 := by rw [e3]; rfl
    rw [e5]
    have hip1 : ip = 1 := by omega
    rw [hip1]
    decide
  have hexact : RewritesExact armConstants spillGenerator.record_reference_map_ := by
    intro p record info hl g g1 incremental hh
    obtain ⟨-, hi⟩ := hlook _ record info hl
    subst hi
    exact @HandleStackMapInfo_exact g g1 armConstants (StackMapInfo.CallInfo [2, 0, -1] 0 false 0)
      record incremental (Or.inl rfl) hh
  exact ⟨by decide, hfit, hexact,
    (C29_loop_in_step armConstants [0xe1a00000, 0xe12fff3c, 0xe1a00000, 0xe1a00000]
      spillGenerator (by decide) hfit hexact).2.1,
    by decide⟩

/-! ## The store lowering: the blocks of the barrier -/

/-- Method `CheckPageFlag`, with the blocks: the check is emitted at the
insert position, its branch falls through to the block the method appends,
and the insert position is left at the end of that block. -/
theorem CheckPageFlag_trace (r : StoreBarrierResolver) (k : V8Constants) (b : LLVMTFBuilder)
    (base : LValue) (mask : Int) (C : LBasicBlock)
    (h : GetNativeBBContinuation b.basic_block_manager_ r.current_bb_ = some C) :
    ∃ o c, r.CheckPageFlag k b base mask = some { b with output_ := o } ∧
      o.instructions = b.output_.instructions ++ c ∧ IsPageFlagCheck k base mask C c ∧
      o.nextBlock = b.output_.nextBlock + 1 ∧ o.root_ = b.output_.root_ ∧
      o.lr_ensured_ = b.output_.lr_ensured_ ∧
      EndsWithCondBr c C b.output_.nextBlock ∧
      (∀ e ∈ c, e.position = b.output_.position) ∧
      o.position = Position.atEnd b.output_.nextBlock := by
  unfold StoreBarrierResolver.CheckPageFlag
  simp only [h, Output.buildCast, Output.buildAnd, Output.buildGEPWithByteOffset,
    Output.buildLoad, Output.buildICmp, Output.buildCondBr, Output.appendBasicBlock,
    Output.positionToBBEnd, Output.emit, page_mask_eq, List.append_assoc, List.singleton_append]
  refine ⟨_, _, rfl, rfl, ⟨rfl, rfl, rfl, rfl, rfl, rfl, rfl, _, rfl⟩, rfl, rfl, rfl,
    ⟨_, _, rfl, rfl⟩, fun e he => ?_, rfl⟩
  simp only [List.cons_append, List.nil_append, List.mem_cons, List.mem_singleton,
    List.not_mem_nil, or_false] at he
  rcases he with e0 | e0 | e0 | e0 | e0 | e0 | e0 | e0 <;> rw [e0]

/-- Method `CheckSmi`, with the blocks. -/
theorem CheckSmi_trace (r : StoreBarrierResolver) (b : LLVMTFBuilder)
    (value : LValue) (C : LBasicBlock)
    (h : GetNativeBBContinuation b.basic_block_manager_ r.current_bb_ = some C) :
    ∃ o c, r.CheckSmi b value = some { b with output_ := o } ∧
      o.instructions = b.output_.instructions ++ c ∧ IsSmiCheck value C c ∧
      o.nextBlock = b.output_.nextBlock + 1 ∧ o.root_ = b.output_.root_ ∧
      o.lr_ensured_ = b.output_.lr_ensured_ ∧
      EndsWithCondBr c C b.output_.nextBlock ∧
      (∀ e ∈ c, e.position = b.output_.position) ∧
      o.position = Position.atEnd b.output_.nextBlock := by
  unfold StoreBarrierResolver.CheckSmi
  simp only [h, Output.buildCast, Output.buildAnd, Output.buildICmp, Output.buildCondBr,
    Output.appendBasicBlock, Output.positionToBBEnd, Output.emit, List.append_assoc,
    List.singleton_append]
  refine ⟨_, _, rfl, rfl, ⟨rfl, rfl, rfl, _, rfl⟩, rfl, rfl, rfl, ⟨_, _, rfl, rfl⟩,
    fun e he => ?_, rfl⟩
  simp only [List.cons_append, List.nil_append, List.mem_cons, List.mem_singleton,
    List.not_mem_nil, or_false] at he
  rcases he with e0 | e0 | e0 | e0 <;> rw [e0]

/-- Method `Resolve` of the store barrier for the full barrier: what it
emits, into which blocks, and what it leaves in the builder. The block that
`CreateContination` appends is the first of four that are appended; each
check falls through to a block of its own, in which the next check or the
call is emitted. -/
theorem storeBarrier_Resolve_full (r : StoreBarrierResolver) (k : V8Constants)
    (b : LLVMTFBuilder) (base offset value : LValue)
    (himpl : (GetImpl b.basic_block_manager_ r.current_bb_).isSome) :
    ∃ (b2 : LLVMTFBuilder) (c1 c2 c3 : List Emitted) (call branch : Emitted),
      r.Resolve k b base offset value WriteBarrierKind.kFullWriteBarrier = some b2 ∧
      b2.output_.instructions =
        b.output_.instructions ++ c1 ++ c2 ++ c3 ++ [call] ++ [branch] ∧
      IsPageFlagCheck k base k.kPointersFromHereAreInterestingMask b.output_.nextBlock c1 ∧
      IsSmiCheck value b.output_.nextBlock c2 ∧
      IsPageFlagCheck k value k.kPointersToHereAreInterestingMask b.output_.nextBlock c3 ∧
      call.instr = Instr.call Intrinsic.patchpointVoid
        [Output.constInt64 r.patch_point_id_,
         Output.constInt32 (4 * (if r.needs_frame_ then 3 else 3 + 2)),
         Output.constNull LType.ref8, Output.constInt32 6, base, offset,
         LValue.undef LType.int32, Output.constIntPtr 0, Output.constIntPtr 0,
         b.output_.root_] ∧
      branch.instr = Instr.br b.output_.nextBlock ∧
      b2.basic_block_manager_ = updateImpl b.basic_block_manager_ r.current_bb_
        (fun impl => { impl with continuation := some b.output_.nextBlock }) ∧
      b2.stack_map_info_map_ =
        b.stack_map_info_map_.emplace r.patch_point_id_ StackMapInfo.StoreBarrierInfo ∧
      b2.output_.position = Position.atEnd b.output_.nextBlock ∧
      b2.state_point_id_next_ = b.state_point_id_next_ ∧ b2.current_bb_ = b.current_bb_ ∧
      b2.output_.nextBlock = b.output_.nextBlock + 4 ∧
      EndsWithCondBr c1 b.output_.nextBlock (b.output_.nextBlock + 1) ∧
      EndsWithCondBr c2 b.output_.nextBlock (b.output_.nextBlock + 2) ∧
      EndsWithCondBr c3 b.output_.nextBlock (b.output_.nextBlock + 3) ∧
      (∀ e ∈ c1, e.position = b.output_.position) ∧
      (∀ e ∈ c2, e.position = Position.atEnd (b.output_.nextBlock + 1)) ∧
      (∀ e ∈ c3, e.position = Position.atEnd (b.output_.nextBlock + 2)) ∧
      call.position = Position.atEnd (b.output_.nextBlock + 3) ∧
      branch.position = Position.atEnd (b.output_.nextBlock + 3) := by
  obtain ⟨impl, hg⟩ := Option.isSome_iff_exists.mp himpl
  have hC := GetNativeBBContinuation_updateImpl b.basic_block_manager_ r.current_bb_
    b.output_.nextBlock himpl
  unfold StoreBarrierResolver.Resolve
  simp only [hg, StoreBarrierResolver.CreateContination, Output.appendBasicBlock]
  obtain ⟨o1, c1, e1, i1, p1, n1, r1, l1, f1, s1, t1⟩ := CheckPageFlag_trace r k
    { b with output_ := { b.output_ with nextBlock := b.output_.nextBlock + 1 },
             basic_block_manager_ := updateImpl b.basic_block_manager_ r.current_bb_
               (fun impl => { impl with continuation := some b.output_.nextBlock }) }
    base k.kPointersFromHereAreInterestingMask b.output_.nextBlock hC
  simp only at e1 i1 n1 r1 l1 f1 s1 t1
  rw [e1]
  simp only
  obtain ⟨o2, c2, e2, i2, p2, n2, r2, l2, f2, s2, t2⟩ := CheckSmi_trace r
    { b with output_ := o1,
             basic_block_manager_ := updateImpl b.basic_block_manager_ r.current_bb_
               (fun impl => { impl with continuation := some b.output_.nextBlock }) }
    value b.output_.nextBlock hC
  simp only at e2 i2 n2 r2 l2 f2 s2 t2
  have hgt : WriteBarrierKind.kFullWriteBarrier.toNat >
      WriteBarrierKind.kPointerWriteBarrier.toNat := by decide
  simp only [hgt, if_true, e2]
  obtain ⟨o3, c3, e3, i3, p3, n3, r3, l3, f3, s3, t3⟩ := CheckPageFlag_trace r k
    { b with output_ := o2,
             basic_block_manager_ := updateImpl b.basic_block_manager_ r.current_bb_
               (fun impl => { impl with continuation := some b.output_.nextBlock }) }
    value k.kPointersToHereAreInterestingMask b.output_.nextBlock hC
  simp only at e3 i3 n3 r3 l3 f3 s3 t3
  rw [n1] at f2 t2
  rw [n2, n1] at f3 t3
  rw [t1] at s2
  rw [t2] at s3
  simp only [e3, StoreBarrierResolver.CallPatchpoint, hC, Output.buildCall, Output.buildBr,
    Output.positionToBBEnd, Output.emit, Output.ensureLR]
  cases hn : r.needs_frame_ <;> simp only [hn, if_true, if_false, Bool.false_eq_true]
  · refine ⟨_, c1, c2, c3, ?call1, ?branch1, rfl, ?eq1, p1, p2, p3, ?ci1, ?bi1, rfl, rfl, rfl,
      rfl, rfl, ?nb1, f1, f2, f3, s1, s2, s3, ?cp1, ?bp1⟩
    case eq1 =>
      simp only
      rw [← i1, ← i2, ← i3]
      exact rfl
    case ci1 =>
      simp [r3, r2, r1, WriteBarrierKind.toNat, RememberedSetAction.toInt,
        SaveFPRegsMode.toInt]
    case bi1 => rfl
    case nb1 =>
      show o3.nextBlock = _
      rw [n3, n2, n1]
    case cp1 => exact t3
    case bp1 => exact t3
  · refine ⟨_, c1, c2, c3, ?call2, ?branch2, rfl, ?eq2, p1, p2, p3, ?ci2, ?bi2, rfl, rfl, rfl,
      rfl, rfl, ?nb2, f1, f2, f3, s1, s2, s3, ?cp2, ?bp2⟩
    case eq2 =>
      simp only
      rw [← i1, ← i2, ← i3]
      exact rfl
    case ci2 =>
      simp [r3, r2, r1, WriteBarrierKind.toNat, RememberedSetAction.toInt,
        SaveFPRegsMode.toInt]
    case bi2 => rfl
    case nb2 =>
      show o3.nextBlock = _
      rw [n3, n2, n1]
    case cp2 => exact t3
    case bp2 => exact t3


/-- Function `buildAccessPointer`, with the insert position: it is not moved
and everything is emitted there. -/
theorem buildAccessPointer_trace (o : Output) (value offset : LValue)
    (rep : MachineRepresentation) (type : LType)
    (hrep : getMachineRepresentationType rep = some type) :
    ∃ (o1 : Output) (pointer : LValue) (access : List Emitted),
      buildAccessPointer o value offset rep = some (o1, pointer) ∧
      o1.instructions = o.instructions ++ access ∧
      (∀ e ∈ access, e.instr.isAccess = true) ∧
      o1.nextBlock = o.nextBlock ∧ o1.root_ = o.root_ ∧ o1.lr_ensured_ = o.lr_ensured_ ∧
      o1.position = o.position ∧ (∀ e ∈ access, e.position = o.position) := by
  unfold buildAccessPointer
  cases hk : (typeOf value).isIntegerKind
  · simp only [hrep, Bool.false_eq_true, if_false, Output.buildGEPWithByteOffset, Output.emit]
    refine ⟨_, _, ?acc1, rfl, ?eq1, ?all1, rfl, rfl, rfl, rfl, ?pos1⟩
    case eq1 => exact rfl
    case all1 =>
      intro e he
      rw [List.mem_singleton.mp he]
      rfl
    case pos1 =>
      intro e he
      rw [List.mem_singleton.mp he]
  · simp only [hrep, if_true, Output.buildGEPWithByteOffset, Output.buildCast, Output.emit]
    refine ⟨_, _, ?acc2, rfl, ?eq2, ?all2, rfl, rfl, rfl, rfl, ?pos2⟩
    case eq2 =>
      simp only [List.append_assoc, List.singleton_append]
      exact rfl
    case all2 =>
      intro e he
      simp only [List.mem_cons, List.mem_singleton, List.not_mem_nil, or_false] at he
      rcases he with h | h <;> rw [h] <;> rfl
    case pos2 =>
      intro e he
      simp only [List.mem_cons, List.mem_singleton, List.not_mem_nil, or_false] at he
      rcases he with h | h <;> rw [h]

/-- Method `VisitStore` up to the barrier, with the insert position: the
access is emitted where the builder stood and the position is not moved
before the barrier is resolved. -/
theorem VisitStore_trace (b : LLVMTFBuilder) (k : V8Constants) (id : Int)
    (rep : MachineRepresentation) (barrier : WriteBarrierKind) (base offset value cur : Int)
    (base_value offset_value bound : LValue) (type : LType)
    (hcur : b.current_bb_ = some cur)
    (hbase : valueIn b.basic_block_manager_ cur base = some base_value)
    (hoffset : valueIn b.basic_block_manager_ cur offset = some offset_value)
    (hvalue : valueIn b.basic_block_manager_ cur value = some bound)
    (hrep : getMachineRepresentationType rep = some type) :
    ∃ (o : Output) (access : List Emitted) (stored pointer val destination : LValue),
      b.VisitStore k id rep barrier base offset value =
        (if barrier ≠ WriteBarrierKind.kNoWriteBarrier then
          StoreBarrierResolver.Resolve
            { current_bb_ := cur, id_ := id, patch_point_id_ := b.state_point_id_next_,
              needs_frame_ := b.basic_block_manager_.needs_frame } k
            { b with output_ := o,
                     basic_block_manager_ := updateImpl b.basic_block_manager_ cur
                       (fun impl => impl.set_value id val),
                     state_point_id_next_ := b.state_point_id_next_ + 1 }
            destination pointer stored barrier
        else some { b with output_ := o,
                           basic_block_manager_ := updateImpl b.basic_block_manager_ cur
                             (fun impl => impl.set_value id val) }) ∧
      o.instructions = b.output_.instructions ++ access ∧
      (∀ e ∈ access, e.instr.isAccess = true) ∧
      (∃ e ∈ access, e.instr = Instr.store stored pointer) ∧
      valueIn (updateImpl b.basic_block_manager_ cur (fun impl => impl.set_value id val))
        cur base = some destination ∧
      o.nextBlock = b.output_.nextBlock ∧ o.root_ = b.output_.root_ ∧
      o.position = b.output_.position ∧
      (∀ e ∈ access, e.position = b.output_.position) := by
  have himpl := valueIn_isSome hbase
  obtain ⟨impl, hg⟩ := Option.isSome_iff_exists.mp himpl
  obtain ⟨o1, pointer, acc, e1, i1, a1, n1, r1, l1, p1, q1⟩ :=
    buildAccessPointer_trace b.output_ base_value offset_value rep type hrep
  have hneeds : ∀ f, (updateImpl b.basic_block_manager_ cur f).needs_frame =
      b.basic_block_manager_.needs_frame := fun _ => rfl
  have hdest : ∀ val, valueIn (updateImpl b.basic_block_manager_ cur
      (fun impl => impl.set_value id val)) cur base =
        some (if base = id then val else base_value) := by
    intro val
    rw [valueIn_updateImpl_set_value _ _ _ _ _ _ himpl]
    by_cases hbi : base = id
    · simp [hbi]
    · simp [hbi, hbase]
  unfold LLVMTFBuilder.VisitStore
  simp only [hcur, hbase, hoffset, hvalue, e1, LLVMTFBuilder.set_value, hg]
  by_cases ht : getElementType (typeOf pointer) ≠ typeOf bound
  · simp only [if_pos ht, Output.buildCast, Output.buildStore, Output.emit, hdest, hneeds]
    refine ⟨_, ?acc1, _, _, _, _, rfl, ?eq1, ?all1, ?st1, rfl, n1, r1, p1, ?pos1⟩
    case eq1 =>
      simp only [i1, List.append_assoc, List.singleton_append]
      exact rfl
    case all1 =>
      intro e he
      simp only [List.mem_append, List.mem_cons, List.mem_singleton, List.not_mem_nil,
        or_false] at he
      rcases he with h | h | h
      · exact a1 e h
      · rw [h]; rfl
      · rw [h]; rfl
    case st1 =>
      exact ⟨_, List.mem_append_right _ (List.mem_cons_of_mem _ (List.mem_singleton.mpr rfl)),
        rfl⟩
    case pos1 =>
      intro e he
      simp only [List.mem_append, List.mem_cons, List.mem_singleton, List.not_mem_nil,
        or_false] at he
      rcases he with h | h | h
      · exact q1 e h
      · rw [h]; exact p1
      · rw [h]; exact p1
  · simp only [if_neg ht, Output.buildStore, Output.emit, hdest, hneeds]
    refine ⟨_, ?acc2, _, _, _, _, rfl, ?eq2, ?all2, ?st2, rfl, n1, r1, p1, ?pos2⟩
    case eq2 =>
      simp only [i1, List.append_assoc]
      exact rfl
    case all2 =>
      intro e he
      simp only [List.mem_append, List.mem_singleton] at he
      rcases he with h | h
      · exact a1 e h
      · rw [h]; rfl
    case st2 =>
      exact ⟨_, List.mem_append_right _ (List.mem_singleton.mpr rfl), rfl⟩
    case pos2 =>
      intro e he
      simp only [List.mem_append, List.mem_singleton] at he
      rcases he with h | h
      · exact q1 e h
      · rw [h]; exact p1

/-! ## C16: write-barrier elision -/

/-- C16: `VisitStore` on bound operands returns, having emitted the access
(casts, the address computation, the store) at the insert position and then
the barrier. For the kind 'no barrier' nothing follows the access, and the
stack map, the count of native blocks, the insert position, the next patch
point id and the block's continuation are unchanged. For 'full barrier' four
native blocks are appended, of which the first, `C`, is the continuation
block and the other three are the fall-through blocks of the checks. The
access is followed by the page-flag check of the destination (emitted at the
insert position, falling through to `C + 1`), the small-integer check of the
stored value (in `C + 1`, falling through to `C + 2`), the page-flag check of
the stored value (in `C + 2`, falling through to `C + 3`), and one
patch-point call and a branch (in `C + 3`). The three checks branch to `C`
and the final branch targets `C`; `C` is the block's continuation afterwards
and the insert position is left at its end, and the stack map holds a
store-barrier record for the patch point. -/
theorem C16_write_barrier_elision (b : LLVMTFBuilder) (k : V8Constants) (id : Int)
    (rep : MachineRepresentation) (barrier : WriteBarrierKind) (base offset value cur : Int)
    (base_value offset_value bound : LValue) (type : LType)
    (hcur : b.current_bb_ = some cur)
    (hbase : valueIn b.basic_block_manager_ cur base = some base_value)
    (hoffset : valueIn b.basic_block_manager_ cur offset = some offset_value)
    (hvalue : valueIn b.basic_block_manager_ cur value = some bound)
    (hrep : getMachineRepresentationType rep = some type) :
    ∃ (b2 : LLVMTFBuilder) (access rest : List Emitted) (stored pointer : LValue),
      b.VisitStore k id rep barrier base offset value = some b2 ∧
      b2.output_.instructions = b.output_.instructions ++ access ++ rest ∧
      (∀ e ∈ access, e.instr.isAccess = true) ∧
      (∃ e ∈ access, e.instr = Instr.store stored pointer) ∧
      (∀ e ∈ access, e.position = b.output_.position) ∧
      (barrier = WriteBarrierKind.kNoWriteBarrier →
        rest = [] ∧ b2.stack_map_info_map_ = b.stack_map_info_map_ ∧
        GetNativeBBContinuation b2.basic_block_manager_ cur =
          GetNativeBBContinuation b.basic_block_manager_ cur ∧
        b2.output_.nextBlock = b.output_.nextBlock ∧
        b2.output_.position = b.output_.position ∧
        b2.state_point_id_next_ = b.state_point_id_next_) ∧
      (barrier = WriteBarrierKind.kFullWriteBarrier →
        ∃ (destination : LValue) (c1 c2 c3 : List Emitted) (call branch : Emitted),
          valueIn b2.basic_block_manager_ cur base = some destination ∧
          rest = c1 ++ c2 ++ c3 ++ [call] ++ [branch] ∧
          IsPageFlagCheck k destination k.kPointersFromHereAreInterestingMask
            b.output_.nextBlock c1 ∧
          IsSmiCheck stored b.output_.nextBlock c2 ∧
          IsPageFlagCheck k stored k.kPointersToHereAreInterestingMask b.output_.nextBlock c3 ∧
          call.instr = Instr.call Intrinsic.patchpointVoid
            [Output.constInt64 b.state_point_id_next_,
             Output.constInt32 (4 * (if b.basic_block_manager_.needs_frame then 3 else 3 + 2)),
             Output.constNull LType.ref8, Output.constInt32 6, destination, pointer,
             LValue.undef LType.int32, Output.constIntPtr 0, Output.constIntPtr 0,
             b.output_.root_] ∧
          branch.instr = Instr.br b.output_.nextBlock ∧
          GetNativeBBContinuation b2.basic_block_manager_ cur = some b.output_.nextBlock ∧
          b2.stack_map_info_map_ =
            b.stack_map_info_map_.emplace b.state_point_id_next_ StackMapInfo.StoreBarrierInfo ∧
          b2.output_.nextBlock = b.output_.nextBlock + 4 ∧
          EndsWithCondBr c1 b.output_.nextBlock (b.output_.nextBlock + 1) ∧
          EndsWithCondBr c2 b.output_.nextBlock (b.output_.nextBlock + 2) ∧
          EndsWithCondBr c3 b.output_.nextBlock (b.output_.nextBlock + 3) ∧
          (∀ e ∈ c1, e.position = b.output_.position) ∧
          (∀ e ∈ c2, e.position = Position.atEnd (b.output_.nextBlock + 1)) ∧
          (∀ e ∈ c3, e.position = Position.atEnd (b.output_.nextBlock + 2)) ∧
          call.position = Position.atEnd (b.output_.nextBlock + 3) ∧
          branch.position = Position.atEnd (b.output_.nextBlock + 3) ∧
          b2.output_.position = Position.atEnd b.output_.nextBlock ∧
          b2.state_point_id_next_ = b.state_point_id_next_ + 1) := by
  obtain ⟨o, access, stored, pointer, val, destination, hv, hi, ha, hs, hd, hn, hr, hp, hq⟩ :=
    VisitStore_trace b k id rep barrier base offset value cur base_value offset_value bound type
      hcur hbase hoffset hvalue hrep
  have himpl := valueIn_isSome hd
  by_cases hb : barrier = WriteBarrierKind.kNoWriteBarrier
  · rw [if_neg (not_not.mpr hb)] at hv
    refine ⟨_, access, [], stored, pointer, hv, by rw [List.append_nil]; exact hi, ha, hs, hq,
      fun _ => ⟨rfl, rfl, GetNativeBBContinuation_set_value _ _ _ _, hn, hp, rfl⟩, fun hf => ?_⟩
    rw [hb] at hf
    cases hf
  · rw [if_pos hb] at hv
    by_cases hfull : barrier = WriteBarrierKind.kFullWriteBarrier
    · subst hfull
      obtain ⟨b2, c1, c2, c3, call, branch, q0, q1, q2, q3, q4, q5, q6, q7, q8, q9, q10, q11,
        q12, q13, q14, q15, q16, q17, q18, q19, q20⟩ := storeBarrier_Resolve_full
          { current_bb_ := cur, id_ := id, patch_point_id_ := b.state_point_id_next_,
            needs_frame_ := b.basic_block_manager_.needs_frame } k
          { b with output_ := o,
                   basic_block_manager_ := updateImpl b.basic_block_manager_ cur
                     (fun impl => impl.set_value id val),
                   state_point_id_next_ := b.state_point_id_next_ + 1 }
          destination pointer stored himpl
      simp only at q1 q2 q3 q4 q5 q6 q7 q8 q9 q10 q11 q12 q13 q14 q15 q16 q17 q18 q19 q20
      rw [hn] at q2 q3 q4 q6 q7 q9 q12 q13 q14 q15 q17 q18 q19 q20
      rw [hr] at q5
      rw [hp] at q16
      refine ⟨b2, access, c1 ++ c2 ++ c3 ++ [call] ++ [branch], stored, pointer, hv.trans q0,
        ?_, ha, hs, hq, fun h => absurd h hb, fun _ => ?_⟩
      · rw [q1, hi]
        simp only [List.append_assoc]
      · refine ⟨destination, c1, c2, c3, call, branch, ?_, rfl, q2, q3, q4, q5, q6, ?_, q8,
          q12, q13, q14, q15, q16, q17, q18, q19, q20, q9, q10⟩
        · rw [q7]
          exact (valueIn_updateImpl_continuation _ _ _ _ _).trans hd
        · rw [q7]
          exact GetNativeBBContinuation_updateImpl _ _ _ himpl
    · obtain ⟨b2, c1, c2, c3, call, branch, q0, q1, -⟩ := storeBarrier_Resolve_spec
          { current_bb_ := cur, id_ := id, patch_point_id_ := b.state_point_id_next_,
            needs_frame_ := b.basic_block_manager_.needs_frame } k
          { b with output_ := o,
                   basic_block_manager_ := updateImpl b.basic_block_manager_ cur
                     (fun impl => impl.set_value id val),
                   state_point_id_next_ := b.state_point_id_next_ + 1 }
          destination pointer stored barrier himpl
      simp only at q1
      refine ⟨b2, access, c1 ++ c2 ++ c3 ++ [call] ++ [branch], stored, pointer, hv.trans q0,
        ?_, ha, hs, hq, fun h => absurd h hb, fun h => absurd h hfull⟩
      rw [q1, hi]
      simp only [List.append_assoc]

/-- A full-barrier store in block 0 of `callState`, which has one native
block: blocks 1 to 4 are appended, block 1 is the continuation, the insert
position is left at its end, and the store-barrier record is registered under
patch point 0. -/
theorem C16_write_barrier_elision_witness :
    callState.current_bb_ = some 0 ∧
    valueIn callState.basic_block_manager_ 0 1 = some (LValue.inst 1 LType.taggedType) ∧
    valueIn callState.basic_block_manager_ 0 3 = some (LValue.inst 3 LType.int32) ∧
    valueIn callState.basic_block_manager_ 0 2 = some (LValue.inst 2 LType.taggedType) ∧
    getMachineRepresentationType MachineRepresentation.kTagged = some LType.taggedType ∧
    callState.output_.nextBlock = 1 ∧
    ∃ b2, callState.VisitStore armConstants 20 MachineRepresentation.kTagged
        WriteBarrierKind.kFullWriteBarrier 1 3 2 = some b2 ∧
      GetNativeBBContinuation b2.basic_block_manager_ 0 = some 1 ∧
      b2.stack_map_info_map_ = [(0, StackMapInfo.StoreBarrierInfo)] ∧
      b2.output_.nextBlock = 5 ∧ b2.output_.position = Position.atEnd 1 := by
  obtain ⟨b2, access, rest, stored, pointer, h, -, -, -, -, -, hfull⟩ :=
    C16_write_barrier_elision callState armConstants 20 MachineRepresentation.kTagged
      WriteBarrierKind.kFullWriteBarrier 1 3 2 0 (LValue.inst 1 LType.taggedType)
      (LValue.inst 3 LType.int32) (LValue.inst 2 LType.taggedType) LType.taggedType
      rfl rfl rfl rfl rfl
  obtain ⟨d, c1, c2, c3, call, branch, -, -, -, -, -, -, -, hc, hm, hnb, -, -, -, -, -, -, -,
    -, hpos, -⟩ := hfull rfl
  exact ⟨rfl, rfl, rfl, rfl, rfl, rfl, b2, h, hc, hm, hnb, hpos⟩

/-! ## The builder: what a callback may change -/

theorem outStep_refl (o : Output) : OutStep o o :=
  ⟨le_refl _, rfl, fun _ he => he⟩

theorem outStep_trans {a b c : Output} (h1 : OutStep a b) (h2 : OutStep b c) : OutStep a c :=
  ⟨le_trans h1.next h2.next, h2.incoming.trans h1.incoming,
    fun e he => h2.instructions e (h1.instructions e he)⟩

theorem outStep_emit (o : Output) (type : LType) (instr : Instr) :
    OutStep o (o.emit type instr).1 :=
  ⟨Nat.le_succ _, rfl, fun _ he => List.mem_append_left _ he⟩

theorem outStep_position (o : Output) (p : Position) : OutStep o { o with position := p } :=
  ⟨le_refl _, rfl, fun _ he => he⟩

theorem outStep_appendBasicBlock (o : Output) : OutStep o o.appendBasicBlock.1 :=
  ⟨le_refl _, rfl, fun _ he => he⟩

theorem outStep_ensureLR (o : Output) : OutStep o o.ensureLR :=
  ⟨le_refl _, rfl, fun _ he => he⟩

theorem GetImpl_ensureBB (bbm : BuilderBlocks) (id j : Int) :
    GetImpl (ensureBB bbm id) j = GetImpl bbm j := by
  unfold GetImpl
  rw [findBB_ensureBB]
  cases findBB bbm j with
  | some b => rfl
  | none =>
    simp only
    split_ifs <;> rfl

theorem deferredOf_EnsureImpl (bbm : BuilderBlocks) (id j : Int) :
    deferredOf (EnsureImpl bbm id) j = deferredOf bbm j := by
  unfold deferredOf
  rw [GetImpl_EnsureImpl]
  split_ifs with h
  · subst h
    unfold GetImpl
    cases findBB bbm j with
    | none => rfl
    | some bb =>
      cases hi : bb.impl with
      | none => simp [hi]; rfl
      | some i => simp [hi]
  · rfl

theorem GetImpl_EnsureImpl_of_some {bbm : BuilderBlocks} {id j : Int}
    {i : LLVMTFBuilderBasicBlockImpl} (h : GetImpl bbm j = some i) :
    GetImpl (EnsureImpl bbm id) j = some i := by
  rw [GetImpl_EnsureImpl]
  split_ifs with hj
  · subst hj
    unfold GetImpl at h
    cases hf : findBB bbm j with
    | none => rw [hf] at h; cases h
    | some bb =>
      rw [hf] at h
      simp only at h
      simp [h]
  · exact h

theorem startedNative_EnsureImpl {bbm : BuilderBlocks} (id : Int) (h : StartedNative bbm) :
    StartedNative (EnsureImpl bbm id) := by
  intro j impl hj hs
  rw [GetImpl_EnsureImpl] at hj
  split_ifs at hj with hji
  · subst hji
    cases hf : findBB bbm j with
    | none => rw [hf] at hj; cases hj
    | some bb =>
      rw [hf] at hj
      simp only [Option.map_some', Option.some.injEq] at hj
      cases hi : bb.impl with
      | none =>
        rw [hi] at hj
        simp only [Option.getD_none] at hj
        rw [← hj] at hs
        cases hs
      | some i =>
        rw [hi] at hj
        simp only [Option.getD_some] at hj
        subst hj
        exact h j i (by unfold GetImpl; rw [hf]; exact hi) hs
  · exact h j impl hj hs

theorem started_iff {bbm : BuilderBlocks} {P : Int} :
    IsBBStartedToBuild bbm P = true ↔ ∃ i, GetImpl bbm P = some i ∧ i.started = true := by
  unfold IsBBStartedToBuild
  cases GetImpl bbm P with
  | none => simp
  | some i => simp

/-! ### Steps that build no phi -/

theorem quietStep_refl {s : LLVMTFBuilder} (hn : StartedNative s.basic_block_manager_) :
    QuietStep s s :=
  ⟨outStep_refl _, rfl, fun _ => rfl, fun _ _ _ => rfl, Or.inl rfl, hn⟩

theorem quietStep_trans {a b c : LLVMTFBuilder} (h1 : QuietStep a b) (h2 : QuietStep b c) :
    QuietStep a c := by
  refine ⟨outStep_trans h1.out h2.out, h2.worklist.trans h1.worklist,
    fun j => (h2.deferred j).trans (h1.deferred j), fun P hs hc => ?_, ?_, h2.native⟩
  · have e1 := h1.frame P hs hc
    have hs' : IsBBStartedToBuild b.basic_block_manager_ P = true := by
      rw [IsBBStartedToBuild_congr e1]; exact hs
    have hc' : b.current_bb_ ≠ some P := by
      rcases h1.current with e | e
      · rw [e]; exact hc
      · rw [e]; exact fun x => by cases x
    rw [h2.frame P hs' hc', e1]
  · rcases h2.current with e | e
    · rcases h1.current with e' | e'
      · exact Or.inl (e.trans e')
      · exact Or.inr (e.trans e')
    · exact Or.inr e

/-- A step that changes the output only. -/
theorem quietStep_output {s s1 : LLVMTFBuilder} (hn : StartedNative s.basic_block_manager_)
    (ho : OutStep s.output_ s1.output_)
    (hb : s1.basic_block_manager_ = s.basic_block_manager_)
    (hc : s1.current_bb_ = s.current_bb_)
    (hw : s1.phi_rebuild_worklist_ = s.phi_rebuild_worklist_) : QuietStep s s1 :=
  ⟨ho, hw, fun j => by rw [hb], fun P _ _ => by rw [hb], Or.inl hc, by rw [hb]; exact hn⟩

/-- A step that changes the slot of the current block, there neither the
deferred records nor the build state nor the native block, and the output. -/
theorem quietStep_updateImpl {s s1 : LLVMTFBuilder} {cur : Int}
    {f : LLVMTFBuilderBasicBlockImpl → LLVMTFBuilderBasicBlockImpl}
    (hn : StartedNative s.basic_block_manager_)
    (hcur : s.current_bb_ = some cur)
    (hf : ∀ i, GetImpl s.basic_block_manager_ cur = some i →
      (f i).not_merged_phis = i.not_merged_phis ∧ ((f i).started = true → i.started = true) ∧
        (f i).native_bb = i.native_bb)
    (ho : OutStep s.output_ s1.output_)
    (hb : s1.basic_block_manager_ = updateImpl s.basic_block_manager_ cur f)
    (hc : s1.current_bb_ = s.current_bb_ ∨ s1.current_bb_ = none)
    (hw : s1.phi_rebuild_worklist_ = s.phi_rebuild_worklist_) : QuietStep s s1 := by
  refine ⟨ho, hw, fun j => ?_, fun P _ hP => ?_, hc, ?_⟩
  · rw [hb]
    unfold deferredOf
    rw [GetImpl_updateImpl]
    split_ifs with hj
    · subst hj
      cases hg : GetImpl s.basic_block_manager_ j with
      | none => rfl
      | some i => simp only [Option.map_some', (hf i hg).1]
    · rfl
  · rw [hb, GetImpl_updateImpl, if_neg]
    intro e
    exact hP (by rw [hcur, e])
  · rw [hb]
    intro j impl hj hs
    rw [GetImpl_updateImpl] at hj
    split_ifs at hj with hji
    · subst hji
      cases hg : GetImpl s.basic_block_manager_ j with
      | none => rw [hg] at hj; cases hj
      | some i =>
        rw [hg] at hj
        simp only [Option.map_some', Option.some.injEq] at hj
        subst hj
        rw [(hf i hg).2.2]
        exact hn j i hg ((hf i hg).2.1 hs)
    · exact hn j impl hj hs

theorem quietStep_set_value {s s1 : LLVMTFBuilder} {cur nid : Int} {v : LValue}
    (hn : StartedNative s.basic_block_manager_) (hcur : s.current_bb_ = some cur)
    (h : s.set_value cur nid v = some s1) : QuietStep s s1 := by
  obtain ⟨e, -⟩ := set_value_some h
  subst e
  exact quietStep_updateImpl (f := fun impl => impl.set_value nid v) hn hcur
    (fun _ _ => ⟨rfl, fun x => x, rfl⟩) (outStep_refl _) rfl (Or.inl rfl) rfl

theorem quietStep_ensureBB {s : LLVMTFBuilder} (bid : Int)
    (hn : StartedNative s.basic_block_manager_) :
    QuietStep s { s with basic_block_manager_ := ensureBB s.basic_block_manager_ bid } := by
  refine ⟨outStep_refl _, rfl, fun j => ?_, fun P _ _ => GetImpl_ensureBB _ _ _, Or.inl rfl, ?_⟩
  · unfold deferredOf
    rw [GetImpl_ensureBB]
  · intro j impl hj hs
    rw [GetImpl_ensureBB] at hj
    exact hn j impl hj hs

/-- The function `EnsureNativeBB` leaves every started slot as it is. -/
theorem EnsureNativeBB_frame {s s1 : LLVMTFBuilder} {id : Int}
    (hn : StartedNative s.basic_block_manager_) (h : s.EnsureNativeBB id = some s1) :
    ∀ P, IsBBStartedToBuild s.basic_block_manager_ P = true →
      GetImpl s1.basic_block_manager_ P = GetImpl s.basic_block_manager_ P := by
  unfold EnsureNativeBB at h
  cases hf : findBB s.basic_block_manager_ id with
  | none => simp [hf] at h
  | some bb =>
    simp only [hf] at h
    have hkeep : ∀ P, IsBBStartedToBuild s.basic_block_manager_ P = true →
        GetImpl (EnsureImpl s.basic_block_manager_ id) P = GetImpl s.basic_block_manager_ P := by
      intro P hs
      obtain ⟨i, hi, -⟩ := started_iff.mp hs
      rw [GetImpl_EnsureImpl_of_some hi, hi]
    cases hg : GetNativeBB (EnsureImpl s.basic_block_manager_ id) id with
    | some n =>
      simp only [hg, Option.some.injEq] at h
      subst h
      exact hkeep
    | none =>
      simp only [hg, Output.appendBasicBlock, Option.some.injEq] at h
      subst h
      intro P hs
      show GetImpl (updateImpl _ _ _) P = _
      rw [GetImpl_updateImpl]
      split_ifs with hj
      · subst hj
        exfalso
        obtain ⟨i, hi, his⟩ := started_iff.mp hs
        have h1 := @GetImpl_EnsureImpl_of_some _ P _ _ hi
        have h2 := hn P i hi his
        unfold GetNativeBB at hg
        rw [h1] at hg
        simp only at hg
        rw [hg] at h2
        cases h2
      · exact hkeep P hs

theorem quietStep_EnsureNativeBB {s s1 : LLVMTFBuilder} {id : Int}
    (hn : StartedNative s.basic_block_manager_) (h : s.EnsureNativeBB id = some s1) :
    QuietStep s s1 := by
  unfold EnsureNativeBB at h
  cases hf : findBB s.basic_block_manager_ id with
  | none => simp [hf] at h
  | some bb =>
    simp only [hf] at h
    have hn1 := startedNative_EnsureImpl id hn
    have hkeep : ∀ P, IsBBStartedToBuild s.basic_block_manager_ P = true →
        GetImpl (EnsureImpl s.basic_block_manager_ id) P = GetImpl s.basic_block_manager_ P := by
      intro P hs
      obtain ⟨i, hi, -⟩ := started_iff.mp hs
      rw [GetImpl_EnsureImpl_of_some hi, hi]
    cases hg : GetNativeBB (EnsureImpl s.basic_block_manager_ id) id with
    | some n =>
      simp only [hg, Option.some.injEq] at h
      subst h
      exact ⟨outStep_refl _, rfl, fun j => deferredOf_EnsureImpl _ _ _, fun P hs _ => hkeep P hs,
        Or.inl rfl, hn1⟩
    | none =>
      simp only [hg, Output.appendBasicBlock, Option.some.injEq] at h
      subst h
      refine ⟨⟨le_refl _, rfl, fun _ he => he⟩, rfl, fun j => ?_, fun P hs _ => ?_, Or.inl rfl, ?_⟩
      · show deferredOf (updateImpl _ _ _) j = _
        rw [← deferredOf_EnsureImpl s.basic_block_manager_ id j]
        unfold deferredOf
        rw [GetImpl_updateImpl]
        split_ifs with hj
        · subst hj
          cases GetImpl (EnsureImpl s.basic_block_manager_ j) j <;> rfl
        · rfl
      · show GetImpl (updateImpl _ _ _) P = _
        rw [GetImpl_updateImpl]
        split_ifs with hj
        · subst hj
          exfalso
          obtain ⟨i, hi, his⟩ := started_iff.mp hs
          have h1 := @GetImpl_EnsureImpl_of_some _ P _ _ hi
          have h2 := hn P i hi his
          unfold GetNativeBB at hg
          rw [h1] at hg
          simp only at hg
          rw [hg] at h2
          cases h2
        · exact hkeep P hs
      · intro j impl hj hs
        change GetImpl (updateImpl _ _ _) j = some impl at hj
        rw [GetImpl_updateImpl] at hj
        split_ifs at hj with hji
        · subst hji
          cases hg2 : GetImpl (EnsureImpl s.basic_block_manager_ j) j with
          | none => rw [hg2] at hj; cases hj
          | some i =>
            rw [hg2] at hj
            simp only [Option.map_some', Option.some.injEq] at hj
            subst hj
            rfl
        · exact hn1 j impl hj hs

theorem quietStep_EndCurrentBlock {s s1 : LLVMTFBuilder}
    (hn : StartedNative s.basic_block_manager_) (h : s.EndCurrentBlock = some s1) :
    QuietStep s s1 := by
  unfold EndCurrentBlock at h
  cases hc : s.current_bb_ with
  | none => simp [hc] at h
  | some cur =>
    simp only [hc] at h
    cases hf : findBB s.basic_block_manager_ cur with
    | none => simp [hf] at h
    | some bb =>
      simp only [hf] at h
      cases hi : bb.impl with
      | none => simp [hi] at h
      | some impl =>
        simp only [hi] at h
        cases he : impl.EndBuild with
        | none => simp [he] at h
        | some impl' =>
          simp only [he, Option.some.injEq] at h
          have hg : GetImpl s.basic_block_manager_ cur = some impl := by
            unfold GetImpl; rw [hf]; exact hi
          have himpl : impl' = { impl with ended := true } := by
            unfold LLVMTFBuilderBasicBlockImpl.EndBuild at he
            split_ifs at he
            exact (Option.some.inj he).symm
          subst h
          refine quietStep_updateImpl (f := fun _ => impl') hn hc (fun i hgi => ?_) ?_ rfl
            (Or.inr rfl) rfl
          · rw [hg] at hgi
            cases hgi
            rw [himpl]
            exact ⟨rfl, fun x => x, rfl⟩
          · show OutStep s.output_ (if bb.successors = [] then _ else _)
            split_ifs
            · exact outStep_emit _ _ _
            · exact outStep_refl _
/-! ### The callbacks that build no phi -/

theorem VisitInt32Constant_quiet {s s1 : LLVMTFBuilder} {id value : Int}
    (hn : StartedNative s.basic_block_manager_) (h : s.VisitInt32Constant id value = some s1) :
    QuietStep s s1 := by
  unfold VisitInt32Constant at h
  cases hc : s.current_bb_ with
  | none => simp [hc] at h
  | some cur =>
    simp only [hc] at h
    exact quietStep_set_value hn hc h

theorem VisitGoto_quiet {s s1 : LLVMTFBuilder} {bid : Int}
    (hn : StartedNative s.basic_block_manager_) (h : s.VisitGoto bid = some s1) :
    QuietStep s s1 := by
  unfold LLVMTFBuilder.VisitGoto at h
  have q0 := quietStep_ensureBB bid hn
  cases h1 : EnsureNativeBB
      { s with basic_block_manager_ := ensureBB s.basic_block_manager_ bid } bid with
  | none => simp [h1] at h
  | some b1 =>
    simp only [h1] at h
    have q1 := quietStep_EnsureNativeBB q0.native h1
    cases h2 : GetNativeBB b1.basic_block_manager_ bid with
    | none => simp [h2] at h
    | some native =>
      simp only [h2] at h
      have q2 : QuietStep b1 { b1 with output_ := b1.output_.buildBr native } :=
        quietStep_output q1.native (outStep_emit _ _ _) rfl rfl rfl
      exact quietStep_trans q0 (quietStep_trans q1 (quietStep_trans q2
        (quietStep_EndCurrentBlock q2.native h)))

theorem VisitBranch_quiet {s s1 : LLVMTFBuilder} {id cmp btrue bfalse : Int}
    (hn : StartedNative s.basic_block_manager_) (h : s.VisitBranch id cmp btrue bfalse = some s1) :
    QuietStep s s1 := by
  unfold LLVMTFBuilder.VisitBranch at h
  have q0 := quietStep_ensureBB btrue hn
  have q0' : QuietStep { s with basic_block_manager_ := ensureBB s.basic_block_manager_ btrue }
      { s with basic_block_manager_ := ensureBB (ensureBB s.basic_block_manager_ btrue) bfalse } :=
    quietStep_ensureBB bfalse q0.native
  simp only at h
  cases h1 : EnsureNativeBB
      { s with basic_block_manager_ :=
        ensureBB (ensureBB s.basic_block_manager_ btrue) bfalse } btrue with
  | none => simp [h1] at h
  | some b1 =>
    simp only [h1] at h
    have q1 := quietStep_EnsureNativeBB q0'.native h1
    cases h2 : EnsureNativeBB b1 bfalse with
    | none => simp [h2] at h
    | some b2 =>
      simp only [h2] at h
      have q2 := quietStep_EnsureNativeBB q1.native h2
      have q02 : QuietStep s b2 :=
        quietStep_trans q0 (quietStep_trans q0' (quietStep_trans q1 q2))
      cases h3 : findBB b2.basic_block_manager_ btrue with
      | none => simp [h3] at h
      | some bbTrue =>
        cases h4 : findBB b2.basic_block_manager_ bfalse with
        | none => simp [h3, h4] at h
        | some bbFalse =>
          simp only [h3, h4] at h
          cases h5 : b2.current_bb_ with
          | none => simp [h5] at h
          | some cur =>
            simp only [h5] at h
            cases h6 : valueIn b2.basic_block_manager_ cur cmp with
            | none => simp [h6] at h
            | some cmp_val =>
              simp only [h6] at h
              cases h7 : GetNativeBB b2.basic_block_manager_ btrue with
              | none => simp [h7] at h
              | some native_true =>
                cases h8 : GetNativeBB b2.basic_block_manager_ bfalse with
                | none => simp [h7, h8] at h
                | some native_false =>
                  simp only [h7, h8] at h
                  refine quietStep_trans q02 (quietStep_trans ?_
                    (quietStep_EndCurrentBlock ?_ h))
                  · refine quietStep_output q02.native ?_ rfl h5.symm rfl
                    refine outStep_trans (b := (if typeOf cmp_val = LType.intPtr then
                        b2.output_.buildCast CastOp.Trunc cmp_val LType.int1
                      else (b2.output_, cmp_val)).1) ?_ (outStep_trans ?_ (outStep_emit _ _ _))
                    · split_ifs
                      all_goals first | exact outStep_emit _ _ _ | exact outStep_refl _
                    · split_ifs
                      all_goals first | exact outStep_emit _ _ _ | exact outStep_refl _
                  · exact q02.native
/-! ### The store and the call -/

theorem CheckPageFlag_out {r : StoreBarrierResolver} {k : V8Constants} {b b1 : LLVMTFBuilder}
    {base : LValue} {mask : Int} (h : r.CheckPageFlag k b base mask = some b1) :
    OutStep b.output_ b1.output_ ∧ b1.basic_block_manager_ = b.basic_block_manager_ ∧
      b1.current_bb_ = b.current_bb_ ∧ b1.phi_rebuild_worklist_ = b.phi_rebuild_worklist_ := by
  unfold StoreBarrierResolver.CheckPageFlag at h
  cases hc : GetNativeBBContinuation b.basic_block_manager_ r.current_bb_ with
  | none => simp [hc] at h
  | some target =>
    simp only [hc, Option.some.injEq] at h
    subst h
    refine ⟨?_, rfl, rfl, rfl⟩
    exact outStep_trans (outStep_emit _ _ _) (outStep_trans (outStep_emit _ _ _)
      (outStep_trans (outStep_emit _ _ _) (outStep_trans (outStep_emit _ _ _)
      (outStep_trans (outStep_emit _ _ _) (outStep_trans (outStep_emit _ _ _)
      (outStep_trans (outStep_emit _ _ _) (outStep_trans (outStep_appendBasicBlock _)
      (outStep_trans (outStep_emit _ _ _) (outStep_position _ _)))))))))

theorem CheckSmi_out {r : StoreBarrierResolver} {b b1 : LLVMTFBuilder}
    {value : LValue} (h : r.CheckSmi b value = some b1) :
    OutStep b.output_ b1.output_ ∧ b1.basic_block_manager_ = b.basic_block_manager_ ∧
      b1.current_bb_ = b.current_bb_ ∧ b1.phi_rebuild_worklist_ = b.phi_rebuild_worklist_ := by
  unfold StoreBarrierResolver.CheckSmi at h
  cases hc : GetNativeBBContinuation b.basic_block_manager_ r.current_bb_ with
  | none => simp [hc] at h
  | some target =>
    simp only [hc, Option.some.injEq] at h
    subst h
    refine ⟨?_, rfl, rfl, rfl⟩
    exact outStep_trans (outStep_emit _ _ _) (outStep_trans (outStep_emit _ _ _)
      (outStep_trans (outStep_emit _ _ _) (outStep_trans (outStep_appendBasicBlock _)
      (outStep_trans (outStep_emit _ _ _) (outStep_position _ _)))))

theorem CallPatchpoint_out (r : StoreBarrierResolver) (b : LLVMTFBuilder)
    (base offset action mode : LValue) :
    OutStep b.output_ (r.CallPatchpoint b base offset action mode).output_ ∧
      (r.CallPatchpoint b base offset action mode).basic_block_manager_ =
        b.basic_block_manager_ ∧
      (r.CallPatchpoint b base offset action mode).current_bb_ = b.current_bb_ ∧
      (r.CallPatchpoint b base offset action mode).phi_rebuild_worklist_ =
        b.phi_rebuild_worklist_ := by
  unfold StoreBarrierResolver.CallPatchpoint
  refine ⟨?_, rfl, rfl, rfl⟩
  simp only
  split_ifs
  · exact outStep_emit _ _ _
  · exact outStep_trans (outStep_ensureLR _) (outStep_emit _ _ _)

theorem storeBarrier_Resolve_quiet {r : StoreBarrierResolver} {k : V8Constants}
    {b b2 : LLVMTFBuilder} {base offset value : LValue} {kind : WriteBarrierKind}
    (hn : StartedNative b.basic_block_manager_) (hcur : b.current_bb_ = some r.current_bb_)
    (h : r.Resolve k b base offset value kind = some b2) : QuietStep b b2 := by
  unfold StoreBarrierResolver.Resolve at h
  cases hg : GetImpl b.basic_block_manager_ r.current_bb_ with
  | none => simp [hg] at h
  | some impl =>
    simp only [hg, StoreBarrierResolver.CreateContination, Output.appendBasicBlock] at h
    cases h1 : r.CheckPageFlag k
        { b with output_ := { b.output_ with nextBlock := b.output_.nextBlock + 1 },
                 basic_block_manager_ := updateImpl b.basic_block_manager_ r.current_bb_
                   (fun impl => { impl with continuation := some b.output_.nextBlock }) }
        base k.kPointersFromHereAreInterestingMask with
    | none => simp [h1] at h
    | some b3 =>
      simp only [h1] at h
      obtain ⟨o1, m1, c1, w1⟩ := CheckPageFlag_out h1
      have hchecked : ∀ b4, (if kind.toNat > WriteBarrierKind.kPointerWriteBarrier.toNat then
          r.CheckSmi b3 value else some b3) = some b4 →
          OutStep b3.output_ b4.output_ ∧ b4.basic_block_manager_ = b3.basic_block_manager_ ∧
            b4.current_bb_ = b3.current_bb_ ∧
            b4.phi_rebuild_worklist_ = b3.phi_rebuild_worklist_ := by
        intro b4 h4
        split_ifs at h4
        · exact CheckSmi_out h4
        · cases h4
          exact ⟨outStep_refl _, rfl, rfl, rfl⟩
      cases h2 : (if kind.toNat > WriteBarrierKind.kPointerWriteBarrier.toNat then
          r.CheckSmi b3 value else some b3) with
      | none => simp [h2] at h
      | some b4 =>
        simp only [h2] at h
        obtain ⟨o2, m2, c2, w2⟩ := hchecked b4 h2
        cases h3 : r.CheckPageFlag k b4 value k.kPointersToHereAreInterestingMask with
        | none => simp [h3] at h
        | some b5 =>
          simp only [h3] at h
          obtain ⟨o3, m3, c3, w3⟩ := CheckPageFlag_out h3
          generalize hb6 : r.CallPatchpoint b5 base offset
            (Output.constIntPtr ((if kind.toNat > WriteBarrierKind.kMapWriteBarrier.toNat then
              RememberedSetAction.EMIT_REMEMBERED_SET
              else RememberedSetAction.OMIT_REMEMBERED_SET).toInt * 2))
            (Output.constIntPtr (SaveFPRegsMode.kDontSaveFPRegs.toInt * 2)) = b6 at h
          obtain ⟨o4, m4, c4, w4⟩ := CallPatchpoint_out r b5 base offset
            (Output.constIntPtr ((if kind.toNat > WriteBarrierKind.kMapWriteBarrier.toNat then
              RememberedSetAction.EMIT_REMEMBERED_SET
              else RememberedSetAction.OMIT_REMEMBERED_SET).toInt * 2))
            (Output.constIntPtr (SaveFPRegsMode.kDontSaveFPRegs.toInt * 2))
          rw [hb6] at o4 m4 c4 w4
          cases h5 : GetNativeBBContinuation b6.basic_block_manager_ r.current_bb_ with
          | none => simp [h5] at h
          | some target =>
            simp only [h5, Option.some.injEq] at h
            subst h
            refine quietStep_updateImpl
              (f := fun impl => { impl with continuation := some b.output_.nextBlock })
              hn hcur (fun _ _ => ⟨rfl, fun x => x, rfl⟩) ?_ ?_ (Or.inl ?_) ?_
            · show OutStep b.output_ ((b6.output_.buildBr target).positionToBBEnd target)
              refine outStep_trans (outStep_appendBasicBlock _) (outStep_trans o1
                (outStep_trans o2 (outStep_trans o3 (outStep_trans o4
                (outStep_trans (outStep_emit _ _ _) (outStep_position _ _))))))
            · show b6.basic_block_manager_ = _
              rw [m4, m3, m2, m1]
            · show b6.current_bb_ = _
              rw [c4, c3, c2, c1]
            · show b6.phi_rebuild_worklist_ = _
              rw [w4, w3, w2, w1]

theorem buildAccessPointer_out {o o1 : Output} {value offset pointer : LValue}
    {rep : MachineRepresentation} (h : buildAccessPointer o value offset rep = some (o1, pointer)) :
    OutStep o o1 := by
  unfold buildAccessPointer at h
  cases hr : getMachineRepresentationType rep with
  | none => simp [hr] at h
  | some type =>
    simp only [hr, Option.some.injEq] at h
    have e : o1 = ((if (typeOf value).isIntegerKind = true then
        o.buildCast CastOp.IntToPtr value LType.ref8 else (o, value)).1.buildGEPWithByteOffset
          (if (typeOf value).isIntegerKind = true then
            o.buildCast CastOp.IntToPtr value LType.ref8 else (o, value)).2 offset
          (pointerType type)).1 := by
      rw [h]
    rw [e]
    refine outStep_trans ?_ (outStep_emit _ _ _)
    split_ifs
    · exact outStep_emit _ _ _
    · exact outStep_refl _

theorem VisitStore_quiet {s s1 : LLVMTFBuilder} {k : V8Constants} {id : Int}
    {rep : MachineRepresentation} {barrier : WriteBarrierKind} {base offset value : Int}
    (hn : StartedNative s.basic_block_manager_)
    (h : s.VisitStore k id rep barrier base offset value = some s1) : QuietStep s s1 := by
  unfold LLVMTFBuilder.VisitStore at h
  cases hc : s.current_bb_ with
  | none => simp [hc] at h
  | some cur =>
    simp only [hc] at h
    cases hb : valueIn s.basic_block_manager_ cur base with
    | none => simp [hb] at h
    | some base_value =>
      cases ho : valueIn s.basic_block_manager_ cur offset with
      | none => simp [hb, ho] at h
      | some offset_value =>
        simp only [hb, ho] at h
        cases ha : buildAccessPointer s.output_ base_value offset_value rep with
        | none => simp [ha] at h
        | some res =>
          obtain ⟨o1, pointer⟩ := res
          simp only [ha] at h
          have q1 := buildAccessPointer_out ha
          cases hv : valueIn s.basic_block_manager_ cur value with
          | none => simp [hv] at h
          | some bound =>
            simp only [hv] at h
            generalize hx : (if getElementType (typeOf pointer) ≠ typeOf bound then
              o1.buildCast CastOp.IntToPtr bound (getElementType (typeOf pointer))
              else (o1, bound)) = x at h
            have q2 : OutStep o1 x.1 := by
              rw [← hx]
              split_ifs
              · exact outStep_emit _ _ _
              · exact outStep_refl _
            cases hs : LLVMTFBuilder.set_value
                { s with output_ := (x.1.buildStore x.2 pointer).1, current_bb_ := some cur } cur id
                (x.1.buildStore x.2 pointer).2 with
            | none => simp [hs] at h
            | some b1 =>
              simp only [hs] at h
              have q3 : QuietStep s
                  { s with output_ := (x.1.buildStore x.2 pointer).1, current_bb_ := some cur } :=
                quietStep_output hn (outStep_trans q1 (outStep_trans q2 (outStep_emit _ _ _)))
                  rfl hc.symm rfl
              have q4 := quietStep_set_value q3.native rfl hs
              have q5 := quietStep_trans q3 q4
              have hc1 : b1.current_bb_ = some cur := by
                obtain ⟨e, -⟩ := set_value_some hs
                rw [e]
              by_cases hbar : barrier = WriteBarrierKind.kNoWriteBarrier
              · simp only [hbar, ne_eq, not_true_eq_false, if_false, Option.some.injEq] at h
                subst h
                exact q5
              · simp only [ne_eq, hbar, not_false_eq_true, if_true] at h
                cases hd : valueIn b1.basic_block_manager_ cur base with
                | none => simp [hd] at h
                | some destination =>
                  simp only [hd] at h
                  have q6 : QuietStep b1
                      { b1 with state_point_id_next_ := b1.state_point_id_next_ + 1 } :=
                    quietStep_output q5.native (outStep_refl _) rfl rfl rfl
                  exact quietStep_trans q5 (quietStep_trans q6
                    (storeBarrier_Resolve_quiet q6.native hc1 h))
theorem relocateLiveins_quiet (cur id : Int) (sp : LValue) (liveins : List Int) :
    ∀ (gc : Nat) (b b1 : LLVMTFBuilder), StartedNative b.basic_block_manager_ →
      b.current_bb_ = some cur → relocateLiveins cur id sp liveins gc b = some b1 →
      QuietStep b b1 ∧ b1.current_bb_ = some cur := by
  induction liveins with
  | nil =>
    intro gc b b1 hn hc h
    simp only [relocateLiveins, Option.some.injEq] at h
    subst h
    exact ⟨quietStep_refl hn, hc⟩
  | cons livein rest ih =>
    intro gc b b1 hn hc h
    simp only [relocateLiveins] at h
    by_cases hid : livein = id
    · simp only [hid, if_true] at h
      exact ih gc b b1 hn hc h
    · simp only [hid, if_false] at h
      cases hv : valueIn b.basic_block_manager_ cur livein with
      | none => simp [hv] at h
      | some to_gc =>
        simp only [hv] at h
        by_cases ht : typeOf to_gc = LType.taggedType
        · simp only [ht, ne_eq, not_true_eq_false, if_false] at h
          cases hs : LLVMTFBuilder.set_value
              { b with output_ := (b.output_.buildCall Intrinsic.gcRelocate
                [sp, Output.constInt32 gc, Output.constInt32 gc] LType.taggedType).1 } cur livein
              (b.output_.buildCall Intrinsic.gcRelocate
                [sp, Output.constInt32 gc, Output.constInt32 gc] LType.taggedType).2 with
          | none => simp [hs] at h
          | some b' =>
            simp only [hs] at h
            have q1 : QuietStep b { b with output_ := (b.output_.buildCall Intrinsic.gcRelocate
                [sp, Output.constInt32 gc, Output.constInt32 gc] LType.taggedType).1 } :=
              quietStep_output hn (outStep_emit _ _ _) rfl rfl rfl
            have q2 := quietStep_set_value q1.native hc hs
            have hc' : b'.current_bb_ = some cur := by
              obtain ⟨e, -⟩ := set_value_some hs
              rw [e]
              exact hc
            obtain ⟨q3, hc3⟩ := ih _ b' b1 q2.native hc' h
            exact ⟨quietStep_trans q1 (quietStep_trans q2 q3), hc3⟩
        · simp only [ne_eq, ht, not_false_eq_true, if_true] at h
          exact ih gc b b1 hn hc h

theorem rebindAfterCall_quiet {b b2 : LLVMTFBuilder} {id : Int} {return_count gc : Nat}
    {sp : LValue} (hn : StartedNative b.basic_block_manager_)
    (h : b.rebindAfterCall id return_count sp gc = some b2) :
    QuietStep b b2 ∧ b2.current_bb_ = b.current_bb_ := by
  unfold rebindAfterCall at h
  cases hc : b.current_bb_ with
  | none => simp [hc] at h
  | some cur =>
    cases hf : findBB b.basic_block_manager_ cur with
    | none => simp [hc, hf] at h
    | some bb =>
      cases hsucc : bb.successors with
      | nil => simp [hc, hf, hsucc] at h
      | cons front more =>
        cases hfr : findBB b.basic_block_manager_ front with
        | none => simp [hc, hf, hsucc, hfr] at h
        | some successor =>
          cases hr : relocateLiveins cur id sp successor.liveins gc b with
          | none => simp [hc, hf, hsucc, hfr, hr] at h
          | some b1 =>
            simp only [hc, hf, hsucc, hfr, hr] at h
            obtain ⟨q1, hc1⟩ := relocateLiveins_quiet cur id sp successor.liveins gc b b1 hn hc hr
            have q2 : QuietStep b1 { b1 with output_ := (b1.output_.buildCall
                (if return_count = 2 then Intrinsic.gcResult2 else Intrinsic.gcResult) [sp]
                (if return_count = 2 then LType.other 2 else LType.taggedType)).1 } :=
              quietStep_output q1.native (outStep_emit _ _ _) rfl rfl rfl
            have q3 := quietStep_set_value q2.native hc1 h
            refine ⟨quietStep_trans q1 (quietStep_trans q2 q3), ?_⟩
            obtain ⟨e, -⟩ := set_value_some h
            rw [e]
            exact hc1

theorem callTarget_out {b : LLVMTFBuilder} {k : V8Constants} {cur first : Int} {code : Bool}
    {out : Output} {target : LValue} {magic : Int} {addition : Nat}
    (h : b.callTarget k cur code first = some (out, target, magic, addition)) :
    OutStep b.output_ out := by
  unfold callTarget at h
  split_ifs at h
  · cases hl : b.code_uses_map_.lookup first with
    | some m =>
      simp only [hl, Option.some.injEq, Prod.mk.injEq] at h
      rw [← h.1]
      exact outStep_refl _
    | none =>
      simp only [hl] at h
      cases hv : valueIn b.basic_block_manager_ cur first with
      | none => simp [hv] at h
      | some code_value =>
        simp only [hv, Option.some.injEq, Prod.mk.injEq] at h
        rw [← h.1]
        exact outStep_emit _ _ _
  · cases hv : valueIn b.basic_block_manager_ cur first with
    | none => simp [hv] at h
    | some t =>
      simp only [hv, Option.some.injEq, Prod.mk.injEq] at h
      rw [← h.1]
      exact outStep_refl _

theorem DoCall_quiet {s s1 : LLVMTFBuilder} {k : V8Constants} {id : Int} {code tailcall : Bool}
    {call_desc : CallDescriptor} {operands : List Int}
    (hn : StartedNative s.basic_block_manager_)
    (h : s.DoCall k id code call_desc operands tailcall = some s1) :
    QuietStep s s1 ∧ s1.current_bb_ = s.current_bb_ := by
  unfold DoCall at h
  cases hc : s.current_bb_ with
  | none => simp [hc] at h
  | some cur =>
    cases operands with
    | nil => simp [hc] at h
    | cons first rest =>
      simp only [hc] at h
      cases ht : s.callTarget k cur code first with
      | none => simp [ht] at h
      | some res =>
        obtain ⟨out1, target, code_magic, addition0⟩ := res
        simp only [ht] at h
        have q1 := callTarget_out ht
        generalize hout2 : (if tailcall = true ∧ s.basic_block_manager_.needs_frame = false then
          out1.ensureLR else out1) = out2 at h
        have q2 : OutStep out1 out2 := by
          rw [← hout2]
          split_ifs
          · exact outStep_ensureLR _
          · exact outStep_refl _
        cases hres : (CallOperandResolver.new cur target).Resolve s.basic_block_manager_ out2 rest
            call_desc.registers_for_operands with
        | none => simp [hres] at h
        | some resolver =>
          simp only [hres] at h
          split at h
          · cases h
          · rename_i gc_operands htracked
            generalize hst : out2.buildCall Intrinsic.statepoint _ (LType.other 1) = st at h
            have q3 : OutStep out2 st.1 := by
              rw [← hst]
              exact outStep_emit _ _ _
            have q4 : QuietStep s
                { s with output_ := st.1, current_bb_ := some cur,
                         state_point_id_next_ := s.state_point_id_next_ + 1 } :=
              quietStep_output hn (outStep_trans q1 (outStep_trans q2 q3)) rfl hc.symm rfl
            split at h
            · cases h
            · rename_i b2 hrebound
              simp only [Option.some.injEq] at h
              subst h
              cases tailcall with
              | true =>
                simp only [if_true, Option.some.injEq] at hrebound
                subst hrebound
                exact ⟨⟨q4.out, q4.worklist, q4.deferred, q4.frame, q4.current, q4.native⟩, rfl⟩
              | false =>
                simp only [Bool.false_eq_true, if_false] at hrebound
                obtain ⟨q5, hc5⟩ := rebindAfterCall_quiet q4.native hrebound
                have q6 := quietStep_trans q4 q5
                exact ⟨⟨q6.out, q6.worklist, q6.deferred, q6.frame, q6.current, q6.native⟩, hc5⟩

theorem DoTailCall_quiet {s s1 : LLVMTFBuilder} {k : V8Constants} {id : Int} {code : Bool}
    {call_desc : CallDescriptor} {operands : List Int}
    (hn : StartedNative s.basic_block_manager_)
    (h : s.DoTailCall k id code call_desc operands = some s1) : QuietStep s s1 := by
  unfold DoTailCall at h
  cases hd : s.DoCall k id code call_desc operands true with
  | none => simp [hd] at h
  | some b1 =>
    simp only [hd, Option.some.injEq] at h
    subst h
    obtain ⟨q1, -⟩ := DoCall_quiet hn hd
    exact quietStep_trans q1 (quietStep_output q1.native (outStep_emit _ _ _) rfl rfl rfl)
/-! ### The loops of the merge -/

theorem slotStep_refl (id : Int) (s : LLVMTFBuilder) : SlotStep id s s :=
  ⟨fun _ _ => rfl, rfl, rfl, le_refl _, ⟨[], by simp, fun _ he => (by cases he)⟩,
    ⟨[], by simp, fun _ he => (by cases he)⟩, fun _ he => he, rfl⟩

theorem slotStep_trans {id : Int} {s s1 s2 : LLVMTFBuilder}
    (h1 : SlotStep id s s1) (h2 : SlotStep id s1 s2) : SlotStep id s s2 := by
  obtain ⟨X1, hX1, hX1n⟩ := h1.incoming
  obtain ⟨X2, hX2, hX2n⟩ := h2.incoming
  obtain ⟨R1, hR1, hR1n⟩ := h1.deferred
  obtain ⟨R2, hR2, hR2n⟩ := h2.deferred
  have hn1 := h1.next
  have hn2 := h2.next
  refine ⟨fun j hj => ?_, h2.flags.trans h1.flags, h2.current.trans h1.current,
    le_trans hn1 hn2, ⟨X1 ++ X2, ?_, ?_⟩,
    ⟨R1 ++ R2, ?_, ?_⟩, fun e he => h2.instructions e (h1.instructions e he), ?_⟩
  · rw [h2.others j hj, h1.others j hj]
  · rw [hX2, hX1, List.append_assoc]
  · intro e he
    rcases List.mem_append.mp he with he | he
    · obtain ⟨n, t, e1, e2, e3⟩ := hX1n e he
      exact ⟨n, t, e1, e2, lt_of_lt_of_le e3 hn2⟩
    · obtain ⟨n, t, e1, e2, e3⟩ := hX2n e he
      exact ⟨n, t, e1, le_trans hn1 e2, e3⟩
  · rw [hR2, hR1, List.append_assoc]
  · intro e he
    rcases List.mem_append.mp he with he | he
    · obtain ⟨n, t, e1, e2, e3⟩ := hR1n e he
      exact ⟨n, t, e1, e2, lt_of_lt_of_le e3 hn2⟩
    · obtain ⟨n, t, e1, e2, e3⟩ := hR2n e he
      exact ⟨n, t, e1, le_trans hn1 e2, e3⟩
  · rw [h2.worklist, h1.worklist]

theorem slotStep_set_value {s s1 : LLVMTFBuilder} {id live : Int} {v : LValue}
    (h : s.set_value id live v = some s1) : SlotStep id s s1 := by
  obtain ⟨hs1, hsome⟩ := set_value_some h
  subst hs1
  refine ⟨fun j hj => ?_, ?_, rfl, le_refl _, ⟨[], by simp, fun _ he => by cases he⟩,
    ⟨[], ?_, fun _ he => by cases he⟩, fun _ he => he, rfl⟩
  · show GetImpl (updateImpl _ _ _) j = _
    rw [GetImpl_updateImpl, if_neg hj]
  · show (GetImpl (updateImpl _ _ _) id).map _ = _
    rw [GetImpl_updateImpl, if_pos rfl]
    cases GetImpl s.basic_block_manager_ id <;> rfl
  · show deferredOf (updateImpl _ _ _) id = _
    rw [deferredOf_set_value, List.append_nil]

/-- A phi is built and given entries, and no slot is touched. -/
theorem slotStep_phi (s s1 : LLVMTFBuilder) (id : Int) (type : LType)
    (L : List (LValue × LBasicBlock))
    (ho : s1.output_ = { (s.output_.buildPhi type).1 with
      incoming := s.output_.incoming ++
        L.map (fun e => { phi := LValue.inst s.output_.nextValue type,
                          value := e.1, block := e.2 }) })
    (hb : s1.basic_block_manager_ = s.basic_block_manager_)
    (hc : s1.current_bb_ = s.current_bb_)
    (hw : s1.phi_rebuild_worklist_ = s.phi_rebuild_worklist_) : SlotStep id s s1 := by
  refine ⟨fun j _ => by rw [hb], by rw [hb], hc, ?_, ⟨_, by rw [ho], ?_⟩,
    ⟨[], by rw [hb, List.append_nil], fun _ he => by cases he⟩, ?_, hw⟩
  · rw [ho]
    exact Nat.le_succ _
  · intro e he
    obtain ⟨x, -, rfl⟩ := List.mem_map.mp he
    refine ⟨_, _, rfl, le_refl _, ?_⟩
    rw [ho]
    exact Nat.lt_succ_self _
  · intro e he
    rw [ho]
    exact List.mem_append_left _ he

theorem mergeLive_slot {s s1 : LLVMTFBuilder} {ref_pred id live : Int} {preds : List Int}
    (h : mergeLive ref_pred id preds live s = some s1) : SlotStep id s s1 := by
  unfold mergeLive at h
  cases hv : valueIn s.basic_block_manager_ ref_pred live with
  | none => simp [hv] at h
  | some ref_value =>
    simp only [hv] at h
    by_cases ht : typeOf ref_value = LType.taggedType
    · simp only [ht, ne_eq, not_true_eq_false, if_false] at h
      cases ha : addIncomingFromAll (LValue.inst s.output_.nextValue LType.taggedType) live preds
          { s with output_ := (s.output_.buildPhi LType.taggedType).1 } with
      | none =>
        simp only [Output.buildPhi, Output.emit] at h ha
        simp [ha] at h
      | some b1 =>
        have h' : b1.set_value id live (LValue.inst s.output_.nextValue LType.taggedType)
            = some s1 := by
          simp only [Output.buildPhi, Output.emit] at h ha
          simpa [ha] using h
        obtain ⟨L, -, hb1⟩ := addIncomingFromAll_spec _ _ _ _ _ ha
        exact slotStep_trans (slotStep_phi s b1 id LType.taggedType L (by subst hb1; rfl)
          (by subst hb1; rfl) (by subst hb1; rfl) (by subst hb1; rfl)) (slotStep_set_value h')
    · simp only [ne_eq, ht, not_false_eq_true, if_true] at h
      exact slotStep_set_value h

theorem buildPhiLive_slot {s s1 : LLVMTFBuilder} {ref_pred id live : Int} {preds : List Int}
    (h : buildPhiLive ref_pred id preds live s = some s1) : SlotStep id s s1 := by
  unfold buildPhiLive at h
  cases hv : valueIn s.basic_block_manager_ ref_pred live with
  | none => simp [hv] at h
  | some ref_value =>
    simp only [hv] at h
    by_cases ht : typeOf ref_value = LType.taggedType
    · simp only [ht, ne_eq, not_true_eq_false, if_false] at h
      cases hb : LLVMTFBuilder.set_value
          { s with output_ := (s.output_.buildPhi LType.taggedType).1 } id live
          (LValue.inst s.output_.nextValue LType.taggedType) with
      | none =>
        simp only [Output.buildPhi, Output.emit] at h hb
        simp [hb] at h
      | some b1 =>
        have h' : addIncomingFromStarted (LValue.inst s.output_.nextValue LType.taggedType)
            live id preds b1 = some s1 := by
          simp only [Output.buildPhi, Output.emit] at h hb
          simpa [hb] using h
        have q1 : SlotStep id s { s with output_ := (s.output_.buildPhi LType.taggedType).1 } :=
          slotStep_phi s _ id LType.taggedType []
            (by simp only [List.map_nil, List.append_nil]; rfl) rfl rfl rfl
        have q2 := slotStep_trans q1 (slotStep_set_value hb)
        obtain ⟨hb1, hsome0⟩ := set_value_some hb
        obtain ⟨L, -, hout, hcur, hw, hget⟩ := addIncomingFromStarted_spec _ _ _ _ _ _ h'
        have hb1next : b1.output_.nextValue = s.output_.nextValue + 1 := by rw [hb1]; rfl
        have hsome : (GetImpl b1.basic_block_manager_ id).isSome := by
          rw [hb1]
          show (GetImpl (updateImpl _ _ _) id).isSome = true
          rw [GetImpl_updateImpl, if_pos rfl]
          cases hg : GetImpl s.basic_block_manager_ id with
          | none => simp [hg] at hsome0
          | some i => rfl
        have hgid := hget id
        rw [if_pos rfl] at hgid
        obtain ⟨X2, hX2, hX2n⟩ := q2.incoming
        obtain ⟨R2, hR2, hR2n⟩ := q2.deferred
        refine ⟨fun j hj => ?_, ?_, hcur.trans q2.current, ?_,
          ⟨X2 ++ L.map (fun e => { phi := LValue.inst s.output_.nextValue LType.taggedType,
                                    value := e.1, block := e.2 }), ?_, ?_⟩,
          ⟨R2 ++ deferredRecords b1.basic_block_manager_ preds live
            (LValue.inst s.output_.nextValue LType.taggedType), ?_, ?_⟩, ?_,
          hw.trans q2.worklist⟩
        · have := hget j
          rw [if_neg hj] at this
          rw [this]
          exact q2.others j hj
        · rw [hgid, ← q2.flags]
          cases GetImpl b1.basic_block_manager_ id <;> rfl
        · rw [hout]
          exact q2.next
        · rw [hout]
          show b1.output_.incoming ++ _ = _
          rw [hX2, List.append_assoc]
        · intro e he
          rcases List.mem_append.mp he with he | he
          · obtain ⟨n, t, e1, e2, e3⟩ := hX2n e he
            exact ⟨n, t, e1, e2, by rw [hout]; exact e3⟩
          · obtain ⟨x, -, rfl⟩ := List.mem_map.mp he
            exact ⟨_, _, rfl, le_refl _, by rw [hout]; show _ < b1.output_.nextValue; omega⟩
        · rw [deferredOf_of_map hsome hgid, hR2, List.append_assoc]
        · intro r hr
          rcases List.mem_append.mp hr with hr | hr
          · obtain ⟨n, t, e1, e2, e3⟩ := hR2n r hr
            exact ⟨n, t, e1, e2, by rw [hout]; exact e3⟩
          · exact ⟨_, _, deferredRecords_phi _ _ _ _ r hr, le_refl _,
              by rw [hout]; show _ < b1.output_.nextValue; omega⟩
        · intro e he
          rw [hout]
          exact q2.instructions e he
    · simp only [ne_eq, ht, not_false_eq_true, if_true] at h
      exact slotStep_set_value h

theorem forEachLive_slot {body : Int → LLVMTFBuilder → Option LLVMTFBuilder} {id : Int}
    (hbody : ∀ s s1 live, body live s = some s1 → SlotStep id s s1) :
    ∀ (lives : List Int) (s s1 : LLVMTFBuilder), forEachLive body lives s = some s1 →
      SlotStep id s s1 := by
  intro lives
  induction lives with
  | nil =>
    intro s s1 h
    simp only [forEachLive, Option.some.injEq] at h
    subst h
    exact slotStep_refl _ _
  | cons live rest ih =>
    intro s s1 h
    simp only [forEachLive] at h
    cases hb : body live s with
    | none => simp [hb] at h
    | some s' =>
      simp only [hb] at h
      exact slotStep_trans (hbody s s' live hb) (ih s' s1 h)

theorem copyFromPredecessor_slot (pred id : Int) (liveins : List Int) :
    ∀ (s s1 : LLVMTFBuilder), copyFromPredecessor pred id liveins s = some s1 →
      SlotStep id s s1 ∧ deferredOf s1.basic_block_manager_ id =
        deferredOf s.basic_block_manager_ id := by
  induction liveins with
  | nil =>
    intro s s1 h
    simp only [copyFromPredecessor, Option.some.injEq] at h
    subst h
    exact ⟨slotStep_refl _ _, rfl⟩
  | cons live rest ih =>
    intro s s1 h
    simp only [copyFromPredecessor] at h
    cases hv : valueIn s.basic_block_manager_ pred live with
    | none => simp [hv] at h
    | some value =>
      simp only [hv] at h
      cases hs : s.set_value id live value with
      | none => simp [hs] at h
      | some s' =>
        simp only [hs] at h
        obtain ⟨q, hd⟩ := ih s' s1 h
        refine ⟨slotStep_trans (slotStep_set_value hs) q, ?_⟩
        rw [hd]
        obtain ⟨e, -⟩ := set_value_some hs
        rw [e]
        exact deferredOf_set_value _ _ _ _

/-- The loop of `MergePredecessors` over the live-ins adds no deferred
record. -/
theorem mergeWithPhis_deferred (ref_pred id : Int) (preds : List Int) (lives : List Int) :
    ∀ (s s1 : LLVMTFBuilder), mergeWithPhis ref_pred id preds lives s = some s1 →
      deferredOf s1.basic_block_manager_ id = deferredOf s.basic_block_manager_ id := by
  induction lives with
  | nil =>
    intro s s1 h
    simp only [mergeWithPhis, forEachLive, Option.some.injEq] at h
    subst h
    rfl
  | cons live rest ih =>
    intro s s1 h
    simp only [mergeWithPhis, forEachLive] at h
    cases hb : mergeLive ref_pred id preds live s with
    | none => simp [hb] at h
    | some s' =>
      simp only [hb] at h
      rw [ih s' s1 h]
      unfold mergeLive at hb
      cases hv : valueIn s.basic_block_manager_ ref_pred live with
      | none => simp [hv] at hb
      | some ref_value =>
        simp only [hv] at hb
        by_cases ht : typeOf ref_value = LType.taggedType
        · simp only [ht, ne_eq, not_true_eq_false, if_false] at hb
          cases ha : addIncomingFromAll (LValue.inst s.output_.nextValue LType.taggedType) live
              preds { s with output_ := (s.output_.buildPhi LType.taggedType).1 } with
          | none =>
            simp only [Output.buildPhi, Output.emit] at hb ha
            simp [ha] at hb
          | some b1 =>
            have h' : b1.set_value id live (LValue.inst s.output_.nextValue LType.taggedType)
                = some s' := by
              simp only [Output.buildPhi, Output.emit] at hb ha
              simpa [ha] using hb
            obtain ⟨L, -, hb1⟩ := addIncomingFromAll_spec _ _ _ _ _ ha
            obtain ⟨e, -⟩ := set_value_some h'
            rw [e]
            show deferredOf (updateImpl _ _ _) id = _
            rw [deferredOf_set_value, hb1]
        · simp only [ne_eq, ht, not_false_eq_true, if_true] at hb
          obtain ⟨e, -⟩ := set_value_some hb
          rw [e]
          exact deferredOf_set_value _ _ _ _

/-- Method `MergePredecessors` on a block that has its slot: the slot of the
block only is touched; the block is pushed on the worklist, or no deferred
record is added and the worklist is as it was. -/
theorem MergePredecessors_slot {s s1 : LLVMTFBuilder} {id : Int}
    (hsome : (GetImpl s.basic_block_manager_ id).isSome)
    (h : s.MergePredecessors id = some s1) :
    ∃ s2, SlotStep id s s2 ∧ s1.output_ = s2.output_ ∧
      s1.basic_block_manager_ = s2.basic_block_manager_ ∧ s1.current_bb_ = s2.current_bb_ ∧
      ((s1.phi_rebuild_worklist_ = s2.phi_rebuild_worklist_ ∧
          deferredOf s2.basic_block_manager_ id = deferredOf s.basic_block_manager_ id) ∨
        s1.phi_rebuild_worklist_ = s2.phi_rebuild_worklist_ ++ [id]) := by
  unfold MergePredecessors at h
  cases hbb : findBB s.basic_block_manager_ id with
  | none => simp [hbb] at h
  | some bb =>
    simp only [hbb] at h
    rcases hpreds : bb.predecessors with _ | ⟨p, _ | ⟨q, rest⟩⟩
    · rw [hpreds] at h
      simp only [Option.some.injEq] at h
      subst h
      exact ⟨s, slotStep_refl _ _, rfl, rfl, rfl, Or.inl ⟨rfl, rfl⟩⟩
    · rw [hpreds] at h
      simp only at h
      split_ifs at h
      obtain ⟨q1, q2⟩ := copyFromPredecessor_slot _ _ _ _ _ h
      exact ⟨s1, q1, rfl, rfl, rfl, Or.inl ⟨rfl, q2⟩⟩
    · rw [hpreds] at h
      simp only at h
      generalize AllPredecessorStarted s.basic_block_manager_ (p :: q :: rest) none = A at h
      obtain ⟨flag, ref⟩ := A
      cases flag <;> cases ref <;> simp only at h
      · cases h
      · rename_i ref_pred
        unfold BuildPhiAndPushToWorkList at h
        simp only [hbb, hpreds] at h
        cases hb : buildPhis ref_pred id (p :: q :: rest) bb.liveins
            { s with basic_block_manager_ := EnsureImpl s.basic_block_manager_ id } with
        | none => simp [hb] at h
        | some b1 =>
          simp only [hb, Option.some.injEq] at h
          subst h
          have q1 := @forEachLive_slot _ id (fun s s1 live hx => buildPhiLive_slot hx)
            bb.liveins _ b1 hb
          obtain ⟨i, hi⟩ := Option.isSome_iff_exists.mp hsome
          have hkeep : ∀ j, GetImpl (EnsureImpl s.basic_block_manager_ id) j =
              GetImpl s.basic_block_manager_ j := by
            intro j
            rw [GetImpl_EnsureImpl]
            split_ifs with hj
            · subst hj
              have := @GetImpl_EnsureImpl_of_some _ j _ _ hi
              rw [GetImpl_EnsureImpl, if_pos rfl] at this
              rw [this, hi]
            · rfl
          obtain ⟨X, hX, hXn⟩ := q1.incoming
          obtain ⟨R, hR, hRn⟩ := q1.deferred
          refine ⟨b1, ⟨fun j hj => (q1.others j hj).trans (hkeep j), ?_, q1.current, q1.next,
            ⟨X, hX, hXn⟩, ⟨R, ?_, hRn⟩, q1.instructions, q1.worklist⟩, rfl, rfl, rfl,
            Or.inr rfl⟩
          · rw [q1.flags]
            show (GetImpl (EnsureImpl _ _) id).map _ = _
            rw [hkeep]
          · rw [hR]
            show deferredOf (EnsureImpl _ _) id ++ R = _
            rw [deferredOf_EnsureImpl]
      · split_ifs at h
        simp only [Option.some.injEq] at h
        subst h
        exact ⟨s, slotStep_refl _ _, rfl, rfl, rfl, Or.inl ⟨rfl, rfl⟩⟩
      · rename_i ref_pred
        exact ⟨s1, @forEachLive_slot _ id (fun s s1 live hx => mergeLive_slot hx)
          bb.liveins _ _ h, rfl, rfl, rfl, Or.inl ⟨rfl, mergeWithPhis_deferred _ _ _ _ _ _ h⟩⟩
/-! ### Steps of callbacks -/

theorem buildStep_refl (s : LLVMTFBuilder) : BuildStep s s :=
  ⟨le_refl _, ⟨[], by simp, fun _ he => (by cases he)⟩,
    fun _ => ⟨[], by simp, fun _ he => (by cases he), fun h => absurd rfl h⟩, ⟨[], by simp⟩,
    fun _ _ hc => ⟨rfl, hc⟩, fun _ he => he⟩

theorem buildStep_trans {s s1 s2 : LLVMTFBuilder} (h1 : BuildStep s s1) (h2 : BuildStep s1 s2) :
    BuildStep s s2 := by
  obtain ⟨X1, hX1, hX1n⟩ := h1.incoming
  obtain ⟨X2, hX2, hX2n⟩ := h2.incoming
  obtain ⟨W1, hW1⟩ := h1.worklist
  obtain ⟨W2, hW2⟩ := h2.worklist
  have hn1 := h1.next
  have hn2 := h2.next
  refine ⟨le_trans hn1 hn2, ⟨X1 ++ X2, ?_, ?_⟩, fun j => ?_, ⟨W1 ++ W2, ?_⟩, fun P hs hc => ?_,
    fun e he => h2.instructions e (h1.instructions e he)⟩
  · rw [hX2, hX1, List.append_assoc]
  · intro e he
    rcases List.mem_append.mp he with he | he
    · obtain ⟨n, t, e1, e2, e3⟩ := hX1n e he
      exact ⟨n, t, e1, e2, lt_of_lt_of_le e3 hn2⟩
    · obtain ⟨n, t, e1, e2, e3⟩ := hX2n e he
      exact ⟨n, t, e1, le_trans hn1 e2, e3⟩
  · obtain ⟨R1, hR1, hR1n, hR1w⟩ := h1.deferred j
    obtain ⟨R2, hR2, hR2n, hR2w⟩ := h2.deferred j
    refine ⟨R1 ++ R2, ?_, ?_, ?_⟩
    · rw [hR2, hR1, List.append_assoc]
    · intro e he
      rcases List.mem_append.mp he with he | he
      · obtain ⟨n, t, e1, e2, e3⟩ := hR1n e he
        exact ⟨n, t, e1, e2, lt_of_lt_of_le e3 hn2⟩
      · obtain ⟨n, t, e1, e2, e3⟩ := hR2n e he
        exact ⟨n, t, e1, le_trans hn1 e2, e3⟩
    · intro hne
      by_cases h2e : R2 = []
      · have h1e : R1 ≠ [] := fun e => hne (by rw [e, h2e]; rfl)
        rw [hW2]
        exact List.mem_append_left _ (hR1w h1e)
      · exact hR2w h2e
  · rw [hW2, hW1, List.append_assoc]
  · obtain ⟨e1, c1⟩ := h1.frame P hs hc
    have hs' : IsBBStartedToBuild s1.basic_block_manager_ P = true := by
      rw [IsBBStartedToBuild_congr e1]; exact hs
    obtain ⟨e2, c2⟩ := h2.frame P hs' c1
    exact ⟨e2.trans e1, c2⟩

theorem buildStep_of_quiet {s s1 : LLVMTFBuilder} (q : QuietStep s s1) : BuildStep s s1 := by
  refine ⟨q.out.next, ⟨[], by rw [q.out.incoming, List.append_nil], fun _ he => (by cases he)⟩,
    fun j => ⟨[], by rw [q.deferred, List.append_nil], fun _ he => (by cases he),
      fun h => absurd rfl h⟩,
    ⟨[], by rw [q.worklist, List.append_nil]⟩, fun P hs hc => ⟨q.frame P hs hc, ?_⟩,
    q.out.instructions⟩
  rcases q.current with e | e
  · rw [e]; exact hc
  · rw [e]; exact fun x => by cases x

theorem buildInv_step {s s1 : LLVMTFBuilder} (hi : BuildInv s) (h : BuildStep s s1)
    (hn : StartedNative s1.basic_block_manager_) : BuildInv s1 := by
  obtain ⟨X, hX, hXn⟩ := h.incoming
  obtain ⟨W, hW⟩ := h.worklist
  refine ⟨fun e he => ?_, fun j r hr => ?_, fun j hne => ?_, hn⟩
  · rw [hX] at he
    rcases List.mem_append.mp he with he | he
    · exact isKnown_mono h.next _ (hi.incoming e he)
    · obtain ⟨n, t, e1, -, e3⟩ := hXn e he
      rw [e1]
      simpa [isKnown] using e3
  · obtain ⟨R, hR, hRn, -⟩ := h.deferred j
    rw [hR] at hr
    rcases List.mem_append.mp hr with hr | hr
    · exact isKnown_mono h.next _ (hi.deferred j r hr)
    · obtain ⟨n, t, e1, -, e3⟩ := hRn r hr
      rw [e1]
      simpa [isKnown] using e3
  · obtain ⟨R, hR, -, hRw⟩ := h.deferred j
    by_cases hRe : R = []
    · rw [hR, hRe, List.append_nil] at hne
      rw [hW]
      exact List.mem_append_left _ (hi.queued j hne)
    · exact hRw hRe

theorem StartBuild_spec {s s1 : LLVMTFBuilder} {id : Int}
    (hn : StartedNative s.basic_block_manager_) (h : s.StartBuild id = some s1) :
    OutStep s.output_ s1.output_ ∧ s1.phi_rebuild_worklist_ = s.phi_rebuild_worklist_ ∧
      s1.current_bb_ = s.current_bb_ ∧
      (∀ j, deferredOf s1.basic_block_manager_ j = deferredOf s.basic_block_manager_ j) ∧
      (∀ P, IsBBStartedToBuild s.basic_block_manager_ P = true →
        GetImpl s1.basic_block_manager_ P = GetImpl s.basic_block_manager_ P) ∧
      IsBBStartedToBuild s.basic_block_manager_ id = false ∧
      StartedNative s1.basic_block_manager_ ∧ (GetImpl s1.basic_block_manager_ id).isSome := by
  unfold StartBuild at h
  cases he : s.EnsureNativeBB id with
  | none => simp [he] at h
  | some b1 =>
    simp only [he] at h
    have q := quietStep_EnsureNativeBB hn he
    have fr := EnsureNativeBB_frame hn he
    have hcur : b1.current_bb_ = s.current_bb_ := by
      unfold EnsureNativeBB at he
      cases hf : findBB s.basic_block_manager_ id with
      | none => simp [hf] at he
      | some bb =>
        simp only [hf] at he
        split at he
        · cases he; rfl
        · simp only [Output.appendBasicBlock, Option.some.injEq] at he
          subst he; rfl
    cases hg : GetImpl b1.basic_block_manager_ id with
    | none => simp [hg] at h
    | some impl =>
      simp only [hg] at h
      cases hsb : impl.StartBuild with
      | none => simp [hsb] at h
      | some impl' =>
        cases hnb : impl.native_bb with
        | none => simp [hsb, hnb] at h
        | some native_bb =>
          simp only [hsb, hnb, Option.some.injEq] at h
          subst h
          have himpl : impl.started = false ∧ impl' = { impl with started := true } := by
            unfold LLVMTFBuilderBasicBlockImpl.StartBuild at hsb
            cases hst : impl.started with
            | true => simp [hst] at hsb
            | false =>
              simp only [hst, Bool.false_eq_true, if_false] at hsb
              split_ifs at hsb
              exact ⟨rfl, (Option.some.inj hsb).symm⟩
          have hnot : IsBBStartedToBuild s.basic_block_manager_ id = false := by
            by_contra hc
            have hs : IsBBStartedToBuild s.basic_block_manager_ id = true := by
              simpa using hc
            obtain ⟨i, hi, his⟩ := started_iff.mp hs
            have := fr id hs
            rw [hg, hi] at this
            cases this
            rw [himpl.1] at his
            cases his
          refine ⟨outStep_trans q.out (outStep_position _ _), q.worklist, hcur, fun j => ?_,
            fun P hs => ?_, hnot, ?_, ?_⟩
          · rw [← q.deferred j]
            show deferredOf (updateImpl _ _ _) j = _
            unfold deferredOf
            rw [GetImpl_updateImpl]
            split_ifs with hj
            · subst hj
              rw [hg, himpl.2]
              rfl
            · rfl
          · show GetImpl (updateImpl _ _ _) P = _
            rw [GetImpl_updateImpl, if_neg, fr P hs]
            rintro rfl
            rw [hs] at hnot
            cases hnot
          · intro j i hj hs
            change GetImpl (updateImpl _ _ _) j = some i at hj
            rw [GetImpl_updateImpl] at hj
            split_ifs at hj with hji
            · subst hji
              rw [hg] at hj
              simp only [Option.map_some', Option.some.injEq] at hj
              rw [← hj, himpl.2]
              show impl.native_bb.isSome = true
              rw [hnb]
              rfl
            · exact q.native j i hj hs
          · show (GetImpl (updateImpl _ _ _) id).isSome = true
            rw [GetImpl_updateImpl, if_pos rfl, hg]
            rfl

/-- The callback `VisitBlock` as a step. -/
theorem VisitBlock_step {s s1 : LLVMTFBuilder} {id : Int}
    (hn : StartedNative s.basic_block_manager_) (h : s.VisitBlock id = some s1) :
    BuildStep s s1 ∧ StartedNative s1.basic_block_manager_ ∧ s1.current_bb_ = some id ∧
      IsBBStartedToBuild s.basic_block_manager_ id = false := by
  unfold LLVMTFBuilder.VisitBlock at h
  cases hf : findBB s.basic_block_manager_ id with
  | none => simp [hf] at h
  | some bb =>
    simp only [hf] at h
    cases hsb : StartBuild { s with current_bb_ := some id } id with
    | none => simp [hsb] at h
    | some b1 =>
      simp only [hsb] at h
      obtain ⟨p1, p2, p3, p4, p5, p6, p7, p8⟩ := StartBuild_spec (s := { s with current_bb_ := some id })
        hn hsb
      obtain ⟨s2, q, e1, e2, e3, e4⟩ := MergePredecessors_slot p8 h
      obtain ⟨X, hX, hXn⟩ := q.incoming
      obtain ⟨R, hR, hRn⟩ := q.deferred
      have hnotid : ∀ P, IsBBStartedToBuild s.basic_block_manager_ P = true → P ≠ id := by
        rintro P hs rfl
        rw [p6] at hs
        cases hs
      have hget : ∀ j, j ≠ id → GetImpl s1.basic_block_manager_ j =
          GetImpl b1.basic_block_manager_ j := by
        intro j hj
        rw [e2]
        exact q.others j hj
      refine ⟨⟨?_, ⟨X, ?_, ?_⟩, fun j => ?_, ?_, fun P hs _ => ⟨?_, ?_⟩, ?_⟩, ?_, ?_, p6⟩
      · rw [e1]
        exact le_trans p1.next q.next
      · rw [e1, hX, p1.incoming]
      · intro e he
        obtain ⟨n, t, x1, x2, x3⟩ := hXn e he
        exact ⟨n, t, x1, le_trans p1.next x2, by rw [e1]; exact x3⟩
      · by_cases hj : j = id
        · subst hj
          refine ⟨R, ?_, ?_, ?_⟩
          · rw [e2, hR, p4]
          · intro r hr
            obtain ⟨n, t, x1, x2, x3⟩ := hRn r hr
            exact ⟨n, t, x1, le_trans p1.next x2, by rw [e1]; exact x3⟩
          · intro hne
            rcases e4 with ⟨-, hd⟩ | hw
            · rw [hd] at hR
              exact absurd (List.append_right_eq_self.mp hR.symm) hne
            · rw [hw]
              exact List.mem_append_right _ (List.mem_singleton.mpr rfl)
        · refine ⟨[], ?_, fun _ he => (by cases he), fun h => absurd rfl h⟩
          rw [List.append_nil, deferredOf_congr (hget j hj)]
          exact p4 j
      · rcases e4 with ⟨hw, -⟩ | hw
        · exact ⟨[], by rw [hw, q.worklist, p2, List.append_nil]⟩
        · exact ⟨[id], by rw [hw, q.worklist, p2]⟩
      · rw [hget P (hnotid P hs)]
        exact p5 P hs
      · rw [e3, q.current, p3]
        intro x
        exact hnotid P hs (Option.some.inj x).symm
      · intro e he
        rw [e1]
        exact q.instructions e (p1.instructions e he)
      · intro j i hj hs
        by_cases hji : j = id
        · subst hji
          have hfl := q.flags
          rw [← e2, hj] at hfl
          cases hb : GetImpl b1.basic_block_manager_ j with
          | none => rw [hb] at hfl; cases hfl
          | some i0 =>
            rw [hb] at hfl
            simp only [Option.map_some', Option.some.injEq, Prod.mk.injEq] at hfl
            rw [hfl.2]
            exact p7 j i0 hb (by rw [← hfl.1]; exact hs)
        · rw [hget j hji] at hj
          exact p7 j i hj hs
      · rw [e3, q.current, p3]
/-! ### The callback `VisitPhi` as a step -/

theorem EnsurePhiInput_out {b b1 : LLVMTFBuilder} {pred index : Int} {type : LType}
    {v : LValue} (h : b.EnsurePhiInput pred index type = some (b1, v)) :
    OutStep b.output_ b1.output_ := by
  unfold EnsurePhiInput at h
  cases hv : valueIn b.basic_block_manager_ pred index with
  | none => simp [hv] at h
  | some val =>
    simp only [hv] at h
    by_cases ht : typeOf val = type
    · simp only [ht, if_true, Option.some.injEq, Prod.mk.injEq] at h
      rw [← h.1]
      exact outStep_refl _
    · simp only [ht, if_false] at h
      cases hc : GetNativeBBContinuation b.basic_block_manager_ pred with
      | none => simp [hc] at h
      | some continuation =>
        simp only [hc] at h
        cases htm : b.output_.getBasicBlockTerminator continuation with
        | none =>
          simp only [htm] at h
          split_ifs at h
        | some terminator =>
          simp only [htm] at h
          have key : ∀ (op : CastOp) (dst : LType),
              some (({ b with output_ :=
                  ((b.output_.positionBefore terminator).buildCast op val dst).1 } :
                  LLVMTFBuilder),
                ((b.output_.positionBefore terminator).buildCast op val dst).2) = some (b1, v) →
              OutStep b.output_ b1.output_ := by
            intro op dst heq
            simp only [Option.some.injEq, Prod.mk.injEq] at heq
            rw [← heq.1]
            exact outStep_trans (outStep_position _ _) (outStep_emit _ _ _)
          split_ifs at h
          · exact key _ _ h
          · exact key _ _ h
          · exact key _ _ h

theorem EnsurePhiInputAndPosition_out {b b1 : LLVMTFBuilder} {pred index : Int} {type : LType}
    {v : LValue} (h : b.EnsurePhiInputAndPosition pred index type = some (b1, v)) :
    OutStep b.output_ b1.output_ ∧ b1.current_bb_ = b.current_bb_ := by
  unfold EnsurePhiInputAndPosition at h
  cases he : b.EnsurePhiInput pred index type with
  | none => simp [he] at h
  | some res =>
    obtain ⟨b0, value⟩ := res
    simp only [he] at h
    have q := EnsurePhiInput_out he
    obtain ⟨-, -, q3, -⟩ := EnsurePhiInput_spec he
    cases hc : b0.current_bb_ with
    | none => simp [hc] at h
    | some cur =>
      simp only [hc] at h
      cases hn : GetNativeBB b0.basic_block_manager_ cur with
      | none => simp [hn] at h
      | some native =>
        simp only [hn, Option.some.injEq, Prod.mk.injEq] at h
        rw [← h.1]
        exact ⟨outStep_trans q (outStep_position _ _), hc.symm.trans q3 |>.symm |>.symm⟩

theorem visitPhiOperands_out (phi : LValue) (phi_type : LType) (cur : Int) (preds : List Int) :
    ∀ (operands : List Int) (flag flag' : Bool) (b b' : LLVMTFBuilder),
      visitPhiOperands phi phi_type cur preds operands flag b = some (b', flag') →
      b.output_.nextValue ≤ b'.output_.nextValue ∧
      (∀ e ∈ b.output_.instructions, e ∈ b'.output_.instructions) ∧
      b'.current_bb_ = b.current_bb_ := by
  induction preds with
  | nil =>
    intro operands flag flag' b b' h
    simp only [visitPhiOperands, Option.some.injEq, Prod.mk.injEq] at h
    obtain ⟨rfl, rfl⟩ := h
    exact ⟨le_refl _, fun _ he => he, rfl⟩
  | cons pred rest ih =>
    intro operands flag flag' b b' h
    cases operands with
    | nil => simp [visitPhiOperands] at h
    | cons operand operands =>
      simp only [visitPhiOperands] at h
      cases hs : IsBBStartedToBuild b.basic_block_manager_ pred with
      | true =>
        simp only [hs, if_true] at h
        cases he : b.EnsurePhiInputAndPosition pred operand phi_type with
        | none => simp [he] at h
        | some res =>
          obtain ⟨b1, value⟩ := res
          simp only [he] at h
          obtain ⟨q1, q2⟩ := EnsurePhiInputAndPosition_out he
          cases hc : GetNativeBBContinuation b1.basic_block_manager_ pred with
          | none => simp [hc] at h
          | some native =>
            simp only [hc] at h
            obtain ⟨p1, p2, p3⟩ := ih _ _ _ _ _ h
            exact ⟨le_trans q1.next p1, fun e he => p2 e (q1.instructions e he), p3.trans q2⟩
      | false =>
        simp only [hs, Bool.false_eq_true, if_false] at h
        cases hi : GetImpl b.basic_block_manager_ cur with
        | none => simp [hi] at h
        | some impl =>
          simp only [hi] at h
          have := ih _ _ _ _ _ h
          exact this

/-- The callback `VisitPhi`, in full: the phi is a new handle bound to the
id; it gets one `addIncoming` call per started predecessor and one deferred
record per predecessor that is not started; the block is queued when there is
such a record; only the slot of the current block is touched. -/
theorem VisitPhi_full {b b' : LLVMTFBuilder} {id cur : Int} {rep : MachineRepresentation}
    {operands : List Int} {bb : BasicBlock LLVMTFBuilderBasicBlockImpl}
    (hcur : b.current_bb_ = some cur) (hbb : findBB b.basic_block_manager_ cur = some bb)
    (h : b.VisitPhi id rep operands = some b') :
    ∃ phi_type X R, getMachineRepresentationType rep = some phi_type ∧
      valueIn b'.basic_block_manager_ cur id = some (LValue.inst b.output_.nextValue phi_type) ∧
      IsPhi b'.output_ (LValue.inst b.output_.nextValue phi_type) ∧
      b.output_.nextValue < b'.output_.nextValue ∧
      b'.output_.incoming = b.output_.incoming ++ X ∧
      deferredOf b'.basic_block_manager_ cur = deferredOf b.basic_block_manager_ cur ++ R ∧
      (∀ e ∈ X, e.phi = LValue.inst b.output_.nextValue phi_type) ∧
      (∀ r ∈ R, r.phi = LValue.inst b.output_.nextValue phi_type) ∧
      X.map (fun e => some e.block) =
        (startedPredecessors b.basic_block_manager_ bb.predecessors).map
          (GetNativeBBContinuation b.basic_block_manager_) ∧
      R.map (fun r => r.pred) =
        bb.predecessors.filter (fun p => !IsBBStartedToBuild b.basic_block_manager_ p) ∧
      b'.phi_rebuild_worklist_ =
        b.phi_rebuild_worklist_ ++ (if R.isEmpty then [] else [cur]) ∧
      (∀ e ∈ b.output_.instructions, e ∈ b'.output_.instructions) ∧
      (∀ j, j ≠ cur → GetImpl b'.basic_block_manager_ j = GetImpl b.basic_block_manager_ j) ∧
      b'.current_bb_ = b.current_bb_ ∧
      (GetImpl b'.basic_block_manager_ cur).map (fun i => (i.started, i.native_bb)) =
        (GetImpl b.basic_block_manager_ cur).map (fun i => (i.started, i.native_bb)) := by
  obtain ⟨o, bbm, c, w, m, n, u⟩ := b
  simp only at hcur hbb
  subst hcur
  unfold LLVMTFBuilder.VisitPhi at h
  cases ht : getMachineRepresentationType rep with
  | none => simp [ht] at h
  | some phi_type =>
    simp only [ht, hbb, Output.buildPhi, Output.emit] at h
    cases hl : visitPhiOperands (LValue.inst o.nextValue phi_type) phi_type cur
        bb.predecessors operands false
        { output_ := (o.buildPhi phi_type).1, basic_block_manager_ := bbm,
          current_bb_ := some cur, phi_rebuild_worklist_ := w, stack_map_info_map_ := m,
          state_point_id_next_ := n, code_uses_map_ := u } with
    | none =>
      simp only [Output.buildPhi, Output.emit] at hl
      simp [hl] at h
    | some res =>
      obtain ⟨b1, flag⟩ := res
      obtain ⟨p1, p2, p3, X, R, p4, p5, p6, p7, p8, p9, p10⟩ :=
        visitPhiOperands_spec _ _ _ _ _ _ _ _ _ hl
      obtain ⟨r1, r2, r3⟩ := visitPhiOperands_out _ _ _ _ _ _ _ _ _ hl
      simp only [Output.buildPhi, Output.emit] at hl
      simp only [hl] at h
      obtain ⟨e, hsome⟩ := set_value_some h
      have hflag : ∀ x : LLVMTFBuilder,
          (if flag = true then
            { b1 with phi_rebuild_worklist_ := b1.phi_rebuild_worklist_ ++ [cur] } else b1) = x →
          x.output_ = b1.output_ ∧ x.basic_block_manager_ = b1.basic_block_manager_ ∧
            x.current_bb_ = b1.current_bb_ := by
        intro x hx
        cases flag
        · simp only [Bool.false_eq_true, if_false] at hx
          subst hx
          exact ⟨rfl, rfl, rfl⟩
        · simp only [if_true] at hx
          subst hx
          exact ⟨rfl, rfl, rfl⟩
      obtain ⟨f1, f2, f3⟩ := hflag _ rfl
      have hout : b'.output_ = b1.output_ := by rw [e]; exact f1
      have hbbm : b'.basic_block_manager_ = updateImpl b1.basic_block_manager_ cur
          (fun impl => impl.set_value id (LValue.inst o.nextValue phi_type)) := by
        rw [e]
        show updateImpl _ _ _ = _
        rw [f2]
      have hsome1 : (GetImpl b1.basic_block_manager_ cur).isSome := by
        rw [← f2]; exact hsome
      refine ⟨phi_type, X, R, rfl, ?_, ?_, ?_, ?_, ?_, p6, p7, p8, p9, ?_, ?_, ?_, ?_, ?_⟩
      · rw [hbbm, valueIn_updateImpl_set_value _ _ _ _ _ _ hsome1]
        simp
      · rw [hout]
        exact ⟨_, r2 _ (List.mem_append_right _ (List.mem_singleton.mpr rfl)), rfl, rfl⟩
      · rw [hout]
        exact lt_of_lt_of_le (Nat.lt_succ_self _) r1
      · rw [hout]
        exact p4
      · rw [hbbm, deferredOf_set_value]
        exact p5
      · rw [e]
        cases flag
        · have : R.isEmpty = true := by simpa using p10
          simp only [this, if_true, List.append_nil]
          exact p2
        · have : R.isEmpty = false := by simpa using p10
          simp only [this, Bool.false_eq_true, if_false]
          show b1.phi_rebuild_worklist_ ++ [cur] = _
          rw [p2]
      · intro x hx
        rw [hout]
        exact r2 x (List.mem_append_left _ hx)
      · intro j hj
        rw [hbbm, GetImpl_updateImpl, if_neg hj]
        exact p3 j hj
      · rw [e]
        show LLVMTFBuilder.current_bb_ _ = _
        rw [f3]
        exact r3
      · rw [hbbm, GetImpl_updateImpl, if_pos rfl]
        have := p1 cur
        cases h1 : GetImpl b1.basic_block_manager_ cur with
        | none =>
          rw [h1] at hsome1
          cases hsome1
        | some i1 =>
          rw [h1] at this
          cases h0 : GetImpl bbm cur with
          | none => rw [h0] at this; cases this
          | some i0 =>
            rw [h0] at this
            simp only [Option.map_some', Option.some.injEq, Prod.mk.injEq] at this
            show some _ = some _
            simp only [LLVMTFBuilderBasicBlockImpl.set_value, this.2.1, this.2.2.2.1]

theorem VisitPhi_step {s s1 : LLVMTFBuilder} {id : Int} {rep : MachineRepresentation}
    {operands : List Int} (hn : StartedNative s.basic_block_manager_)
    (h : s.VisitPhi id rep operands = some s1) :
    BuildStep s s1 ∧ StartedNative s1.basic_block_manager_ := by
  have h0 := h
  unfold LLVMTFBuilder.VisitPhi at h0
  cases ht : getMachineRepresentationType rep with
  | none => simp [ht] at h0
  | some phi_type0 =>
    cases hc : s.current_bb_ with
    | none => simp [ht, hc] at h0
    | some cur =>
      cases hf : findBB s.basic_block_manager_ cur with
      | none => simp [ht, hc, hf] at h0
      | some bb =>
        obtain ⟨phi_type, X, R, -, -, -, q3, q4, q5, q6, q7, -, -, q10, q11, q12, q13, q14⟩ :=
          VisitPhi_full hc hf h
        refine ⟨⟨le_of_lt q3, ⟨X, q4, fun e he => ⟨_, _, q6 e he, le_refl _, q3⟩⟩, fun j => ?_,
          ⟨_, q10⟩, fun P hs hP => ⟨?_, ?_⟩, q11⟩, ?_⟩
        · by_cases hj : j = cur
          · subst hj
            refine ⟨R, q5, fun r hr => ⟨_, _, q7 r hr, le_refl _, q3⟩, fun hne => ?_⟩
            rw [q10]
            have : R.isEmpty = false := by
              cases R with
              | nil => exact absurd rfl hne
              | cons a l => rfl
            simp [this]
          · exact ⟨[], by rw [List.append_nil, deferredOf_congr (q12 j hj)],
              fun _ he => (by cases he), fun h => absurd rfl h⟩
        · refine q12 P ?_
          rintro rfl
          exact hP hc
        · rw [q13]
          exact hP
        · intro j i hj hs
          by_cases hji : j = cur
          · subst hji
            rw [hj] at q14
            cases h0' : GetImpl s.basic_block_manager_ j with
            | none => rw [h0'] at q14; cases q14
            | some i0 =>
              rw [h0'] at q14
              simp only [Option.map_some', Option.some.injEq, Prod.mk.injEq] at q14
              rw [q14.2]
              exact hn j i0 h0' (by rw [← q14.1]; exact hs)
          · rw [q12 j hji] at hj
            exact hn j i hj hs

/-! ### Sequences of callbacks -/

theorem Dispatch_step {s s1 : LLVMTFBuilder} {k : V8Constants} {c : BuilderCall}
    (hn : StartedNative s.basic_block_manager_) (h : s.Dispatch k c = some s1) :
    BuildStep s s1 ∧ StartedNative s1.basic_block_manager_ := by
  cases c with
  | Block id d p =>
    obtain ⟨q1, q2, -, -⟩ := VisitBlock_step hn h
    exact ⟨q1, q2⟩
  | Goto bid =>
    have q := VisitGoto_quiet hn h
    exact ⟨buildStep_of_quiet q, q.native⟩
  | Int32Constant id value =>
    have q := VisitInt32Constant_quiet hn h
    exact ⟨buildStep_of_quiet q, q.native⟩
  | Store id rep barrier base offset value =>
    have q := VisitStore_quiet hn h
    exact ⟨buildStep_of_quiet q, q.native⟩
  | Branch id cmp btrue bfalse =>
    have q := @VisitBranch_quiet s s1 id cmp btrue bfalse hn h
    exact ⟨buildStep_of_quiet q, q.native⟩
  | Phi id rep operands => exact VisitPhi_step hn h
  | Call id code call_desc operands =>
    obtain ⟨q, -⟩ := DoCall_quiet hn h
    exact ⟨buildStep_of_quiet q, q.native⟩
  | TailCall id code call_desc operands =>
    have q := DoTailCall_quiet hn h
    exact ⟨buildStep_of_quiet q, q.native⟩

theorem DispatchAll_step (k : V8Constants) (cs : List BuilderCall) :
    ∀ (s s1 : LLVMTFBuilder), BuildInv s → LLVMTFBuilder.DispatchAll k cs s = some s1 →
      BuildStep s s1 ∧ BuildInv s1 := by
  induction cs with
  | nil =>
    intro s s1 hi h
    simp only [LLVMTFBuilder.DispatchAll, Option.some.injEq] at h
    subst h
    exact ⟨buildStep_refl _, hi⟩
  | cons c rest ih =>
    intro s s1 hi h
    simp only [LLVMTFBuilder.DispatchAll] at h
    cases hv : s.Dispatch k c with
    | none => simp [hv] at h
    | some s' =>
      simp only [hv] at h
      obtain ⟨q1, q2⟩ := Dispatch_step hi.native hv
      obtain ⟨q3, q4⟩ := ih s' s1 (buildInv_step hi q1 q2) h
      exact ⟨buildStep_trans q1 q3, q4⟩

theorem DispatchAll_append (k : V8Constants) (cs ds : List BuilderCall) :
    ∀ s : LLVMTFBuilder, LLVMTFBuilder.DispatchAll k (cs ++ ds) s =
      (LLVMTFBuilder.DispatchAll k cs s).bind (LLVMTFBuilder.DispatchAll k ds) := by
  induction cs with
  | nil => intro s; rfl
  | cons c rest ih =>
    intro s
    simp only [List.cons_append, LLVMTFBuilder.DispatchAll]
    cases s.Dispatch k c with
    | none => rfl
    | some s' => exact ih s'

/-- The builder as constructed on a store whose slots are all null, with an
output on which no `addIncoming` call was made, satisfies the invariant. -/
theorem buildInv_new (output : Output) (bbm : BuilderBlocks) (map : StackMapInfoMap)
    (hslots : ∀ bb ∈ bbm.bbs, bb.impl = none) (hout : output.incoming = []) :
    BuildInv (LLVMTFBuilder.new output bbm map) := by
  have hg : ∀ j, GetImpl bbm j = none := by
    intro j
    unfold GetImpl
    cases hf : findBB bbm j with
    | none => rfl
    | some bb => exact hslots bb (findIn_some hf).1
  have hd : ∀ j, deferredOf bbm j = [] := by
    intro j
    unfold deferredOf
    rw [hg]
  refine ⟨fun e he => ?_, fun j r hr => ?_, fun j hne => ?_, fun j i hj _ => ?_⟩
  · change e ∈ output.incoming at he
    rw [hout] at he
    cases he
  · change r ∈ deferredOf bbm j at hr
    rw [hd] at hr
    cases hr
  · exact absurd (hd j) hne
  · change GetImpl bbm j = some i at hj
    rw [hg] at hj
    cases hj
/-! ### A phi from its creation to the fixup -/

theorem incomingOf_buildStep {s t : LLVMTFBuilder} (h : BuildStep s t) {n : Nat} (ty : LType)
    (hn : n < s.output_.nextValue) :
    t.output_.incomingOf (LValue.inst n ty) = s.output_.incomingOf (LValue.inst n ty) := by
  obtain ⟨X, hX, hXn⟩ := h.incoming
  rw [incomingOf_of_incoming hX,
    filter_phi_eq_nil_of_new (fun e : Incoming => e.phi) X n s.output_.nextValue ty hn
      (fun e he => by
        obtain ⟨k, t', e1, e2, -⟩ := hXn e he
        exact ⟨k, t', e1, e2⟩)]
  simp

theorem deferredOf_filter_buildStep {s t : LLVMTFBuilder} (h : BuildStep s t) {n : Nat}
    (ty : LType) (hn : n < s.output_.nextValue) (j : Int) :
    (deferredOf t.basic_block_manager_ j).filter (fun r => r.phi = LValue.inst n ty) =
      (deferredOf s.basic_block_manager_ j).filter (fun r => r.phi = LValue.inst n ty) := by
  obtain ⟨R, hR, hRn, -⟩ := h.deferred j
  rw [hR, List.filter_append,
    filter_phi_eq_nil_of_new (fun r : NotMergedPhiDesc => r.phi) R n s.output_.nextValue ty hn
      (fun e he => by
        obtain ⟨k, t', e1, e2, -⟩ := hRn e he
        exact ⟨k, t', e1, e2⟩), List.append_nil]

theorem deferredOf_clear (bbm : BuilderBlocks) (id j : Int) :
    deferredOf (updateImpl bbm id (fun i => { i with not_merged_phis := [] })) j =
      if j = id then [] else deferredOf bbm j := by
  split_ifs with h
  · subst h
    exact deferredOf_cleared _ _
  · unfold deferredOf
    rw [GetImpl_updateImpl, if_neg h]

theorem pendingRecords_filter_nil (p : NotMergedPhiDesc → Bool) (wl : List Int) :
    ∀ bbm : BuilderBlocks, (∀ j, (deferredOf bbm j).filter p = []) →
      (pendingRecords bbm wl).filter p = [] := by
  induction wl with
  | nil => intro bbm _; rfl
  | cons id ids ih =>
    intro bbm h
    simp only [pendingRecords, List.filter_append, h id, List.nil_append]
    apply ih
    intro j
    rw [deferredOf_clear]
    split_ifs
    · rfl
    · exact h j

theorem pendingRecords_filter (p : NotMergedPhiDesc → Bool) (H : Int) (wl : List Int) :
    ∀ bbm : BuilderBlocks, (∀ j, j ≠ H → (deferredOf bbm j).filter p = []) → H ∈ wl →
      (pendingRecords bbm wl).filter p = (deferredOf bbm H).filter p := by
  induction wl with
  | nil => intro bbm _ h; cases h
  | cons id ids ih =>
    intro bbm h hH
    simp only [pendingRecords, List.filter_append]
    by_cases hid : id = H
    · subst hid
      rw [pendingRecords_filter_nil p ids _ (fun j => by
        rw [deferredOf_clear]
        split_ifs with hj
        · rfl
        · exact h j hj), List.append_nil]
    · have hH' : H ∈ ids := by
        rcases List.mem_cons.mp hH with e | e
        · exact absurd e.symm hid
        · exact e
      rw [h id hid, List.nil_append, ih _ (fun j hj => by
        rw [deferredOf_clear]
        split_ifs
        · rfl
        · exact h j hj) hH', deferredOf_clear, if_neg (fun e => hid e.symm)]

theorem forall2_filter {α β : Type} {R : α → β → Prop} {p : α → Bool} {q : β → Bool}
    (hpq : ∀ a b, R a b → p a = q b) :
    ∀ {l1 : List α} {l2 : List β}, List.Forall₂ R l1 l2 →
      List.Forall₂ R (l1.filter p) (l2.filter q) := by
  intro l1 l2 h
  induction h with
  | nil => exact List.Forall₂.nil
  | @cons a b l1 l2 hab _ ih =>
    simp only [List.filter_cons]
    rw [← hpq a b hab]
    cases p a
    · exact ih
    · exact List.Forall₂.cons hab ih

/-- The fixup, for a phi created before the state `s1`, all of whose deferred
records are held by block `H`: up to `ProcessPhiWorkList` the phi keeps
the entries it has in `s1`, and `ProcessPhiWorkList` adds one entry per
record, in order, and leaves no record and no worklist entry. -/
theorem phi_fixup {s1 t1 t2 : LLVMTFBuilder} {H : Int} {n : Nat} {ty : LType}
    (hinv : BuildInv t1) (hstep : BuildStep s1 t1) (hn : n < s1.output_.nextValue)
    (hrec : ∀ j, j ≠ H →
      (deferredOf s1.basic_block_manager_ j).filter (fun r => r.phi = LValue.inst n ty) = [])
    (hfix : t1.ProcessPhiWorkList = some t2) :
    t2.phi_rebuild_worklist_ = [] ∧ (∀ j, deferredOf t2.basic_block_manager_ j = []) ∧
    SameReads t1.basic_block_manager_ t2.basic_block_manager_ ∧
    (∀ e ∈ t1.output_.instructions, e ∈ t2.output_.instructions) ∧
    (∀ r ∈ (deferredOf s1.basic_block_manager_ H).filter (fun r => r.phi = LValue.inst n ty),
      IsBBStartedToBuild t1.basic_block_manager_ r.pred = true) ∧
    ∃ Y : List Incoming,
      t2.output_.incomingOf (LValue.inst n ty) =
        s1.output_.incomingOf (LValue.inst n ty) ++ Y.map (fun e => (e.value, e.block)) ∧
      List.Forall₂ (Completes t1.basic_block_manager_ t2.output_)
        ((deferredOf s1.basic_block_manager_ H).filter (fun r => r.phi = LValue.inst n ty)) Y := by
  unfold ProcessPhiWorkList at hfix
  cases hp : processWorkList t1.phi_rebuild_worklist_ t1 with
  | none => simp [hp] at hfix
  | some b0 =>
    simp only [hp, Option.some.injEq] at hfix
    subst hfix
    obtain ⟨q1, q2, q3, q4, q5, X, q6, q7⟩ := processWorkList_spec _ t1 b0 hp
    have hpend : (pendingRecords t1.basic_block_manager_ t1.phi_rebuild_worklist_).filter
        (fun r => r.phi = LValue.inst n ty) =
        (deferredOf s1.basic_block_manager_ H).filter (fun r => r.phi = LValue.inst n ty) := by
      have hrec1 : ∀ j, j ≠ H → (deferredOf t1.basic_block_manager_ j).filter
          (fun r => decide (r.phi = LValue.inst n ty)) = [] := by
        intro j hj
        rw [deferredOf_filter_buildStep hstep ty hn j]
        exact hrec j hj
      by_cases hH : H ∈ t1.phi_rebuild_worklist_
      · rw [pendingRecords_filter _ H _ _ hrec1 hH, deferredOf_filter_buildStep hstep ty hn H]
      · have hnil : deferredOf t1.basic_block_manager_ H = [] := by
          by_contra hne
          exact hH (hinv.queued H hne)
        rw [pendingRecords_filter_nil _ _ _ (fun j => by
          by_cases hj : j = H
          · rw [hj, hnil]; rfl
          · exact hrec1 j hj), ← deferredOf_filter_buildStep hstep ty hn H, hnil]
        rfl
    refine ⟨rfl, fun id => ?_, q1, q4, fun r hr => ?_,
      X.filter (fun e => e.phi = LValue.inst n ty), ?_, ?_⟩
    · show deferredOf b0.basic_block_manager_ id = []
      by_cases hid : id ∈ t1.phi_rebuild_worklist_
      · exact q2 id hid
      · rw [deferredOf_congr (q3 id hid)]
        by_contra hne
        exact hid (hinv.queued id hne)
    · rw [← hpend] at hr
      exact q5 r (List.mem_filter.mp hr).1
    · show b0.output_.incomingOf _ = _
      rw [incomingOf_of_incoming q6, incomingOf_buildStep hstep ty hn]
    · rw [← hpend]
      refine forall2_filter (fun r e hc => ?_) q7
      rw [hc.1]
/-! ### The records of `VisitPhi` and the merge of `VisitBlock` -/

/-- The deferred records the loop of `VisitPhi` adds: one per predecessor
that is not started, with the operand at the same position. -/
theorem visitPhiOperands_records (phi : LValue) (phi_type : LType) (cur : Int)
    (preds : List Int) :
    ∀ (operands : List Int) (flag flag' : Bool) (b b' : LLVMTFBuilder),
      visitPhiOperands phi phi_type cur preds operands flag b = some (b', flag') →
      deferredOf b'.basic_block_manager_ cur = deferredOf b.basic_block_manager_ cur ++
        ((preds.zip operands).filter
          (fun po => !IsBBStartedToBuild b.basic_block_manager_ po.1)).map
          (fun po => { pred := po.1, value := po.2, phi := phi }) := by
  induction preds with
  | nil =>
    intro operands flag flag' b b' h
    simp only [visitPhiOperands, Option.some.injEq, Prod.mk.injEq] at h
    obtain ⟨rfl, rfl⟩ := h
    simp
  | cons pred rest ih =>
    intro operands flag flag' b b' h
    cases operands with
    | nil => simp [visitPhiOperands] at h
    | cons operand operands =>
      simp only [visitPhiOperands] at h
      cases hs : IsBBStartedToBuild b.basic_block_manager_ pred with
      | true =>
        simp only [hs, if_true] at h
        cases he : b.EnsurePhiInputAndPosition pred operand phi_type with
        | none => simp [he] at h
        | some res =>
          obtain ⟨b1, value⟩ := res
          simp only [he] at h
          obtain ⟨q1, -, -⟩ := EnsurePhiInputAndPosition_spec he
          cases hc : GetNativeBBContinuation b1.basic_block_manager_ pred with
          | none => simp [hc] at h
          | some native =>
            simp only [hc] at h
            have := ih _ _ _ _ _ h
            simp only [q1] at this
            rw [this, List.zip_cons_cons, List.filter_cons]
            simp [hs]
      | false =>
        simp only [hs, Bool.false_eq_true, if_false] at h
        cases hi : GetImpl b.basic_block_manager_ cur with
        | none => simp [hi] at h
        | some impl =>
          simp only [hi] at h
          have := ih _ _ _ _ _ h
          have hsame := sameReads_updateImpl b.basic_block_manager_ cur
            (fun impl => { impl with not_merged_phis :=
              impl.not_merged_phis ++ [{ pred := pred, value := operand, phi := phi }] })
            (fun _ => rfl)
          have hdef : deferredOf (updateImpl b.basic_block_manager_ cur
              (fun impl => { impl with not_merged_phis :=
                impl.not_merged_phis ++ [{ pred := pred, value := operand, phi := phi }] })) cur =
              deferredOf b.basic_block_manager_ cur ++
                [{ pred := pred, value := operand, phi := phi }] :=
            deferredOf_of_map (by rw [hi]; rfl) (by rw [GetImpl_updateImpl, if_pos rfl])
          simp only [hdef] at this
          rw [this, List.zip_cons_cons, List.filter_cons]
          simp only [hs, Bool.not_false, if_true, List.map_cons, List.append_assoc,
            List.singleton_append]
          congr 2
          exact congrArg _ (List.filter_congr (fun po _ => by rw [sameReads_started hsame]))

theorem VisitPhi_records {b b' : LLVMTFBuilder} {id cur : Int} {rep : MachineRepresentation}
    {operands : List Int} {bb : BasicBlock LLVMTFBuilderBasicBlockImpl} {phi_type : LType}
    (hcur : b.current_bb_ = some cur) (hbb : findBB b.basic_block_manager_ cur = some bb)
    (ht : getMachineRepresentationType rep = some phi_type)
    (h : b.VisitPhi id rep operands = some b') :
    deferredOf b'.basic_block_manager_ cur = deferredOf b.basic_block_manager_ cur ++
      ((bb.predecessors.zip operands).filter
        (fun po => !IsBBStartedToBuild b.basic_block_manager_ po.1)).map
        (fun po => { pred := po.1, value := po.2,
                     phi := LValue.inst b.output_.nextValue phi_type }) := by
  obtain ⟨o, bbm, c, w, m, n, u⟩ := b
  simp only at hcur hbb
  subst hcur
  unfold LLVMTFBuilder.VisitPhi at h
  simp only [ht, hbb, Output.buildPhi, Output.emit] at h
  cases hl : visitPhiOperands (LValue.inst o.nextValue phi_type) phi_type cur
      bb.predecessors operands false
      { output_ := (o.buildPhi phi_type).1, basic_block_manager_ := bbm,
        current_bb_ := some cur, phi_rebuild_worklist_ := w, stack_map_info_map_ := m,
        state_point_id_next_ := n, code_uses_map_ := u } with
  | none =>
    simp only [Output.buildPhi, Output.emit] at hl
    simp [hl] at h
  | some res =>
    obtain ⟨b1, flag⟩ := res
    have hr := visitPhiOperands_records _ _ _ _ _ _ _ _ _ hl
    simp only [Output.buildPhi, Output.emit] at hl
    simp only [hl] at h
    obtain ⟨e, -⟩ := set_value_some h
    rw [e]
    show deferredOf (updateImpl _ _ _) cur = _
    rw [deferredOf_set_value]
    cases flag <;> exact hr

theorem findBB_updateImpl_shape (bbm : BuilderBlocks) (id j : Int)
    (f : LLVMTFBuilderBasicBlockImpl → LLVMTFBuilderBasicBlockImpl) :
    (findBB (updateImpl bbm id f) j).map (fun bb => (bb.predecessors, bb.liveins)) =
      (findBB bbm j).map (fun bb => (bb.predecessors, bb.liveins)) := by
  unfold updateImpl
  rw [findBB_updateBB bbm id j (fun bb => { bb with impl := bb.impl.map f }) (fun _ => rfl)]
  split_ifs with hj
  · subst hj
    cases findBB bbm j <;> rfl
  · rfl

theorem EnsureNativeBB_others {s s1 : LLVMTFBuilder} {id : Int}
    (h : s.EnsureNativeBB id = some s1) :
    (∀ j, j ≠ id → GetImpl s1.basic_block_manager_ j = GetImpl s.basic_block_manager_ j) ∧
      ∀ j, (findBB s1.basic_block_manager_ j).map (fun bb => (bb.predecessors, bb.liveins)) =
        (findBB s.basic_block_manager_ j).map (fun bb => (bb.predecessors, bb.liveins)) := by
  have hE : ∀ j, (findBB (EnsureImpl s.basic_block_manager_ id) j).map
      (fun bb => (bb.predecessors, bb.liveins)) =
      (findBB s.basic_block_manager_ j).map (fun bb => (bb.predecessors, bb.liveins)) := by
    intro j
    unfold EnsureImpl
    rw [findBB_updateBB _ _ _ _ (fun bb => by cases h : bb.impl <;> simp [h])]
    split_ifs with hj
    · subst hj
      cases findBB s.basic_block_manager_ j with
      | none => rfl
      | some bb => cases hi : bb.impl <;> simp [hi]
    · rfl
  unfold EnsureNativeBB at h
  cases hf : findBB s.basic_block_manager_ id with
  | none => simp [hf] at h
  | some bb =>
    simp only [hf] at h
    split at h
    · simp only [Option.some.injEq] at h
      subst h
      exact ⟨fun j hj => by
        show GetImpl (EnsureImpl _ _) j = _
        rw [GetImpl_EnsureImpl, if_neg hj], hE⟩
    · simp only [Output.appendBasicBlock, Option.some.injEq] at h
      subst h
      exact ⟨fun j hj => by
        show GetImpl (updateImpl _ _ _) j = _
        rw [GetImpl_updateImpl, if_neg hj, GetImpl_EnsureImpl, if_neg hj],
        fun j => (findBB_updateImpl_shape _ _ j _).trans (hE j)⟩

theorem StartBuild_others {s s1 : LLVMTFBuilder} {id : Int} (h : s.StartBuild id = some s1) :
    (∀ j, j ≠ id → GetImpl s1.basic_block_manager_ j = GetImpl s.basic_block_manager_ j) ∧
      ∀ j, (findBB s1.basic_block_manager_ j).map (fun bb => (bb.predecessors, bb.liveins)) =
        (findBB s.basic_block_manager_ j).map (fun bb => (bb.predecessors, bb.liveins)) := by
  unfold StartBuild at h
  cases he : s.EnsureNativeBB id with
  | none => simp [he] at h
  | some b1 =>
    simp only [he] at h
    obtain ⟨q1, q2⟩ := EnsureNativeBB_others he
    cases hg : GetImpl b1.basic_block_manager_ id with
    | none => simp [hg] at h
    | some impl =>
      simp only [hg] at h
      split at h
      · simp only [Option.some.injEq] at h
        subst h
        refine ⟨fun j hj => ?_, fun j => ?_⟩
        · show GetImpl (updateImpl _ _ _) j = _
          rw [GetImpl_updateImpl, if_neg hj]
          exact q1 j hj
        · rw [← q2 j]
          exact findBB_updateImpl_shape _ _ j _
      · cases h

/-- A merge seen from a later state is a merge seen from an earlier one, when
the steps between touched the slot of the block only. -/
theorem liveMerged_rebase_others {preds : List Int} {ref_pred id live : Int}
    {s s1 s2 : LLVMTFBuilder} (hid : id ∉ preds) (href : ref_pred ≠ id)
    (hothers : ∀ j, j ≠ id →
      GetImpl s1.basic_block_manager_ j = GetImpl s.basic_block_manager_ j)
    (hnext : s.output_.nextValue ≤ s1.output_.nextValue)
    (h : LiveMerged preds ref_pred id live s1 s2) :
    LiveMerged preds ref_pred id live s s2 := by
  obtain ⟨ref_value, hv, hplain, htagged⟩ := h
  have hpreds : ∀ p ∈ preds,
      GetImpl s1.basic_block_manager_ p = GetImpl s.basic_block_manager_ p :=
    fun p hp => hothers p (fun e => hid (e ▸ hp))
  refine ⟨ref_value, ?_, hplain, fun ht => ?_⟩
  · rw [← valueIn_congr (hothers ref_pred href)]
    exact hv
  · obtain ⟨n, hn1, hn2, hval, hphi, hinc, hdef⟩ := htagged ht
    refine ⟨n, le_trans hnext hn1, hn2, hval, hphi, ?_, ?_⟩
    · rw [hinc, startedPredecessors_congr_on _ hpreds]
      exact List.map_congr_left (fun p hp =>
        phiEntry_congr (hpreds p (startedPredecessors_subset _ _ p hp)) live)
    · rw [hdef, deferredRecords_congr_on _ _ _ hpreds]

/-- The callback `VisitBlock` on a block with at least two predecessors that
is not its own predecessor: every live-in is merged, and no other slot is
touched. -/
theorem VisitBlock_merged {s s1 : LLVMTFBuilder} {id : Int}
    {bb : BasicBlock LLVMTFBuilderBasicBlockImpl} (hinv : BuildInv s)
    (hbb : findBB s.basic_block_manager_ id = some bb)
    (hp : 2 ≤ bb.predecessors.length) (hself : id ∉ bb.predecessors)
    (hnd : bb.liveins.Nodup) (h : s.VisitBlock id = some s1) :
    (∀ j, j ≠ id → GetImpl s1.basic_block_manager_ j = GetImpl s.basic_block_manager_ j) ∧
      ∃ ref_pred, ∀ live ∈ bb.liveins, LiveMerged bb.predecessors ref_pred id live s s1 := by
  unfold LLVMTFBuilder.VisitBlock at h
  simp only [hbb] at h
  cases hsb : StartBuild { s with current_bb_ := some id } id with
  | none => simp [hsb] at h
  | some b1 =>
    simp only [hsb] at h
    obtain ⟨p1, p2, p3, p4, p5, p6, p7, p8⟩ :=
      StartBuild_spec (s := { s with current_bb_ := some id }) hinv.native hsb
    obtain ⟨o1, o2⟩ := StartBuild_others hsb
    have hshape := o2 id
    change _ = (findBB s.basic_block_manager_ id).map _ at hshape
    rw [hbb] at hshape
    cases hbb1 : findBB b1.basic_block_manager_ id with
    | none => rw [hbb1] at hshape; cases hshape
    | some bb1 =>
      rw [hbb1] at hshape
      simp only [Option.map_some', Option.some.injEq, Prod.mk.injEq] at hshape
      have hfresh : HandlesFresh b1 id := by
        refine ⟨fun e he => ?_, fun r hr => ?_⟩
        · rw [p1.incoming] at he
          exact isKnown_mono p1.next _ (hinv.incoming e he)
        · rw [p4 id] at hr
          exact isKnown_mono p1.next _ (hinv.deferred id r hr)
      obtain ⟨ref_pred, hr, hm, -⟩ := MergePredecessors_merged b1 s1 id bb1 hbb1
        (by rw [hshape.1]; exact hp) (by rw [hshape.1]; exact hself)
        (by rw [hshape.2]; exact hnd) hfresh h
      obtain ⟨s2, q, -, e2, -, -⟩ := MergePredecessors_slot p8 h
      have href : ref_pred ≠ id := by
        intro e
        have := startedPredecessors_subset _ _ ref_pred (List.mem_of_mem_head? hr)
        rw [hshape.1, e] at this
        exact hself this
      refine ⟨fun j hj => ?_, ref_pred, fun live hl => ?_⟩
      · rw [e2, q.others j hj]
        exact o1 j hj
      · have := hm live (by rw [hshape.2]; exact hl)
        rw [hshape.1] at this
        exact liveMerged_rebase_others (s := s) hself href o1 p1.next this
/-! ## The claims on the phis of a build -/

/-- C8, counterexample, on the loop of `loopBlocks`, built from the
constructed builder. First build: the header, block 1, is visited and binds
its live-in 7 to the phi `inst 3`; a call in the header rebinds 7 to the
result `inst 5` of a relocate call, and when `End` has run up to `ResetImpls`
the header's binding of 7 is that call, tagged, not a phi and without
incoming entry, while the phi has its two entries. Second build: the body,
block 2, rebinds 7 to the pointer-sized integer `inst 5`; the entry of the
phi for predecessor 2 then carries the result `inst 9` of a cast, not the
binding of 7 in block 2. Third build, on the loop of `selfLoopBlocks`, whose
header is its own predecessor: the entry of the phi for predecessor 1 is
made when the header is visited and names the native block 1, while a store
with a full write barrier in the header then makes the native block 2 the
continuation block of the header. -/
theorem C8_counterexample :
    (∀ b ∈ loopBlocks.bbs, b.impl = none) ∧ freshOutput.incoming = [] ∧
    (∃ s1 s2, LLVMTFBuilder.DispatchAll armConstants
        (loopEntryCalls ++ [BuilderCall.Block 1 false [0, 2]])
        (LLVMTFBuilder.new freshOutput loopBlocks []) = some s1 ∧
      valueIn s1.basic_block_manager_ 1 7 = some (LValue.inst 3 LType.taggedType) ∧
      ((LLVMTFBuilder.DispatchAll armConstants
        ([BuilderCall.Call 8 false plainCall [7], BuilderCall.Int32Constant 6 1,
          BuilderCall.Branch 10 6 2 3, BuilderCall.Block 2 false [1], BuilderCall.Goto 1,
          BuilderCall.Block 3 false [1]]) s1).bind EndBody) = some s2 ∧
      (findBB s2.basic_block_manager_ 1).map (fun bb => (bb.predecessors, bb.liveins)) =
        some ([0, 2], [7]) ∧
      valueIn s2.basic_block_manager_ 1 7 = some (LValue.inst 5 LType.taggedType) ∧
      ¬ IsPhi s2.output_ (LValue.inst 5 LType.taggedType) ∧
      s2.output_.incomingOf (LValue.inst 5 LType.taggedType) = [] ∧
      s2.output_.incomingOf (LValue.inst 3 LType.taggedType) =
        [(LValue.inst 1 LType.taggedType, 0), (LValue.inst 5 LType.taggedType, 2)]) ∧
    (∃ s1 s2, LLVMTFBuilder.DispatchAll armConstants
        (loopEntryCalls ++ [BuilderCall.Block 1 false [0, 2]])
        (LLVMTFBuilder.new freshOutput loopBlocks []) = some s1 ∧
      valueIn s1.basic_block_manager_ 1 7 = some (LValue.inst 3 LType.taggedType) ∧
      ((LLVMTFBuilder.DispatchAll armConstants
        ([BuilderCall.Int32Constant 6 1, BuilderCall.Branch 10 6 2 3,
          BuilderCall.Block 2 false [1],
          BuilderCall.Phi 7 MachineRepresentation.kTaggedSigned [7], BuilderCall.Goto 1,
          BuilderCall.Block 3 false [1]]) s1).bind EndBody) = some s2 ∧
      valueIn s2.basic_block_manager_ 2 7 = some (LValue.inst 5 LType.intPtr) ∧
      GetNativeBBContinuation s2.basic_block_manager_ 2 = some 2 ∧
      s2.output_.incomingOf (LValue.inst 3 LType.taggedType) =
        [(LValue.inst 1 LType.taggedType, 0), (LValue.inst 9 LType.taggedType, 2)]) ∧
    (∃ s1 s2, LLVMTFBuilder.DispatchAll armConstants
        (loopEntryCalls ++ [BuilderCall.Block 1 false [0, 1, 2]])
        (LLVMTFBuilder.new freshOutput selfLoopBlocks []) = some s1 ∧
      valueIn s1.basic_block_manager_ 1 7 = some (LValue.inst 3 LType.taggedType) ∧
      ((LLVMTFBuilder.DispatchAll armConstants selfLoopCalls s1).bind EndBody) = some s2 ∧
      (findBB s2.basic_block_manager_ 1).map (fun bb => (bb.predecessors, bb.liveins)) =
        some ([0, 1, 2], [7]) ∧
      valueIn s2.basic_block_manager_ 1 7 = some (LValue.inst 3 LType.taggedType) ∧
      GetNativeBBContinuation s2.basic_block_manager_ 1 = some 2 ∧
      s2.output_.incomingOf (LValue.inst 3 LType.taggedType) =
        [(LValue.inst 1 LType.taggedType, 0), (LValue.inst 3 LType.taggedType, 1),
         (LValue.inst 3 LType.taggedType, 6)]) := by
  refine ⟨by decide, rfl, ⟨_, _, rfl, rfl, rfl, rfl, rfl, ?_, rfl, rfl⟩,
    ⟨_, _, rfl, rfl, rfl, rfl, rfl, rfl⟩, ⟨_, _, rfl, rfl, rfl, rfl, rfl, rfl, rfl⟩⟩
  unfold IsPhi
  decide

/-- Method `End` up to `ResetImpls`: the current block is ended, the phi
worklist is processed and a branch is emitted in the prologue; the branch
changes neither the store nor the `addIncoming` calls. -/
theorem EndBody_spec {t t2 : LLVMTFBuilder} (h : EndBody t = some t2) :
    ∃ t1 t3, t.EndCurrentBlock = some t1 ∧ t1.ProcessPhiWorkList = some t3 ∧
      t2.basic_block_manager_ = t3.basic_block_manager_ ∧ OutStep t3.output_ t2.output_ := by
  unfold EndBody at h
  cases h1 : t.EndCurrentBlock with
  | none => simp [h1] at h
  | some t1 =>
    simp only [h1] at h
    cases h3 : t1.ProcessPhiWorkList with
    | none => simp [h3] at h
    | some t3 =>
      simp only [h3] at h
      split at h
      · cases h
      · split at h
        · cases h
        · simp only [Option.some.injEq] at h
          subst h
          exact ⟨t1, t3, rfl, h3, rfl,
            outStep_trans (outStep_position _ _) (outStep_emit _ _ _)⟩

/-- C8 (amended). A build starts from the constructed builder, on a store
whose slots are all null and an output without `addIncoming` call, and runs
callbacks. Let `VisitBlock` then visit a block with at least two
predecessors, none of them the block itself, and let the block's binding of a
live-in right after the visit be tagged. Then that binding is a phi node, and
when the callbacks that follow and then `End`, up to its last statement
`ResetImpls`, have run, the phi has exactly one incoming entry per
predecessor: first, in the order of the predecessor list, one for each
predecessor that was started when the block was visited, carrying that
predecessor's binding of the live-in and its continuation block; then, in the
same order, one for each predecessor that was not, naming that predecessor's
continuation block and carrying its binding of the live-in when that is
tagged, else the result of a cast of it. -/
theorem C8_merge_builds_phis (k : V8Constants) (output : Output) (bbm : BuilderBlocks)
    (map : StackMapInfoMap) (before between : List BuilderCall) (s s1 t t2 : LLVMTFBuilder)
    (id live : Int) (bb : BasicBlock LLVMTFBuilderBasicBlockImpl) (v : LValue)
    (hslots : ∀ b ∈ bbm.bbs, b.impl = none) (hout : output.incoming = [])
    (hbefore : LLVMTFBuilder.DispatchAll k before (LLVMTFBuilder.new output bbm map) = some s)
    (hbb : findBB s.basic_block_manager_ id = some bb)
    (hp : 2 ≤ bb.predecessors.length) (hself : id ∉ bb.predecessors) (hnd : bb.liveins.Nodup)
    (hlive : live ∈ bb.liveins)
    (hvisit : s.VisitBlock id = some s1)
    (hv : valueIn s1.basic_block_manager_ id live = some v)
    (htagged : typeOf v = LType.taggedType)
    (hbetween : LLVMTFBuilder.DispatchAll k between s1 = some t)
    (hend : EndBody t = some t2) :
    IsPhi t2.output_ v ∧
    ∃ A B : List (LValue × LBasicBlock),
      t2.output_.incomingOf v = A ++ B ∧
      A.map some = (startedPredecessors s.basic_block_manager_ bb.predecessors).map
        (phiEntry t2.basic_block_manager_ live) ∧
      List.Forall₂ (fun P e => GetNativeBBContinuation t2.basic_block_manager_ P = some e.2 ∧
          ∃ val, valueIn t2.basic_block_manager_ P live = some val ∧
            IsPhiInput t2.output_ val LType.taggedType e.1)
        (bb.predecessors.filter (fun p => !IsBBStartedToBuild s.basic_block_manager_ p)) B := by
  obtain ⟨t1, t3, hend1, hfix, hbm, hos⟩ := EndBody_spec hend
  have inv0 := buildInv_new output bbm map hslots hout
  obtain ⟨-, invs⟩ := DispatchAll_step k before _ s inv0 hbefore
  obtain ⟨qv, hnat1, hcur1, -⟩ := VisitBlock_step invs.native hvisit
  have invs1 := buildInv_step invs qv hnat1
  obtain ⟨hothers, ref, hm⟩ := VisitBlock_merged invs hbb hp hself hnd hvisit
  obtain ⟨ref_value, -, hplain, htag⟩ := hm live hlive
  have htr : typeOf ref_value = LType.taggedType := by
    by_contra hne
    have := hplain hne
    rw [hv] at this
    cases this
    exact hne htagged
  obtain ⟨n, hn1, hn2, hval, hphi, hinc, hdef⟩ := htag htr
  have hvn : v = LValue.inst n LType.taggedType := by
    rw [hv] at hval
    exact Option.some.inj hval
  subst hvn
  obtain ⟨qb, invt⟩ := DispatchAll_step k between s1 t invs1 hbetween
  have qe := quietStep_EndCurrentBlock invt.native hend1
  have invt1 := buildInv_step invt (buildStep_of_quiet qe) qe.native
  have hstep : BuildStep s1 t1 := buildStep_trans qb (buildStep_of_quiet qe)
  have hrec : ∀ j, j ≠ id → (deferredOf s1.basic_block_manager_ j).filter
      (fun r => r.phi = LValue.inst n LType.taggedType) = [] := by
    intro j hj
    rw [deferredOf_congr (hothers j hj)]
    exact filter_phi_eq_nil_of_known (fun r : NotMergedPhiDesc => r.phi) _ s.output_ n _ hn1
      (invs.deferred j)
  obtain ⟨-, -, hsame, hins, -, Y, hY, hF⟩ := phi_fixup invt1 hstep hn2 hrec hfix
  have hinc2 : t2.output_.incomingOf (LValue.inst n LType.taggedType) =
      t3.output_.incomingOf (LValue.inst n LType.taggedType) := by
    unfold Output.incomingOf
    rw [hos.incoming]
  rw [hbm, hinc2]
  refine ⟨?_, s1.output_.incomingOf (LValue.inst n LType.taggedType),
    Y.map (fun e => (e.value, e.block)), hY, ?_, ?_⟩
  · obtain ⟨e, he, h1, h2⟩ := hphi
    exact ⟨e, hos.instructions e (hins e (hstep.instructions e he)), h1, h2⟩
  · rw [hinc]
    refine List.map_congr_left (fun p hp' => ?_)
    have hpm := startedPredecessors_subset _ _ p hp'
    have hpid : p ≠ id := fun e => hself (e ▸ hpm)
    have hps : IsBBStartedToBuild s.basic_block_manager_ p = true :=
      (List.mem_filter.mp hp').2
    have hps1 : IsBBStartedToBuild s1.basic_block_manager_ p = true := by
      rw [IsBBStartedToBuild_congr (hothers p hpid)]; exact hps
    have hc : s1.current_bb_ ≠ some p := by
      rw [hcur1]
      exact fun e => hpid (Option.some.inj e).symm
    obtain ⟨hg, -⟩ := hstep.frame p hps1 hc
    rw [sameReads_phiEntry hsame, phiEntry_congr (hg.trans (hothers p hpid))]
  · rw [hdef] at hF
    unfold deferredRecords at hF
    rw [List.forall₂_map_left_iff] at hF
    rw [List.forall₂_map_right_iff]
    refine List.Forall₂.imp (fun P e hc => ?_) hF
    obtain ⟨-, c2, val, c3, c4⟩ := hc
    exact ⟨by rw [sameReads_continuation hsame]; exact c2, val,
      by rw [sameReads_valueIn hsame]; exact c3, isPhiInput_mono hos.instructions c4⟩

/-- C8, witness: the loop of `loopBlocks`. The header, block 1, is visited
after block 0 and before the body, block 2; a phi for value 9, the branch,
the body with its call, and the exit follow. The phi of the live-in 7 has an
entry for each of the two predecessors when `End` has run up to `ResetImpls`:
the binding of block 0, and the binding of block 2, which the call in the
body has relocated. -/
theorem C8_merge_builds_phis_witness :
    (∀ b ∈ loopBlocks.bbs, b.impl = none) ∧ freshOutput.incoming = [] ∧
    ∃ s s1 t t2,
      LLVMTFBuilder.DispatchAll armConstants loopEntryCalls
        (LLVMTFBuilder.new freshOutput loopBlocks []) = some s ∧
      (findBB s.basic_block_manager_ 1).map (fun bb => (bb.predecessors, bb.liveins)) =
        some ([0, 2], [7]) ∧
      s.VisitBlock 1 = some s1 ∧
      valueIn s1.basic_block_manager_ 1 7 = some (LValue.inst 3 LType.taggedType) ∧
      LLVMTFBuilder.DispatchAll armConstants
        (BuilderCall.Phi 9 MachineRepresentation.kTagged [7, 8] :: loopBodyCalls) s1 = some t ∧
      EndBody t = some t2 ∧
      IsPhi t2.output_ (LValue.inst 3 LType.taggedType) ∧
      t2.output_.incomingOf (LValue.inst 3 LType.taggedType) =
        [(LValue.inst 1 LType.taggedType, 0), (LValue.inst 7 LType.taggedType, 2)] ∧
      valueIn t2.basic_block_manager_ 0 7 = some (LValue.inst 1 LType.taggedType) ∧
      valueIn t2.basic_block_manager_ 2 7 = some (LValue.inst 7 LType.taggedType) ∧
      GetNativeBBContinuation t2.basic_block_manager_ 0 = some 0 ∧
      GetNativeBBContinuation t2.basic_block_manager_ 2 = some 2 := by
  have h0 : ∃ s, LLVMTFBuilder.DispatchAll armConstants loopEntryCalls
      (LLVMTFBuilder.new freshOutput loopBlocks []) = some s := ⟨_, rfl⟩
  obtain ⟨s, hs⟩ := h0
  have h1 : ∃ s1, (LLVMTFBuilder.DispatchAll armConstants loopEntryCalls
      (LLVMTFBuilder.new freshOutput loopBlocks [])).bind (fun x => x.VisitBlock 1) = some s1 :=
    ⟨_, rfl⟩
  obtain ⟨s1, hs1⟩ := h1
  have h2 : ∃ t, ((LLVMTFBuilder.DispatchAll armConstants loopEntryCalls
      (LLVMTFBuilder.new freshOutput loopBlocks [])).bind (fun x => x.VisitBlock 1)).bind
      (LLVMTFBuilder.DispatchAll armConstants
        (BuilderCall.Phi 9 MachineRepresentation.kTagged [7, 8] :: loopBodyCalls)) = some t :=
    ⟨_, rfl⟩
  obtain ⟨t, ht⟩ := h2
  have h4 : ∃ t2, (((LLVMTFBuilder.DispatchAll armConstants loopEntryCalls
      (LLVMTFBuilder.new freshOutput loopBlocks [])).bind (fun x => x.VisitBlock 1)).bind
      (LLVMTFBuilder.DispatchAll armConstants
        (BuilderCall.Phi 9 MachineRepresentation.kTagged [7, 8] :: loopBodyCalls))).bind
      EndBody = some t2 := ⟨_, rfl⟩
  obtain ⟨t2, ht2⟩ := h4
  have e4 : ((((LLVMTFBuilder.DispatchAll armConstants loopEntryCalls
      (LLVMTFBuilder.new freshOutput loopBlocks [])).bind (fun x => x.VisitBlock 1)).bind
      (LLVMTFBuilder.DispatchAll armConstants
        (BuilderCall.Phi 9 MachineRepresentation.kTagged [7, 8] :: loopBodyCalls))).bind
      EndBody).map
      (fun x => (x.output_.incomingOf (LValue.inst 3 LType.taggedType),
        valueIn x.basic_block_manager_ 0 7, valueIn x.basic_block_manager_ 2 7,
        GetNativeBBContinuation x.basic_block_manager_ 0,
        GetNativeBBContinuation x.basic_block_manager_ 2)) =
      some ([(LValue.inst 1 LType.taggedType, 0), (LValue.inst 7 LType.taggedType, 2)],
        some (LValue.inst 1 LType.taggedType), some (LValue.inst 7 LType.taggedType),
        some 0, some 2) := rfl
  have e0 : (LLVMTFBuilder.DispatchAll armConstants loopEntryCalls
      (LLVMTFBuilder.new freshOutput loopBlocks [])).map
      (fun x => (findBB x.basic_block_manager_ 1).map (fun bb => (bb.predecessors, bb.liveins)))
      = some (some ([0, 2], [7])) := rfl
  have e1 : ((LLVMTFBuilder.DispatchAll armConstants loopEntryCalls
      (LLVMTFBuilder.new freshOutput loopBlocks [])).bind (fun x => x.VisitBlock 1)).map
      (fun x => valueIn x.basic_block_manager_ 1 7) =
      some (some (LValue.inst 3 LType.taggedType)) := rfl
  rw [ht2] at e4
  rw [ht] at ht2
  rw [hs1] at ht e1
  rw [hs] at hs1 e0
  simp only [Option.some_bind, Option.map_some', Option.some.injEq, Prod.mk.injEq] at *
  cases hf : findBB s.basic_block_manager_ 1 with
  | none => rw [hf] at e0; cases e0
  | some bb =>
    rw [hf] at e0
    simp only [Option.map_some', Option.some.injEq, Prod.mk.injEq] at e0
    obtain ⟨hphi, A, B, -, -, -⟩ := C8_merge_builds_phis armConstants freshOutput loopBlocks []
      loopEntryCalls (BuilderCall.Phi 9 MachineRepresentation.kTagged [7, 8] :: loopBodyCalls)
      s s1 t t2 1 7 bb (LValue.inst 3 LType.taggedType) (by decide) rfl hs hf
      (by rw [e0.1]; decide) (by rw [e0.1]; decide) (by rw [e0.2]; decide)
      (by rw [e0.2]; decide) hs1 e1 rfl ht ht2
    exact ⟨by decide, rfl, s, s1, t, t2, hs, by rw [hf, Option.map_some', e0.1, e0.2],
      hs1, e1, ht, ht2, hphi, e4.1, e4.2.1, e4.2.2.1, e4.2.2.2.1, e4.2.2.2.2⟩

/-- C11 (amended). A build starts from the constructed builder, on a store
whose slots are all null and an output without `addIncoming` call, and runs
callbacks; then `VisitPhi` runs in a block `header`. The id is bound to a new
phi node, which has one incoming entry per predecessor that is started, in
the order of the predecessor list, naming that predecessor's continuation
block, and none for a predecessor that is not started. Whatever callbacks
follow, the phi has exactly these entries after them, and still after the
`EndCurrentBlock` of `End`: none is added before `ProcessPhiWorkList` runs.
When `ProcessPhiWorkList` then returns, the worklist and every block's
deferred list are empty (also when the block was queued more than once), and
the phi has gained exactly one entry per predecessor that was not started at
`VisitPhi`, in the order of the predecessor list, naming that predecessor's
continuation block and carrying its final binding of the operand at the
predecessor's position when that has the phi's type, else the result of a
cast of it. -/
theorem C11_deferred_phi_fixup (k : V8Constants) (output : Output) (bbm : BuilderBlocks)
    (map : StackMapInfoMap) (before between : List BuilderCall) (s s1 t t1 : LLVMTFBuilder)
    (id header : Int) (rep : MachineRepresentation) (operands : List Int)
    (bb : BasicBlock LLVMTFBuilderBasicBlockImpl)
    (hslots : ∀ b ∈ bbm.bbs, b.impl = none) (hout : output.incoming = [])
    (hbefore : LLVMTFBuilder.DispatchAll k before (LLVMTFBuilder.new output bbm map) = some s)
    (hcur : s.current_bb_ = some header)
    (hbb : findBB s.basic_block_manager_ header = some bb)
    (hphi : s.VisitPhi id rep operands = some s1)
    (hbetween : LLVMTFBuilder.DispatchAll k between s1 = some t)
    (hend : t.EndCurrentBlock = some t1) :
    ∃ (phi : LValue) (X : List Incoming),
      valueIn s1.basic_block_manager_ header id = some phi ∧ IsPhi s1.output_ phi ∧
      s.output_.incomingOf phi = [] ∧
      s1.output_.incomingOf phi = X.map (fun e => (e.value, e.block)) ∧
      X.map (fun e => some e.block) =
        (startedPredecessors s.basic_block_manager_ bb.predecessors).map
          (GetNativeBBContinuation s.basic_block_manager_) ∧
      t.output_.incomingOf phi = s1.output_.incomingOf phi ∧
      t1.output_.incomingOf phi = s1.output_.incomingOf phi ∧
      ∀ t2, t1.ProcessPhiWorkList = some t2 →
        t2.phi_rebuild_worklist_ = [] ∧
        (∀ j, deferredOf t2.basic_block_manager_ j = []) ∧
        ∃ Y : List Incoming,
          t2.output_.incomingOf phi =
            s1.output_.incomingOf phi ++ Y.map (fun e => (e.value, e.block)) ∧
          List.Forall₂ (fun po e =>
              GetNativeBBContinuation t2.basic_block_manager_ po.1 = some e.block ∧
              ∃ val, valueIn t2.basic_block_manager_ po.1 po.2 = some val ∧
                IsPhiInput t2.output_ val (typeOf phi) e.value)
            ((bb.predecessors.zip operands).filter
              (fun po => !IsBBStartedToBuild s.basic_block_manager_ po.1)) Y := by
  have inv0 := buildInv_new output bbm map hslots hout
  obtain ⟨-, invs⟩ := DispatchAll_step k before _ s inv0 hbefore
  obtain ⟨qv, hnat1⟩ := VisitPhi_step invs.native hphi
  have invs1 := buildInv_step invs qv hnat1
  obtain ⟨phi_type, X, R, ht, q1, q2, q3, q4, q5, q6, q7, q8, q9, q10, q11, q12, q13, q14⟩ :=
    VisitPhi_full hcur hbb hphi
  have hrecs := VisitPhi_records hcur hbb ht hphi
  obtain ⟨qb, invt⟩ := DispatchAll_step k between s1 t invs1 hbetween
  have qe := quietStep_EndCurrentBlock invt.native hend
  have invt1 := buildInv_step invt (buildStep_of_quiet qe) qe.native
  have hstep : BuildStep s1 t1 := buildStep_trans qb (buildStep_of_quiet qe)
  have hold : s.output_.incomingOf (LValue.inst s.output_.nextValue phi_type) = [] := by
    unfold Output.incomingOf
    rw [filter_phi_eq_nil_of_known (fun e : Incoming => e.phi) _ s.output_ _ _ (le_refl _)
      invs.incoming]
    rfl
  have hX : s1.output_.incomingOf (LValue.inst s.output_.nextValue phi_type) =
      X.map (fun e => (e.value, e.block)) := by
    rw [incomingOf_of_incoming q4, hold, List.nil_append,
      List.filter_eq_self.mpr (fun e he => by simp [q6 e he])]
  have hrec : ∀ j, j ≠ header → (deferredOf s1.basic_block_manager_ j).filter
      (fun r => r.phi = LValue.inst s.output_.nextValue phi_type) = [] := by
    intro j hj
    rw [deferredOf_congr (q12 j hj)]
    exact filter_phi_eq_nil_of_known (fun r : NotMergedPhiDesc => r.phi) _ s.output_ _ _
      (le_refl _) (invs.deferred j)
  have hRs : (deferredOf s1.basic_block_manager_ header).filter
      (fun r => r.phi = LValue.inst s.output_.nextValue phi_type) =
      ((bb.predecessors.zip operands).filter
        (fun po => !IsBBStartedToBuild s.basic_block_manager_ po.1)).map
        (fun po => { pred := po.1, value := po.2,
                     phi := LValue.inst s.output_.nextValue phi_type }) := by
    rw [hrecs, List.filter_append,
      filter_phi_eq_nil_of_known (fun r : NotMergedPhiDesc => r.phi) _ s.output_ _ _
        (le_refl _) (invs.deferred header), List.nil_append]
    exact List.filter_eq_self.mpr (fun r hr => by
      obtain ⟨po, -, rfl⟩ := List.mem_map.mp hr
      simp)
  refine ⟨LValue.inst s.output_.nextValue phi_type, X, q1, q2, hold, hX, q8,
    incomingOf_buildStep qb phi_type q3, incomingOf_buildStep hstep phi_type q3,
    fun t2 hfix => ?_⟩
  obtain ⟨p1, p2, hsame, -, -, Y, hY, hF⟩ := phi_fixup invt1 hstep q3 hrec hfix
  refine ⟨p1, p2, Y, hY, ?_⟩
  rw [hRs, List.forall₂_map_left_iff] at hF
  refine List.Forall₂.imp (fun po e hc => ?_) hF
  obtain ⟨-, c2, val, c3, c4⟩ := hc
  exact ⟨by rw [sameReads_continuation hsame]; exact c2, val,
    by rw [sameReads_valueIn hsame]; exact c3, c4⟩

/-- C11, witness: the loop of `loopBlocks`. The phi for value 9 is built in
the header, block 1, when block 0 is started and the body, block 2, is not.
It has the entry of block 0 only until `ProcessPhiWorkList` runs, which adds
the entry of block 2 with its binding of value 8, the result of the call in
the body, and leaves the worklist, on which the header stood twice, and the
deferred lists empty. -/
theorem C11_deferred_phi_fixup_witness :
    (∀ b ∈ loopBlocks.bbs, b.impl = none) ∧ freshOutput.incoming = [] ∧
    ∃ s s1 t t1 t2,
      LLVMTFBuilder.DispatchAll armConstants
        (loopEntryCalls ++ [BuilderCall.Block 1 false [0, 2]])
        (LLVMTFBuilder.new freshOutput loopBlocks []) = some s ∧
      s.current_bb_ = some 1 ∧
      (findBB s.basic_block_manager_ 1).map (fun bb => bb.predecessors) = some [0, 2] ∧
      s.VisitPhi 9 MachineRepresentation.kTagged [7, 8] = some s1 ∧
      LLVMTFBuilder.DispatchAll armConstants loopBodyCalls s1 = some t ∧
      t.EndCurrentBlock = some t1 ∧ t1.ProcessPhiWorkList = some t2 ∧
      valueIn s1.basic_block_manager_ 1 9 = some (LValue.inst 4 LType.taggedType) ∧
      t1.phi_rebuild_worklist_ = [1, 1] ∧
      t1.output_.incomingOf (LValue.inst 4 LType.taggedType) =
        [(LValue.inst 1 LType.taggedType, 0)] ∧
      t2.output_.incomingOf (LValue.inst 4 LType.taggedType) =
        [(LValue.inst 1 LType.taggedType, 0), (LValue.inst 8 LType.taggedType, 2)] ∧
      valueIn t2.basic_block_manager_ 2 8 = some (LValue.inst 8 LType.taggedType) ∧
      t2.phi_rebuild_worklist_ = [] ∧ ∀ j, deferredOf t2.basic_block_manager_ j = [] := by
  have h0 : ∃ s, LLVMTFBuilder.DispatchAll armConstants
      (loopEntryCalls ++ [BuilderCall.Block 1 false [0, 2]])
      (LLVMTFBuilder.new freshOutput loopBlocks []) = some s := ⟨_, rfl⟩
  obtain ⟨s, hs⟩ := h0
  have h1 : ∃ s1, (LLVMTFBuilder.DispatchAll armConstants
      (loopEntryCalls ++ [BuilderCall.Block 1 false [0, 2]])
      (LLVMTFBuilder.new freshOutput loopBlocks [])).bind
      (fun x => x.VisitPhi 9 MachineRepresentation.kTagged [7, 8]) = some s1 := ⟨_, rfl⟩
  obtain ⟨s1, hs1⟩ := h1
  have h2 : ∃ t, ((LLVMTFBuilder.DispatchAll armConstants
      (loopEntryCalls ++ [BuilderCall.Block 1 false [0, 2]])
      (LLVMTFBuilder.new freshOutput loopBlocks [])).bind
      (fun x => x.VisitPhi 9 MachineRepresentation.kTagged [7, 8])).bind
      (LLVMTFBuilder.DispatchAll armConstants loopBodyCalls) = some t := ⟨_, rfl⟩
  obtain ⟨t, ht⟩ := h2
  have h3 : ∃ t1, (((LLVMTFBuilder.DispatchAll armConstants
      (loopEntryCalls ++ [BuilderCall.Block 1 false [0, 2]])
      (LLVMTFBuilder.new freshOutput loopBlocks [])).bind
      (fun x => x.VisitPhi 9 MachineRepresentation.kTagged [7, 8])).bind
      (LLVMTFBuilder.DispatchAll armConstants loopBodyCalls)).bind EndCurrentBlock = some t1 :=
    ⟨_, rfl⟩
  obtain ⟨t1, ht1⟩ := h3
  have h4 : ∃ t2, ((((LLVMTFBuilder.DispatchAll armConstants
      (loopEntryCalls ++ [BuilderCall.Block 1 false [0, 2]])
      (LLVMTFBuilder.new freshOutput loopBlocks [])).bind
      (fun x => x.VisitPhi 9 MachineRepresentation.kTagged [7, 8])).bind
      (LLVMTFBuilder.DispatchAll armConstants loopBodyCalls)).bind EndCurrentBlock).bind
      ProcessPhiWorkList = some t2 := ⟨_, rfl⟩
  obtain ⟨t2, ht2⟩ := h4
  have e4 : (((((LLVMTFBuilder.DispatchAll armConstants
      (loopEntryCalls ++ [BuilderCall.Block 1 false [0, 2]])
      (LLVMTFBuilder.new freshOutput loopBlocks [])).bind
      (fun x => x.VisitPhi 9 MachineRepresentation.kTagged [7, 8])).bind
      (LLVMTFBuilder.DispatchAll armConstants loopBodyCalls)).bind EndCurrentBlock).bind
      ProcessPhiWorkList).map
      (fun x => (x.output_.incomingOf (LValue.inst 4 LType.taggedType),
        valueIn x.basic_block_manager_ 2 8)) =
      some ([(LValue.inst 1 LType.taggedType, 0), (LValue.inst 8 LType.taggedType, 2)],
        some (LValue.inst 8 LType.taggedType)) := rfl
  have e3 : ((((LLVMTFBuilder.DispatchAll armConstants
      (loopEntryCalls ++ [BuilderCall.Block 1 false [0, 2]])
      (LLVMTFBuilder.new freshOutput loopBlocks [])).bind
      (fun x => x.VisitPhi 9 MachineRepresentation.kTagged [7, 8])).bind
      (LLVMTFBuilder.DispatchAll armConstants loopBodyCalls)).bind EndCurrentBlock).map
      (fun x => (x.phi_rebuild_worklist_,
        x.output_.incomingOf (LValue.inst 4 LType.taggedType))) =
      some ([1, 1], [(LValue.inst 1 LType.taggedType, 0)]) := rfl
  have e0 : (LLVMTFBuilder.DispatchAll armConstants
      (loopEntryCalls ++ [BuilderCall.Block 1 false [0, 2]])
      (LLVMTFBuilder.new freshOutput loopBlocks [])).map
      (fun x => (x.current_bb_,
        (findBB x.basic_block_manager_ 1).map (fun bb => bb.predecessors)))
      = some (some 1, some [0, 2]) := rfl
  have e1 : ((LLVMTFBuilder.DispatchAll armConstants
      (loopEntryCalls ++ [BuilderCall.Block 1 false [0, 2]])
      (LLVMTFBuilder.new freshOutput loopBlocks [])).bind
      (fun x => x.VisitPhi 9 MachineRepresentation.kTagged [7, 8])).map
      (fun x => valueIn x.basic_block_manager_ 1 9) =
      some (some (LValue.inst 4 LType.taggedType)) := rfl
  rw [ht2] at e4
  rw [ht1] at ht2 e3
  rw [ht] at ht1
  rw [hs1] at ht e1
  rw [hs] at hs1 e0
  simp only [Option.some_bind, Option.map_some', Option.some.injEq, Prod.mk.injEq] at *
  cases hf : findBB s.basic_block_manager_ 1 with
  | none => rw [hf] at e0; simp at e0
  | some bb =>
    obtain ⟨phi, X, -, -, -, -, -, -, -, hfix⟩ := C11_deferred_phi_fixup armConstants
      freshOutput loopBlocks [] (loopEntryCalls ++ [BuilderCall.Block 1 false [0, 2]])
      loopBodyCalls s s1 t t1 9 1 MachineRepresentation.kTagged [7, 8] bb (by decide) rfl hs
      e0.1 hf hs1 ht ht1
    obtain ⟨p1, p2, -⟩ := hfix t2 ht2
    exact ⟨by decide, rfl, s, s1, t, t1, t2, hs, e0.1, e0.2, hs1, ht, ht1, ht2, e1, e3.1, e3.2,
      e4.1, e4.2, p1, p2⟩

end LLVMToy
